import Mathlib

/-!
# princeprocessor (`src/pp.c`): shallow embedding and verified properties

The embedding follows `pp.c` function by function.

* `mpz_t` values are integers (`Int`), GMP being exact; `mpz_get_ui` keeps the
  low 64 bits of the absolute value, as GMP does.
* `u64` counters and `u8` bytes are natural numbers (`Nat`).  The only `u8` arithmetic
  of the program (`db_key++` in `chain_gen_with_idx`) is taken modulo `2^8`.
  Every `u64` of the program is an element count, a weight of the length
  distribution, or an index bounded by an element count.
* C arrays are lists.  `chain_t.buf` holds the first `cnt` entries of the C
  array, so `cnt` is the length of the list.  The scratch array
  `cur_chain_ks_poses` is `ELEM_CNT_MAX` wide; an access at an index outside
  it, a read of an element that was never stored and a GMP division by zero
  are undefined behaviour in C and make the embedded function fail.
* The element store is given as `E : Nat → List (List Nat)`, `E L` being the
  elements of length `L` in arrival order (`db_entries[L].elems_buf`).  The
  loading loop is embedded apart (`load_elems`), over the buffers `fgets`
  fills; an element is kept as the bytes in front of its length.
* The sink is the list of the records handed to `out_push`; the byte stream is
  their concatenation.
* Loops whose termination is not syntactic take a bound on their iterations
  and report when it is exhausted.
-/

namespace PP

def IN_LEN_MIN : Nat := 1

def IN_LEN_MAX : Nat := 16

def PW_MIN : Nat := IN_LEN_MIN

def PW_MAX : Nat := IN_LEN_MAX

def ELEM_CNT_MIN : Nat := 1

def ELEM_CNT_MAX : Nat := 8

def DEF_WORDLEN_DIST_CNT : Nat := 25

/-- Default word-length distribution (`DEF_WORDLEN_DIST`). -/
def DEF_WORDLEN_DIST : List Nat :=
  [0, 15, 56, 350, 3315, 43721, 276252, 201748, 226412, 119885, 75075, 26323,
   13373, 6353, 3540, 1877, 972, 311, 151, 81, 66, 21, 16, 13, 13]

structure pw_order_t where
  len : Nat
  cnt : Nat

structure chain_t where
  buf : List Nat
  ks_cnt : Int
  ks_pos : Int

/-- Field `cnt` of `chain_t`: the number of entries of `buf` in use. -/
def chain_t.cnt (chain_buf : chain_t) : Nat := chain_buf.buf.length

structure db_entry_t where
  elems_buf : List (List Nat)
  chains_buf : List chain_t
  chains_pos : Nat
  cur_chain_ks_poses : List Nat

/-- Field `elems_cnt` of `db_entry_t`. -/
def db_entry_t.elems_cnt (db_entry : db_entry_t) : Nat := db_entry.elems_buf.length

/-- Field `chains_cnt` of `db_entry_t`. -/
def db_entry_t.chains_cnt (db_entry : db_entry_t) : Nat := db_entry.chains_buf.length

/-- Outcome of a run of embedded code. -/
inductive res (α : Type) where
  | done : α → res α
  | fault : res α
  | spin : List (List Nat) → res α

/-! ## GMP and libc primitives -/

/-- GMP `mpz_fdiv_ui n d` for `d ≠ 0`: the remainder of the floor division. -/
def mpz_fdiv_ui (n : Int) (d : Nat) : Nat := (n % (d : Int)).toNat

/-- GMP `mpz_fdiv_q_ui` (and its old name `mpz_div_ui`) for `d ≠ 0`: the floor quotient. -/
def mpz_fdiv_q_ui (n : Int) (d : Nat) : Int := n / (d : Int)

/-- GMP `mpz_get_ui`: the least significant 64 bits of the absolute value. -/
def mpz_get_ui (n : Int) : Nat := n.natAbs % 2 ^ 64

/-- GMP `mpz_cmp`: negative, zero or positive. -/
def mpz_cmp (a b : Int) : Int := if a < b then -1 else if a = b then 0 else 1

/-- The libc call `memcpy (dst + off, src, n)` on a buffer at least `off + n` long. -/
def memcpy (dst : List Nat) (off : Nat) (src : List Nat) (n : Nat) : List Nat :=
  dst.take off ++ src.take n ++ dst.drop (off + n)

/-- Modelled from the spec: the C library's `qsort`, which is not code of this
repository and whose order among equal keys the C standard leaves open.  The
spec asks for a stable sort ("Both sorts rely on stable ordering"), so `qsort`
is the stable insertion sort by the comparator `compar`. -/
def qsort {α : Type} (compar : α → α → Int) (base : List α) : List α :=
  List.insertionSort (fun a b => compar a b ≤ 0) base

/-! ## Functions of `pp.c` -/

/-- The sink: `out_push` appends the first `pw_len` bytes of `pw_buf`. -/
def out_push (out : List (List Nat)) (pw_buf : List Nat) (pw_len : Nat) : List (List Nat) :=
  out ++ [pw_buf.take pw_len]

def sort_by_cnt (o1 o2 : pw_order_t) : Int :=
  if o1.cnt > o2.cnt then -1
  else if o1.cnt < o2.cnt then 1
  else 0

def sort_by_ks (f1 f2 : chain_t) : Int := mpz_cmp f1.ks_cnt f2.ks_cnt

/-- Loop of `chain_valid_with_db` over the entries `buf[idx..cnt)`. -/
def chain_valid_with_db_loop (db_entries : Nat → db_entry_t) : List Nat → Bool
  | [] => true
  | db_key :: rest =>
    if (db_entries db_key).elems_cnt = 0 then false
    else chain_valid_with_db_loop db_entries rest

def chain_valid_with_db (chain_buf : chain_t) (db_entries : Nat → db_entry_t) : Bool :=
  chain_valid_with_db_loop db_entries chain_buf.buf

def chain_valid_with_cnt_min (chain_buf : chain_t) (elem_cnt_min : Nat) : Bool :=
  if chain_buf.cnt < elem_cnt_min then false else true

def chain_valid_with_cnt_max (chain_buf : chain_t) (elem_cnt_max : Nat) : Bool :=
  if chain_buf.cnt > elem_cnt_max then false else true

/-- Loop of `chain_ks` over the entries `buf[idx..cnt)`. -/
def chain_ks_loop (db_entries : Nat → db_entry_t) : List Nat → Int → Int
  | [], ks_cnt => ks_cnt
  | db_key :: rest, ks_cnt =>
    chain_ks_loop db_entries rest (ks_cnt * ((db_entries db_key).elems_cnt : Int))

def chain_ks (chain_buf : chain_t) (db_entries : Nat → db_entry_t) : Int :=
  chain_ks_loop db_entries chain_buf.buf 1

/-- Loop of `set_chain_ks_poses` over the entries `buf[idx..cnt)`. -/
def set_chain_ks_poses_loop (db_entries : Nat → db_entry_t) :
    List Nat → Nat → Int → List Nat → Option (List Nat)
  | [], _, _, cur_chain_ks_poses => some cur_chain_ks_poses
  | db_key :: rest, idx, tmp, cur_chain_ks_poses =>
    let elems_cnt := (db_entries db_key).elems_cnt
    if elems_cnt = 0 then none
    else if idx < ELEM_CNT_MAX then
      set_chain_ks_poses_loop db_entries rest (idx + 1) (mpz_fdiv_q_ui tmp elems_cnt)
        (cur_chain_ks_poses.set idx (mpz_fdiv_ui tmp elems_cnt))
    else none

def set_chain_ks_poses (chain_buf : chain_t) (db_entries : Nat → db_entry_t) (tmp : Int)
    (cur_chain_ks_poses : List Nat) : Option (List Nat) :=
  set_chain_ks_poses_loop db_entries chain_buf.buf 0 tmp cur_chain_ks_poses

/-- Read of `cur_chain_ks_poses[idx]`, defined inside the array only. -/
def cur_get (cur_chain_ks_poses : List Nat) (idx : Nat) : Option Nat :=
  if idx < ELEM_CNT_MAX then cur_chain_ks_poses.get? idx else none

/-- Loop of `chain_set_pwbuf_init` over `buf[idx..cnt)`; `off` is the distance
the pointer `pw_buf` has advanced. -/
def chain_set_pwbuf_init_loop (db_entries : Nat → db_entry_t) (cur_chain_ks_poses : List Nat) :
    List Nat → Nat → List Nat → Nat → Option (List Nat)
  | [], _, pw_buf, _ => some pw_buf
  | db_key :: rest, idx, pw_buf, off =>
    match cur_get cur_chain_ks_poses idx with
    | none => none
    | some elems_idx =>
      match (db_entries db_key).elems_buf.get? elems_idx with
      | none => none
      | some elem =>
        chain_set_pwbuf_init_loop db_entries cur_chain_ks_poses rest (idx + 1)
          (memcpy pw_buf off elem db_key) (off + db_key)

def chain_set_pwbuf_init (chain_buf : chain_t) (db_entries : Nat → db_entry_t)
    (cur_chain_ks_poses : List Nat) (pw_buf : List Nat) : Option (List Nat) :=
  chain_set_pwbuf_init_loop db_entries cur_chain_ks_poses chain_buf.buf 0 pw_buf 0

/-- Loop of `chain_set_pwbuf_increment` over `buf[idx..cnt)`. -/
def chain_set_pwbuf_increment_loop (db_entries : Nat → db_entry_t) :
    List Nat → Nat → List Nat → List Nat → Nat → Option (List Nat × List Nat)
  | [], _, cur_chain_ks_poses, pw_buf, _ => some (cur_chain_ks_poses, pw_buf)
  | db_key :: rest, idx, cur_chain_ks_poses, pw_buf, off =>
    let db_entry := db_entries db_key
    let elems_cnt := db_entry.elems_cnt
    match cur_get cur_chain_ks_poses idx with
    | none => none
    | some old_idx =>
      let elems_idx := old_idx + 1
      if elems_idx < elems_cnt then
        match db_entry.elems_buf.get? elems_idx with
        | none => none
        | some elem =>
          some (cur_chain_ks_poses.set idx elems_idx, memcpy pw_buf off elem db_key)
      else
        match db_entry.elems_buf.get? 0 with
        | none => none
        | some elem =>
          chain_set_pwbuf_increment_loop db_entries rest (idx + 1)
            (cur_chain_ks_poses.set idx 0) (memcpy pw_buf off elem db_key) (off + db_key)

def chain_set_pwbuf_increment (chain_buf : chain_t) (db_entries : Nat → db_entry_t)
    (cur_chain_ks_poses : List Nat) (pw_buf : List Nat) : Option (List Nat × List Nat) :=
  chain_set_pwbuf_increment_loop db_entries chain_buf.buf 0 cur_chain_ks_poses pw_buf 0

/-- Loop of `chain_gen_with_idx`: `n` iterations are left, starting at `chains_shr`. -/
def chain_gen_with_idx_loop (chains_idx : Nat) : Nat → Nat → List Nat → Nat → List Nat × Nat
  | 0, _, buf, db_key => (buf, db_key)
  | n + 1, chains_shr, buf, db_key =>
    if (chains_idx >>> chains_shr) &&& 1 = 1 then
      chain_gen_with_idx_loop chains_idx n (chains_shr + 1) (buf ++ [db_key]) 1
    else
      chain_gen_with_idx_loop chains_idx n (chains_shr + 1) buf ((db_key + 1) % 2 ^ 8)

/-- The chain written by `chain_gen_with_idx`; the two counters are the zeros
`main` stores right after copying the chain into the bucket. -/
def chain_gen_with_idx (len1 chains_idx : Nat) : chain_t :=
  let r := chain_gen_with_idx_loop chains_idx len1 0 [] 1
  { buf := r.1 ++ [r.2], ks_cnt := 0, ks_pos := 0 }

/-! ## `main`: set-up -/

/-- Assignment `db_entries[pw_len] = db_entry`. -/
def db_set (db_entries : Nat → db_entry_t) (pw_len : Nat) (db_entry : db_entry_t) :
    Nat → db_entry_t :=
  fun k => if k = pw_len then db_entry else db_entries k

/-- The values of `for (pw_len = pw_min; pw_len <= pw_max; pw_len++)`. -/
def pw_lens (pw_min pw_max : Nat) : List Nat := List.range' pw_min (pw_max + 1 - pw_min)

/-- The table `db_entries` after `calloc` and the loading of the elements. -/
def db_init (E : Nat → List (List Nat)) : Nat → db_entry_t :=
  fun pw_len =>
    { elems_buf := E pw_len, chains_buf := [], chains_pos := 0,
      cur_chain_ks_poses := List.replicate ELEM_CNT_MAX 0 }

/-- The option checks of `main`, in the order of the source. -/
def check_options (pw_min pw_max elem_cnt_min elem_cnt_max : Int) : Bool :=
  if pw_min ≤ 0 then false
  else if pw_max ≤ 0 then false
  else if elem_cnt_min ≤ 0 then false
  else if elem_cnt_max ≤ 0 then false
  else if pw_min > pw_max then false
  else if elem_cnt_min > elem_cnt_max then false
  else if pw_min < (IN_LEN_MIN : Int) then false
  else if pw_max > (IN_LEN_MAX : Int) then false
  else if elem_cnt_max > pw_max then false
  else true

/-- Body of the loop "init chains" for one `chains_idx`. -/
def init_chains_step (db_entries : Nat → db_entry_t) (pw_len1 elem_cnt_min elem_cnt_max : Nat)
    (db_entry : db_entry_t) (chains_idx : Nat) : db_entry_t :=
  let chain_buf_new := chain_gen_with_idx pw_len1 chains_idx
  if chain_valid_with_db chain_buf_new db_entries = false then db_entry
  else if chain_valid_with_cnt_min chain_buf_new elem_cnt_min = false then db_entry
  else if chain_valid_with_cnt_max chain_buf_new elem_cnt_max = false then db_entry
  else { db_entry with chains_buf := db_entry.chains_buf ++ [chain_buf_new] }

/-- Body of the loop "init chains" for one `pw_len`. -/
def init_chains_len (elem_cnt_min elem_cnt_max : Nat) (db_entries : Nat → db_entry_t)
    (pw_len : Nat) : Nat → db_entry_t :=
  let pw_len1 := pw_len - 1
  let chains_cnt := 1 <<< pw_len1
  let db_entry := (List.range chains_cnt).foldl
    (init_chains_step db_entries pw_len1 elem_cnt_min elem_cnt_max) (db_entries pw_len)
  db_set db_entries pw_len
    { db_entry with cur_chain_ks_poses := List.replicate ELEM_CNT_MAX 0 }

def init_chains (pw_min pw_max elem_cnt_min elem_cnt_max : Nat) (db_entries : Nat → db_entry_t) :
    Nat → db_entry_t :=
  (pw_lens pw_min pw_max).foldl (init_chains_len elem_cnt_min elem_cnt_max) db_entries

/-- The array `wordlen_dist` ("calculate password candidate output length distribution"). -/
def calc_wordlen_dist (wl_dist_len : Bool) (db_entries : Nat → db_entry_t) : Nat → Nat :=
  fun pw_len =>
    if IN_LEN_MIN ≤ pw_len ∧ pw_len ≤ IN_LEN_MAX then
      if wl_dist_len then (db_entries pw_len).elems_cnt
      else if pw_len < DEF_WORDLEN_DIST_CNT then DEF_WORDLEN_DIST.getD pw_len 0
      else 1
    else 0

structure keyspace_t where
  db_entries : Nat → db_entry_t
  total_ks_cnt : Int
  pw_ks_cnt : Nat → Int

/-- Inner loop of "Calculate keyspace stuff": `chains` are the chains still to
visit, `done` the ones already given their `ks_cnt`. -/
def calc_keyspace_chains (db_entries : Nat → db_entry_t) :
    List chain_t → List chain_t → Int → List chain_t × Int
  | [], done, tmp => (done, tmp)
  | chain_buf :: chains, done, tmp =>
    let ks_cnt := chain_ks chain_buf db_entries
    calc_keyspace_chains db_entries chains (done ++ [{ chain_buf with ks_cnt := ks_cnt }])
      (tmp + ks_cnt)

/-- Body of "Calculate keyspace stuff" for one `pw_len`. -/
def calc_keyspace_len (ks : keyspace_t) (pw_len : Nat) : keyspace_t :=
  let db_entry := ks.db_entries pw_len
  let r := calc_keyspace_chains ks.db_entries db_entry.chains_buf [] 0
  { db_entries := db_set ks.db_entries pw_len { db_entry with chains_buf := r.1 },
    total_ks_cnt := ks.total_ks_cnt + r.2,
    pw_ks_cnt := fun k => if k = pw_len then r.2 else ks.pw_ks_cnt k }

def calc_keyspace (pw_min pw_max : Nat) (db_entries : Nat → db_entry_t) : keyspace_t :=
  (pw_lens pw_min pw_max).foldl calc_keyspace_len
    { db_entries := db_entries, total_ks_cnt := 0, pw_ks_cnt := fun _ => 0 }

/-- The loop "sort chains by ks". -/
def sort_chains (pw_min pw_max : Nat) (db_entries : Nat → db_entry_t) : Nat → db_entry_t :=
  (pw_lens pw_min pw_max).foldl
    (fun db pw_len =>
      let db_entry := db pw_len
      db_set db pw_len { db_entry with chains_buf := qsort sort_by_ks db_entry.chains_buf })
    db_entries

/-- The array `pw_orders` ("sort global order by password length counts"). -/
def init_pw_orders (pw_min pw_max : Nat) (db_entries : Nat → db_entry_t) : List pw_order_t :=
  qsort sort_by_cnt
    ((pw_lens pw_min pw_max).map
      (fun pw_len => { len := pw_len, cnt := (db_entries pw_len).elems_cnt }))

/-! ## `main`: seek -/

structure seek_t where
  skip_left : Int
  pw_ks_pos : Nat → Int
  outs_per_main_loop : Nat

/-- Body of the loop "increment the main loop main_loops times" for one `pw_len`. -/
def seek_step (pw_ks_cnt : Nat → Int) (wordlen_dist : Nat → Nat) (main_loops : Int)
    (s : seek_t) (pw_len : Nat) : seek_t :=
  if s.pw_ks_pos pw_len < pw_ks_cnt pw_len then
    let tmp := main_loops * (wordlen_dist pw_len : Int)
    let pos := s.pw_ks_pos pw_len + tmp
    let skip_left := s.skip_left - tmp
    { s with
      pw_ks_pos := fun k => if k = pw_len then pos else s.pw_ks_pos k,
      skip_left := if pos > pw_ks_cnt pw_len then skip_left + (pos - pw_ks_cnt pw_len)
                   else skip_left }
  else s

/-- The sum recomputed at the end of an iteration of the seek loop. -/
def seek_outs (pw_ks_cnt : Nat → Int) (wordlen_dist : Nat → Nat) (pw_ks_pos : Nat → Int)
    (lens : List Nat) : Nat :=
  lens.foldl
    (fun acc pw_len =>
      if pw_ks_pos pw_len < pw_ks_cnt pw_len then acc + wordlen_dist pw_len else acc) 0

/-- The loop `while (1)` "find pw_ks_pos[]", at most `fuel` iterations. -/
def seek_loop (pw_ks_cnt : Nat → Int) (wordlen_dist : Nat → Nat) (lens : List Nat) :
    Nat → seek_t → res seek_t
  | 0, _ => res.spin []
  | fuel + 1, s =>
    if s.outs_per_main_loop = 0 then res.fault
    else
      let main_loops := mpz_fdiv_q_ui s.skip_left s.outs_per_main_loop
      if main_loops = 0 then res.done s
      else
        let s1 := lens.foldl (seek_step pw_ks_cnt wordlen_dist main_loops) s
        seek_loop pw_ks_cnt wordlen_dist lens fuel
          { s1 with outs_per_main_loop := seek_outs pw_ks_cnt wordlen_dist s1.pw_ks_pos lens }

/-- Inner loop of "set db_entries to pw_ks_pos[]": `n` chains are left, from `chains_idx`. -/
def seek_set_loop (db_entries : Nat → db_entry_t) :
    Nat → Nat → Int → db_entry_t → Option db_entry_t
  | 0, _, _, db_entry => some db_entry
  | n + 1, chains_idx, tmp, db_entry =>
    match db_entry.chains_buf.get? chains_idx with
    | none => none
    | some chain_buf =>
      if tmp < chain_buf.ks_cnt then
        match set_chain_ks_poses chain_buf db_entries tmp db_entry.cur_chain_ks_poses with
        | none => none
        | some cur =>
          some { db_entry with
                 chains_buf := db_entry.chains_buf.set chains_idx { chain_buf with ks_pos := tmp },
                 cur_chain_ks_poses := cur }
      else
        seek_set_loop db_entries n (chains_idx + 1) (tmp - chain_buf.ks_cnt)
          { db_entry with chains_pos := db_entry.chains_pos + 1 }

/-- The loop "set db_entries to pw_ks_pos[]" over the lengths `lens`. -/
def seek_set (pw_ks_pos : Nat → Int) :
    List Nat → (Nat → db_entry_t) → Option (Nat → db_entry_t)
  | [], db_entries => some db_entries
  | pw_len :: lens, db_entries =>
    let db_entry := db_entries pw_len
    match seek_set_loop db_entries db_entry.chains_cnt 0 (pw_ks_pos pw_len) db_entry with
    | none => none
    | some db_entry1 => seek_set pw_ks_pos lens (db_set db_entries pw_len db_entry1)

/-! ## `main`: the loop -/

structure main_t where
  db_entries : Nat → db_entry_t
  total_ks_pos : Int
  out : List (List Nat)

/-- The loop `while (iter_pos_u64 < iter_max_u64)`, `n` iterations. -/
def emit_loop (chain_buf : chain_t) (db_entries : Nat → db_entry_t) (pw_len : Nat) :
    Nat → List Nat → List Nat → List (List Nat) → Option (List Nat × List Nat × List (List Nat))
  | 0, cur, pw_buf, out => some (cur, pw_buf, out)
  | n + 1, cur, pw_buf, out =>
    match chain_set_pwbuf_increment chain_buf db_entries cur pw_buf with
    | none => none
    | some r => emit_loop chain_buf db_entries pw_len n r.1 r.2 (out_push out pw_buf (pw_len + 1))

/-- The value of `iter_max` computed by one pass through the body of
`while (outs_pos < outs_cnt)`. -/
def calc_iter_max (total_ks_cnt total_ks_pos : Int) (chain_buf : chain_t)
    (outs_cnt outs_pos : Nat) : Int :=
  let total_ks_left := total_ks_cnt - total_ks_pos
  let iter_max := chain_buf.ks_cnt - chain_buf.ks_pos
  let iter_max := if total_ks_left < iter_max then total_ks_left else iter_max
  let outs_left := outs_cnt - outs_pos
  let tmp : Int := (outs_left : Int)
  if tmp < iter_max then tmp else iter_max

/-- The emitting and the skipping branch of the body of `while (outs_pos < outs_cnt)`:
the new scratch indices, the buffer and the sink. -/
def outs_emit (skip : Int) (pw_len : Nat) (chain_buf : chain_t) (st : main_t)
    (iter_max : Int) (pw_buf : List Nat) : Option (List Nat × List Nat × List (List Nat)) :=
  let db_entry := st.db_entries pw_len
  let iter_max_u64 := mpz_get_ui iter_max
  if st.total_ks_pos + iter_max > skip then
    let enter : Option (Nat × List Nat) :=
      if st.total_ks_pos < skip then
        let tmp := skip - st.total_ks_pos
        match set_chain_ks_poses chain_buf st.db_entries (chain_buf.ks_pos + tmp)
            db_entry.cur_chain_ks_poses with
        | none => none
        | some cur => some (mpz_get_ui tmp, cur)
      else some (0, db_entry.cur_chain_ks_poses)
    match enter with
    | none => none
    | some (iter_pos_u64, cur) =>
      match chain_set_pwbuf_init chain_buf st.db_entries cur pw_buf with
      | none => none
      | some pw_buf1 =>
        emit_loop chain_buf st.db_entries pw_len (iter_max_u64 - iter_pos_u64) cur pw_buf1 st.out
  else
    match set_chain_ks_poses chain_buf st.db_entries (chain_buf.ks_pos + iter_max)
        db_entry.cur_chain_ks_poses with
    | none => none
    | some cur => some (cur, pw_buf, st.out)

/-- One pass through the body of `while (outs_pos < outs_cnt)` for the chain
`chain_buf = chains_buf[chains_pos]`: the new state, `outs_pos` and buffer. -/
def outs_body (total_ks_cnt skip : Int) (pw_len : Nat) (outs_cnt outs_pos : Nat)
    (chain_buf : chain_t) (st : main_t) (pw_buf : List Nat) : Option (main_t × Nat × List Nat) :=
  let db_entry := st.db_entries pw_len
  let iter_max := calc_iter_max total_ks_cnt st.total_ks_pos chain_buf outs_cnt outs_pos
  match outs_emit skip pw_len chain_buf st iter_max pw_buf with
  | none => none
  | some (cur, pw_buf1, out) =>
    let ks_pos := chain_buf.ks_pos + iter_max
    let chains_buf := db_entry.chains_buf.set db_entry.chains_pos { chain_buf with ks_pos := ks_pos }
    let db_entry1 : db_entry_t :=
      if ks_pos = chain_buf.ks_cnt then
        { db_entry with chains_buf := chains_buf, chains_pos := db_entry.chains_pos + 1,
                        cur_chain_ks_poses := List.replicate ELEM_CNT_MAX 0 }
      else
        { db_entry with chains_buf := chains_buf, cur_chain_ks_poses := cur }
    some ({ db_entries := db_set st.db_entries pw_len db_entry1,
            total_ks_pos := st.total_ks_pos + iter_max, out := out },
          outs_pos + mpz_get_ui iter_max, pw_buf1)

/-- The loop `while (outs_pos < outs_cnt)`, at most `fuel` passes through its body. -/
def outs_loop (total_ks_cnt skip : Int) (pw_len : Nat) (outs_cnt : Nat) :
    Nat → main_t → Nat → List Nat → res main_t
  | fuel, st, outs_pos, pw_buf =>
    if outs_pos < outs_cnt then
      let db_entry := st.db_entries pw_len
      if db_entry.chains_pos = db_entry.chains_cnt then res.done st
      else
        match db_entry.chains_buf.get? db_entry.chains_pos with
        | none => res.fault
        | some chain_buf =>
          match fuel with
          | 0 => res.spin st.out
          | fuel1 + 1 =>
            match outs_body total_ks_cnt skip pw_len outs_cnt outs_pos chain_buf st pw_buf with
            | none => res.fault
            | some (st1, outs_pos1, pw_buf1) =>
              if st1.total_ks_pos = total_ks_cnt then res.done st1
              else outs_loop total_ks_cnt skip pw_len outs_cnt fuel1 st1 outs_pos1 pw_buf1
    else res.done st

/-- The loop `for (order_pos = 0; order_pos < order_cnt; order_pos++)` over the
entries of `pw_orders` still to visit.  The stack buffer `pw_buf` starts
zeroed with the newline at `pw_buf[pw_len]`; `chain_set_pwbuf_init` overwrites
the bytes in front of the newline before any record is pushed.  Every pass
through the body of the inner loop adds `iter_max_u64` to `outs_pos`, so
`outs_cnt` passes are granted. -/
def order_loop (total_ks_cnt skip : Int) (wordlen_dist : Nat → Nat) :
    List pw_order_t → main_t → res main_t
  | [], st => res.done st
  | pw_order :: rest, st =>
    let pw_len := pw_order.len
    let pw_buf := List.replicate pw_len 0 ++ [10]
    let outs_cnt := wordlen_dist pw_len
    match outs_loop total_ks_cnt skip pw_len outs_cnt outs_cnt st 0 pw_buf with
    | res.done st1 =>
      if st1.total_ks_pos = total_ks_cnt then res.done st1
      else order_loop total_ks_cnt skip wordlen_dist rest st1
    | res.fault => res.fault
    | res.spin out => res.spin out

/-- The loop `while (mpz_cmp (total_ks_pos, total_ks_cnt) < 0)`, at most `fuel` rounds. -/
def main_loop (total_ks_cnt skip : Int) (wordlen_dist : Nat → Nat)
    (pw_orders : List pw_order_t) : Nat → main_t → res main_t
  | fuel, st =>
    if st.total_ks_pos < total_ks_cnt then
      match fuel with
      | 0 => res.spin st.out
      | fuel1 + 1 =>
        match order_loop total_ks_cnt skip wordlen_dist pw_orders st with
        | res.done st1 => main_loop total_ks_cnt skip wordlen_dist pw_orders fuel1 st1
        | res.fault => res.fault
        | res.spin out => res.spin out
    else res.done st

/-! ## `main` -/

structure exit_t where
  code : Int
  out : List (List Nat)
  keyspace : Option Int

/-- The part "skip to the first main loop that will output a password". -/
def seek (fuel : Nat) (pw_min pw_max : Nat) (ks : keyspace_t) (wordlen_dist : Nat → Nat)
    (db_entries : Nat → db_entry_t) (skip : Int) : res main_t :=
  let lens := pw_lens pw_min pw_max
  let s0 : seek_t :=
    { skip_left := skip, pw_ks_pos := fun _ => 0,
      outs_per_main_loop := lens.foldl (fun acc pw_len => acc + wordlen_dist pw_len) 0 }
  match seek_loop ks.pw_ks_cnt wordlen_dist lens fuel s0 with
  | res.fault => res.fault
  | res.spin out => res.spin out
  | res.done s =>
    match seek_set s.pw_ks_pos lens db_entries with
    | none => res.fault
    | some db_entries1 =>
      res.done { db_entries := db_entries1, total_ks_pos := skip - s.skip_left, out := [] }

/-- The program `main` from the end of the option checks on, for the element
store `E`; `fuel` bounds the iterations of the seek loop and the rounds of the
main loop. -/
def pp (fuel : Nat) (E : Nat → List (List Nat)) (pw_min pw_max elem_cnt_min elem_cnt_max : Nat)
    (wl_dist_len keyspace : Bool) (skip limit : Int) : res exit_t :=
  let db0 := init_chains pw_min pw_max elem_cnt_min elem_cnt_max (db_init E)
  let wordlen_dist := calc_wordlen_dist wl_dist_len db0
  let ks := calc_keyspace pw_min pw_max db0
  if keyspace then res.done { code := 0, out := [], keyspace := some ks.total_ks_cnt }
  else
    let db1 := sort_chains pw_min pw_max ks.db_entries
    let pw_orders := init_pw_orders pw_min pw_max db1
    if skip ≠ 0 ∧ skip ≥ ks.total_ks_cnt then res.done { code := -1, out := [], keyspace := none }
    else if limit ≠ 0 ∧ limit > ks.total_ks_cnt then
      res.done { code := -1, out := [], keyspace := none }
    else if limit ≠ 0 ∧ skip + limit > ks.total_ks_cnt then
      res.done { code := -1, out := [], keyspace := none }
    else
      let total_ks_cnt := if limit ≠ 0 then skip + limit else ks.total_ks_cnt
      let start : res main_t :=
        if skip ≠ 0 then seek fuel pw_min pw_max ks wordlen_dist db1 skip
        else res.done { db_entries := db1, total_ks_pos := 0, out := [] }
      match start with
      | res.fault => res.fault
      | res.spin out => res.spin out
      | res.done st =>
        match main_loop total_ks_cnt skip wordlen_dist pw_orders fuel st with
        | res.fault => res.fault
        | res.spin out => res.spin out
        | res.done st1 => res.done { code := 0, out := st1.out, keyspace := none }

/-- The program `main` with its option checks. -/
def main (fuel : Nat) (E : Nat → List (List Nat)) (pw_min pw_max elem_cnt_min elem_cnt_max : Int)
    (wl_dist_len keyspace : Bool) (skip limit : Int) : res exit_t :=
  if check_options pw_min pw_max elem_cnt_min elem_cnt_max = false then
    res.done { code := -1, out := [], keyspace := none }
  else
    pp fuel E pw_min.toNat pw_max.toNat elem_cnt_min.toNat elem_cnt_max.toNat
      wl_dist_len keyspace skip limit

/-- The byte stream written to the sink. -/
def stream (out : List (List Nat)) : List Nat := out.flatten

/-- The bytes of a string literal. -/
def bytes (s : String) : List Nat := s.toList.map Char.toNat


/-! ## Vocabulary of the statements -/

/-- The composition read off the `n` low bits of `idx`, the part under construction being `d`. -/
def cuts (d : Nat) : Nat → Nat → List Nat
  | 0, _ => [d]
  | n + 1, idx => if idx % 2 = 1 then d :: cuts 1 n (idx / 2) else cuts (d + 1) n (idx / 2)

/-- Number of one bits of `idx`: the sum of its binary digits. -/
def popcount (idx : Nat) : Nat := (Nat.digits 2 idx).sum

/-- Little-endian mixed-radix digits of `pos` for the radices `ns`. -/
def mixed_radix : List Nat → Nat → List Nat
  | [], _ => []
  | n :: ns, pos => pos % n :: mixed_radix ns (pos / n)

/-- The element store held by a table `db_entries`. -/
def db_elems (db_entries : Nat → db_entry_t) : Nat → List (List Nat) :=
  fun k => (db_entries k).elems_buf

/-- The radices of a chain: the element counts `|E[p]|` of its parts. -/
def radices (E : Nat → List (List Nat)) (parts : List Nat) : List Nat :=
  parts.map (fun p => (E p).length)

/-- Every element filed under the length `p` is `p` bytes long. -/
def store_ok (E : Nat → List (List Nat)) : Prop := ∀ p, ∀ e ∈ E p, e.length = p

/-- The concatenation of the elements `E[p_i][idx_i]`. -/
def candidate (E : Nat → List (List Nat)) : List Nat → List Nat → List Nat
  | p :: parts, i :: idxs => (E p).getD i [] ++ candidate E parts idxs
  | _, _ => []

/-- The candidate of the chain with the parts `parts` at the keyspace position `pos`. -/
def chain_cand (E : Nat → List (List Nat)) (parts : List Nat) (pos : Nat) : List Nat :=
  candidate E parts (mixed_radix (radices E parts) pos)

/-- Mixed-radix increment with carry, least significant digit first. -/
def inc_digits : List Nat → List Nat → List Nat
  | n :: ns, i :: idxs => if i + 1 < n then (i + 1) :: idxs else 0 :: inc_digits ns idxs
  | _, _ => []

/-- The chains generated for the length `pw_len` that pass the three validity
checks, in the order of their bitmask `chains_idx`. -/
def valid_chains (E : Nat → List (List Nat)) (elem_cnt_min elem_cnt_max pw_len : Nat) :
    List chain_t :=
  ((List.range (2 ^ (pw_len - 1))).map (chain_gen_with_idx (pw_len - 1))).filter
    (fun c => chain_valid_with_db c (db_init E) && chain_valid_with_cnt_min c elem_cnt_min
      && chain_valid_with_cnt_max c elem_cnt_max)

/-- The chain list of the bucket of `pw_len` once the set-up is done: the valid
chains with their keyspace, sorted. -/
def bucket_chains (E : Nat → List (List Nat)) (elem_cnt_min elem_cnt_max pw_len : Nat) :
    List chain_t :=
  qsort sort_by_ks
    ((valid_chains E elem_cnt_min elem_cnt_max pw_len).map
      (fun c => { c with ks_cnt := chain_ks c (db_init E) }))

/-- The table `db_entries` once the set-up is done. -/
def db_ready (E : Nat → List (List Nat)) (pw_min pw_max elem_cnt_min elem_cnt_max : Nat) :
    Nat → db_entry_t :=
  fun k =>
    if pw_min ≤ k ∧ k ≤ pw_max then
      { elems_buf := E k, chains_buf := bucket_chains E elem_cnt_min elem_cnt_max k,
        chains_pos := 0, cur_chain_ks_poses := List.replicate ELEM_CNT_MAX 0 }
    else db_init E k

/-- Sum of `ks_cnt` over a chain list. -/
def chains_ks (chains : List chain_t) : Int := (chains.map (fun c => c.ks_cnt)).sum

/-- The store with `E[1] = ["a", "b"]` and no other element. -/
def store_ab : Nat → List (List Nat) := fun L => if L = 1 then [bytes "a", bytes "b"] else []

/-- The buffers seen while a chain is enumerated: the current one, then the ones
after each of `n` applications of `chain_set_pwbuf_increment`. -/
def enum_loop (chain_buf : chain_t) (db_entries : Nat → db_entry_t) :
    Nat → List Nat → List Nat → Option (List (List Nat))
  | 0, _, pw_buf => some [pw_buf]
  | n + 1, cur, pw_buf =>
    match chain_set_pwbuf_increment chain_buf db_entries cur pw_buf with
    | none => none
    | some r =>
      match enum_loop chain_buf db_entries n r.1 r.2 with
      | none => none
      | some l => some (pw_buf :: l)

/-- Enumeration of a chain from `ks_pos = 0` up to `ks_cnt`: the indices of
position 0 in a zeroed scratch array, `chain_set_pwbuf_init` on a buffer as
long as the candidate, then `ks_cnt - 1` increments. -/
def chain_enum (chain_buf : chain_t) (db_entries : Nat → db_entry_t) : Option (List (List Nat)) :=
  if chain_buf.ks_cnt ≤ 0 then some []
  else
    match set_chain_ks_poses chain_buf db_entries 0 (List.replicate ELEM_CNT_MAX 0) with
    | none => none
    | some cur =>
      match chain_set_pwbuf_init chain_buf db_entries cur (List.replicate chain_buf.buf.sum 0) with
      | none => none
      | some pw_buf => enum_loop chain_buf db_entries (chain_buf.ks_cnt.toNat - 1) cur pw_buf

/-- The store with `E[1] = ["a", "a"]` and no other element. -/
def store_aa : Nat → List (List Nat) := fun L => if L = 1 then [bytes "a", bytes "a"] else []

/-- The records of the positions `off, ..., off + m - 1` of a chain: each
candidate followed by the newline. -/
def chain_seg (E : Nat → List (List Nat)) (c : chain_t) (off m : Nat) : List (List Nat) :=
  (List.range m).map (fun j => chain_cand E c.buf (off + j) ++ [10])

/-- The records of a whole chain, position 0 first. -/
def chain_seq (E : Nat → List (List Nat)) (c : chain_t) : List (List Nat) :=
  chain_seg E c 0 (radices E c.buf).prod

/-- The records of a bucket: chain after chain in the order of the chain list. -/
def bucket_seq (E : Nat → List (List Nat)) (chains : List chain_t) : List (List Nat) :=
  chains.flatMap (chain_seq E)

/-- A chain as the set-up leaves it in the bucket of `pw_len`. -/
def chain_ok (E : Nat → List (List Nat)) (pw_len : Nat) (c : chain_t) : Prop :=
  c.ks_cnt = ((radices E c.buf).prod : Nat) ∧ c.ks_pos = 0 ∧ (∀ p ∈ c.buf, 0 < (E p).length)
    ∧ c.buf.length ≤ ELEM_CNT_MAX ∧ c.buf.sum = pw_len

/-- Two chain records with the same parts and keyspace. -/
def same_chain (a b : chain_t) : Prop := a.buf = b.buf ∧ a.ks_cnt = b.ks_cnt

/-- The bucket entry `e` stands at the position `p` of the records of `chains`:
either inside the chain `c` at the offset `off`, the chains before it being
passed, or behind the last chain. -/
def bucket_at (E : Nat → List (List Nat)) (chains : List chain_t) (p : Nat) (e : db_entry_t) :
    Prop :=
  (∃ (done' done : List chain_t) (c : chain_t) (todo : List chain_t) (off : Nat),
      chains = done ++ c :: todo ∧ List.Forall₂ same_chain done' done
      ∧ off < (radices E c.buf).prod ∧ p = (bucket_seq E done).length + off
      ∧ e.chains_buf = done' ++ { c with ks_pos := (off : Int) } :: todo
      ∧ e.chains_pos = done'.length
      ∧ e.cur_chain_ks_poses
          = mixed_radix (radices E c.buf) off ++ List.replicate (ELEM_CNT_MAX - c.buf.length) 0)
  ∨ (p = (bucket_seq E chains).length ∧ List.Forall₂ same_chain e.chains_buf chains
      ∧ e.chains_pos = chains.length
      ∧ e.cur_chain_ks_poses = List.replicate ELEM_CNT_MAX 0)

/-- The table `db` holds the store `E` and every bucket `L` stands at the
position `p L` of the records of its chains `chainsOf L`. -/
def sched_at (E : Nat → List (List Nat)) (chainsOf : Nat → List chain_t) (p : Nat → Nat)
    (db : Nat → db_entry_t) : Prop :=
  (∀ k, (db k).elems_buf = E k) ∧ ∀ L, bucket_at E (chainsOf L) (p L) (db L)

/-- The records of one round that starts with the buckets at the positions `p`:
for each length of `ord` in turn, the next `w L` records of its bucket. -/
def round_seg (S : Nat → List (List Nat)) (w : Nat → Nat) (ord : List Nat) (p : Nat → Nat) :
    List (List Nat) :=
  ord.flatMap (fun L => ((S L).drop (p L)).take (w L))

/-- The positions of the buckets after the round that starts at the positions `p`. -/
def round_adv (S : Nat → List (List Nat)) (w : Nat → Nat) (ord : List Nat) (p : Nat → Nat) :
    Nat → Nat :=
  fun L => if L ∈ ord then p L + min (w L) ((S L).length - p L) else p L

/-- The records of `n` rounds in a row, the first one starting at the positions `p`. -/
def rounds_seq (S : Nat → List (List Nat)) (w : Nat → Nat) (ord : List Nat) :
    Nat → (Nat → Nat) → List (List Nat)
  | 0, _ => []
  | n + 1, p => round_seg S w ord p ++ rounds_seq S w ord n (round_adv S w ord p)

/-- The number of records the buckets of `ord` still hold behind the positions `p`. -/
def rounds_rem (S : Nat → List (List Nat)) (ord : List Nat) (p : Nat → Nat) : Nat :=
  (ord.map (fun L => (S L).length - p L)).sum

/-- The positions of the buckets of `ord` after `n` full rounds from the start. -/
def pos_at (S : Nat → List (List Nat)) (w : Nat → Nat) (ord : List Nat) (n : Nat) : Nat → Nat :=
  fun L => if L ∈ ord then min (n * w L) (S L).length else 0

/-- The state of the seek loop after skipping `n` whole rounds: the buckets with
records left stand at `n * w L`, the others have been passed, and `skip_left`
is what remains of `skip` behind the records of these rounds. -/
def seek_inv (cnt : Nat → Nat) (w : Nat → Nat) (lens : List Nat) (skip : Nat) (n : Nat)
    (s : seek_t) : Prop :=
  (∀ L ∈ lens, (s.pw_ks_pos L < (cnt L : Int) → s.pw_ks_pos L = ((n * w L : Nat) : Int))
      ∧ (¬ s.pw_ks_pos L < (cnt L : Int) → cnt L ≤ n * w L))
  ∧ s.skip_left + (((lens.map (fun L => min (n * w L) (cnt L))).sum : Nat) : Int) = (skip : Int)
  ∧ 0 ≤ s.skip_left
  ∧ seek_outs (fun L => (cnt L : Int)) w s.pw_ks_pos lens ≤ s.outs_per_main_loop

/-- The chain list of every bucket once the set-up is done. -/
def chains_of (E : Nat → List (List Nat)) (pw_min pw_max elem_cnt_min elem_cnt_max : Nat) :
    Nat → List chain_t :=
  fun L => (db_ready E pw_min pw_max elem_cnt_min elem_cnt_max L).chains_buf

/-- The records of every bucket once the set-up is done. -/
def records_of (E : Nat → List (List Nat)) (pw_min pw_max elem_cnt_min elem_cnt_max : Nat) :
    Nat → List (List Nat) :=
  fun L => bucket_seq E (chains_of E pw_min pw_max elem_cnt_min elem_cnt_max L)

/-- The lengths in the order of `pw_orders`. -/
def order_of (E : Nat → List (List Nat)) (pw_min pw_max elem_cnt_min elem_cnt_max : Nat) :
    List Nat :=
  (init_pw_orders pw_min pw_max (db_ready E pw_min pw_max elem_cnt_min elem_cnt_max)).map
    (fun o => o.len)

/-- The number of records of all buckets. -/
def records_cnt (E : Nat → List (List Nat)) (pw_min pw_max elem_cnt_min elem_cnt_max : Nat) :
    Nat :=
  ((pw_lens pw_min pw_max).map
    (fun L => (records_of E pw_min pw_max elem_cnt_min elem_cnt_max L).length)).sum

/-- The records of the rounds of the main loop from the start until every
bucket is used up, for the weights `w`. -/
def full_seq (E : Nat → List (List Nat)) (pw_min pw_max elem_cnt_min elem_cnt_max : Nat)
    (w : Nat → Nat) : List (List Nat) :=
  rounds_seq (records_of E pw_min pw_max elem_cnt_min elem_cnt_max) w
    (order_of E pw_min pw_max elem_cnt_min elem_cnt_max)
    (records_cnt E pw_min pw_max elem_cnt_min elem_cnt_max) (fun _ => 0)


/-- The store with `E[1] = ["a", "b"]`, `E[10] = ["cccccccccc"]` and no other
element. -/
def store_ab_c : Nat → List (List Nat) := fun L =>
  if L = 1 then [bytes "a", bytes "b"] else if L = 10 then [bytes "cccccccccc"] else []

/-- The store with `E[1] = ["a"]` and no other element. -/
def store_a : Nat → List (List Nat) := fun L => if L = 1 then [bytes "a"] else []

/-- The store with `E[1] = ["x"]` and no other element. -/
def store_x : Nat → List (List Nat) := fun L => if L = 1 then [bytes "x"] else []

/-- The store with `E[1] = ["a"]`, `E[2] = ["aa"]` and no other element. -/
def store_a_aa : Nat → List (List Nat) := fun L =>
  if L = 1 then [bytes "a"] else if L = 2 then [bytes "aa"] else []

/-- The store without any element. -/
def store_none : Nat → List (List Nat) := fun _ => []

/-- The store with `E[1] = ["a"]`, `E[2] = ["bb"]` and no other element. -/
def store_a_bb : Nat → List (List Nat) := fun L =>
  if L = 1 then [bytes "a"] else if L = 2 then [bytes "bb"] else []

/-! ## Loading the elements -/

/-- The libc call `strlen`: the number of bytes in front of the first NUL. -/
def strlen (buf : List Nat) : Nat := (buf.takeWhile (fun b => b != 0)).length

/-- The loop `while (len)` of `in_superchop`, entered with `len`. -/
def in_superchop_loop (buf : List Nat) : Nat → Nat
  | 0 => 0
  | len + 1 =>
    if buf.getD len 0 = 10 then in_superchop_loop buf len
    else if buf.getD len 0 = 13 then in_superchop_loop buf len
    else len + 1

/-- The buffer after `in_superchop` and the length it returns. -/
def in_superchop (buf : List Nat) : List Nat × Nat :=
  let len := in_superchop_loop buf (strlen buf)
  (buf.set len 0, len)

/-- Body of the loop "load elems from stdin" for one buffer filled by `fgets`. -/
def load_elem (db_entries : Nat → db_entry_t) (buf : List Nat) : Nat → db_entry_t :=
  let r := in_superchop buf
  let input_buf := r.1
  let input_len := r.2
  if input_len < IN_LEN_MIN then db_entries
  else if input_len > IN_LEN_MAX then db_entries
  else
    let db_entry := db_entries input_len
    db_set db_entries input_len
      { db_entry with elems_buf := db_entry.elems_buf ++ [input_buf.take input_len] }

/-- The loop "load elems from stdin" over the buffers `fgets` fills, in the
order of the reads. -/
def load_elems (bufs : List (List Nat)) (db_entries : Nat → db_entry_t) : Nat → db_entry_t :=
  bufs.foldl load_elem db_entries

/-! ## The points of the scheduler -/

/-- Property P1 of a table: in every bucket with an active chain, that chain's
`ks_pos` lies in `[0, ks_cnt)` and the scratch indices of its parts are the
mixed-radix digits of `ks_pos` for the radices `|E[p_i]|`. -/
def cursor_ok (db_entries : Nat → db_entry_t) : Prop :=
  ∀ L, (db_entries L).chains_pos < (db_entries L).chains_cnt →
    ∃ c, (db_entries L).chains_buf.get? (db_entries L).chains_pos = some c
      ∧ 0 ≤ c.ks_pos ∧ c.ks_pos < c.ks_cnt
      ∧ (db_entries L).cur_chain_ks_poses.take c.cnt
          = mixed_radix (radices (db_elems db_entries) c.buf) c.ks_pos.toNat

/-- The states between the steps of the scheduler that starts in `st0`: `st0`
itself, and the state after a pass through the body of
`while (outs_pos < outs_cnt)` from such a state, for a length of
`[pw_min, pw_max]` whose bucket has an active chain, with the buffer `pw_buf`
holding the newline at `pw_buf[pw_len]`. -/
inductive sched_point (total_ks_cnt skip : Int) (wordlen_dist : Nat → Nat)
    (pw_min pw_max : Nat) (st0 : main_t) : main_t → Prop
  | start : sched_point total_ks_cnt skip wordlen_dist pw_min pw_max st0 st0
  | body (st st1 : main_t) (pw_len outs_pos outs_pos1 : Nat) (chain_buf : chain_t)
      (x pw_buf1 : List Nat) :
      sched_point total_ks_cnt skip wordlen_dist pw_min pw_max st0 st →
      pw_min ≤ pw_len → pw_len ≤ pw_max →
      st.total_ks_pos ≠ total_ks_cnt →
      outs_pos < wordlen_dist pw_len →
      (st.db_entries pw_len).chains_pos ≠ (st.db_entries pw_len).chains_cnt →
      (st.db_entries pw_len).chains_buf.get? (st.db_entries pw_len).chains_pos
        = some chain_buf →
      x.length = pw_len →
      outs_body total_ks_cnt skip pw_len (wordlen_dist pw_len) outs_pos chain_buf st (x ++ [10])
        = some (st1, outs_pos1, pw_buf1) →
      sched_point total_ks_cnt skip wordlen_dist pw_min pw_max st0 st1

/-- The invariant of the scheduler: every bucket stands at some position of
the records of its chains and `total_ks_pos` is a natural number up to `Tn`. -/
def sched_inv (E : Nat → List (List Nat)) (chainsOf : Nat → List chain_t) (Tn : Nat)
    (st : main_t) : Prop :=
  ∃ (p : Nat → Nat) (tn : Nat),
    sched_at E chainsOf p st.db_entries ∧ st.total_ks_pos = (tn : Int) ∧ tn ≤ Tn


/-! ## Counting chains -/

/-- The number of bitmasks below `2^n` with at most `m` one bits. -/
def few_bits (n m : Nat) : Nat :=
  (List.range (2 ^ n)).countP (fun i => decide (popcount i ≤ m))

/-- The store with one element of every length from 1 to 16. -/
def store_all : Nat → List (List Nat) := fun L =>
  if 1 ≤ L ∧ L ≤ 16 then [List.replicate L 97] else []

/-! ## Complete rounds of the scheduler -/

/-- The first `n` rounds of the main loop in a row: `n` times the loop
`for (order_pos = 0; order_pos < order_cnt; order_pos++)` over `pw_orders`. -/
def run_rounds (total_ks_cnt skip : Int) (wordlen_dist : Nat → Nat)
    (pw_orders : List pw_order_t) : Nat → main_t → res main_t
  | 0, st => res.done st
  | n + 1, st =>
    match order_loop total_ks_cnt skip wordlen_dist pw_orders st with
    | res.done st1 => run_rounds total_ks_cnt skip wordlen_dist pw_orders n st1
    | res.fault => res.fault
    | res.spin out => res.spin out

/-- The store with `E[1] = ["0", ..., "7"]` and no other element. -/
def store_octal : Nat → List (List Nat) := fun L =>
  if L = 1 then (List.range 8).map (fun i => [48 + i]) else []

/-! ## Chain generator -/

theorem chain_gen_loop_eq (chains_idx : Nat) :
    ∀ (n chains_shr : Nat) (buf : List Nat) (db_key : Nat), db_key + n < 256 →
      (chain_gen_with_idx_loop chains_idx n chains_shr buf db_key).1
          ++ [(chain_gen_with_idx_loop chains_idx n chains_shr buf db_key).2]
        = buf ++ cuts db_key n (chains_idx >>> chains_shr) := by
  intro n
  induction n with
  | zero => intro s buf d _; simp [chain_gen_with_idx_loop, cuts]
  | succ n ih =>
    intro s buf d hd
    have hshift : chains_idx >>> (s + 1) = (chains_idx >>> s) / 2 := by
      rw [Nat.shiftRight_succ]
    have hbit : (chains_idx >>> s) &&& 1 = (chains_idx >>> s) % 2 := Nat.and_one_is_mod _
    simp only [chain_gen_with_idx_loop, cuts, hbit]
    by_cases hb : (chains_idx >>> s) % 2 = 1
    · simp only [hb, if_true]
      rw [ih (s + 1) (buf ++ [d]) 1 (by omega), hshift]
      simp
    · simp only [hb, if_false]
      have hmod : (d + 1) % 2 ^ 8 = d + 1 := Nat.mod_eq_of_lt (by norm_num; omega)
      rw [hmod, ih (s + 1) buf (d + 1) (by omega), hshift]

theorem chain_gen_buf (len1 chains_idx : Nat) (h : len1 < 255) :
    (chain_gen_with_idx len1 chains_idx).buf = cuts 1 len1 chains_idx := by
  have := chain_gen_loop_eq chains_idx len1 0 [] 1 (by omega)
  simpa [chain_gen_with_idx] using this

theorem cuts_pos : ∀ (n d idx : Nat), 0 < d → ∀ p ∈ cuts d n idx, 0 < p := by
  intro n
  induction n with
  | zero => intro d idx hd p hp; simp [cuts] at hp; omega
  | succ n ih =>
    intro d idx hd p hp
    simp only [cuts] at hp
    split at hp
    · rcases List.mem_cons.1 hp with h | h
      · omega
      · exact ih 1 _ (by omega) p h
    · exact ih (d + 1) _ (by omega) p hp

theorem cuts_sum : ∀ (n d idx : Nat), (cuts d n idx).sum = d + n := by
  intro n
  induction n with
  | zero => intro d idx; simp [cuts]
  | succ n ih =>
    intro d idx
    simp only [cuts]
    split
    · simp [ih]; omega
    · rw [ih]; omega

theorem popcount_step (idx : Nat) : popcount idx = idx % 2 + popcount (idx / 2) := by
  unfold popcount
  rcases Nat.eq_zero_or_pos idx with h | h
  · subst h; simp
  · rw [Nat.digits_def' (by norm_num) h]; simp

theorem cuts_length : ∀ (n d idx : Nat), idx < 2 ^ n → (cuts d n idx).length = popcount idx + 1 := by
  intro n
  induction n with
  | zero => intro d idx h; have : idx = 0 := by simpa using h
            subst this; simp [cuts, popcount]
  | succ n ih =>
    intro d idx h
    have h2 : idx / 2 < 2 ^ n := by
      rw [Nat.div_lt_iff_lt_mul (by norm_num)]; rw [pow_succ] at h; exact h
    rw [popcount_step idx]
    simp only [cuts]
    split
    · rename_i hb; simp [ih 1 _ h2, hb]; omega
    · rename_i hb; rw [ih (d + 1) _ h2]; omega

theorem cuts_head : ∀ (n d idx : Nat), ∃ h t, cuts d n idx = h :: t ∧ d ≤ h := by
  intro n
  induction n with
  | zero => intro d idx; exact ⟨d, [], by simp [cuts], le_refl _⟩
  | succ n ih =>
    intro d idx
    simp only [cuts]
    split
    · exact ⟨d, _, rfl, le_refl _⟩
    · obtain ⟨h, t, e, hle⟩ := ih (d + 1) (idx / 2)
      exact ⟨h, t, e, by omega⟩

theorem cuts_inj : ∀ (n d i j : Nat), i < 2 ^ n → j < 2 ^ n → cuts d n i = cuts d n j → i = j := by
  intro n
  induction n with
  | zero => intro d i j hi hj _; simp at hi hj; omega
  | succ n ih =>
    intro d i j hi hj h
    have hi2 : i / 2 < 2 ^ n := by
      rw [Nat.div_lt_iff_lt_mul (by norm_num)]; rw [pow_succ] at hi; exact hi
    have hj2 : j / 2 < 2 ^ n := by
      rw [Nat.div_lt_iff_lt_mul (by norm_num)]; rw [pow_succ] at hj; exact hj
    simp only [cuts] at h
    by_cases hbi : i % 2 = 1 <;> by_cases hbj : j % 2 = 1
    · simp only [hbi, hbj, if_true] at h
      have := ih 1 _ _ hi2 hj2 (List.cons.inj h).2
      omega
    · simp only [hbi, hbj, if_true, if_false] at h
      obtain ⟨x, t, e, hle⟩ := cuts_head n (d + 1) (j / 2)
      rw [e] at h
      have := (List.cons.inj h).1
      omega
    · simp only [hbi, hbj, if_true, if_false] at h
      obtain ⟨x, t, e, hle⟩ := cuts_head n (d + 1) (i / 2)
      rw [e] at h
      have := (List.cons.inj h).1
      omega
    · simp only [hbi, hbj, if_false] at h
      have := ih (d + 1) _ _ hi2 hj2 h
      omega

theorem cuts_surj : ∀ (n d x : Nat) (t : List Nat), d ≤ x → 0 < d → (∀ p ∈ t, 0 < p) →
    x + t.sum = d + n → ∃ idx, idx < 2 ^ n ∧ cuts d n idx = x :: t := by
  intro n
  induction n with
  | zero =>
    intro d x t hx hd ht hs
    have hts : t.sum = 0 := by omega
    have : t = [] := by
      cases t with
      | nil => rfl
      | cons y t' =>
        have := ht y (by simp)
        simp at hts; omega
    subst this
    exact ⟨0, by simp, by simp [cuts]; omega⟩
  | succ n ih =>
    intro d x t hx hd ht hs
    by_cases hxd : x = d
    · subst hxd
      cases t with
      | nil => simp at hs
      | cons y t' =>
        have hy := ht y (by simp)
        obtain ⟨idx, hidx, e⟩ := ih 1 y t' hy (by omega) (fun p hp => ht p (by simp [hp]))
          (by simp at hs; omega)
        refine ⟨2 * idx + 1, by rw [pow_succ]; omega, ?_⟩
        simp only [cuts]
        have h1 : (2 * idx + 1) % 2 = 1 := by omega
        have h2 : (2 * idx + 1) / 2 = idx := by omega
        simp [h1, h2, e]
    · obtain ⟨idx, hidx, e⟩ := ih (d + 1) x t (by omega) (by omega) ht (by omega)
      refine ⟨2 * idx, by rw [pow_succ]; omega, ?_⟩
      simp only [cuts]
      have h1 : ¬ (2 * idx) % 2 = 1 := by omega
      have h2 : (2 * idx) / 2 = idx := by omega
      simp [h1, h2, e]

/-- The chains of the bitmasks below `2^(L-1)` are the compositions of `L`. -/
theorem chain_gen_compositions (L : Nat) (hL1 : 1 ≤ L) (hL : L ≤ 16) :
    (∀ idx, idx < 2 ^ (L - 1) →
      (∀ p ∈ (chain_gen_with_idx (L - 1) idx).buf, 0 < p)
      ∧ (chain_gen_with_idx (L - 1) idx).buf.sum = L
      ∧ (chain_gen_with_idx (L - 1) idx).cnt = popcount idx + 1)
    ∧ (∀ i j, i < 2 ^ (L - 1) → j < 2 ^ (L - 1) →
        (chain_gen_with_idx (L - 1) i).buf = (chain_gen_with_idx (L - 1) j).buf → i = j)
    ∧ (∀ parts : List Nat, (∀ p ∈ parts, 0 < p) → parts.sum = L →
        ∃ idx, idx < 2 ^ (L - 1) ∧ (chain_gen_with_idx (L - 1) idx).buf = parts) := by
  have hlen : L - 1 < 255 := by omega
  have hsumL : 1 + (L - 1) = L := by omega
  refine ⟨fun idx hidx => ?_, fun i j hi hj h => ?_, fun parts hpos hsum => ?_⟩
  · rw [chain_t.cnt, chain_gen_buf _ _ hlen]
    exact ⟨cuts_pos _ _ _ (by norm_num), by rw [cuts_sum]; exact hsumL, cuts_length _ _ _ hidx⟩
  · rw [chain_gen_buf _ _ hlen, chain_gen_buf _ _ hlen] at h
    exact cuts_inj _ _ _ _ hi hj h
  · cases parts with
    | nil => simp at hsum; omega
    | cons x t =>
      obtain ⟨idx, hidx, e⟩ := cuts_surj (L - 1) 1 x t (hpos x (by simp)) (by norm_num)
        (fun p hp => hpos p (by simp [hp])) (by simp at hsum; omega)
      exact ⟨idx, hidx, by rw [chain_gen_buf _ _ hlen, e]⟩

/-- C7: for `1 ≤ L ≤ 16` the chains `chain_gen_with_idx (L - 1) idx`, `idx < 2^(L-1)`, are
the compositions of `L`, each exactly once: positive parts of sum `L`,
`popcount idx + 1` of them, distinct for distinct `idx`, and every composition occurs. -/
theorem chain_gen_with_idx_compositions (L : Nat) (hL1 : 1 ≤ L) (hL : L ≤ 16) :
    (∀ idx, idx < 2 ^ (L - 1) →
      (∀ p ∈ (chain_gen_with_idx (L - 1) idx).buf, 0 < p)
      ∧ (chain_gen_with_idx (L - 1) idx).buf.sum = L
      ∧ (chain_gen_with_idx (L - 1) idx).cnt = popcount idx + 1)
    ∧ (∀ i j, i < 2 ^ (L - 1) → j < 2 ^ (L - 1) →
        (chain_gen_with_idx (L - 1) i).buf = (chain_gen_with_idx (L - 1) j).buf → i = j)
    ∧ (∀ parts : List Nat, (∀ p ∈ parts, 0 < p) → parts.sum = L →
        ∃ idx, idx < 2 ^ (L - 1) ∧ (chain_gen_with_idx (L - 1) idx).buf = parts) :=
  chain_gen_compositions L hL1 hL

theorem chain_gen_with_idx_compositions_witness :
    1 ≤ 3 ∧ 3 ≤ 16
    ∧ (∀ idx, idx < 2 ^ (3 - 1) →
        (∀ p ∈ (chain_gen_with_idx (3 - 1) idx).buf, 0 < p)
        ∧ (chain_gen_with_idx (3 - 1) idx).buf.sum = 3
        ∧ (chain_gen_with_idx (3 - 1) idx).cnt = popcount idx + 1)
    ∧ (∀ i j, i < 2 ^ (3 - 1) → j < 2 ^ (3 - 1) →
        (chain_gen_with_idx (3 - 1) i).buf = (chain_gen_with_idx (3 - 1) j).buf → i = j)
    ∧ (∀ parts : List Nat, (∀ p ∈ parts, 0 < p) → parts.sum = 3 →
        ∃ idx, idx < 2 ^ (3 - 1) ∧ (chain_gen_with_idx (3 - 1) idx).buf = parts) :=
  ⟨by decide, by decide, chain_gen_with_idx_compositions 3 (by decide) (by decide)⟩
theorem mpz_fdiv_ui_natCast (pos n : Nat) : mpz_fdiv_ui (pos : Int) n = pos % n := by
  unfold mpz_fdiv_ui
  rw [← Int.natCast_mod, Int.toNat_natCast]

theorem mpz_fdiv_q_ui_natCast (pos n : Nat) : mpz_fdiv_q_ui (pos : Int) n = ((pos / n : Nat) : Int) := by
  unfold mpz_fdiv_q_ui
  rw [Int.natCast_div]

theorem mixed_radix_length : ∀ (ns : List Nat) (pos : Nat), (mixed_radix ns pos).length = ns.length := by
  intro ns
  induction ns with
  | nil => intro pos; rfl
  | cons n ns ih => intro pos; simp [mixed_radix, ih]

theorem set_chain_ks_poses_loop_eq (db_entries : Nat → db_entry_t) :
    ∀ (rest : List Nat) (idx pos : Nat) (cur : List Nat),
      idx + rest.length ≤ ELEM_CNT_MAX → cur.length = ELEM_CNT_MAX →
      (∀ p ∈ rest, 0 < (db_entries p).elems_cnt) →
      set_chain_ks_poses_loop db_entries rest idx (pos : Int) cur
        = some (cur.take idx ++ mixed_radix (radices (db_elems db_entries) rest) pos
                ++ cur.drop (idx + rest.length)) := by
  intro rest
  induction rest with
  | nil => intro idx pos cur _ _ _; simp [set_chain_ks_poses_loop, mixed_radix, radices]
  | cons p rest ih =>
    intro idx pos cur hidx hcur hn
    have hp : 0 < (db_entries p).elems_cnt := hn p (by simp)
    have hlen : (p :: rest).length = rest.length + 1 := rfl
    have hidx1 : idx + 1 + rest.length ≤ ELEM_CNT_MAX := by rw [hlen] at hidx; omega
    have hi : idx < ELEM_CNT_MAX := by omega
    have hne : ¬ (db_entries p).elems_cnt = 0 := by omega
    simp only [set_chain_ks_poses_loop, hne, hi, if_true, if_false]
    rw [mpz_fdiv_q_ui_natCast, mpz_fdiv_ui_natCast,
      ih (idx + 1) _ _ hidx1 (by simpa using hcur) (fun q hq => hn q (by simp [hq]))]
    have hil : idx < cur.length := by omega
    congr 1
    rw [List.set_eq_take_append_cons_drop, if_pos hil]
    have hA : (List.take idx cur).length = idx := by
      rw [List.length_take]; omega
    have h1 : (List.take idx cur ++ (pos % (db_entries p).elems_cnt) :: List.drop (idx + 1) cur).take (idx + 1)
        = List.take idx cur ++ [pos % (db_entries p).elems_cnt] := by
      have e : idx + 1 = (List.take idx cur).length + 1 := by omega
      rw [e, List.take_append]
      simp
    have h2 : (List.take idx cur ++ (pos % (db_entries p).elems_cnt) :: List.drop (idx + 1) cur).drop (idx + 1 + rest.length)
        = List.drop (idx + (rest.length + 1)) cur := by
      have e : idx + 1 + rest.length = (List.take idx cur).length + (rest.length + 1) := by omega
      rw [e, List.drop_append, List.drop_succ_cons, List.drop_drop]
      congr 1; omega
    rw [h1, h2]
    simp [mixed_radix, radices, hlen, db_elems, db_entry_t.elems_cnt]

theorem mixed_radix_lt : ∀ (ns : List Nat) (pos i : Nat), (∀ n ∈ ns, 0 < n) → i < ns.length →
    (mixed_radix ns pos).getD i 0 < ns.getD i 0 := by
  intro ns
  induction ns with
  | nil => intro pos i _ hi; simp at hi
  | cons n ns ih =>
    intro pos i hn hi
    cases i with
    | zero => simp [mixed_radix]; exact Nat.mod_lt _ (hn n (by simp))
    | succ i =>
      simp only [mixed_radix, List.getD_cons_succ]
      exact ih _ i (fun m hm => hn m (by simp [hm])) (by simpa using hi)

/-- Value of the digits `ds` in the radices `ns`, least significant digit first. -/
theorem radix_sum_cons (n d : Nat) (ns ds : List Nat) (k : Nat) :
    (∑ i in Finset.range (k + 1), (d :: ds).getD i 0 * ((n :: ns).take i).prod)
      = d + n * ∑ i in Finset.range k, ds.getD i 0 * (ns.take i).prod := by
  rw [Finset.sum_range_succ', Finset.mul_sum]
  simp only [List.getD_cons_succ, List.take_succ_cons, List.prod_cons, List.take_zero,
    List.prod_nil, List.getD_cons_zero, Nat.mul_one]
  rw [Nat.add_comm]
  congr 1
  apply Finset.sum_congr rfl
  intro i _
  ring

theorem mixed_radix_sum : ∀ (ns : List Nat) (pos : Nat), (∀ n ∈ ns, 0 < n) → pos < ns.prod →
    (∑ i in Finset.range ns.length, (mixed_radix ns pos).getD i 0 * (ns.take i).prod) = pos := by
  intro ns
  induction ns with
  | nil => intro pos _ h; simp at h; simp [h]
  | cons n ns ih =>
    intro pos hn hpos
    have hn0 : 0 < n := hn n (by simp)
    simp only [mixed_radix, List.length_cons]
    rw [radix_sum_cons, ih (pos / n) (fun m hm => hn m (by simp [hm]))
      (by rw [Nat.div_lt_iff_lt_mul hn0]; simpa [Nat.mul_comm] using hpos)]
    exact Nat.mod_add_div pos n

theorem mixed_radix_unique : ∀ (ns ds : List Nat), ds.length = ns.length →
    (∀ i, i < ns.length → ds.getD i 0 < ns.getD i 0) →
    mixed_radix ns (∑ i in Finset.range ns.length, ds.getD i 0 * (ns.take i).prod) = ds := by
  intro ns
  induction ns with
  | nil => intro ds h _; simp at h; simp [h, mixed_radix]
  | cons n ns ih =>
    intro ds hlen hlt
    cases ds with
    | nil => simp at hlen
    | cons d ds =>
      have hd : d < n := by simpa using hlt 0 (by simp)
      simp only [List.length_cons, mixed_radix]
      rw [radix_sum_cons]
      have h1 : (d + n * ∑ i in Finset.range ns.length, ds.getD i 0 * (ns.take i).prod) % n = d := by
        rw [Nat.add_mul_mod_self_left]; exact Nat.mod_eq_of_lt hd
      have h2 : (d + n * ∑ i in Finset.range ns.length, ds.getD i 0 * (ns.take i).prod) / n
          = ∑ i in Finset.range ns.length, ds.getD i 0 * (ns.take i).prod := by
        rw [Nat.add_mul_div_left _ _ (by omega), Nat.div_eq_of_lt hd, Nat.zero_add]
      rw [h1, h2, ih ds (by simpa using hlen)
        (fun i hi => by simpa using hlt (i + 1) (by simpa using hi))]

theorem mixed_radix_prod_mul : ∀ (ns : List Nat) (q : Nat), (∀ n ∈ ns, 0 < n) →
    mixed_radix ns (ns.prod * q) = List.replicate ns.length 0 := by
  intro ns
  induction ns with
  | nil => intro q _; rfl
  | cons n ns ih =>
    intro q hn
    have hn0 : 0 < n := hn n (by simp)
    simp only [mixed_radix, List.prod_cons, List.length_cons, List.replicate_succ]
    rw [Nat.mul_assoc, Nat.mul_mod_right, Nat.mul_div_cancel_left _ hn0,
      ih q (fun m hm => hn m (by simp [hm]))]

theorem set_chain_ks_poses_eq (chain_buf : chain_t) (db_entries : Nat → db_entry_t)
    (cur : List Nat) (pos : Nat) (hcnt : chain_buf.cnt ≤ ELEM_CNT_MAX)
    (hcur : cur.length = ELEM_CNT_MAX)
    (hn : ∀ p ∈ chain_buf.buf, 0 < (db_entries p).elems_cnt) :
    set_chain_ks_poses chain_buf db_entries (pos : Int) cur
      = some (mixed_radix (radices (db_elems db_entries) chain_buf.buf) pos ++ cur.drop chain_buf.cnt) := by
  unfold set_chain_ks_poses
  rw [set_chain_ks_poses_loop_eq db_entries _ 0 pos cur (by simpa [chain_t.cnt] using hcnt) hcur hn]
  simp [chain_t.cnt]

/-- C10: `set_chain_ks_poses` writes the little-endian mixed-radix digits of `pos`. -/
theorem set_chain_ks_poses_mixed_radix (chain_buf : chain_t) (db_entries : Nat → db_entry_t)
    (cur : List Nat) (pos : Nat) (hcnt : chain_buf.cnt ≤ ELEM_CNT_MAX)
    (hcur : cur.length = ELEM_CNT_MAX)
    (hn : ∀ p ∈ chain_buf.buf, 0 < (db_entries p).elems_cnt) :
    ∃ cur', set_chain_ks_poses chain_buf db_entries (pos : Int) cur = some cur'
      ∧ cur'.length = ELEM_CNT_MAX
      ∧ (∀ i, chain_buf.cnt ≤ i → cur'.getD i 0 = cur.getD i 0)
      ∧ (pos < (radices (db_elems db_entries) chain_buf.buf).prod →
          (∀ i, i < chain_buf.cnt →
            cur'.getD i 0 < (db_entries (chain_buf.buf.getD i 0)).elems_cnt)
          ∧ (∑ i in Finset.range chain_buf.cnt,
              cur'.getD i 0 * ((radices (db_elems db_entries) chain_buf.buf).take i).prod) = pos
          ∧ (∀ ds : List Nat, ds.length = chain_buf.cnt →
              (∀ i, i < chain_buf.cnt →
                ds.getD i 0 < (db_entries (chain_buf.buf.getD i 0)).elems_cnt) →
              (∑ i in Finset.range chain_buf.cnt,
                ds.getD i 0 * ((radices (db_elems db_entries) chain_buf.buf).take i).prod) = pos →
              ds = cur'.take chain_buf.cnt))
      ∧ (pos = (radices (db_elems db_entries) chain_buf.buf).prod →
          ∀ i, i < chain_buf.cnt → cur'.getD i 0 = 0) := by
  have hrl : (radices (db_elems db_entries) chain_buf.buf).length = chain_buf.cnt := by
    simp [radices, chain_t.cnt]
  have hml : (mixed_radix (radices (db_elems db_entries) chain_buf.buf) pos).length = chain_buf.cnt := by
    rw [mixed_radix_length, hrl]
  have hpos' : ∀ n ∈ radices (db_elems db_entries) chain_buf.buf, 0 < n := by
    intro n hn'
    obtain ⟨p, hp, rfl⟩ := List.mem_map.1 hn'
    exact hn p hp
  have hrad : ∀ i, i < chain_buf.cnt → (radices (db_elems db_entries) chain_buf.buf).getD i 0
      = (db_entries (chain_buf.buf.getD i 0)).elems_cnt := by
    intro i hi
    have hi' : i < chain_buf.buf.length := hi
    simp [radices, db_elems, db_entry_t.elems_cnt, List.getD_eq_getElem?_getD, List.getElem?_map,
      List.getElem?_eq_getElem hi']
  have hfront : ∀ i, i < chain_buf.cnt →
      (mixed_radix (radices (db_elems db_entries) chain_buf.buf) pos ++ cur.drop chain_buf.cnt).getD i 0
        = (mixed_radix (radices (db_elems db_entries) chain_buf.buf) pos).getD i 0 := by
    intro i hi
    rw [List.getD_append _ _ _ _ (by omega)]
  refine ⟨_, set_chain_ks_poses_eq chain_buf db_entries cur pos hcnt hcur hn, ?_, ?_, ?_, ?_⟩
  · rw [List.length_append, hml, List.length_drop]; omega
  · intro i hi
    rw [List.getD_append_right _ _ _ _ (by omega), hml]
    simp only [List.getD_eq_getElem?_getD, List.getElem?_drop]
    congr 2; omega
  · intro hlt
    refine ⟨fun i hi => ?_, ?_, fun ds hdl hdlt hds => ?_⟩
    · rw [hfront i hi, ← hrad i hi]
      exact mixed_radix_lt _ _ _ hpos' (by omega)
    · have hs := mixed_radix_sum _ pos hpos' hlt
      rw [hrl] at hs
      refine Eq.trans (Finset.sum_congr rfl (fun i hi => ?_)) hs
      rw [hfront i (Finset.mem_range.1 hi)]
    · rw [List.take_left' hml]
      have h := mixed_radix_unique (radices (db_elems db_entries) chain_buf.buf) ds (by omega)
        (fun i hi => by rw [hrad i (by omega)]; exact hdlt i (by omega))
      rw [hrl, hds] at h
      exact h.symm
  · intro he i hi
    rw [hfront i hi, he]
    have := mixed_radix_prod_mul (radices (db_elems db_entries) chain_buf.buf) 1 hpos'
    rw [Nat.mul_one] at this
    rw [this, hrl]
    simp [List.getD_eq_getElem?_getD, List.getElem?_replicate, hi]

theorem set_chain_ks_poses_mixed_radix_witness :
    ∃ cur', set_chain_ks_poses { buf := [1, 1], ks_cnt := 4, ks_pos := 0 } (db_init store_ab)
        ((3 : Nat) : Int) (List.replicate ELEM_CNT_MAX 0) = some cur'
      ∧ cur'.length = ELEM_CNT_MAX
      ∧ (∀ i, 2 ≤ i → cur'.getD i 0 = (List.replicate ELEM_CNT_MAX 0).getD i 0)
      ∧ (3 < (radices (db_elems (db_init store_ab)) [1, 1]).prod →
          (∀ i, i < 2 → cur'.getD i 0 < (db_init store_ab (([1, 1] : List Nat).getD i 0)).elems_cnt)
          ∧ (∑ i in Finset.range 2,
              cur'.getD i 0 * ((radices (db_elems (db_init store_ab)) [1, 1]).take i).prod) = 3
          ∧ (∀ ds : List Nat, ds.length = 2 →
              (∀ i, i < 2 → ds.getD i 0 < (db_init store_ab (([1, 1] : List Nat).getD i 0)).elems_cnt) →
              (∑ i in Finset.range 2,
                ds.getD i 0 * ((radices (db_elems (db_init store_ab)) [1, 1]).take i).prod) = 3 →
              ds = cur'.take 2))
      ∧ (3 = (radices (db_elems (db_init store_ab)) [1, 1]).prod →
          ∀ i, i < 2 → cur'.getD i 0 = 0) :=
  set_chain_ks_poses_mixed_radix { buf := [1, 1], ks_cnt := 4, ks_pos := 0 } (db_init store_ab)
    (List.replicate ELEM_CNT_MAX 0) 3 (by decide) (by decide) (by decide)
/-! ## Set-up in closed form -/

theorem chain_ks_loop_eq (db_entries : Nat → db_entry_t) :
    ∀ (rest : List Nat) (acc : Int),
      chain_ks_loop db_entries rest acc
        = acc * ((radices (db_elems db_entries) rest).prod : Nat) := by
  intro rest
  induction rest with
  | nil => intro acc; simp [chain_ks_loop, radices]
  | cons p rest ih =>
    intro acc
    simp only [chain_ks_loop, ih, radices, List.map_cons, List.prod_cons, db_elems,
      db_entry_t.elems_cnt]
    push_cast
    ring

theorem chain_ks_eq (chain_buf : chain_t) (db_entries : Nat → db_entry_t) :
    chain_ks chain_buf db_entries
      = ((radices (db_elems db_entries) chain_buf.buf).prod : Nat) := by
  simp [chain_ks, chain_ks_loop_eq]

theorem chain_valid_with_db_loop_iff (db_entries : Nat → db_entry_t) :
    ∀ rest : List Nat, chain_valid_with_db_loop db_entries rest = true
      ↔ ∀ p ∈ rest, 0 < (db_entries p).elems_cnt := by
  intro rest
  induction rest with
  | nil => simp [chain_valid_with_db_loop]
  | cons p rest ih =>
    simp only [chain_valid_with_db_loop, List.mem_cons, forall_eq_or_imp]
    by_cases h : (db_entries p).elems_cnt = 0
    · simp [h]
    · simp [h, ih]; omega

theorem chain_valid_with_db_iff (chain_buf : chain_t) (db_entries : Nat → db_entry_t) :
    chain_valid_with_db chain_buf db_entries = true
      ↔ ∀ p ∈ chain_buf.buf, 0 < (db_entries p).elems_cnt :=
  chain_valid_with_db_loop_iff db_entries chain_buf.buf

/-- A table that holds the elements of the store `E`. -/
theorem db_elems_eq (db : Nat → db_entry_t) (E : Nat → List (List Nat))
    (h : ∀ k, (db k).elems_buf = E k) : db_elems db = E := by
  funext k; exact h k

theorem db_elems_init (E : Nat → List (List Nat)) : db_elems (db_init E) = E := rfl

theorem chain_ks_congr (db db' : Nat → db_entry_t)
    (h : ∀ k, (db k).elems_buf = (db' k).elems_buf) (c : chain_t) :
    chain_ks c db = chain_ks c db' := by
  rw [chain_ks_eq, chain_ks_eq, db_elems_eq db (db_elems db') h]

theorem chain_valid_with_db_congr (db db' : Nat → db_entry_t)
    (h : ∀ k, (db k).elems_buf = (db' k).elems_buf) (c : chain_t) :
    chain_valid_with_db c db = chain_valid_with_db c db' := by
  rw [Bool.eq_iff_iff, chain_valid_with_db_iff, chain_valid_with_db_iff]
  simp [db_entry_t.elems_cnt, h]

theorem init_chains_fold (db : Nat → db_entry_t) (E : Nat → List (List Nat))
    (h : ∀ k, (db k).elems_buf = E k) (len1 emin emax : Nat) :
    ∀ (idxs : List Nat) (e : db_entry_t),
      idxs.foldl (init_chains_step db len1 emin emax) e
        = { e with chains_buf := (e.chains_buf ++
              (idxs.map (chain_gen_with_idx len1)).filter
                (fun c => chain_valid_with_db c (db_init E) && chain_valid_with_cnt_min c emin
                  && chain_valid_with_cnt_max c emax)) } := by
  intro idxs
  induction idxs with
  | nil => intro e; simp
  | cons i idxs ih =>
    intro e
    have hc : ∀ c, chain_valid_with_db c db = chain_valid_with_db c (db_init E) :=
      fun c => chain_valid_with_db_congr db (db_init E) (by intro k; simp [h, db_init]) c
    simp only [List.foldl_cons, ih, List.map_cons, List.filter_cons]
    unfold init_chains_step
    simp only [hc]
    cases h1 : chain_valid_with_db (chain_gen_with_idx len1 i) (db_init E) <;>
    cases h2 : chain_valid_with_cnt_min (chain_gen_with_idx len1 i) emin <;>
    cases h3 : chain_valid_with_cnt_max (chain_gen_with_idx len1 i) emax <;> simp

/-- Folding a per-length update `db_entries[len] = h (db_entries[len]) len` over distinct lengths. -/
theorem fold_db_set (f : (Nat → db_entry_t) → Nat → (Nat → db_entry_t))
    (h : db_entry_t → Nat → db_entry_t) (P : (Nat → db_entry_t) → Prop)
    (hf : ∀ db len, P db → f db len = db_set db len (h (db len) len))
    (hP : ∀ db len, P db → P (db_set db len (h (db len) len))) :
    ∀ (lens : List Nat) (db : Nat → db_entry_t), lens.Nodup → P db →
      P (lens.foldl f db) ∧
      lens.foldl f db = fun k => if k ∈ lens then h (db k) k else db k := by
  intro lens
  induction lens with
  | nil => intro db _ hdb; exact ⟨hdb, by simp⟩
  | cons len lens ih =>
    intro db hnd hdb
    obtain ⟨hnot, hnd'⟩ := List.nodup_cons.1 hnd
    rw [List.foldl_cons, hf db len hdb]
    obtain ⟨hP', he⟩ := ih (db_set db len (h (db len) len)) hnd' (hP db len hdb)
    refine ⟨hP', ?_⟩
    rw [he]
    funext k
    by_cases hk : k = len
    · subst hk; simp [hnot, db_set]
    · simp [hk, db_set]

theorem pw_lens_nodup (pw_min pw_max : Nat) : (pw_lens pw_min pw_max).Nodup :=
  List.nodup_range' _ _

theorem mem_pw_lens (pw_min pw_max k : Nat) :
    k ∈ pw_lens pw_min pw_max ↔ pw_min ≤ k ∧ k ≤ pw_max := by
  rw [pw_lens, List.mem_range'_1]
  omega

theorem init_chains_eq (E : Nat → List (List Nat)) (pw_min pw_max emin emax : Nat) :
    init_chains pw_min pw_max emin emax (db_init E)
      = fun k => if k ∈ pw_lens pw_min pw_max then
          { elems_buf := E k, chains_buf := valid_chains E emin emax k, chains_pos := 0,
            cur_chain_ks_poses := List.replicate ELEM_CNT_MAX 0 }
        else db_init E k := by
  have key := fold_db_set (init_chains_len emin emax)
    (fun e len => { e with chains_buf := e.chains_buf ++ valid_chains E emin emax len,
                           cur_chain_ks_poses := List.replicate ELEM_CNT_MAX 0 })
    (fun db => ∀ k, (db k).elems_buf = E k)
    (by
      intro db len hdb
      unfold init_chains_len
      simp only [init_chains_fold db E hdb, Nat.shiftLeft_eq, Nat.one_mul, valid_chains])
    (by
      intro db len hdb k
      by_cases hk : k = len
      · subst hk; simp [db_set, hdb]
      · simp [db_set, hk, hdb])
    (pw_lens pw_min pw_max) (db_init E) (pw_lens_nodup _ _) (by intro k; rfl)
  unfold init_chains
  rw [key.2]
  funext k
  by_cases hk : k ∈ pw_lens pw_min pw_max <;> simp [hk, db_init]

theorem calc_keyspace_chains_eq (db : Nat → db_entry_t) (E : Nat → List (List Nat))
    (h : ∀ k, (db k).elems_buf = E k) :
    ∀ (chains done : List chain_t) (tmp : Int),
      calc_keyspace_chains db chains done tmp
        = (done ++ chains.map (fun c => { c with ks_cnt := chain_ks c (db_init E) }),
           tmp + (chains.map (fun c => chain_ks c (db_init E))).sum) := by
  intro chains
  induction chains with
  | nil => intro done tmp; simp [calc_keyspace_chains]
  | cons c chains ih =>
    intro done tmp
    have hc : chain_ks c db = chain_ks c (db_init E) :=
      chain_ks_congr db (db_init E) (by intro k; simp [h, db_init]) c
    simp only [calc_keyspace_chains, ih, hc, List.map_cons, List.sum_cons, List.append_assoc,
      List.singleton_append]
    congr 1
    ring

theorem calc_keyspace_fold (E : Nat → List (List Nat)) :
    ∀ (lens : List Nat) (ks : keyspace_t), lens.Nodup → (∀ k, (ks.db_entries k).elems_buf = E k) →
      (lens.foldl calc_keyspace_len ks).db_entries
          = (fun k => if k ∈ lens then
              { elems_buf := (ks.db_entries k).elems_buf,
                chains_buf := (ks.db_entries k).chains_buf.map
                  (fun c => { c with ks_cnt := chain_ks c (db_init E) }),
                chains_pos := (ks.db_entries k).chains_pos,
                cur_chain_ks_poses := (ks.db_entries k).cur_chain_ks_poses }
            else ks.db_entries k)
      ∧ (lens.foldl calc_keyspace_len ks).total_ks_cnt
          = ks.total_ks_cnt + (lens.map (fun k =>
              ((ks.db_entries k).chains_buf.map (fun c => chain_ks c (db_init E))).sum)).sum
      ∧ (lens.foldl calc_keyspace_len ks).pw_ks_cnt
          = (fun k => if k ∈ lens then
              ((ks.db_entries k).chains_buf.map (fun c => chain_ks c (db_init E))).sum
            else ks.pw_ks_cnt k) := by
  intro lens
  induction lens with
  | nil => intro ks _ _; simp
  | cons len lens ih =>
    intro ks hnd hks
    obtain ⟨hnot, hnd'⟩ := List.nodup_cons.1 hnd
    rw [List.foldl_cons]
    have hstep : calc_keyspace_len ks len =
        { db_entries := db_set ks.db_entries len
            { elems_buf := (ks.db_entries len).elems_buf,
              chains_buf := (ks.db_entries len).chains_buf.map
                (fun c => { c with ks_cnt := chain_ks c (db_init E) }),
              chains_pos := (ks.db_entries len).chains_pos,
              cur_chain_ks_poses := (ks.db_entries len).cur_chain_ks_poses },
          total_ks_cnt := ks.total_ks_cnt
            + ((ks.db_entries len).chains_buf.map (fun c => chain_ks c (db_init E))).sum,
          pw_ks_cnt := fun k => if k = len then
              ((ks.db_entries len).chains_buf.map (fun c => chain_ks c (db_init E))).sum
            else ks.pw_ks_cnt k } := by
      unfold calc_keyspace_len
      simp [calc_keyspace_chains_eq ks.db_entries E hks]
    have hother : ∀ (e1 : db_entry_t) (k : Nat), k ≠ len →
        db_set ks.db_entries len e1 k = ks.db_entries k := by
      intro e1 k hk
      simp [db_set, hk]
    have hself : ∀ e1 : db_entry_t, db_set ks.db_entries len e1 len = e1 := by
      intro e1; simp [db_set]
    obtain ⟨h1, h2, h3⟩ := ih (calc_keyspace_len ks len) hnd' (by
      intro k
      rw [hstep]
      by_cases hk : k = len
      · subst hk; simp [db_set, hks]
      · simp [db_set, hk, hks])
    rw [hstep] at h1 h2 h3
    simp only [] at h1 h2 h3
    rw [hstep]
    have hne : ∀ k ∈ lens, k ≠ len := fun k hk e => hnot (e ▸ hk)
    refine ⟨?_, ?_, ?_⟩
    · rw [h1]
      funext k
      by_cases hk : k = len
      · subst hk; simp only [hnot, if_false, hself, List.mem_cons, true_or, if_true]
      · by_cases hk' : k ∈ lens
        · simp only [hk', if_true, hother _ k hk, List.mem_cons, or_true]
        · simp only [hk', if_false, hother _ k hk, List.mem_cons, hk, or_self]
    · rw [h2]
      simp only [List.map_cons, List.sum_cons]
      have hm : ∀ e1 : db_entry_t,
          lens.map (fun k => (((db_set ks.db_entries len e1) k).chains_buf.map
            (fun c => chain_ks c (db_init E))).sum)
          = lens.map (fun k => ((ks.db_entries k).chains_buf.map
            (fun c => chain_ks c (db_init E))).sum) :=
        fun e1 => List.map_congr_left (fun k hk => by rw [hother e1 k (hne k hk)])
      rw [hm]
      ring
    · rw [h3]
      funext k
      by_cases hk : k = len
      · subst hk; simp [hnot]
      · by_cases hk' : k ∈ lens
        · simp only [hk', if_true, hother _ k hk, List.mem_cons, or_true]
        · simp [hk, hk']

theorem sort_chains_eq (pw_min pw_max : Nat) (db : Nat → db_entry_t) :
    sort_chains pw_min pw_max db
      = fun k => if k ∈ pw_lens pw_min pw_max then
          { elems_buf := (db k).elems_buf, chains_buf := qsort sort_by_ks (db k).chains_buf,
            chains_pos := (db k).chains_pos, cur_chain_ks_poses := (db k).cur_chain_ks_poses }
        else db k := by
  have key := fold_db_set
    (fun db pw_len => db_set db pw_len
      { db pw_len with chains_buf := qsort sort_by_ks (db pw_len).chains_buf })
    (fun e _ => { e with chains_buf := qsort sort_by_ks e.chains_buf })
    (fun _ => True) (fun _ _ _ => rfl) (fun _ _ _ => trivial)
    (pw_lens pw_min pw_max) db (pw_lens_nodup _ _) trivial
  unfold sort_chains
  exact key.2

theorem chains_ks_qsort (chains : List chain_t) :
    chains_ks (qsort sort_by_ks chains) = chains_ks chains := by
  unfold chains_ks qsort
  exact ((List.perm_insertionSort _ chains).map _).sum_eq

theorem chains_ks_bucket (E : Nat → List (List Nat)) (emin emax k : Nat) :
    chains_ks (bucket_chains E emin emax k)
      = ((valid_chains E emin emax k).map (fun c => chain_ks c (db_init E))).sum := by
  unfold bucket_chains
  rw [chains_ks_qsort]
  simp [chains_ks, List.map_map, Function.comp_def]

/-- The set-up of `main` in closed form: the table and the keyspace counters. -/
theorem setup_eq (E : Nat → List (List Nat)) (pw_min pw_max emin emax : Nat) :
    sort_chains pw_min pw_max
        (calc_keyspace pw_min pw_max (init_chains pw_min pw_max emin emax (db_init E))).db_entries
      = db_ready E pw_min pw_max emin emax
    ∧ (calc_keyspace pw_min pw_max (init_chains pw_min pw_max emin emax (db_init E))).total_ks_cnt
      = ((pw_lens pw_min pw_max).map
          (fun k => chains_ks (bucket_chains E emin emax k))).sum
    ∧ (calc_keyspace pw_min pw_max (init_chains pw_min pw_max emin emax (db_init E))).pw_ks_cnt
      = (fun k => if k ∈ pw_lens pw_min pw_max then chains_ks (bucket_chains E emin emax k)
          else 0) := by
  have hinit := init_chains_eq E pw_min pw_max emin emax
  have helems : ∀ k, ((init_chains pw_min pw_max emin emax (db_init E)) k).elems_buf = E k := by
    intro k
    rw [hinit]
    by_cases hk : k ∈ pw_lens pw_min pw_max <;> simp [hk, db_init]
  obtain ⟨h1, h2, h3⟩ := calc_keyspace_fold E (pw_lens pw_min pw_max)
    { db_entries := init_chains pw_min pw_max emin emax (db_init E), total_ks_cnt := 0,
      pw_ks_cnt := fun _ => 0 } (pw_lens_nodup _ _) helems
  have hchains : ∀ k ∈ pw_lens pw_min pw_max,
      ((init_chains pw_min pw_max emin emax (db_init E)) k).chains_buf
        = valid_chains E emin emax k := by
    intro k hk
    rw [hinit]; simp [hk]
  refine ⟨?_, ?_, ?_⟩
  · unfold calc_keyspace
    rw [sort_chains_eq, h1]
    funext k
    by_cases hk : k ∈ pw_lens pw_min pw_max
    · have hk' := (mem_pw_lens _ _ _).1 hk
      simp only [hk, if_true, db_ready, hk', and_self, bucket_chains]
      rw [hinit]
      simp [hk]
    · have hk' : ¬ (pw_min ≤ k ∧ k ≤ pw_max) := fun h => hk ((mem_pw_lens _ _ _).2 h)
      simp only [hk, if_false, db_ready, hk']
      rw [hinit]
      simp [hk]
  · unfold calc_keyspace
    rw [h2]
    simp only [Int.zero_add]
    congr 1
    apply List.map_congr_left
    intro k hk
    rw [chains_ks_bucket, hchains k hk]
  · unfold calc_keyspace
    rw [h3]
    funext k
    by_cases hk : k ∈ pw_lens pw_min pw_max
    · simp only [hk, if_true]
      rw [chains_ks_bucket, hchains k hk]
    · simp [hk]

/-! ## Buckets after the set-up -/

theorem check_options_iff (pw_min pw_max elem_cnt_min elem_cnt_max : Int) :
    check_options pw_min pw_max elem_cnt_min elem_cnt_max = true
      ↔ 1 ≤ pw_min ∧ pw_min ≤ pw_max ∧ pw_max ≤ 16
        ∧ 1 ≤ elem_cnt_min ∧ elem_cnt_min ≤ elem_cnt_max ∧ elem_cnt_max ≤ pw_max := by
  unfold check_options IN_LEN_MIN IN_LEN_MAX
  constructor
  · intro h
    simp at h
    omega
  · intro h
    push_cast
    iterate 9 rw [if_neg (by omega)]

theorem check_options_nat (pw_min pw_max emin emax : Nat)
    (h : check_options pw_min pw_max emin emax = true) :
    1 ≤ pw_min ∧ pw_min ≤ pw_max ∧ pw_max ≤ 16 ∧ 1 ≤ emin ∧ emin ≤ emax ∧ emax ≤ pw_max := by
  have := (check_options_iff _ _ _ _).1 h
  omega

theorem db_ready_chains (E : Nat → List (List Nat)) (pw_min pw_max emin emax L : Nat)
    (h1 : pw_min ≤ L) (h2 : L ≤ pw_max) :
    (db_ready E pw_min pw_max emin emax L).chains_buf = bucket_chains E emin emax L := by
  simp [db_ready, h1, h2]

theorem db_ready_elems (E : Nat → List (List Nat)) (pw_min pw_max emin emax k : Nat) :
    (db_ready E pw_min pw_max emin emax k).elems_buf = E k := by
  unfold db_ready
  split <;> simp [db_init]

theorem db_ready_elems_cnt (E : Nat → List (List Nat)) (pw_min pw_max emin emax k : Nat) :
    (db_ready E pw_min pw_max emin emax k).elems_cnt = (E k).length := by
  simp [db_entry_t.elems_cnt, db_ready_elems]

theorem bucket_chains_bufs_perm (E : Nat → List (List Nat)) (emin emax L : Nat) :
    ((bucket_chains E emin emax L).map (fun c => c.buf)).Perm
      ((valid_chains E emin emax L).map (fun c => c.buf)) := by
  unfold bucket_chains qsort
  refine ((List.perm_insertionSort _ _).map _).trans ?_
  simp [List.map_map, Function.comp_def]

theorem mem_valid_chains_bufs (E : Nat → List (List Nat)) (emin emax L : Nat)
    (hL1 : 1 ≤ L) (hL : L ≤ 16) (parts : List Nat) :
    parts ∈ (valid_chains E emin emax L).map (fun c => c.buf)
      ↔ (∀ p ∈ parts, 0 < p) ∧ parts.sum = L ∧ (∀ p ∈ parts, 0 < (E p).length)
        ∧ emin ≤ parts.length ∧ parts.length ≤ emax := by
  obtain ⟨hprop, _, hsurj⟩ := chain_gen_compositions L hL1 hL
  have hvalid : ∀ c : chain_t,
      (chain_valid_with_db c (db_init E) && chain_valid_with_cnt_min c emin
        && chain_valid_with_cnt_max c emax) = true
      ↔ (∀ p ∈ c.buf, 0 < (E p).length) ∧ emin ≤ c.buf.length ∧ c.buf.length ≤ emax := by
    intro c
    simp only [Bool.and_eq_true, chain_valid_with_db_iff, chain_valid_with_cnt_min,
      chain_valid_with_cnt_max, chain_t.cnt, db_entry_t.elems_cnt, db_init]
    constructor
    · rintro ⟨⟨h1, h2⟩, h3⟩
      refine ⟨h1, ?_, ?_⟩
      · by_contra hc; simp [Nat.lt_of_not_le hc] at h2
      · by_contra hc; simp [Nat.lt_of_not_le hc] at h3
    · rintro ⟨h1, h2, h3⟩
      refine ⟨⟨h1, ?_⟩, ?_⟩
      · simp [Nat.not_lt.2 h2]
      · simp [Nat.not_lt.2 h3]
  simp only [valid_chains, List.mem_map, List.mem_filter, List.mem_range]
  constructor
  · rintro ⟨c, ⟨⟨idx, hidx, rfl⟩, hv⟩, rfl⟩
    obtain ⟨hp, hs, _⟩ := hprop idx hidx
    exact ⟨hp, hs, (hvalid _).1 hv⟩
  · rintro ⟨hp, hs, hrest⟩
    obtain ⟨idx, hidx, e⟩ := hsurj parts hp hs
    exact ⟨chain_gen_with_idx (L - 1) idx, ⟨⟨idx, hidx, rfl⟩, (hvalid _).2 (by rw [e]; exact hrest)⟩, e⟩

theorem valid_chains_bufs_nodup (E : Nat → List (List Nat)) (emin emax L : Nat)
    (hL1 : 1 ≤ L) (hL : L ≤ 16) :
    ((valid_chains E emin emax L).map (fun c => c.buf)).Nodup := by
  obtain ⟨_, hinj, _⟩ := chain_gen_compositions L hL1 hL
  unfold valid_chains
  have hnd : ((List.range (2 ^ (L - 1))).map (chain_gen_with_idx (L - 1))).map (fun c => c.buf)
      |>.Nodup := by
    rw [List.map_map]
    refine (List.nodup_map_iff_inj_on (List.nodup_range _)).2 ?_
    intro i hi j hj h
    exact hinj i j (List.mem_range.1 hi) (List.mem_range.1 hj) h
  exact (List.Sublist.map _ (List.filter_sublist _)).nodup hnd

/-- C8: after the set-up the bucket of a length `L` in `[pw_min, pw_max]` holds
exactly the compositions of `L` whose parts all have elements and whose number
of parts lies in `[elem_cnt_min, elem_cnt_max]`, each once. -/
theorem bucket_holds_valid_compositions (E : Nat → List (List Nat))
    (pw_min pw_max elem_cnt_min elem_cnt_max L : Nat)
    (hopt : check_options pw_min pw_max elem_cnt_min elem_cnt_max = true)
    (h1 : pw_min ≤ L) (h2 : L ≤ pw_max) :
    (∀ parts : List Nat,
      parts ∈ ((sort_chains pw_min pw_max
          (calc_keyspace pw_min pw_max
            (init_chains pw_min pw_max elem_cnt_min elem_cnt_max (db_init E))).db_entries
          L).chains_buf.map (fun c => c.buf))
      ↔ (∀ p ∈ parts, 0 < p) ∧ parts.sum = L ∧ (∀ p ∈ parts, 0 < (E p).length)
        ∧ elem_cnt_min ≤ parts.length ∧ parts.length ≤ elem_cnt_max)
    ∧ ((sort_chains pw_min pw_max
          (calc_keyspace pw_min pw_max
            (init_chains pw_min pw_max elem_cnt_min elem_cnt_max (db_init E))).db_entries
          L).chains_buf.map (fun c => c.buf)).Nodup := by
  obtain ⟨hpw1, _, hpw16, _, _, _⟩ := check_options_nat _ _ _ _ hopt
  have hL1 : 1 ≤ L := by omega
  have hL : L ≤ 16 := by omega
  rw [(setup_eq E pw_min pw_max elem_cnt_min elem_cnt_max).1, db_ready_chains _ _ _ _ _ _ h1 h2]
  have hperm := bucket_chains_bufs_perm E elem_cnt_min elem_cnt_max L
  refine ⟨fun parts => ?_, ?_⟩
  · rw [hperm.mem_iff]
    exact mem_valid_chains_bufs E elem_cnt_min elem_cnt_max L hL1 hL parts
  · exact hperm.nodup_iff.2 (valid_chains_bufs_nodup E elem_cnt_min elem_cnt_max L hL1 hL)

theorem bucket_holds_valid_compositions_witness :
    (∀ parts : List Nat,
      parts ∈ ((sort_chains 1 2
          (calc_keyspace 1 2 (init_chains 1 2 1 2 (db_init store_ab))).db_entries
          2).chains_buf.map (fun c => c.buf))
      ↔ (∀ p ∈ parts, 0 < p) ∧ parts.sum = 2 ∧ (∀ p ∈ parts, 0 < (store_ab p).length)
        ∧ 1 ≤ parts.length ∧ parts.length ≤ 2)
    ∧ ((sort_chains 1 2
          (calc_keyspace 1 2 (init_chains 1 2 1 2 (db_init store_ab))).db_entries
          2).chains_buf.map (fun c => c.buf)).Nodup :=
  bucket_holds_valid_compositions store_ab 1 2 1 2 2 (by decide) (by decide) (by decide)

/-! ## Keyspace -/

/-- C9: `chain_ks` is the product of the element counts of the parts, every
stored chain carries it as `ks_cnt`, the total keyspace is the sum over the
buckets of the sums of `ks_cnt`, and it is 6 for `E[1] = ["a","b"]`, lengths
1..2, 1..2 elements. -/
theorem keyspace_is_sum_of_products (E : Nat → List (List Nat))
    (pw_min pw_max elem_cnt_min elem_cnt_max : Nat) :
    (∀ (chain_buf : chain_t) (db_entries : Nat → db_entry_t),
      chain_ks chain_buf db_entries
        = (((chain_buf.buf.map (fun p => (db_entries p).elems_cnt)).prod : Nat) : Int))
    ∧ (∀ L, pw_min ≤ L → L ≤ pw_max →
        ∀ c ∈ (sort_chains pw_min pw_max
            (calc_keyspace pw_min pw_max
              (init_chains pw_min pw_max elem_cnt_min elem_cnt_max (db_init E))).db_entries
            L).chains_buf,
          c.ks_cnt = (((c.buf.map (fun p => (E p).length)).prod : Nat) : Int))
    ∧ (calc_keyspace pw_min pw_max
          (init_chains pw_min pw_max elem_cnt_min elem_cnt_max (db_init E))).total_ks_cnt
        = ((pw_lens pw_min pw_max).map (fun L =>
            ((sort_chains pw_min pw_max
              (calc_keyspace pw_min pw_max
                (init_chains pw_min pw_max elem_cnt_min elem_cnt_max (db_init E))).db_entries
              L).chains_buf.map (fun c => c.ks_cnt)).sum)).sum
    ∧ (∀ (fuel : Nat) (wl_dist_len : Bool) (skip limit : Int),
        pp fuel store_ab 1 2 1 2 wl_dist_len true skip limit
          = res.done { code := 0, out := [], keyspace := some 6 }) := by
  obtain ⟨hdb, htot, _⟩ := setup_eq E pw_min pw_max elem_cnt_min elem_cnt_max
  refine ⟨fun c db => chain_ks_eq c db, ?_, ?_, ?_⟩
  · intro L h1 h2 c hc
    rw [hdb, db_ready_chains _ _ _ _ _ _ h1 h2] at hc
    unfold bucket_chains qsort at hc
    rw [(List.perm_insertionSort _ _).mem_iff] at hc
    obtain ⟨c0, _, rfl⟩ := List.mem_map.1 hc
    simp [chain_ks_eq, radices, db_elems, db_init]
  · rw [htot, hdb]
    apply congrArg
    apply List.map_congr_left
    intro L hL
    obtain ⟨h1, h2⟩ := (mem_pw_lens _ _ _).1 hL
    rw [db_ready_chains _ _ _ _ _ _ h1 h2]
    rfl
  · intro fuel wl skip limit
    unfold pp
    simp only [if_true]
    rw [(setup_eq store_ab 1 2 1 2).2.1]
    have h6 : ((pw_lens 1 2).map (fun k => chains_ks (bucket_chains store_ab 1 2 k))).sum = 6 := by
      decide
    rw [h6]

theorem keyspace_is_sum_of_products_witness :
    ∀ c ∈ (sort_chains 1 2
        (calc_keyspace 1 2 (init_chains 1 2 1 2 (db_init store_ab))).db_entries 2).chains_buf,
      c.ks_cnt = (((c.buf.map (fun p => (store_ab p).length)).prod : Nat) : Int) :=
  (keyspace_is_sum_of_products store_ab 1 2 1 2).2.1 2 (by decide) (by decide)

/-! ## Candidates of a chain -/

theorem get?_append_length {α : Type} (a : List α) (x : α) (b : List α) :
    (a ++ x :: b).get? a.length = some x := by
  induction a with
  | nil => rfl
  | cons y a ih => simpa using ih

theorem set_append_length {α : Type} (a : List α) (x y : α) (b : List α) :
    (a ++ x :: b).set a.length y = a ++ y :: b := by
  induction a with
  | nil => rfl
  | cons z a ih => simp [ih]

theorem memcpy_splice (pre old tail src : List Nat) (off n : Nat)
    (hoff : pre.length = off) (hold : old.length = n) (hsrc : src.length = n) :
    memcpy (pre ++ old ++ tail) off src n = pre ++ src ++ tail := by
  unfold memcpy
  subst hoff
  have h1 : (pre ++ old ++ tail).take pre.length = pre := by
    rw [List.append_assoc, List.take_left]
  have h2 : (pre ++ old ++ tail).drop (pre.length + n) = tail := by
    have e : pre.length + n = (pre ++ old).length := by simp [hold]
    rw [e, List.drop_left]
  have h3 : src.take n = src := by rw [← hsrc, List.take_length]
  rw [h1, h2, h3]

theorem cur_get_append (cpre : List Nat) (i : Nat) (post : List Nat)
    (h : cpre.length < ELEM_CNT_MAX) :
    cur_get (cpre ++ i :: post) cpre.length = some i := by
  unfold cur_get
  rw [if_pos h, get?_append_length]

theorem getD_mem_length (E : Nat → List (List Nat)) (hE : store_ok E) (p i : Nat)
    (hi : i < (E p).length) : (E p).get? i = some ((E p).getD i []) ∧ ((E p).getD i []).length = p := by
  have hget : (E p).get? i = some ((E p).get ⟨i, hi⟩) := List.get?_eq_get hi
  have hD : (E p).getD i [] = (E p).get ⟨i, hi⟩ := by
    rw [List.getD_eq_getElem?_getD, List.getElem?_eq_getElem hi]; rfl
  rw [hD]
  exact ⟨hget, hE p _ (List.get_mem _ _ _)⟩

theorem candidate_length (E : Nat → List (List Nat)) (hE : store_ok E) :
    ∀ (parts idxs : List Nat), List.Forall₂ (fun p i => i < (E p).length) parts idxs →
      (candidate E parts idxs).length = parts.sum := by
  intro parts idxs h
  induction h with
  | nil => rfl
  | cons hi _ ih =>
    simp only [candidate, List.length_append, List.sum_cons, ih]
    rw [(getD_mem_length E hE _ _ hi).2]

theorem chain_set_pwbuf_init_loop_eq (db : Nat → db_entry_t) (E : Nat → List (List Nat))
    (hdb : ∀ k, (db k).elems_buf = E k) (hE : store_ok E) (cur : List Nat) :
    ∀ (rest idxs : List Nat), List.Forall₂ (fun p i => i < (E p).length) rest idxs →
    ∀ (cpre post pre old tail : List Nat),
      cur = cpre ++ idxs ++ post → cpre.length + rest.length ≤ ELEM_CNT_MAX →
      old.length = rest.sum →
      chain_set_pwbuf_init_loop db cur rest cpre.length (pre ++ old ++ tail) pre.length
        = some (pre ++ candidate E rest idxs ++ tail) := by
  intro rest idxs h
  induction h with
  | nil =>
    intro cpre post pre old tail _ _ hold
    have : old = [] := List.length_eq_zero.1 (by simpa using hold)
    subst this
    simp [chain_set_pwbuf_init_loop, candidate]
  | @cons p i rest idxs hi _ ih =>
    intro cpre post pre old tail hcur hlen hold
    have hlt : cpre.length < ELEM_CNT_MAX := by simp at hlen; omega
    obtain ⟨hget, hel⟩ := getD_mem_length E hE p i hi
    have hcg : cur_get cur cpre.length = some i := by
      rw [hcur, List.append_assoc, List.cons_append]
      exact cur_get_append cpre i _ hlt
    simp only [chain_set_pwbuf_init_loop, hcg, hdb, hget]
    have hsplit : old = old.take p ++ old.drop p := (List.take_append_drop p old).symm
    have holdp : (old.take p).length = p := by
      rw [List.length_take]; simp at hold; omega
    have hm : memcpy (pre ++ old ++ tail) pre.length ((E p).getD i []) p
        = (pre ++ (E p).getD i []) ++ old.drop p ++ tail := by
      have e : pre ++ old ++ tail = pre ++ old.take p ++ (old.drop p ++ tail) := by
        rw [List.append_assoc pre, List.append_assoc pre, ← List.append_assoc (old.take p),
          List.take_append_drop]
      rw [e, memcpy_splice pre (old.take p) (old.drop p ++ tail) _ pre.length p rfl holdp hel]
      simp only [List.append_assoc]
    rw [hm]
    have hoff : pre.length + p = (pre ++ (E p).getD i []).length := by
      rw [List.length_append, hel]
    have hidx : cpre.length + 1 = (cpre ++ [i]).length := by simp
    rw [hoff, hidx, ih (cpre ++ [i]) post (pre ++ (E p).getD i []) (old.drop p) tail
      (by rw [hcur]; simp) (by simp at hlen ⊢; omega)
      (by rw [List.length_drop]; simp at hold; omega)]
    simp only [candidate, List.append_assoc]

theorem chain_set_pwbuf_increment_loop_eq (db : Nat → db_entry_t) (E : Nat → List (List Nat))
    (hdb : ∀ k, (db k).elems_buf = E k) (hE : store_ok E) :
    ∀ (rest idxs : List Nat), List.Forall₂ (fun p i => i < (E p).length) rest idxs →
    ∀ (cpre post pre tail : List Nat), cpre.length + rest.length ≤ ELEM_CNT_MAX →
      chain_set_pwbuf_increment_loop db rest cpre.length (cpre ++ idxs ++ post)
          (pre ++ candidate E rest idxs ++ tail) pre.length
        = some (cpre ++ inc_digits (radices E rest) idxs ++ post,
                pre ++ candidate E rest (inc_digits (radices E rest) idxs) ++ tail) := by
  intro rest idxs h
  induction h with
  | nil =>
    intro cpre post pre tail _
    simp [chain_set_pwbuf_increment_loop, candidate, inc_digits, radices]
  | @cons p i rest idxs hi hrest ih =>
    intro cpre post pre tail hlen
    have hlt : cpre.length < ELEM_CNT_MAX := by simp at hlen; omega
    have hcg : cur_get (cpre ++ i :: idxs ++ post) cpre.length = some i := by
      rw [List.append_assoc, List.cons_append]
      exact cur_get_append cpre i _ hlt
    obtain ⟨hget, hel⟩ := getD_mem_length E hE p i hi
    have hcl : (candidate E rest idxs).length = rest.sum := candidate_length E hE _ _ hrest
    have hbuf : pre ++ candidate E (p :: rest) (i :: idxs) ++ tail
        = pre ++ (E p).getD i [] ++ (candidate E rest idxs ++ tail) := by
      simp only [candidate, List.append_assoc]
    have hset : ∀ v : Nat, (cpre ++ i :: idxs ++ post).set cpre.length v
        = cpre ++ v :: idxs ++ post := by
      intro v
      rw [List.append_assoc, List.cons_append, set_append_length]
      simp
    simp only [chain_set_pwbuf_increment_loop, hcg, hdb, db_entry_t.elems_cnt, inc_digits, radices,
      List.map_cons]
    by_cases hnext : i + 1 < (E p).length
    · obtain ⟨hget1, hel1⟩ := getD_mem_length E hE p (i + 1) hnext
      simp only [hnext, if_true, hget1, hset]
      rw [hbuf, memcpy_splice pre _ _ _ pre.length p rfl hel hel1]
      simp only [candidate, List.append_assoc]
    · have h0 : 0 < (E p).length := by omega
      obtain ⟨hget0, hel0⟩ := getD_mem_length E hE p 0 h0
      simp only [hnext, if_false, hget0, hset]
      rw [hbuf, memcpy_splice pre _ _ _ pre.length p rfl hel hel0]
      have hoff : pre.length + p = (pre ++ (E p).getD 0 []).length := by
        rw [List.length_append, hel0]
      have hidx : cpre.length + 1 = (cpre ++ [0]).length := by simp
      have hc : cpre ++ 0 :: idxs ++ post = (cpre ++ [0]) ++ idxs ++ post := by simp
      have hb : pre ++ (E p).getD 0 [] ++ (candidate E rest idxs ++ tail)
          = (pre ++ (E p).getD 0 []) ++ candidate E rest idxs ++ tail := by
        simp only [List.append_assoc]
      rw [hoff, hidx, hc, hb, ih (cpre ++ [0]) post (pre ++ (E p).getD 0 []) tail
        (by simp at hlen ⊢; omega)]
      simp only [candidate, radices, List.append_assoc, List.singleton_append]

theorem inc_digits_mixed_radix : ∀ (ns : List Nat) (pos : Nat), (∀ n ∈ ns, 0 < n) →
    inc_digits ns (mixed_radix ns pos) = mixed_radix ns (pos + 1) := by
  intro ns
  induction ns with
  | nil => intro pos _; rfl
  | cons n ns ih =>
    intro pos hn
    have hn0 : 0 < n := hn n (by simp)
    have hlt := Nat.mod_lt pos hn0
    have e : pos + 1 = (pos % n + 1) + n * (pos / n) := by
      have := Nat.mod_add_div pos n
      omega
    have h1 : (pos + 1) % n = (pos % n + 1) % n := by
      rw [e, Nat.add_mul_mod_self_left]
    have h2 : (pos + 1) / n = (pos % n + 1) / n + pos / n := by
      rw [e, Nat.add_mul_div_left _ _ hn0]
    simp only [mixed_radix, inc_digits]
    by_cases h : pos % n + 1 < n
    · rw [if_pos h, h1, h2, Nat.mod_eq_of_lt h, Nat.div_eq_of_lt h, Nat.zero_add]
    · have hn1 : pos % n + 1 = n := by omega
      rw [if_neg h, h1, h2, hn1, Nat.mod_self, Nat.div_self hn0, Nat.add_comm 1,
        ih (pos / n) (fun m hm => hn m (by simp [hm]))]

theorem mixed_radix_forall₂ (E : Nat → List (List Nat)) :
    ∀ (parts : List Nat) (pos : Nat), (∀ p ∈ parts, 0 < (E p).length) →
      List.Forall₂ (fun p i => i < (E p).length) parts (mixed_radix (radices E parts) pos) := by
  intro parts
  induction parts with
  | nil => intro pos _; exact List.Forall₂.nil
  | cons p parts ih =>
    intro pos h
    simp only [radices, List.map_cons, mixed_radix]
    exact List.Forall₂.cons (Nat.mod_lt _ (h p (by simp)))
      (ih _ (fun q hq => h q (by simp [hq])))

theorem radices_pos (E : Nat → List (List Nat)) (parts : List Nat)
    (h : ∀ p ∈ parts, 0 < (E p).length) : ∀ n ∈ radices E parts, 0 < n := by
  intro n hn
  obtain ⟨p, hp, rfl⟩ := List.mem_map.1 hn
  exact h p hp

theorem chain_cand_length (E : Nat → List (List Nat)) (hE : store_ok E) (parts : List Nat)
    (h : ∀ p ∈ parts, 0 < (E p).length) (pos : Nat) :
    (chain_cand E parts pos).length = parts.sum :=
  candidate_length E hE _ _ (mixed_radix_forall₂ E parts pos h)

/-- `chain_set_pwbuf_init` on the digits of `pos` writes the candidate of `pos`. -/
theorem chain_set_pwbuf_init_eq (db : Nat → db_entry_t) (E : Nat → List (List Nat))
    (hdb : ∀ k, (db k).elems_buf = E k) (hE : store_ok E) (c : chain_t)
    (hn : ∀ p ∈ c.buf, 0 < (E p).length) (hk : c.buf.length ≤ ELEM_CNT_MAX)
    (pos : Nat) (post old tail : List Nat) (hold : old.length = c.buf.sum) :
    chain_set_pwbuf_init c db (mixed_radix (radices E c.buf) pos ++ post) (old ++ tail)
      = some (chain_cand E c.buf pos ++ tail) := by
  have := chain_set_pwbuf_init_loop_eq db E hdb hE
    (mixed_radix (radices E c.buf) pos ++ post) c.buf _ (mixed_radix_forall₂ E c.buf pos hn)
    [] post [] old tail (by simp) (by simpa using hk) hold
  simpa [chain_set_pwbuf_init, chain_cand] using this

/-- `chain_set_pwbuf_increment` moves the digits and the buffer from `pos` to `pos + 1`. -/
theorem chain_set_pwbuf_increment_eq (db : Nat → db_entry_t) (E : Nat → List (List Nat))
    (hdb : ∀ k, (db k).elems_buf = E k) (hE : store_ok E) (c : chain_t)
    (hn : ∀ p ∈ c.buf, 0 < (E p).length) (hk : c.buf.length ≤ ELEM_CNT_MAX)
    (pos : Nat) (post tail : List Nat) :
    chain_set_pwbuf_increment c db (mixed_radix (radices E c.buf) pos ++ post)
        (chain_cand E c.buf pos ++ tail)
      = some (mixed_radix (radices E c.buf) (pos + 1) ++ post,
              chain_cand E c.buf (pos + 1) ++ tail) := by
  have := chain_set_pwbuf_increment_loop_eq db E hdb hE c.buf _
    (mixed_radix_forall₂ E c.buf pos hn) [] post [] tail (by simpa using hk)
  rw [inc_digits_mixed_radix _ _ (radices_pos E c.buf hn)] at this
  simpa [chain_set_pwbuf_increment, chain_cand] using this

theorem range_succ_map {α : Type} (f : Nat → α) (n : Nat) :
    (List.range (n + 1)).map f = f 0 :: (List.range n).map (fun j => f (j + 1)) := by
  rw [List.range_succ_eq_map]
  simp [List.map_map, Function.comp_def]

theorem emit_loop_eq (db : Nat → db_entry_t) (E : Nat → List (List Nat))
    (hdb : ∀ k, (db k).elems_buf = E k) (hE : store_ok E) (c : chain_t)
    (hn : ∀ p ∈ c.buf, 0 < (E p).length) (hk : c.buf.length ≤ ELEM_CNT_MAX)
    (pw_len : Nat) (hsum : c.buf.sum = pw_len) (post : List Nat) :
    ∀ (n pos : Nat) (out : List (List Nat)),
      emit_loop c db pw_len n (mixed_radix (radices E c.buf) pos ++ post)
          (chain_cand E c.buf pos ++ [10]) out
        = some (mixed_radix (radices E c.buf) (pos + n) ++ post,
                chain_cand E c.buf (pos + n) ++ [10],
                out ++ (List.range n).map (fun j => chain_cand E c.buf (pos + j) ++ [10])) := by
  intro n
  induction n with
  | zero => intro pos out; simp [emit_loop]
  | succ n ih =>
    intro pos out
    have hpush : out_push out (chain_cand E c.buf pos ++ [10]) (pw_len + 1)
        = out ++ [chain_cand E c.buf pos ++ [10]] := by
      unfold out_push
      rw [List.take_of_length_le]
      rw [List.length_append, chain_cand_length E hE c.buf hn pos, hsum]
      simp
    simp only [emit_loop, chain_set_pwbuf_increment_eq db E hdb hE c hn hk pos post [10], hpush]
    rw [ih (pos + 1) _]
    have e1 : pos + 1 + n = pos + (n + 1) := by omega
    have e2 : ∀ j, pos + 1 + j = pos + (j + 1) := fun j => by omega
    rw [e1, range_succ_map]
    simp only [List.append_assoc, List.singleton_append, Nat.add_zero, e2]

theorem enum_loop_eq (db : Nat → db_entry_t) (E : Nat → List (List Nat))
    (hdb : ∀ k, (db k).elems_buf = E k) (hE : store_ok E) (c : chain_t)
    (hn : ∀ p ∈ c.buf, 0 < (E p).length) (hk : c.buf.length ≤ ELEM_CNT_MAX)
    (post : List Nat) :
    ∀ (n pos : Nat),
      enum_loop c db n (mixed_radix (radices E c.buf) pos ++ post) (chain_cand E c.buf pos)
        = some ((List.range (n + 1)).map (fun j => chain_cand E c.buf (pos + j))) := by
  intro n
  induction n with
  | zero => intro pos; simp [enum_loop, List.range_succ]
  | succ n ih =>
    intro pos
    have hinc := chain_set_pwbuf_increment_eq db E hdb hE c hn hk pos post []
    simp only [List.append_nil] at hinc
    have e2 : ∀ j, pos + 1 + j = pos + (j + 1) := fun j => by omega
    simp only [enum_loop, hinc, ih (pos + 1)]
    rw [range_succ_map _ (n + 1)]
    simp only [Nat.add_zero, e2]

theorem mixed_radix_inj (ns : List Nat) (hn : ∀ n ∈ ns, 0 < n) (a b : Nat)
    (ha : a < ns.prod) (hb : b < ns.prod) (h : mixed_radix ns a = mixed_radix ns b) : a = b := by
  rw [← mixed_radix_sum ns a hn ha, ← mixed_radix_sum ns b hn hb, h]

theorem candidate_inj (E : Nat → List (List Nat)) (hE : store_ok E) :
    ∀ (parts is : List Nat), List.Forall₂ (fun p i => i < (E p).length) parts is →
    ∀ js : List Nat, List.Forall₂ (fun p i => i < (E p).length) parts js →
      (∀ p ∈ parts, (E p).Nodup) → candidate E parts is = candidate E parts js → is = js := by
  intro parts is h
  induction h with
  | nil => intro js hj _ _; cases hj; rfl
  | @cons p i parts is hi _ ih =>
    intro js hj hnd heq
    cases hj with
    | @cons _ j _ js' hj1 hj2 =>
      simp only [candidate] at heq
      obtain ⟨hgi, hli⟩ := getD_mem_length E hE p i hi
      obtain ⟨hgj, hlj⟩ := getD_mem_length E hE p j hj1
      obtain ⟨h1, h2⟩ := List.append_inj heq (by rw [hli, hlj])
      have hij : i = j := by
        have hndp := hnd p (by simp)
        have hi' : (E p).getD i [] = (E p).get ⟨i, hi⟩ := by
          rw [List.getD_eq_getElem?_getD, List.getElem?_eq_getElem hi]; rfl
        have hj' : (E p).getD j [] = (E p).get ⟨j, hj1⟩ := by
          rw [List.getD_eq_getElem?_getD, List.getElem?_eq_getElem hj1]; rfl
        rw [hi', hj'] at h1
        have := (List.Nodup.get_inj_iff hndp).1 h1
        exact Fin.mk.inj this
      rw [hij, ih js' hj2 (fun q hq => hnd q (by simp [hq])) h2]

theorem chain_cand_inj (E : Nat → List (List Nat)) (hE : store_ok E) (parts : List Nat)
    (hn : ∀ p ∈ parts, 0 < (E p).length) (hnd : ∀ p ∈ parts, (E p).Nodup) (a b : Nat)
    (ha : a < (radices E parts).prod) (hb : b < (radices E parts).prod)
    (h : chain_cand E parts a = chain_cand E parts b) : a = b :=
  mixed_radix_inj _ (radices_pos E parts hn) a b ha hb
    (candidate_inj E hE parts _ (mixed_radix_forall₂ E parts a hn) _
      (mixed_radix_forall₂ E parts b hn) hnd h)

theorem radices_prod_pos (E : Nat → List (List Nat)) (parts : List Nat)
    (h : ∀ p ∈ parts, 0 < (E p).length) : 0 < (radices E parts).prod :=
  List.prod_pos (radices_pos E parts h)

theorem mixed_radix_zero : ∀ ns : List Nat, mixed_radix ns 0 = List.replicate ns.length 0 := by
  intro ns
  induction ns with
  | nil => rfl
  | cons n ns ih => simp [mixed_radix, ih, List.replicate_succ]

theorem chain_enum_eq (db : Nat → db_entry_t) (c : chain_t) (hE : store_ok (db_elems db))
    (hn : ∀ p ∈ c.buf, 0 < (db p).elems_cnt) (hk : c.cnt ≤ ELEM_CNT_MAX)
    (hks : c.ks_cnt = chain_ks c db) :
    chain_enum c db = some ((List.range (radices (db_elems db) c.buf).prod).map
      (chain_cand (db_elems db) c.buf)) := by
  have hn' : ∀ p ∈ c.buf, 0 < (db_elems db p).length := hn
  have hpos := radices_prod_pos (db_elems db) c.buf hn'
  have hks' : c.ks_cnt = ((radices (db_elems db) c.buf).prod : Nat) := by rw [hks, chain_ks_eq]
  unfold chain_enum
  rw [if_neg (by rw [hks']; exact_mod_cast Nat.not_le.2 hpos)]
  have hset := set_chain_ks_poses_eq c db (List.replicate ELEM_CNT_MAX 0) 0 hk (by simp) hn
  simp only [Nat.cast_zero] at hset
  rw [hset]
  have hinit := chain_set_pwbuf_init_eq db (db_elems db) (fun _ => rfl) hE c hn' hk 0
    ((List.replicate ELEM_CNT_MAX 0).drop c.cnt) (List.replicate c.buf.sum 0) [] (by simp)
  simp only [List.append_nil] at hinit
  simp only [hinit]
  have hen := enum_loop_eq db (db_elems db) (fun _ => rfl) hE c hn' hk
    ((List.replicate ELEM_CNT_MAX 0).drop c.cnt) ((radices (db_elems db) c.buf).prod - 1) 0
  rw [hks', Int.toNat_natCast, hen]
  have e : (radices (db_elems db) c.buf).prod - 1 + 1 = (radices (db_elems db) c.buf).prod := by
    omega
  simp [e]

/-- C6 (as amended): enumerating a valid chain from position 0 yields `ks_cnt`
candidates, each as long as the sum of the parts; they are pairwise distinct
as soon as none of the element lists `E[p_i]` holds an element twice. -/
theorem chain_enum_candidates (db : Nat → db_entry_t) (c : chain_t)
    (hE : store_ok (db_elems db)) (hn : ∀ p ∈ c.buf, 0 < (db p).elems_cnt)
    (hk : c.cnt ≤ ELEM_CNT_MAX) (hks : c.ks_cnt = chain_ks c db) :
    ∃ cands, chain_enum c db = some cands
      ∧ (cands.length : Int) = c.ks_cnt
      ∧ (∀ w ∈ cands, w.length = c.buf.sum)
      ∧ ((∀ p ∈ c.buf, ((db p).elems_buf).Nodup) → cands.Nodup) := by
  have hn' : ∀ p ∈ c.buf, 0 < (db_elems db p).length := hn
  refine ⟨_, chain_enum_eq db c hE hn hk hks, ?_, ?_, ?_⟩
  · rw [hks, chain_ks_eq]; simp
  · intro w hw
    obtain ⟨pos, _, rfl⟩ := List.mem_map.1 hw
    exact chain_cand_length _ hE c.buf hn' pos
  · intro hnd
    refine (List.nodup_map_iff_inj_on (List.nodup_range _)).2 ?_
    intro a ha b hb h
    exact chain_cand_inj _ hE c.buf hn' hnd a b (List.mem_range.1 ha) (List.mem_range.1 hb) h

theorem store_ab_ok : store_ok store_ab := by
  intro p e he
  unfold store_ab at he
  split at he
  · rename_i h; subst h
    simp [bytes] at he
    rcases he with rfl | rfl <;> rfl
  · simp at he

theorem chain_enum_candidates_witness :
    ∃ cands, chain_enum { buf := [1, 1], ks_cnt := 4, ks_pos := 0 } (db_init store_ab) = some cands
      ∧ (cands.length : Int) = 4
      ∧ (∀ w ∈ cands, w.length = 2)
      ∧ ((∀ p ∈ [1, 1], ((db_init store_ab p).elems_buf).Nodup) → cands.Nodup) :=
  chain_enum_candidates (db_init store_ab) { buf := [1, 1], ks_cnt := 4, ks_pos := 0 }
    store_ab_ok (by decide) (by decide) (by decide)

/-- C6 as stated fails: with `E[1] = ["a", "a"]` the chain `(1)` has `ks_cnt = 2`
and its two candidates are the same byte string. -/
theorem chain_enum_duplicates :
    chain_ks { buf := [1], ks_cnt := 2, ks_pos := 0 } (db_init store_aa) = 2
    ∧ chain_enum { buf := [1], ks_cnt := 2, ks_pos := 0 } (db_init store_aa)
        = some [bytes "a", bytes "a"]
    ∧ ¬ [bytes "a", bytes "a"].Nodup := by
  decide


/-! ## One pass through the body of the inner loop -/

theorem chain_seg_length (E : Nat → List (List Nat)) (c : chain_t) (off m : Nat) :
    (chain_seg E c off m).length = m := by
  simp [chain_seg]

theorem chain_seg_drop (E : Nat → List (List Nat)) (c : chain_t) (off m d : Nat) :
    (chain_seg E c off m).drop d = chain_seg E c (off + d) (m - d) := by
  unfold chain_seg
  rcases Nat.lt_or_ge d m with h | h
  · have e : m = d + (m - d) := by omega
    conv_lhs => rw [e, List.range_add, List.map_append]
    rw [List.drop_left' (by simp)]
    simp [List.map_map, Function.comp_def, Nat.add_assoc]
  · rw [List.drop_eq_nil_of_le (by simp; omega)]
    have : m - d = 0 := by omega
    simp [this]

theorem chain_seg_take (E : Nat → List (List Nat)) (c : chain_t) (off m n : Nat) (h : n ≤ m) :
    (chain_seg E c off m).take n = chain_seg E c off n := by
  unfold chain_seg
  rw [← List.map_take, List.take_range, Nat.min_eq_left h]

theorem chain_seg_add (E : Nat → List (List Nat)) (c : chain_t) (off m n : Nat) :
    chain_seg E c off (m + n) = chain_seg E c off m ++ chain_seg E c (off + m) n := by
  unfold chain_seg
  rw [List.range_add, List.map_append]
  simp [List.map_map, Function.comp_def, Nat.add_assoc]

theorem mpz_get_ui_natCast (m : Nat) (h : m < 2 ^ 64) : mpz_get_ui (m : Int) = m := by
  unfold mpz_get_ui
  rw [Int.natAbs_ofNat]
  exact Nat.mod_eq_of_lt h

theorem calc_iter_max_eq (Tn tn K off outs_cnt outs_pos : Nat) (c : chain_t)
    (hk : c.ks_cnt = (K : Int)) (hp : c.ks_pos = (off : Int)) (hoff : off ≤ K) (ht : tn ≤ Tn) :
    calc_iter_max (Tn : Int) (tn : Int) c outs_cnt outs_pos
      = ((min (min (K - off) (Tn - tn)) (outs_cnt - outs_pos) : Nat) : Int) := by
  unfold calc_iter_max
  rw [hk, hp]
  simp only []
  split <;> split <;> omega

theorem outs_emit_eq (E : Nat → List (List Nat)) (hE : store_ok E) (L : Nat) (st : main_t)
    (hdb : ∀ k, (st.db_entries k).elems_buf = E k) (c : chain_t)
    (hn : ∀ p ∈ c.buf, 0 < (E p).length) (hk : c.buf.length ≤ ELEM_CNT_MAX)
    (hsum : c.buf.sum = L) (ksp : Int) (off : Nat)
    (hcur : (st.db_entries L).cur_chain_ks_poses
      = mixed_radix (radices E c.buf) off ++ List.replicate (ELEM_CNT_MAX - c.buf.length) 0)
    (tn sn m : Nat) (ht : st.total_ks_pos = (tn : Int)) (hm : m < 2 ^ 64)
    (x : List Nat) (hx : x.length = L) :
    ∃ x' : List Nat, x'.length = L ∧
      outs_emit (sn : Int) L { buf := c.buf, ks_cnt := ksp, ks_pos := (off : Int) } st (m : Int)
          (x ++ [10])
        = some (mixed_radix (radices E c.buf) (off + m)
                  ++ List.replicate (ELEM_CNT_MAX - c.buf.length) 0,
                x' ++ [10], st.out ++ (chain_seg E c off m).drop (sn - tn)) := by
  have hcnt : ({ buf := c.buf, ks_cnt := ksp, ks_pos := (off : Int) } : chain_t).cnt
      ≤ ELEM_CNT_MAX := hk
  have hn' : ∀ p ∈ c.buf, 0 < (st.db_entries p).elems_cnt := by
    intro p hp
    rw [db_entry_t.elems_cnt, hdb]
    exact hn p hp
  have hcurlen : (st.db_entries L).cur_chain_ks_poses.length = ELEM_CNT_MAX := by
    rw [hcur, List.length_append, mixed_radix_length, List.length_replicate]
    simp [radices]; omega
  have hdrop : (st.db_entries L).cur_chain_ks_poses.drop c.buf.length
      = List.replicate (ELEM_CNT_MAX - c.buf.length) 0 := by
    rw [hcur, List.drop_left' (by rw [mixed_radix_length]; simp [radices])]
  have hset : ∀ pos : Nat,
      set_chain_ks_poses { buf := c.buf, ks_cnt := ksp, ks_pos := (off : Int) } st.db_entries
        (pos : Int) (st.db_entries L).cur_chain_ks_poses
      = some (mixed_radix (radices E c.buf) pos
          ++ List.replicate (ELEM_CNT_MAX - c.buf.length) 0) := by
    intro pos
    rw [set_chain_ks_poses_eq _ st.db_entries _ pos hcnt hcurlen hn', db_elems_eq _ E hdb]
    simp only [chain_t.cnt, hdrop]
  have hlenc : ∀ pos, (chain_cand E c.buf pos).length = L := fun pos => by
    rw [chain_cand_length E hE c.buf hn pos, hsum]
  unfold outs_emit
  simp only [ht, mpz_get_ui_natCast m hm]
  by_cases hgate : (tn : Int) + (m : Int) > (sn : Int)
  · rw [if_pos hgate]
    by_cases hbefore : (tn : Int) < (sn : Int)
    · rw [if_pos hbefore]
      have he : (sn : Int) - (tn : Int) = ((sn - tn : Nat) : Int) := by omega
      have hpos : (off : Int) + ((sn - tn : Nat) : Int) = ((off + (sn - tn) : Nat) : Int) := by
        push_cast; rfl
      simp only [he, hpos, hset]
      rw [mpz_get_ui_natCast _ (by omega)]
      have hinit := chain_set_pwbuf_init_eq st.db_entries E hdb hE
        { buf := c.buf, ks_cnt := ksp, ks_pos := (off : Int) } hn hk (off + (sn - tn))
        (List.replicate (ELEM_CNT_MAX - c.buf.length) 0) x [10] (by rw [hx, hsum])
      simp only [] at hinit
      simp only [hinit]
      have hemit := emit_loop_eq st.db_entries E hdb hE
        { buf := c.buf, ks_cnt := ksp, ks_pos := (off : Int) } hn hk L hsum
        (List.replicate (ELEM_CNT_MAX - c.buf.length) 0) (m - (sn - tn)) (off + (sn - tn)) st.out
      simp only [] at hemit
      rw [hemit]
      refine ⟨chain_cand E c.buf (off + (sn - tn) + (m - (sn - tn))), hlenc _, ?_⟩
      have e1 : off + (sn - tn) + (m - (sn - tn)) = off + m := by omega
      rw [chain_seg_drop]
      simp only [e1, chain_seg]
    · rw [if_neg hbefore]
      have hinit := chain_set_pwbuf_init_eq st.db_entries E hdb hE
        { buf := c.buf, ks_cnt := ksp, ks_pos := (off : Int) } hn hk off
        (List.replicate (ELEM_CNT_MAX - c.buf.length) 0) x [10] (by rw [hx, hsum])
      simp only [] at hinit
      simp only [hcur, hinit, Nat.sub_zero]
      have hemit := emit_loop_eq st.db_entries E hdb hE
        { buf := c.buf, ks_cnt := ksp, ks_pos := (off : Int) } hn hk L hsum
        (List.replicate (ELEM_CNT_MAX - c.buf.length) 0) m off st.out
      simp only [] at hemit
      rw [hemit]
      refine ⟨chain_cand E c.buf (off + m), hlenc _, ?_⟩
      have e0 : sn - tn = 0 := by omega
      simp only [e0, List.drop_zero, chain_seg]
  · rw [if_neg hgate]
    have hpos : (off : Int) + (m : Int) = ((off + m : Nat) : Int) := by push_cast; rfl
    simp only [hpos, hset]
    refine ⟨x, hx, ?_⟩
    have e0 : (chain_seg E c off m).drop (sn - tn) = [] := by
      rw [List.drop_eq_nil_of_le]
      rw [chain_seg_length]; omega
    simp [e0]

theorem outs_body_eq (E : Nat → List (List Nat)) (hE : store_ok E) (L : Nat) (st : main_t)
    (hdb : ∀ k, (st.db_entries k).elems_buf = E k) (c : chain_t) (hc : chain_ok E L c)
    (done' todo : List chain_t) (off : Nat) (hoff : off < (radices E c.buf).prod)
    (hbuf : (st.db_entries L).chains_buf = done' ++ { c with ks_pos := (off : Int) } :: todo)
    (hpos : (st.db_entries L).chains_pos = done'.length)
    (hcur : (st.db_entries L).cur_chain_ks_poses
      = mixed_radix (radices E c.buf) off ++ List.replicate (ELEM_CNT_MAX - c.buf.length) 0)
    (tn Tn sn : Nat) (ht : st.total_ks_pos = (tn : Int)) (htT : tn < Tn)
    (outs_cnt outs_pos : Nat) (houts : outs_pos < outs_cnt) (hw : outs_cnt < 2 ^ 64)
    (x : List Nat) (hx : x.length = L) :
    ∃ x' : List Nat, x'.length = L ∧
      outs_body (Tn : Int) (sn : Int) L outs_cnt outs_pos { c with ks_pos := (off : Int) } st
          (x ++ [10])
        = some
          ({ db_entries := db_set st.db_entries L
              (if off + min (min ((radices E c.buf).prod - off) (Tn - tn)) (outs_cnt - outs_pos)
                  = (radices E c.buf).prod then
                { elems_buf := E L,
                  chains_buf := done' ++ { c with ks_pos := ((radices E c.buf).prod : Nat) } :: todo,
                  chains_pos := done'.length + 1,
                  cur_chain_ks_poses := List.replicate ELEM_CNT_MAX 0 }
              else
                { elems_buf := E L,
                  chains_buf := done' ++
                    { c with ks_pos := ((off + min (min ((radices E c.buf).prod - off) (Tn - tn))
                        (outs_cnt - outs_pos) : Nat) : Int) } :: todo,
                  chains_pos := done'.length,
                  cur_chain_ks_poses := mixed_radix (radices E c.buf)
                      (off + min (min ((radices E c.buf).prod - off) (Tn - tn))
                        (outs_cnt - outs_pos))
                    ++ List.replicate (ELEM_CNT_MAX - c.buf.length) 0 }),
             total_ks_pos := ((tn + min (min ((radices E c.buf).prod - off) (Tn - tn))
                (outs_cnt - outs_pos) : Nat) : Int),
             out := st.out ++ (chain_seg E c off
                (min (min ((radices E c.buf).prod - off) (Tn - tn)) (outs_cnt - outs_pos))).drop
                  (sn - tn) },
           outs_pos + min (min ((radices E c.buf).prod - off) (Tn - tn)) (outs_cnt - outs_pos),
           x' ++ [10]) := by
  obtain ⟨hks, _, hn, hk, hsum⟩ := hc
  generalize hm : min (min ((radices E c.buf).prod - off) (Tn - tn)) (outs_cnt - outs_pos) = m
  have hmlt : m < 2 ^ 64 := by omega
  have him : calc_iter_max (Tn : Int) (tn : Int) { c with ks_pos := (off : Int) }
      outs_cnt outs_pos = (m : Int) := by
    rw [calc_iter_max_eq Tn tn (radices E c.buf).prod off outs_cnt outs_pos
      { c with ks_pos := (off : Int) } hks rfl (le_of_lt hoff) (le_of_lt htT), hm]
  obtain ⟨x', hx', hemit⟩ := outs_emit_eq E hE L st hdb c hn hk hsum c.ks_cnt off hcur tn sn m ht
    hmlt x hx
  refine ⟨x', hx', ?_⟩
  unfold outs_body
  simp only [ht, him, hemit, mpz_get_ui_natCast m hmlt, hbuf, hpos, set_append_length, hdb]
  have hpc : (off : Int) + (m : Int) = ((off + m : Nat) : Int) := by push_cast; rfl
  have htc : (tn : Int) + (m : Int) = ((tn + m : Nat) : Int) := by push_cast; rfl
  simp only [hpc, htc, hks]
  by_cases hend : off + m = (radices E c.buf).prod
  · simp only [hend, if_true]
  · have hend' : ¬ ((off + m : Nat) : Int) = ((radices E c.buf).prod : Nat) := by
      intro h; exact hend (by exact_mod_cast h)
    simp only [hend, hend', if_false]

/-! ## One visit of a bucket -/

theorem chain_seq_length (E : Nat → List (List Nat)) (c : chain_t) :
    (chain_seq E c).length = (radices E c.buf).prod := chain_seg_length E c 0 _

theorem bucket_seq_append (E : Nat → List (List Nat)) (a b : List chain_t) :
    bucket_seq E (a ++ b) = bucket_seq E a ++ bucket_seq E b := by
  simp [bucket_seq, List.flatMap_append]

theorem bucket_seq_cons (E : Nat → List (List Nat)) (c : chain_t) (b : List chain_t) :
    bucket_seq E (c :: b) = chain_seq E c ++ bucket_seq E b := by
  simp [bucket_seq]

theorem bucket_seq_split_length (E : Nat → List (List Nat)) (done : List chain_t) (c : chain_t)
    (todo : List chain_t) :
    (bucket_seq E (done ++ c :: todo)).length
      = (bucket_seq E done).length + (radices E c.buf).prod + (bucket_seq E todo).length := by
  rw [bucket_seq_append, bucket_seq_cons, List.length_append, List.length_append,
    chain_seq_length]
  omega

theorem bucket_seq_drop_take (E : Nat → List (List Nat)) (done : List chain_t) (c : chain_t)
    (todo : List chain_t) (off m : Nat) (hm : off + m ≤ (radices E c.buf).prod) :
    ((bucket_seq E (done ++ c :: todo)).drop ((bucket_seq E done).length + off)).take m
      = chain_seg E c off m := by
  rw [bucket_seq_append, bucket_seq_cons, List.drop_append, List.drop_append_eq_append_drop,
    List.take_append_eq_append_take]
  have h1 : (chain_seq E c).drop off = chain_seg E c off ((radices E c.buf).prod - off) := by
    unfold chain_seq
    rw [chain_seg_drop]; simp
  rw [h1, chain_seg_take _ _ _ _ _ (by omega), chain_seg_length]
  have h2 : m - ((radices E c.buf).prod - off) = 0 := by omega
  rw [h2]
  simp

theorem gate_append {α : Type} (X : List α) (m1 m2 d : Nat) (h : m1 ≤ X.length) :
    (X.take (m1 + m2)).drop d = (X.take m1).drop d ++ ((X.drop m1).take m2).drop (d - m1) := by
  rw [List.take_add, List.drop_append_eq_append_drop, List.length_take, Nat.min_eq_left h]

theorem forall₂_same_chain_append (a' a : List chain_t) (c' c : chain_t)
    (h : List.Forall₂ same_chain a' a) (hc : same_chain c' c) :
    List.Forall₂ same_chain (a' ++ [c']) (a ++ [c]) :=
  List.rel_append h (List.Forall₂.cons hc List.Forall₂.nil)

theorem forall₂_same_chain_refl (l : List chain_t) : List.Forall₂ same_chain l l :=
  List.forall₂_same.2 (fun _ _ => ⟨rfl, rfl⟩)

/-- The entry written by one pass through the body stands `m` records further. -/
theorem bucket_at_step (E : Nat → List (List Nat)) (L : Nat) (done' done : List chain_t)
    (c : chain_t) (todo : List chain_t) (off m : Nat)
    (hchains : ∀ c' ∈ done ++ c :: todo, chain_ok E L c')
    (hd : List.Forall₂ same_chain done' done) (hm : off + m ≤ (radices E c.buf).prod) :
    bucket_at E (done ++ c :: todo) ((bucket_seq E done).length + off + m)
      (if off + m = (radices E c.buf).prod then
        { elems_buf := E L,
          chains_buf := done' ++ { c with ks_pos := ((radices E c.buf).prod : Nat) } :: todo,
          chains_pos := done'.length + 1,
          cur_chain_ks_poses := List.replicate ELEM_CNT_MAX 0 }
      else
        { elems_buf := E L,
          chains_buf := done' ++ { c with ks_pos := ((off + m : Nat) : Int) } :: todo,
          chains_pos := done'.length,
          cur_chain_ks_poses := mixed_radix (radices E c.buf) (off + m)
            ++ List.replicate (ELEM_CNT_MAX - c.buf.length) 0 }) := by
  by_cases hend : off + m = (radices E c.buf).prod
  · rw [if_pos hend]
    cases todo with
    | nil =>
      right
      refine ⟨?_, ?_, ?_, rfl⟩
      · rw [bucket_seq_split_length]; simp [bucket_seq]; omega
      · exact forall₂_same_chain_append _ _ _ _ hd ⟨rfl, rfl⟩
      · simp [hd.length_eq]
    | cons c2 todo2 =>
      left
      obtain ⟨_, hp2, _, hk2, _⟩ := hchains c2 (by simp)
      refine ⟨done' ++ [{ c with ks_pos := ((radices E c.buf).prod : Nat) }], done ++ [c], c2,
        todo2, 0, by simp, forall₂_same_chain_append _ _ _ _ hd ⟨rfl, rfl⟩, ?_, ?_, ?_, ?_, ?_⟩
      · obtain ⟨_, _, hn2, _, _⟩ := hchains c2 (by simp)
        exact radices_prod_pos E c2.buf hn2
      · rw [bucket_seq_append, List.length_append]
        simp only [bucket_seq, List.flatMap_cons, List.flatMap_nil, List.append_nil,
          chain_seq_length]
        omega
      · have : ({ c2 with ks_pos := ((0 : Nat) : Int) } : chain_t) = c2 := by
          cases c2; simp at hp2 ⊢; exact hp2.symm
        rw [this]; simp
      · simp
      · rw [mixed_radix_zero, ← List.replicate_add]
        simp [radices]; omega
  · rw [if_neg hend]
    left
    exact ⟨done', done, c, todo, off + m, rfl, hd, by omega, by omega, rfl, rfl, rfl⟩

theorem outs_loop_eq (E : Nat → List (List Nat)) (hE : store_ok E) (L : Nat)
    (chains : List chain_t) (hchains : ∀ c ∈ chains, chain_ok E L c)
    (Tn sn outs_cnt : Nat) (hw : outs_cnt < 2 ^ 64) :
    ∀ (fuel : Nat) (st : main_t) (outs_pos p tn : Nat) (x : List Nat),
      (∀ k, (st.db_entries k).elems_buf = E k) → bucket_at E chains p (st.db_entries L) →
      st.total_ks_pos = (tn : Int) → tn < Tn → outs_pos ≤ outs_cnt →
      outs_cnt - outs_pos ≤ fuel → x.length = L →
      ∃ st', outs_loop (Tn : Int) (sn : Int) L outs_cnt fuel st outs_pos (x ++ [10]) = res.done st'
        ∧ (∀ k, k ≠ L → st'.db_entries k = st.db_entries k)
        ∧ (∀ k, (st'.db_entries k).elems_buf = E k)
        ∧ bucket_at E chains
            (p + min (min (outs_cnt - outs_pos) ((bucket_seq E chains).length - p)) (Tn - tn))
            (st'.db_entries L)
        ∧ st'.total_ks_pos
            = ((tn + min (min (outs_cnt - outs_pos) ((bucket_seq E chains).length - p))
                (Tn - tn) : Nat) : Int)
        ∧ st'.out = st.out ++ (((bucket_seq E chains).drop p).take
            (min (min (outs_cnt - outs_pos) ((bucket_seq E chains).length - p)) (Tn - tn))).drop
              (sn - tn) := by
  intro fuel
  induction fuel with
  | zero =>
    intro st outs_pos p tn x hdb hat ht htT ho hfuel hx
    have hoo : ¬ outs_pos < outs_cnt := by omega
    have hm0 : outs_cnt - outs_pos = 0 := by omega
    refine ⟨st, ?_, fun _ _ => rfl, hdb, ?_, ?_, ?_⟩
    · unfold outs_loop; simp [hoo]
    · simpa [hm0] using hat
    · simp [hm0, ht]
    · simp [hm0]
  | succ fuel ih =>
    intro st outs_pos p tn x hdb hat ht htT ho hfuel hx
    by_cases hoo : outs_pos < outs_cnt
    · rcases hat with ⟨done', done, c, todo, off, hsplit, hd, hoff, hp, hbuf, hpos, hcur⟩ |
        ⟨hp, hall, hpos, hcur⟩
      · -- inside the chain `c`
        have hcok : chain_ok E L c := hchains c (by rw [hsplit]; simp)
        obtain ⟨x', hx', hbody⟩ := outs_body_eq E hE L st hdb c hcok done' todo off hoff hbuf
          hpos hcur tn Tn sn ht htT outs_cnt outs_pos hoo hw x hx
        generalize hm1 : min (min ((radices E c.buf).prod - off) (Tn - tn))
          (outs_cnt - outs_pos) = m1 at hbody
        have hm1pos : 0 < m1 := by omega
        have hlen : (bucket_seq E chains).length
            = (bucket_seq E done).length + (radices E c.buf).prod + (bucket_seq E todo).length := by
          rw [hsplit, bucket_seq_split_length]
        have hne : ¬ (st.db_entries L).chains_pos = (st.db_entries L).chains_cnt := by
          rw [hpos, db_entry_t.chains_cnt, hbuf]; simp
        have hget : (st.db_entries L).chains_buf.get? (st.db_entries L).chains_pos
            = some { c with ks_pos := (off : Int) } := by
          rw [hpos, hbuf, get?_append_length]
        have hat1 := bucket_at_step E L done' done c todo off m1 (by rw [← hsplit]; exact hchains)
          hd (by omega)
        rw [← hsplit, ← hp] at hat1
        have hseg : ((bucket_seq E chains).drop p).take m1 = chain_seg E c off m1 := by
          rw [hsplit, hp]
          exact bucket_seq_drop_take E done c todo off m1 (by omega)
        unfold outs_loop
        simp only [hoo, if_true, hne, if_false, hget, hbody]
        by_cases hfin : ((tn + m1 : Nat) : Int) = (Tn : Int)
        · -- the limit is reached
          have hfin' : tn + m1 = Tn := by exact_mod_cast hfin
          have hm : min (min (outs_cnt - outs_pos) ((bucket_seq E chains).length - p)) (Tn - tn)
              = m1 := by omega
          rw [if_pos hfin, hm]
          refine ⟨_, rfl, fun k hk => by simp [db_set, hk], ?_, ?_, rfl, ?_⟩
          · intro k
            by_cases hk : k = L
            · subst hk; simp only [db_set, if_true]; split <;> rfl
            · simp [db_set, hk, hdb]
          · simpa [db_set] using hat1
          · simp only [hseg]
        · rw [if_neg hfin]
          have hfin' : tn + m1 < Tn := by
            have : tn + m1 ≠ Tn := fun h => hfin (by exact_mod_cast h)
            omega
          obtain ⟨st', hrun, hframe, helems, hat', htot', hout'⟩ := ih
            { db_entries := db_set st.db_entries L
                (if off + m1 = (radices E c.buf).prod then
                  { elems_buf := E L,
                    chains_buf := done' ++ { c with ks_pos := ((radices E c.buf).prod : Nat) } :: todo,
                    chains_pos := done'.length + 1,
                    cur_chain_ks_poses := List.replicate ELEM_CNT_MAX 0 }
                else
                  { elems_buf := E L,
                    chains_buf := done' ++ { c with ks_pos := ((off + m1 : Nat) : Int) } :: todo,
                    chains_pos := done'.length,
                    cur_chain_ks_poses := mixed_radix (radices E c.buf) (off + m1)
                      ++ List.replicate (ELEM_CNT_MAX - c.buf.length) 0 }),
              total_ks_pos := ((tn + m1 : Nat) : Int),
              out := st.out ++ (chain_seg E c off m1).drop (sn - tn) }
            (outs_pos + m1) (p + m1) (tn + m1) x'
            (by
              intro k
              by_cases hk : k = L
              · subst hk; simp only [db_set, if_true]; split <;> rfl
              · simp [db_set, hk, hdb])
            (by simpa [db_set] using hat1) rfl hfin' (by omega) (by omega) hx'
          have hm : min (min (outs_cnt - outs_pos) ((bucket_seq E chains).length - p)) (Tn - tn)
              = m1 + min (min (outs_cnt - (outs_pos + m1))
                  ((bucket_seq E chains).length - (p + m1))) (Tn - (tn + m1)) := by omega
          generalize hm2 : min (min (outs_cnt - (outs_pos + m1))
            ((bucket_seq E chains).length - (p + m1))) (Tn - (tn + m1)) = m2 at *
          rw [hm]
          refine ⟨st', hrun, ?_, helems, ?_, ?_, ?_⟩
          · intro k hk
            rw [hframe k hk]; simp [db_set, hk]
          · rw [← Nat.add_assoc]; exact hat'
          · rw [htot']; congr 1; omega
          · rw [hout']
            simp only [List.append_assoc]
            congr 1
            rw [gate_append _ m1 m2 (sn - tn) (by rw [List.length_drop]; omega), hseg,
              List.drop_drop]
            have e : sn - (tn + m1) = sn - tn - m1 := by omega
            rw [e]
      · -- behind the last chain
        have hlen := hall.length_eq
        have hm0 : (bucket_seq E chains).length - p = 0 := by omega
        refine ⟨st, ?_, fun _ _ => rfl, hdb, ?_, ?_, ?_⟩
        · unfold outs_loop
          simp [hoo, hpos, db_entry_t.chains_cnt, hlen]
        · simp only [hm0, Nat.min_zero, Nat.zero_min, Nat.add_zero]
          exact Or.inr ⟨hp, hall, hpos, hcur⟩
        · simp [hm0, ht]
        · simp [hm0]
    · have hm0 : outs_cnt - outs_pos = 0 := by omega
      refine ⟨st, ?_, fun _ _ => rfl, hdb, ?_, ?_, ?_⟩
      · unfold outs_loop; simp [hoo]
      · simpa [hm0] using hat
      · simp [hm0, ht]
      · simp [hm0]

/-! ## Rounds of the main loop -/

theorem take_min_length {α : Type} (X : List α) (a b : Nat) :
    X.take (min (min a X.length) b) = (X.take a).take b := by
  rw [List.take_take, List.take_eq_take]
  omega

theorem gate_take_append {α : Type} (A B : List α) (n d : Nat) :
    ((A ++ B).take n).drop d = (A.take n).drop d ++ (B.take (n - A.length)).drop (d - A.length) := by
  rw [List.take_append_eq_append_take, List.drop_append_eq_append_drop, List.length_take]
  rcases Nat.le_total n A.length with h | h
  · have h1 : n - A.length = 0 := by omega
    simp [h1]
  · rw [Nat.min_eq_right h]

theorem bucket_at_le (E : Nat → List (List Nat)) (chains : List chain_t) (p : Nat)
    (e : db_entry_t) (h : bucket_at E chains p e) : p ≤ (bucket_seq E chains).length := by
  rcases h with ⟨done', done, c, todo, off, hsplit, _, hoff, hp, _⟩ | ⟨hp, _⟩
  · rw [hsplit, bucket_seq_split_length]; omega
  · omega

theorem round_seg_cons (S : Nat → List (List Nat)) (w : Nat → Nat) (L : Nat) (ord : List Nat)
    (p : Nat → Nat) :
    round_seg S w (L :: ord) p = ((S L).drop (p L)).take (w L) ++ round_seg S w ord p := by
  simp [round_seg]

theorem round_seg_congr (S : Nat → List (List Nat)) (w : Nat → Nat) (ord : List Nat)
    (p q : Nat → Nat) (h : ∀ L ∈ ord, p L = q L) : round_seg S w ord p = round_seg S w ord q := by
  unfold round_seg
  induction ord with
  | nil => rfl
  | cons L ord ih =>
    simp only [List.flatMap_cons]
    rw [h L (by simp), ih (fun K hK => h K (by simp [hK]))]

theorem order_loop_eq (E : Nat → List (List Nat)) (hE : store_ok E)
    (chainsOf : Nat → List chain_t) (hchains : ∀ L, ∀ c ∈ chainsOf L, chain_ok E L c)
    (w : Nat → Nat) (Tn sn : Nat) :
    ∀ (ord : List pw_order_t), (ord.map (fun o => o.len)).Nodup →
      (∀ o ∈ ord, w o.len < 2 ^ 64) →
    ∀ (st : main_t) (p : Nat → Nat) (tn : Nat),
      sched_at E chainsOf p st.db_entries → st.total_ks_pos = (tn : Int) → tn < Tn →
      ∃ st', order_loop (Tn : Int) (sn : Int) w ord st = res.done st'
        ∧ st'.total_ks_pos = ((tn + min
            (round_seg (fun L => bucket_seq E (chainsOf L)) w (ord.map (fun o => o.len)) p).length
            (Tn - tn) : Nat) : Int)
        ∧ st'.out = st.out ++
            ((round_seg (fun L => bucket_seq E (chainsOf L)) w (ord.map (fun o => o.len)) p).take
              (Tn - tn)).drop (sn - tn)
        ∧ (tn + (round_seg (fun L => bucket_seq E (chainsOf L)) w
              (ord.map (fun o => o.len)) p).length < Tn →
            sched_at E chainsOf
              (round_adv (fun L => bucket_seq E (chainsOf L)) w (ord.map (fun o => o.len)) p)
              st'.db_entries) := by
  intro ord
  induction ord with
  | nil =>
    intro _ _ st p tn hat ht htT
    refine ⟨st, by simp [order_loop], by simp [round_seg, ht], by simp [round_seg], ?_⟩
    intro _
    have : round_adv (fun L => bucket_seq E (chainsOf L)) w [] p = p := by
      funext L; simp [round_adv]
    simpa [this] using hat
  | cons o ord ih =>
    intro hnd hw st p tn hat ht htT
    simp only [List.map_cons, List.nodup_cons] at hnd
    obtain ⟨hnot, hnd'⟩ := hnd
    obtain ⟨hdb, hbk⟩ := hat
    obtain ⟨st1, hrun, hframe, helems, hat1, htot1, hout1⟩ :=
      outs_loop_eq E hE o.len (chainsOf o.len) (hchains o.len) Tn sn (w o.len)
        (hw o (by simp)) (w o.len) st 0 (p o.len) tn (List.replicate o.len 0) hdb (hbk o.len) ht
        htT (Nat.zero_le _) (by omega) (by simp)
    simp only [Nat.sub_zero] at hat1 htot1 hout1
    generalize hS : bucket_seq E (chainsOf o.len) = S at hat1 htot1 hout1
    have hple : p o.len ≤ S.length := by
      rw [← hS]; exact bucket_at_le E _ _ _ (hbk o.len)
    -- the records this bucket contributes to the round
    have hseg1 : (((S.drop (p o.len)).take (w o.len)).length : Nat)
        = min (w o.len) (S.length - p o.len) := by
      rw [List.length_take, List.length_drop]
    have htake : (S.drop (p o.len)).take (min (min (w o.len) (S.length - p o.len)) (Tn - tn))
        = ((S.drop (p o.len)).take (w o.len)).take (Tn - tn) := by
      have := take_min_length (S.drop (p o.len)) (w o.len) (Tn - tn)
      rw [List.length_drop] at this
      exact this
    rw [htake] at hout1
    simp only [List.map_cons, round_seg_cons, hS]
    generalize hA : (S.drop (p o.len)).take (w o.len) = A at *
    generalize hR : round_seg (fun L => bucket_seq E (chainsOf L)) w
      (ord.map (fun o => o.len)) p = R
    unfold order_loop
    simp only [hrun]
    by_cases hfin : st1.total_ks_pos = (Tn : Int)
    · rw [if_pos hfin]
      have hfin' : tn + min (min (w o.len) (S.length - p o.len)) (Tn - tn) = Tn := by
        rw [htot1] at hfin; exact_mod_cast hfin
      have hAlen : Tn - tn ≤ A.length := by omega
      refine ⟨st1, rfl, ?_, ?_, ?_⟩
      · rw [htot1, List.length_append]; congr 1; omega
      · rw [hout1, List.take_append_of_le_length hAlen]
      · intro h; rw [List.length_append] at h; omega
    · rw [if_neg hfin]
      have hfin' : tn + min (min (w o.len) (S.length - p o.len)) (Tn - tn) ≠ Tn := by
        intro h; apply hfin; rw [htot1]; exact_mod_cast h
      have hm : min (min (w o.len) (S.length - p o.len)) (Tn - tn) = A.length := by omega
      rw [hm] at hat1 htot1
      have hAlt : tn + A.length < Tn := by omega
      -- positions after the visit
      have hat1' : sched_at E chainsOf
          (fun k => if k = o.len then p o.len + A.length else p k) st1.db_entries := by
        refine ⟨helems, fun k => ?_⟩
        by_cases hk : k = o.len
        · subst hk; simp only [if_true]; exact hat1
        · simp only [hk, if_false]; rw [hframe k hk]; exact hbk k
      obtain ⟨st', hrun', htot', hout', hsched'⟩ := ih hnd' (fun o' ho' => hw o' (by simp [ho']))
        st1 _ (tn + A.length) hat1' htot1 hAlt
      have hcongr : round_seg (fun L => bucket_seq E (chainsOf L)) w (ord.map (fun o => o.len))
          (fun k => if k = o.len then p o.len + A.length else p k) = R := by
        rw [← hR]
        apply round_seg_congr
        intro K hK
        have : K ≠ o.len := fun e => hnot (e ▸ hK)
        simp [this]
      rw [hcongr] at htot' hout' hsched'
      refine ⟨st', hrun', ?_, ?_, ?_⟩
      · rw [htot', List.length_append]; congr 1; omega
      · rw [hout', hout1, gate_take_append, List.append_assoc,
          List.take_of_length_le (by omega : A.length ≤ Tn - tn), Nat.sub_add_eq, Nat.sub_add_eq]
      · intro h
        rw [List.length_append] at h
        have hs := hsched' (by omega)
        have hadv : round_adv (fun L => bucket_seq E (chainsOf L)) w
            (ord.map (fun o => o.len)) (fun k => if k = o.len then p o.len + A.length else p k)
            = round_adv (fun L => bucket_seq E (chainsOf L)) w
              (o.len :: ord.map (fun o => o.len)) p := by
          funext K
          unfold round_adv
          by_cases hK : K = o.len
          · subst hK
            simp only [hnot, if_false, if_true, List.mem_cons, true_or, hS]
            omega
          · simp [hK]
        rw [hadv] at hs
        exact hs

theorem main_loop_done (total_ks_cnt skip : Int) (w : Nat → Nat) (ord : List pw_order_t)
    (fuel : Nat) (st : main_t) (h : ¬ st.total_ks_pos < total_ks_cnt) :
    main_loop total_ks_cnt skip w ord fuel st = res.done st := by
  unfold main_loop
  simp [h]

theorem main_loop_eq (E : Nat → List (List Nat)) (hE : store_ok E)
    (chainsOf : Nat → List chain_t) (hchains : ∀ L, ∀ c ∈ chainsOf L, chain_ok E L c)
    (w : Nat → Nat) (Tn sn : Nat) (ord : List pw_order_t)
    (hnd : (ord.map (fun o => o.len)).Nodup) (hw : ∀ o ∈ ord, w o.len < 2 ^ 64) :
    ∀ (fuel : Nat) (st : main_t) (p : Nat → Nat) (tn : Nat),
      sched_at E chainsOf p st.db_entries → st.total_ks_pos = (tn : Int) → tn ≤ Tn →
      Tn ≤ tn + (rounds_seq (fun L => bucket_seq E (chainsOf L)) w (ord.map (fun o => o.len))
        fuel p).length →
      ∃ st', main_loop (Tn : Int) (sn : Int) w ord fuel st = res.done st'
        ∧ st'.total_ks_pos = (Tn : Int)
        ∧ st'.out = st.out ++
            ((rounds_seq (fun L => bucket_seq E (chainsOf L)) w (ord.map (fun o => o.len))
              fuel p).take (Tn - tn)).drop (sn - tn) := by
  intro fuel
  induction fuel with
  | zero =>
    intro st p tn _ ht htT hlen
    simp only [rounds_seq, List.length_nil, Nat.add_zero] at hlen
    have e : tn = Tn := by omega
    refine ⟨st, main_loop_done _ _ _ _ _ _ (by rw [ht, e]; exact lt_irrefl _), by rw [ht, e], ?_⟩
    simp [rounds_seq]
  | succ fuel ih =>
    intro st p tn hat ht htT hlen
    by_cases hlt : tn < Tn
    · obtain ⟨st1, hrun, htot1, hout1, hsched1⟩ :=
        order_loop_eq E hE chainsOf hchains w Tn sn ord hnd hw st p tn hat ht hlt
      simp only [rounds_seq, List.length_append] at hlen ⊢
      generalize hA : round_seg (fun L => bucket_seq E (chainsOf L)) w
        (ord.map (fun o => o.len)) p = A at *
      generalize hR : rounds_seq (fun L => bucket_seq E (chainsOf L)) w
        (ord.map (fun o => o.len)) fuel
        (round_adv (fun L => bucket_seq E (chainsOf L)) w (ord.map (fun o => o.len)) p) = R at *
      have hcond : st.total_ks_pos < (Tn : Int) := by rw [ht]; exact_mod_cast hlt
      unfold main_loop
      simp only [hcond, if_true, hrun]
      by_cases hfin : tn + A.length < Tn
      · obtain ⟨st', hrun', htot', hout'⟩ := ih st1 _ (tn + A.length) (hsched1 hfin)
          (by rw [htot1]; congr 1; omega) (le_of_lt hfin) (by rw [hR]; omega)
        rw [hR] at hout'
        refine ⟨st', hrun', htot', ?_⟩
        rw [hout', hout1, gate_take_append, List.append_assoc,
          List.take_of_length_le (by omega : A.length ≤ Tn - tn), Nat.sub_add_eq, Nat.sub_add_eq]
      · have htot1' : st1.total_ks_pos = (Tn : Int) := by rw [htot1]; congr 1; omega
        refine ⟨st1, main_loop_done _ _ _ _ _ _ (by rw [htot1']; exact lt_irrefl _), htot1', ?_⟩
        rw [hout1, List.take_append_of_le_length (by omega)]
    · have e : tn = Tn := by omega
      refine ⟨st, main_loop_done _ _ _ _ _ _ (by rw [ht, e]; exact lt_irrefl _), by rw [ht, e], ?_⟩
      simp [e]

/-! ## The sequence of all rounds -/

theorem round_seg_length (S : Nat → List (List Nat)) (w : Nat → Nat) (ord : List Nat)
    (p : Nat → Nat) :
    (round_seg S w ord p).length = (ord.map (fun L => min (w L) ((S L).length - p L))).sum := by
  unfold round_seg
  rw [List.length_flatMap]
  congr 1
  apply List.map_congr_left
  intro L _
  simp [List.length_take, List.length_drop]

theorem rounds_rem_adv (S : Nat → List (List Nat)) (w : Nat → Nat) (ord : List Nat)
    (p : Nat → Nat) :
    (round_seg S w ord p).length + rounds_rem S ord (round_adv S w ord p) = rounds_rem S ord p := by
  rw [round_seg_length]
  unfold rounds_rem
  have hadv : ord.map (fun L => (S L).length - round_adv S w ord p L)
      = ord.map (fun L => (S L).length - (p L + min (w L) ((S L).length - p L))) := by
    apply List.map_congr_left
    intro L hL
    simp [round_adv, hL]
  rw [hadv]
  clear hadv
  induction ord with
  | nil => rfl
  | cons L ord ih =>
    simp only [List.map_cons, List.sum_cons]
    omega

theorem round_seg_pos (S : Nat → List (List Nat)) (w : Nat → Nat) (ord : List Nat)
    (hw : ∀ L ∈ ord, 0 < w L) (p : Nat → Nat) (h : 0 < rounds_rem S ord p) :
    0 < (round_seg S w ord p).length := by
  rw [round_seg_length]
  unfold rounds_rem at h
  induction ord with
  | nil => simp at h
  | cons L ord ih =>
    simp only [List.map_cons, List.sum_cons] at h ⊢
    have hwL := hw L (by simp)
    by_cases hL : 0 < (S L).length - p L
    · omega
    · have := ih (fun K hK => hw K (by simp [hK])) (by omega)
      omega

theorem rounds_seq_length_le (S : Nat → List (List Nat)) (w : Nat → Nat) (ord : List Nat) :
    ∀ (n : Nat) (p : Nat → Nat), (rounds_seq S w ord n p).length ≤ rounds_rem S ord p := by
  intro n
  induction n with
  | zero => intro p; simp [rounds_seq]
  | succ n ih =>
    intro p
    simp only [rounds_seq, List.length_append]
    have := rounds_rem_adv S w ord p
    have := ih (round_adv S w ord p)
    omega

/-- With positive weights, `n` rounds deliver everything once `n` reaches what is left. -/
theorem rounds_seq_length (S : Nat → List (List Nat)) (w : Nat → Nat) (ord : List Nat)
    (hw : ∀ L ∈ ord, 0 < w L) :
    ∀ (n : Nat) (p : Nat → Nat), rounds_rem S ord p ≤ n →
      (rounds_seq S w ord n p).length = rounds_rem S ord p := by
  intro n
  induction n with
  | zero => intro p h; simp [rounds_seq]; omega
  | succ n ih =>
    intro p h
    simp only [rounds_seq, List.length_append]
    have hadv := rounds_rem_adv S w ord p
    rcases Nat.eq_zero_or_pos (rounds_rem S ord p) with h0 | h0
    · have := rounds_seq_length_le S w ord n (round_adv S w ord p)
      omega
    · have := round_seg_pos S w ord hw p h0
      rw [ih (round_adv S w ord p) (by omega)]
      omega

theorem rounds_seq_add (S : Nat → List (List Nat)) (w : Nat → Nat) (ord : List Nat) :
    ∀ (a b : Nat) (p : Nat → Nat),
      rounds_seq S w ord (a + b) p
        = rounds_seq S w ord a p ++ rounds_seq S w ord b ((round_adv S w ord)^[a] p) := by
  intro a
  induction a with
  | zero => intro b p; simp [rounds_seq]
  | succ a ih =>
    intro b p
    have e : a + 1 + b = (a + b) + 1 := by omega
    rw [e]
    simp only [rounds_seq, ih, Function.iterate_succ, Function.comp, List.append_assoc]

theorem rounds_rem_iterate (S : Nat → List (List Nat)) (w : Nat → Nat) (ord : List Nat) :
    ∀ (n : Nat) (p : Nat → Nat),
      (rounds_seq S w ord n p).length + rounds_rem S ord ((round_adv S w ord)^[n] p)
        = rounds_rem S ord p := by
  intro n
  induction n with
  | zero => intro p; simp [rounds_seq]
  | succ n ih =>
    intro p
    simp only [rounds_seq, List.length_append, Function.iterate_succ, Function.comp]
    have := ih (round_adv S w ord p)
    have := rounds_rem_adv S w ord p
    omega

theorem pos_at_succ (S : Nat → List (List Nat)) (w : Nat → Nat) (ord : List Nat) (n : Nat) :
    round_adv S w ord (pos_at S w ord n) = pos_at S w ord (n + 1) := by
  funext L
  unfold round_adv pos_at
  by_cases hL : L ∈ ord
  · simp only [hL, if_true, Nat.succ_mul]
    omega
  · simp [hL]

theorem pos_at_iterate (S : Nat → List (List Nat)) (w : Nat → Nat) (ord : List Nat) :
    ∀ n : Nat, (round_adv S w ord)^[n] (fun _ => 0) = pos_at S w ord n := by
  intro n
  induction n with
  | zero => funext L; simp [pos_at]
  | succ n ih => rw [Function.iterate_succ_apply', ih, pos_at_succ]

theorem rounds_rem_zero (S : Nat → List (List Nat)) (ord : List Nat) :
    rounds_rem S ord (fun _ => 0) = (ord.map (fun L => (S L).length)).sum := by
  simp [rounds_rem]

/-- After `n` rounds from the start the buckets have delivered `min (n * w L) |S L|` each. -/
theorem rounds_seq_length_pos_at (S : Nat → List (List Nat)) (w : Nat → Nat) (ord : List Nat)
    (n : Nat) :
    (rounds_seq S w ord n (fun _ => 0)).length
      = (ord.map (fun L => min (n * w L) (S L).length)).sum := by
  have h := rounds_rem_iterate S w ord n (fun _ => 0)
  rw [pos_at_iterate, rounds_rem_zero] at h
  have h2 : rounds_rem S ord (pos_at S w ord n) + (ord.map (fun L => min (n * w L) (S L).length)).sum
      = (ord.map (fun L => (S L).length)).sum := by
    unfold rounds_rem
    have hmap : ord.map (fun L => (S L).length - pos_at S w ord n L)
        = ord.map (fun L => (S L).length - min (n * w L) (S L).length) := by
      apply List.map_congr_left
      intro L hL
      simp [pos_at, hL]
    rw [hmap]
    clear hmap h
    induction ord with
    | nil => rfl
    | cons L ord ih =>
      simp only [List.map_cons, List.sum_cons]
      omega
  omega

/-- The records of all rounds do not depend on the number of rounds granted,
once it reaches the number of records. -/
theorem rounds_seq_stable (S : Nat → List (List Nat)) (w : Nat → Nat) (ord : List Nat)
    (hw : ∀ L ∈ ord, 0 < w L) (n m : Nat) (p : Nat → Nat) (hn : rounds_rem S ord p ≤ n)
    (hm : n ≤ m) : rounds_seq S w ord m p = rounds_seq S w ord n p := by
  obtain ⟨k, rfl⟩ := Nat.exists_eq_add_of_le hm
  rw [rounds_seq_add]
  have h1 := rounds_seq_length S w ord hw n p hn
  have h2 := rounds_rem_iterate S w ord n p
  have h3 := rounds_seq_length_le S w ord k ((round_adv S w ord)^[n] p)
  have h4 : (rounds_seq S w ord k ((round_adv S w ord)^[n] p)).length = 0 := by omega
  rw [List.length_eq_zero.1 h4, List.append_nil]

/-! ## The seek loop -/

theorem seek_outs_fold (cnt : Nat → Int) (w : Nat → Nat) (q : Nat → Int) :
    ∀ (lens : List Nat) (acc : Nat),
      lens.foldl (fun acc pw_len => if q pw_len < cnt pw_len then acc + w pw_len else acc) acc
        = acc + (lens.map (fun L => if q L < cnt L then w L else 0)).sum := by
  intro lens
  induction lens with
  | nil => intro acc; simp
  | cons L lens ih =>
    intro acc
    simp only [List.foldl_cons, ih, List.map_cons, List.sum_cons]
    split <;> omega

theorem seek_outs_eq (cnt : Nat → Int) (w : Nat → Nat) (q : Nat → Int) (lens : List Nat) :
    seek_outs cnt w q lens = (lens.map (fun L => if q L < cnt L then w L else 0)).sum := by
  unfold seek_outs
  rw [seek_outs_fold]; simp

/-- One pass of the loop over the lengths inside the seek loop. -/
theorem seek_fold (cnt : Nat → Nat) (w : Nat → Nat) (n m : Nat) :
    ∀ (lens : List Nat), lens.Nodup → ∀ (s : seek_t),
      (∀ L ∈ lens, (s.pw_ks_pos L < (cnt L : Int) → s.pw_ks_pos L = ((n * w L : Nat) : Int))
        ∧ (¬ s.pw_ks_pos L < (cnt L : Int) → cnt L ≤ n * w L)) →
      (∀ L ∈ lens,
          ((lens.foldl (seek_step (fun L => (cnt L : Int)) w (m : Int)) s).pw_ks_pos L
              < (cnt L : Int) →
            (lens.foldl (seek_step (fun L => (cnt L : Int)) w (m : Int)) s).pw_ks_pos L
              = (((n + m) * w L : Nat) : Int))
          ∧ (¬ (lens.foldl (seek_step (fun L => (cnt L : Int)) w (m : Int)) s).pw_ks_pos L
              < (cnt L : Int) → cnt L ≤ (n + m) * w L))
      ∧ (∀ L, L ∉ lens →
          (lens.foldl (seek_step (fun L => (cnt L : Int)) w (m : Int)) s).pw_ks_pos L
            = s.pw_ks_pos L)
      ∧ (lens.foldl (seek_step (fun L => (cnt L : Int)) w (m : Int)) s).skip_left
          + (((lens.map (fun L => min ((n + m) * w L) (cnt L))).sum : Nat) : Int)
        = s.skip_left + (((lens.map (fun L => min (n * w L) (cnt L))).sum : Nat) : Int)
      ∧ (((lens.map (fun L => min ((n + m) * w L) (cnt L))).sum : Nat) : Int)
        ≤ (((lens.map (fun L => min (n * w L) (cnt L))).sum : Nat) : Int)
          + (m : Int) * ((lens.map (fun L => if s.pw_ks_pos L < (cnt L : Int) then w L else 0)).sum
              : Nat)
      ∧ (lens.foldl (seek_step (fun L => (cnt L : Int)) w (m : Int)) s).outs_per_main_loop
        = s.outs_per_main_loop := by
  intro lens
  induction lens with
  | nil => intro _ s _; simp
  | cons L lens ih =>
    intro hnd s hinv
    obtain ⟨hnot, hnd'⟩ := List.nodup_cons.1 hnd
    obtain ⟨hL1, hL2⟩ := hinv L (by simp)
    have hmul : (n + m) * w L = n * w L + m * w L := Nat.add_mul _ _ _
    -- the state after the step for `L`
    have hstep_pos : ∀ K, K ≠ L → (seek_step (fun L => (cnt L : Int)) w (m : Int) s L).pw_ks_pos K
        = s.pw_ks_pos K := by
      intro K hK
      unfold seek_step
      split
      · simp [hK]
      · rfl
    have hstep_opml : (seek_step (fun L => (cnt L : Int)) w (m : Int) s L).outs_per_main_loop
        = s.outs_per_main_loop := by
      unfold seek_step
      split <;> rfl
    have hinv' : ∀ K ∈ lens,
        ((seek_step (fun L => (cnt L : Int)) w (m : Int) s L).pw_ks_pos K < (cnt K : Int) →
          (seek_step (fun L => (cnt L : Int)) w (m : Int) s L).pw_ks_pos K
            = ((n * w K : Nat) : Int))
        ∧ (¬ (seek_step (fun L => (cnt L : Int)) w (m : Int) s L).pw_ks_pos K < (cnt K : Int) →
          cnt K ≤ n * w K) := by
      intro K hK
      have hKL : K ≠ L := fun e => hnot (e ▸ hK)
      rw [hstep_pos K hKL]
      exact hinv K (by simp [hK])
    obtain ⟨h1, h2, h3, h4, h5⟩ := ih hnd' (seek_step (fun L => (cnt L : Int)) w (m : Int) s L) hinv'
    rw [List.foldl_cons]
    have hLpos : (lens.foldl (seek_step (fun L => (cnt L : Int)) w (m : Int))
        (seek_step (fun L => (cnt L : Int)) w (m : Int) s L)).pw_ks_pos L
        = (seek_step (fun L => (cnt L : Int)) w (m : Int) s L).pw_ks_pos L := h2 L hnot
    have hmap : lens.map (fun K => if (seek_step (fun L => (cnt L : Int)) w (m : Int) s L).pw_ks_pos K
          < (cnt K : Int) then w K else 0)
        = lens.map (fun K => if s.pw_ks_pos K < (cnt K : Int) then w K else 0) := by
      apply List.map_congr_left
      intro K hK
      have hKL : K ≠ L := fun e => hnot (e ▸ hK)
      rw [hstep_pos K hKL]
    rw [hmap] at h4
    by_cases hact : s.pw_ks_pos L < (cnt L : Int)
    · have hq := hL1 hact
      have hsL : (seek_step (fun L => (cnt L : Int)) w (m : Int) s L).pw_ks_pos L
          = (((n + m) * w L : Nat) : Int) := by
        unfold seek_step
        simp only [hact, if_true]
        rw [hq, hmul]; push_cast; ring
      have hsl : (seek_step (fun L => (cnt L : Int)) w (m : Int) s L).skip_left
          + ((min ((n + m) * w L) (cnt L) : Nat) : Int)
          = s.skip_left + ((min (n * w L) (cnt L) : Nat) : Int) := by
        unfold seek_step
        simp only [hact, if_true]
        rw [hq] at hact ⊢
        have e : ((n * w L : Nat) : Int) + (m : Int) * (w L : Int)
            = (((n + m) * w L : Nat) : Int) := by rw [hmul]; push_cast; ring
        rw [e]
        split <;> omega
      refine ⟨?_, ?_, ?_, ?_, ?_⟩
      · intro K hK
        rcases List.mem_cons.1 hK with rfl | hK'
        · rw [hLpos, hsL]
          constructor
          · intro _; rfl
          · intro h; omega
        · exact h1 K hK'
      · intro K hK
        have hKL : K ≠ L := fun e => hK (by simp [e])
        rw [h2 K (fun h => hK (by simp [h])), hstep_pos K hKL]
      · simp only [List.map_cons, List.sum_cons]
        omega
      · simp only [List.map_cons, List.sum_cons, hact, if_true]
        have hle : ((min ((n + m) * w L) (cnt L) : Nat) : Int)
            ≤ ((min (n * w L) (cnt L) : Nat) : Int) + (m : Int) * (w L : Int) := by
          have : ((m * w L : Nat) : Int) = (m : Int) * (w L : Int) := by push_cast; rfl
          rw [← this]
          omega
        rw [Nat.cast_add (w L), mul_add]
        omega
      · rw [h5, hstep_opml]
    · have hcl := hL2 hact
      have hsame : seek_step (fun L => (cnt L : Int)) w (m : Int) s L = s := by
        unfold seek_step
        simp only [hact, if_false]
      rw [hsame] at h1 h2 h3 h5 hLpos ⊢
      refine ⟨?_, ?_, ?_, ?_, ?_⟩
      · intro K hK
        rcases List.mem_cons.1 hK with rfl | hK'
        · rw [hLpos]
          constructor
          · intro h; exact absurd h hact
          · intro _; rw [hmul]; omega
        · exact h1 K hK'
      · intro K hK
        exact h2 K (fun h => hK (by simp [h]))
      · simp only [List.map_cons, List.sum_cons]
        have e1 : min ((n + m) * w L) (cnt L) = cnt L := by rw [hmul]; omega
        have e2 : min (n * w L) (cnt L) = cnt L := by omega
        rw [e1, e2]
        omega
      · simp only [List.map_cons, List.sum_cons, hact, if_false]
        have e1 : min ((n + m) * w L) (cnt L) = cnt L := by rw [hmul]; omega
        have e2 : min (n * w L) (cnt L) = cnt L := by omega
        rw [e1, e2, Nat.zero_add]
        omega
      · exact h5

theorem sum_min_eq_of_all_le (cnt : Nat → Nat) (w : Nat → Nat) (n : Nat) :
    ∀ lens : List Nat, (∀ L ∈ lens, cnt L ≤ n * w L) →
      (lens.map (fun L => min (n * w L) (cnt L))).sum = (lens.map cnt).sum := by
  intro lens
  induction lens with
  | nil => intro _; rfl
  | cons L lens ih =>
    intro h
    simp only [List.map_cons, List.sum_cons]
    rw [ih (fun K hK => h K (by simp [hK])), Nat.min_eq_right (h L (by simp))]

theorem seek_exists_active (cnt : Nat → Nat) (w : Nat → Nat) (lens : List Nat) (skip n : Nat)
    (s : seek_t) (hskip : skip < (lens.map cnt).sum) (hinv : seek_inv cnt w lens skip n s) :
    ∃ L ∈ lens, n * w L < cnt L ∧ s.pw_ks_pos L < (cnt L : Int) := by
  obtain ⟨h1, h2, h3, _⟩ := hinv
  by_contra hno
  have hall : ∀ L ∈ lens, cnt L ≤ n * w L := by
    intro L hL
    by_contra hlt
    apply hno
    refine ⟨L, hL, by omega, ?_⟩
    by_contra hact
    exact hlt ((h1 L hL).2 hact)
  rw [sum_min_eq_of_all_le cnt w n lens hall] at h2
  omega

theorem seek_outs_ge (cnt : Nat → Int) (w : Nat → Nat) (q : Nat → Int) (lens : List Nat)
    (L : Nat) (hL : L ∈ lens) (hact : q L < cnt L) : w L ≤ seek_outs cnt w q lens := by
  rw [seek_outs_eq]
  have := List.single_le_sum (l := lens.map (fun L => if q L < cnt L then w L else 0))
    (fun _ _ => Nat.zero_le _) (w L) (List.mem_map.2 ⟨L, hL, by simp [hact]⟩)
  exact this

theorem seek_loop_eq (cnt : Nat → Nat) (w : Nat → Nat) (lens : List Nat) (skip : Nat)
    (hnd : lens.Nodup) (hw : ∀ L ∈ lens, 0 < w L) (hskip : skip < (lens.map cnt).sum) :
    ∀ (fuel n : Nat) (s : seek_t), seek_inv cnt w lens skip n s →
      (lens.map cnt).sum - n < fuel →
      ∃ (n' : Nat) (s' : seek_t),
        seek_loop (fun L => (cnt L : Int)) w lens fuel s = res.done s'
        ∧ seek_inv cnt w lens skip n' s' ∧ 0 < s'.outs_per_main_loop
        ∧ s'.skip_left < (s'.outs_per_main_loop : Int) := by
  intro fuel
  induction fuel with
  | zero => intro n s _ h; omega
  | succ fuel ih =>
    intro n s hinv hfuel
    obtain ⟨L, hL, hLlt, hLact⟩ := seek_exists_active cnt w lens skip n s hskip hinv
    have hwL := hw L hL
    have hge := seek_outs_ge (fun L => (cnt L : Int)) w s.pw_ks_pos lens L hL hLact
    obtain ⟨h1, h2, h3, h4⟩ := hinv
    have hopml : 0 < s.outs_per_main_loop := by omega
    have hcntL : cnt L ≤ (lens.map cnt).sum :=
      List.single_le_sum (fun _ _ => Nat.zero_le _) (cnt L) (List.mem_map.2 ⟨L, hL, rfl⟩)
    have hnT : n < (lens.map cnt).sum := by
      have : n * 1 ≤ n * w L := Nat.mul_le_mul_left n hwL
      omega
    obtain ⟨sl, hsl⟩ := Int.eq_ofNat_of_zero_le h3
    have hdiv : mpz_fdiv_q_ui s.skip_left s.outs_per_main_loop
        = ((sl / s.outs_per_main_loop : Nat) : Int) := by
      rw [hsl]; exact mpz_fdiv_q_ui_natCast sl _
    unfold seek_loop
    rw [if_neg (by omega)]
    simp only [hdiv]
    by_cases hm0 : sl / s.outs_per_main_loop = 0
    · rw [if_pos (by rw [hm0]; rfl)]
      refine ⟨n, s, rfl, ⟨h1, h2, h3, h4⟩, hopml, ?_⟩
      rw [hsl]
      have := (Nat.div_eq_zero_iff hopml).1 hm0
      exact_mod_cast this
    · rw [if_neg (by intro h; apply hm0; exact_mod_cast h)]
      generalize hm : sl / s.outs_per_main_loop = m at *
      have hmpos : 0 < m := Nat.pos_of_ne_zero hm0
      obtain ⟨f1, f2, f3, f4, f5⟩ := seek_fold cnt w n m lens hnd s h1
      generalize hs1 : lens.foldl (seek_step (fun L => (cnt L : Int)) w (m : Int)) s = s1 at *
      have hmle : m * s.outs_per_main_loop ≤ sl := by
        rw [← hm]; exact Nat.div_mul_le_self sl _
      have hact_le : (m : Int) * (((lens.map (fun L => if s.pw_ks_pos L < (cnt L : Int) then w L
          else 0)).sum : Nat) : Int) ≤ (sl : Int) := by
        rw [← seek_outs_eq]
        have : m * seek_outs (fun L => (cnt L : Int)) w s.pw_ks_pos lens
            ≤ m * s.outs_per_main_loop := Nat.mul_le_mul_left m h4
        have h' : m * seek_outs (fun L => (cnt L : Int)) w s.pw_ks_pos lens ≤ sl := by omega
        exact_mod_cast h'
      have hinv1 : seek_inv cnt w lens skip (n + m)
          { s1 with outs_per_main_loop :=
              seek_outs (fun L => (cnt L : Int)) w s1.pw_ks_pos lens } := by
        refine ⟨f1, ?_, ?_, le_refl _⟩
        · show s1.skip_left + _ = _
          omega
        · show 0 ≤ s1.skip_left
          omega
      exact ih (n + m) _ hinv1 (by omega)

/-! ## Translating the bucket offsets into chain cursors -/

theorem seek_set_loop_eq (db : Nat → db_entry_t) (E : Nat → List (List Nat))
    (hdb : ∀ k, (db k).elems_buf = E k) (L q : Nat) :
    ∀ (todo done : List chain_t) (e : db_entry_t),
      (∀ c ∈ done ++ todo, chain_ok E L c) → e.chains_buf = done ++ todo →
      e.chains_pos = done.length → e.cur_chain_ks_poses = List.replicate ELEM_CNT_MAX 0 →
      (bucket_seq E done).length ≤ q →
      ∃ e', seek_set_loop db todo.length done.length
            (((q - (bucket_seq E done).length : Nat) : Int)) e = some e'
        ∧ bucket_at E (done ++ todo) (min q (bucket_seq E (done ++ todo)).length) e'
        ∧ e'.elems_buf = e.elems_buf := by
  intro todo
  induction todo with
  | nil =>
    intro done e _ hbuf hpos hcur hq
    refine ⟨e, by simp [seek_set_loop], ?_, rfl⟩
    right
    simp only [List.append_nil] at hbuf ⊢
    refine ⟨by omega, ?_, hpos, hcur⟩
    rw [hbuf]; exact forall₂_same_chain_refl done
  | cons c todo ih =>
    intro done e hok hbuf hpos hcur hq
    obtain ⟨hks, hp0, hn, hk, hsum⟩ := hok c (by simp)
    have hget : e.chains_buf.get? done.length = some c := by
      rw [hbuf, get?_append_length]
    simp only [seek_set_loop, List.length_cons, hget, hks]
    by_cases hlt : q - (bucket_seq E done).length < (radices E c.buf).prod
    · rw [if_pos (by exact_mod_cast hlt)]
      have hn' : ∀ p ∈ c.buf, 0 < (db p).elems_cnt := by
        intro p hp; rw [db_entry_t.elems_cnt, hdb]; exact hn p hp
      rw [set_chain_ks_poses_eq c db _ _ hk (by rw [hcur]; simp) hn', db_elems_eq db E hdb]
      refine ⟨_, rfl, ?_, rfl⟩
      left
      refine ⟨done, done, c, todo, q - (bucket_seq E done).length, rfl,
        forall₂_same_chain_refl done, hlt, ?_, ?_, hpos, ?_⟩
      · rw [bucket_seq_split_length]; omega
      · simp only [hbuf, set_append_length, hks]
      · simp only [hcur, chain_t.cnt, List.drop_replicate]
    · rw [if_neg (by intro h; apply hlt; exact_mod_cast h)]
      have hlen : (bucket_seq E (done ++ [c])).length
          = (bucket_seq E done).length + (radices E c.buf).prod := by
        rw [bucket_seq_append, List.length_append]
        simp [bucket_seq, chain_seq_length]
      have htmp : (((q - (bucket_seq E done).length : Nat) : Int))
          - (((radices E c.buf).prod : Nat) : Int)
          = (((q - (bucket_seq E (done ++ [c])).length : Nat) : Int)) := by
        rw [hlen]; omega
      have hidx : done.length + 1 = (done ++ [c]).length := by simp
      rw [htmp, hidx]
      obtain ⟨e', hrun, hat, hel⟩ := ih (done ++ [c])
        { e with chains_pos := e.chains_pos + 1 }
        (by simpa using hok) (by simpa using hbuf) (by simp [hpos]) hcur (by rw [hlen]; omega)
      refine ⟨e', hrun, ?_, hel⟩
      simpa using hat

theorem seek_set_eq (E : Nat → List (List Nat)) (chainsOf : Nat → List chain_t)
    (hchains : ∀ L, ∀ c ∈ chainsOf L, chain_ok E L c) (pw_ks_pos : Nat → Int) (q : Nat → Nat) :
    ∀ (lens : List Nat), lens.Nodup → (∀ L ∈ lens, pw_ks_pos L = (q L : Int)) →
    ∀ (db : Nat → db_entry_t), (∀ k, (db k).elems_buf = E k) →
      (∀ L ∈ lens, (db L).chains_buf = chainsOf L ∧ (db L).chains_pos = 0
        ∧ (db L).cur_chain_ks_poses = List.replicate ELEM_CNT_MAX 0) →
      ∃ db', seek_set pw_ks_pos lens db = some db'
        ∧ (∀ k, (db' k).elems_buf = E k)
        ∧ (∀ L ∈ lens,
            bucket_at E (chainsOf L) (min (q L) (bucket_seq E (chainsOf L)).length) (db' L))
        ∧ (∀ k, k ∉ lens → db' k = db k) := by
  intro lens
  induction lens with
  | nil => intro _ _ db hdb _; exact ⟨db, rfl, hdb, by simp, fun _ _ => rfl⟩
  | cons L lens ih =>
    intro hnd hq db hdb hinit
    obtain ⟨hnot, hnd'⟩ := List.nodup_cons.1 hnd
    obtain ⟨hbuf, hpos, hcur⟩ := hinit L (by simp)
    obtain ⟨e', hrun, hat, hel⟩ := seek_set_loop_eq db E hdb L (q L) (chainsOf L) [] (db L)
      (by simpa using hchains L) (by simpa using hbuf) (by simpa using hpos) hcur
      (by simp [bucket_seq])
    simp only [bucket_seq, List.flatMap_nil, List.length_nil, Nat.sub_zero, List.nil_append]
      at hrun hat
    have hcnt : (db L).chains_cnt = (chainsOf L).length := by
      rw [db_entry_t.chains_cnt, hbuf]
    simp only [seek_set, hcnt, hq L (by simp), hrun]
    obtain ⟨db', hrun', helems', hat', hframe'⟩ := ih hnd' (fun K hK => hq K (by simp [hK]))
      (db_set db L e')
      (by
        intro k
        by_cases hk : k = L
        · subst hk; simp [db_set, hel, hdb]
        · simp [db_set, hk, hdb])
      (by
        intro K hK
        have hKL : K ≠ L := fun e => hnot (e ▸ hK)
        simp only [db_set, hKL, if_false]
        exact hinit K (by simp [hK]))
    refine ⟨db', hrun', helems', ?_, ?_⟩
    · intro K hK
      rcases List.mem_cons.1 hK with rfl | hK'
      · rw [hframe' K hnot]
        simpa [db_set, bucket_seq] using hat
      · exact hat' K hK'
    · intro k hk
      have hkL : k ≠ L := fun e => hk (by simp [e])
      rw [hframe' k (fun h => hk (by simp [h]))]
      simp [db_set, hkL]

/-! ## The prepared table -/

theorem bucket_seq_length (E : Nat → List (List Nat)) (chains : List chain_t) :
    (bucket_seq E chains).length = (chains.map (fun c => (radices E c.buf).prod)).sum := by
  unfold bucket_seq
  rw [List.length_flatMap]
  congr 1
  apply List.map_congr_left
  intro c _
  simp [chain_seq_length]

theorem chains_ks_eq_length (E : Nat → List (List Nat)) (chains : List chain_t)
    (h : ∀ c ∈ chains, c.ks_cnt = ((radices E c.buf).prod : Nat)) :
    chains_ks chains = ((bucket_seq E chains).length : Nat) := by
  rw [bucket_seq_length]
  unfold chains_ks
  induction chains with
  | nil => simp
  | cons c chains ih =>
    simp only [List.map_cons, List.sum_cons, Nat.cast_add]
    rw [h c (by simp), ih (fun c' hc' => h c' (by simp [hc']))]

theorem bucket_chains_ok (E : Nat → List (List Nat)) (emin emax L : Nat) (hL1 : 1 ≤ L)
    (hL : L ≤ 16) (hmax : emax ≤ ELEM_CNT_MAX) :
    ∀ c ∈ bucket_chains E emin emax L, chain_ok E L c := by
  intro c hc
  unfold bucket_chains qsort at hc
  rw [(List.perm_insertionSort _ _).mem_iff] at hc
  obtain ⟨c0, hc0, rfl⟩ := List.mem_map.1 hc
  have hmem : c0.buf ∈ (valid_chains E emin emax L).map (fun c => c.buf) :=
    List.mem_map.2 ⟨c0, hc0, rfl⟩
  obtain ⟨_, hsum, hn, _, hk⟩ := (mem_valid_chains_bufs E emin emax L hL1 hL c0.buf).1 hmem
  have hgen : c0.ks_pos = 0 := by
    unfold valid_chains at hc0
    obtain ⟨hc0', _⟩ := List.mem_filter.1 hc0
    obtain ⟨idx, _, rfl⟩ := List.mem_map.1 hc0'
    rfl
  refine ⟨?_, hgen, hn, le_trans hk hmax, hsum⟩
  simp only [chain_ks_eq, db_elems_init]

theorem chains_of_ok (E : Nat → List (List Nat)) (pw_min pw_max emin emax : Nat)
    (hopt : check_options pw_min pw_max emin emax = true) (hmax : emax ≤ ELEM_CNT_MAX) :
    ∀ L, ∀ c ∈ chains_of E pw_min pw_max emin emax L, chain_ok E L c := by
  obtain ⟨hpw1, _, hpw16, _, _, _⟩ := check_options_nat _ _ _ _ hopt
  intro L c hc
  unfold chains_of db_ready at hc
  by_cases hL : pw_min ≤ L ∧ L ≤ pw_max
  · simp only [hL, and_self, if_true] at hc
    exact bucket_chains_ok E emin emax L (by omega) (by omega) hmax c hc
  · simp [hL, db_init] at hc

theorem bucket_at_zero (E : Nat → List (List Nat)) (L : Nat) (chains : List chain_t)
    (hok : ∀ c ∈ chains, chain_ok E L c) (e : db_entry_t) (hbuf : e.chains_buf = chains)
    (hpos : e.chains_pos = 0) (hcur : e.cur_chain_ks_poses = List.replicate ELEM_CNT_MAX 0) :
    bucket_at E chains 0 e := by
  cases chains with
  | nil =>
    right
    exact ⟨by simp [bucket_seq], by rw [hbuf]; exact List.Forall₂.nil, by simpa using hpos, hcur⟩
  | cons c todo =>
    left
    obtain ⟨_, hp0, hn, hk, _⟩ := hok c (by simp)
    refine ⟨[], [], c, todo, 0, rfl, List.Forall₂.nil, radices_prod_pos E c.buf hn,
      by simp [bucket_seq], ?_, by simpa using hpos, ?_⟩
    · have : ({ c with ks_pos := ((0 : Nat) : Int) } : chain_t) = c := by
        cases c; simp at hp0 ⊢; exact hp0.symm
      rw [this]; simpa using hbuf
    · rw [hcur, mixed_radix_zero, ← List.replicate_add]
      simp [radices]; omega

theorem db_ready_cursor (E : Nat → List (List Nat)) (pw_min pw_max emin emax L : Nat) :
    (db_ready E pw_min pw_max emin emax L).chains_pos = 0
    ∧ (db_ready E pw_min pw_max emin emax L).cur_chain_ks_poses
        = List.replicate ELEM_CNT_MAX 0 := by
  unfold db_ready
  split <;> simp [db_init]

theorem sched_at_ready (E : Nat → List (List Nat)) (pw_min pw_max emin emax : Nat)
    (hopt : check_options pw_min pw_max emin emax = true) (hmax : emax ≤ ELEM_CNT_MAX) :
    sched_at E (chains_of E pw_min pw_max emin emax) (fun _ => 0)
      (db_ready E pw_min pw_max emin emax) := by
  refine ⟨fun k => db_ready_elems E pw_min pw_max emin emax k, fun L => ?_⟩
  obtain ⟨h1, h2⟩ := db_ready_cursor E pw_min pw_max emin emax L
  exact bucket_at_zero E L _ (chains_of_ok E pw_min pw_max emin emax hopt hmax L) _ rfl h1 h2

theorem order_of_perm (E : Nat → List (List Nat)) (pw_min pw_max emin emax : Nat) :
    (order_of E pw_min pw_max emin emax).Perm (pw_lens pw_min pw_max) := by
  unfold order_of init_pw_orders qsort
  refine ((List.perm_insertionSort _ _).map _).trans ?_
  simp [List.map_map, Function.comp_def]

theorem order_of_nodup (E : Nat → List (List Nat)) (pw_min pw_max emin emax : Nat) :
    (order_of E pw_min pw_max emin emax).Nodup :=
  (order_of_perm E pw_min pw_max emin emax).nodup_iff.2 (pw_lens_nodup _ _)

theorem mem_order_of (E : Nat → List (List Nat)) (pw_min pw_max emin emax L : Nat) :
    L ∈ order_of E pw_min pw_max emin emax ↔ pw_min ≤ L ∧ L ≤ pw_max := by
  rw [(order_of_perm E pw_min pw_max emin emax).mem_iff, mem_pw_lens]

theorem records_cnt_order (E : Nat → List (List Nat)) (pw_min pw_max emin emax : Nat) :
    ((order_of E pw_min pw_max emin emax).map
      (fun L => (records_of E pw_min pw_max emin emax L).length)).sum
      = records_cnt E pw_min pw_max emin emax :=
  ((order_of_perm E pw_min pw_max emin emax).map _).sum_eq

theorem pw_ks_cnt_eq (E : Nat → List (List Nat)) (pw_min pw_max emin emax : Nat)
    (hopt : check_options pw_min pw_max emin emax = true) (hmax : emax ≤ ELEM_CNT_MAX) :
    (calc_keyspace pw_min pw_max (init_chains pw_min pw_max emin emax (db_init E))).pw_ks_cnt
      = (fun L => ((records_of E pw_min pw_max emin emax L).length : Int)) := by
  rw [(setup_eq E pw_min pw_max emin emax).2.2]
  funext L
  have hok := chains_of_ok E pw_min pw_max emin emax hopt hmax L
  by_cases hL : L ∈ pw_lens pw_min pw_max
  · have hL' := (mem_pw_lens _ _ _).1 hL
    simp only [hL, if_true, records_of]
    have hch : chains_of E pw_min pw_max emin emax L = bucket_chains E emin emax L :=
      db_ready_chains E pw_min pw_max emin emax L hL'.1 hL'.2
    rw [hch] at hok ⊢
    exact chains_ks_eq_length E _ (fun c hc => (hok c hc).1)
  · have hL' : ¬ (pw_min ≤ L ∧ L ≤ pw_max) := fun h => hL ((mem_pw_lens _ _ _).2 h)
    simp [hL, records_of, chains_of, db_ready, hL', db_init, bucket_seq]

theorem total_ks_cnt_eq (E : Nat → List (List Nat)) (pw_min pw_max emin emax : Nat)
    (hopt : check_options pw_min pw_max emin emax = true) (hmax : emax ≤ ELEM_CNT_MAX) :
    (calc_keyspace pw_min pw_max (init_chains pw_min pw_max emin emax (db_init E))).total_ks_cnt
      = ((records_cnt E pw_min pw_max emin emax : Nat) : Int) := by
  rw [(setup_eq E pw_min pw_max emin emax).2.1]
  unfold records_cnt
  have hterm : ∀ L ∈ pw_lens pw_min pw_max, chains_ks (bucket_chains E emin emax L)
      = (((records_of E pw_min pw_max emin emax L).length : Nat) : Int) := by
    intro L hL
    have hL' := (mem_pw_lens _ _ _).1 hL
    have hok := chains_of_ok E pw_min pw_max emin emax hopt hmax L
    have hch : chains_of E pw_min pw_max emin emax L = bucket_chains E emin emax L :=
      db_ready_chains E pw_min pw_max emin emax L hL'.1 hL'.2
    unfold records_of
    rw [hch] at hok ⊢
    exact chains_ks_eq_length E _ (fun c hc => (hok c hc).1)
  rw [List.map_congr_left hterm]
  generalize pw_lens pw_min pw_max = lens
  induction lens with
  | nil => simp
  | cons L lens ih => simp only [List.map_cons, List.sum_cons, Nat.cast_add, ih]

/-! ## The seek engine lands on a round boundary -/

theorem fold_add_eq_sum (w : Nat → Nat) : ∀ (lens : List Nat) (acc : Nat),
    lens.foldl (fun acc pw_len => acc + w pw_len) acc = acc + (lens.map w).sum := by
  intro lens
  induction lens with
  | nil => intro acc; simp
  | cons L lens ih => intro acc; simp only [List.foldl_cons, ih, List.map_cons, List.sum_cons]; omega

theorem seek_inv_init (cnt : Nat → Nat) (w : Nat → Nat) (lens : List Nat) (skip : Nat) :
    seek_inv cnt w lens skip 0
      { skip_left := (skip : Int), pw_ks_pos := fun _ => 0,
        outs_per_main_loop := lens.foldl (fun acc pw_len => acc + w pw_len) 0 } := by
  refine ⟨fun L _ => ⟨fun _ => by simp, fun h => by simp at h ⊢; omega⟩, ?_, by simp, ?_⟩
  · have : (lens.map (fun L => min (0 * w L) (cnt L))).sum = 0 := by
      apply List.sum_eq_zero
      intro x hx
      obtain ⟨L, _, rfl⟩ := List.mem_map.1 hx
      simp
    simp [this]
  · rw [seek_outs_eq, fold_add_eq_sum, Nat.zero_add]
    apply List.sum_le_sum
    intro L _
    simp only
    split <;> omega

theorem seek_eq (E : Nat → List (List Nat)) (pw_min pw_max emin emax : Nat)
    (hopt : check_options pw_min pw_max emin emax = true) (hmax : emax ≤ ELEM_CNT_MAX)
    (w : Nat → Nat) (hw : ∀ L, pw_min ≤ L → L ≤ pw_max → 0 < w L) (s : Nat)
    (hs : s < records_cnt E pw_min pw_max emin emax) (fuel : Nat)
    (hfuel : records_cnt E pw_min pw_max emin emax < fuel) :
    ∃ (n0 : Nat) (st0 : main_t),
      seek fuel pw_min pw_max
          (calc_keyspace pw_min pw_max (init_chains pw_min pw_max emin emax (db_init E))) w
          (db_ready E pw_min pw_max emin emax) (s : Int) = res.done st0
      ∧ sched_at E (chains_of E pw_min pw_max emin emax)
          (pos_at (records_of E pw_min pw_max emin emax) w
            (order_of E pw_min pw_max emin emax) n0) st0.db_entries
      ∧ st0.total_ks_pos = (((rounds_seq (records_of E pw_min pw_max emin emax) w
          (order_of E pw_min pw_max emin emax) n0 (fun _ => 0)).length : Nat) : Int)
      ∧ (rounds_seq (records_of E pw_min pw_max emin emax) w
          (order_of E pw_min pw_max emin emax) n0 (fun _ => 0)).length ≤ s
      ∧ st0.out = [] := by
  have hchains := chains_of_ok E pw_min pw_max emin emax hopt hmax
  have hw' : ∀ L ∈ pw_lens pw_min pw_max, 0 < w L := by
    intro L hL
    obtain ⟨h1, h2⟩ := (mem_pw_lens _ _ _).1 hL
    exact hw L h1 h2
  obtain ⟨n0, s', hloop, hinv, _, _⟩ := seek_loop_eq
    (fun L => (records_of E pw_min pw_max emin emax L).length) w (pw_lens pw_min pw_max) s
    (pw_lens_nodup _ _) hw' hs (fuel) 0 _
    (seek_inv_init _ w (pw_lens pw_min pw_max) s) (by unfold records_cnt at hfuel; omega)
  obtain ⟨hq, hsum, hnn, _⟩ := hinv
  beta_reduce at hq hsum
  have hqnat : ∀ L ∈ pw_lens pw_min pw_max,
      s'.pw_ks_pos L = (((s'.pw_ks_pos L).toNat : Nat) : Int) := by
    intro L hL
    have : 0 ≤ s'.pw_ks_pos L := by
      by_cases hact : s'.pw_ks_pos L < ((records_of E pw_min pw_max emin emax L).length : Int)
      · rw [(hq L hL).1 hact]; exact Int.natCast_nonneg _
      · omega
    omega
  obtain ⟨db', hset, helems, hat, hframe⟩ := seek_set_eq E (chains_of E pw_min pw_max emin emax)
    hchains s'.pw_ks_pos (fun L => (s'.pw_ks_pos L).toNat) (pw_lens pw_min pw_max)
    (pw_lens_nodup _ _) hqnat (db_ready E pw_min pw_max emin emax)
    (fun k => db_ready_elems E pw_min pw_max emin emax k)
    (fun L _ => ⟨rfl, (db_ready_cursor E pw_min pw_max emin emax L).1,
      (db_ready_cursor E pw_min pw_max emin emax L).2⟩)
  have hlen : (rounds_seq (records_of E pw_min pw_max emin emax) w
      (order_of E pw_min pw_max emin emax) n0 (fun _ => 0)).length
      = ((pw_lens pw_min pw_max).map (fun L => min (n0 * w L)
          (records_of E pw_min pw_max emin emax L).length)).sum := by
    rw [rounds_seq_length_pos_at]
    exact ((order_of_perm E pw_min pw_max emin emax).map _).sum_eq
  refine ⟨n0, { db_entries := db', total_ks_pos := (s : Int) - s'.skip_left, out := [] }, ?_,
    ⟨helems, fun L => ?_⟩, ?_, ?_, rfl⟩
  · unfold seek
    simp only [pw_ks_cnt_eq E pw_min pw_max emin emax hopt hmax, hloop, hset]
  · show bucket_at E _ _ (db' L)
    by_cases hL : L ∈ pw_lens pw_min pw_max
    · have hLo : L ∈ order_of E pw_min pw_max emin emax :=
        (order_of_perm E pw_min pw_max emin emax).mem_iff.2 hL
      have hpos : pos_at (records_of E pw_min pw_max emin emax) w
          (order_of E pw_min pw_max emin emax) n0 L
          = min (s'.pw_ks_pos L).toNat (records_of E pw_min pw_max emin emax L).length := by
        simp only [pos_at, hLo, if_true]
        obtain ⟨h1, h2⟩ := hq L hL
        by_cases hact : s'.pw_ks_pos L < ((records_of E pw_min pw_max emin emax L).length : Int)
        · have := h1 hact; omega
        · have := h2 hact; omega
      rw [hpos]
      exact hat L hL
    · have hLo : L ∉ order_of E pw_min pw_max emin emax := fun h =>
        hL ((order_of_perm E pw_min pw_max emin emax).mem_iff.1 h)
      have hpos : pos_at (records_of E pw_min pw_max emin emax) w
          (order_of E pw_min pw_max emin emax) n0 L = 0 := by
        simp [pos_at, hLo]
      rw [hpos, hframe L hL]
      exact (sched_at_ready E pw_min pw_max emin emax hopt hmax).2 L
  · show (s : Int) - s'.skip_left = _
    rw [hlen]; omega
  · rw [hlen]; omega

/-! ## A run of `pp` emits a window of the sequence of all rounds -/

theorem full_seq_length (E : Nat → List (List Nat)) (pw_min pw_max emin emax : Nat)
    (w : Nat → Nat) (hw : ∀ L, pw_min ≤ L → L ≤ pw_max → 0 < w L) :
    (full_seq E pw_min pw_max emin emax w).length = records_cnt E pw_min pw_max emin emax := by
  unfold full_seq
  have hw' : ∀ L ∈ order_of E pw_min pw_max emin emax, 0 < w L := by
    intro L hL
    obtain ⟨h1, h2⟩ := (mem_order_of E pw_min pw_max emin emax L).1 hL
    exact hw L h1 h2
  rw [rounds_seq_length _ w _ hw' _ _ (by rw [rounds_rem_zero, records_cnt_order])]
  rw [rounds_rem_zero, records_cnt_order]

theorem full_seq_split (E : Nat → List (List Nat)) (pw_min pw_max emin emax : Nat)
    (w : Nat → Nat) (hw : ∀ L, pw_min ≤ L → L ≤ pw_max → 0 < w L) (n0 fuel : Nat)
    (hfuel : records_cnt E pw_min pw_max emin emax ≤ fuel) :
    full_seq E pw_min pw_max emin emax w
      = rounds_seq (records_of E pw_min pw_max emin emax) w
          (order_of E pw_min pw_max emin emax) n0 (fun _ => 0)
        ++ rounds_seq (records_of E pw_min pw_max emin emax) w
          (order_of E pw_min pw_max emin emax) fuel
          (pos_at (records_of E pw_min pw_max emin emax) w
            (order_of E pw_min pw_max emin emax) n0) := by
  have hw' : ∀ L ∈ order_of E pw_min pw_max emin emax, 0 < w L := by
    intro L hL
    obtain ⟨h1, h2⟩ := (mem_order_of E pw_min pw_max emin emax L).1 hL
    exact hw L h1 h2
  rw [← pos_at_iterate, ← rounds_seq_add]
  unfold full_seq
  exact (rounds_seq_stable _ w _ hw' _ _ _ (by rw [rounds_rem_zero, records_cnt_order])
    (by omega)).symm

theorem window_eq {α : Type} (A B : List α) (s Tn : Nat) (hA : A.length ≤ s) :
    (B.take (Tn - A.length)).drop (s - A.length) = ((A ++ B).drop s).take (Tn - s) := by
  rw [List.drop_append_eq_append_drop, List.drop_eq_nil_of_le hA, List.nil_append,
    List.drop_take]
  congr 1
  omega

theorem pp_run (E : Nat → List (List Nat)) (hE : store_ok E) (pw_min pw_max emin emax : Nat)
    (hopt : check_options pw_min pw_max emin emax = true) (hmax : emax ≤ ELEM_CNT_MAX)
    (wl : Bool)
    (hw : ∀ L, pw_min ≤ L → L ≤ pw_max →
      0 < calc_wordlen_dist wl (init_chains pw_min pw_max emin emax (db_init E)) L
      ∧ calc_wordlen_dist wl (init_chains pw_min pw_max emin emax (db_init E)) L < 2 ^ 64)
    (s l : Nat) (hs : s = 0 ∨ s < records_cnt E pw_min pw_max emin emax)
    (hsl : s + l ≤ records_cnt E pw_min pw_max emin emax) (fuel : Nat)
    (hfuel : records_cnt E pw_min pw_max emin emax < fuel) :
    pp fuel E pw_min pw_max emin emax wl false (s : Int) (l : Int)
      = res.done
          { code := 0,
            out := ((full_seq E pw_min pw_max emin emax
                (calc_wordlen_dist wl (init_chains pw_min pw_max emin emax (db_init E)))).drop
                  s).take
              ((if l = 0 then records_cnt E pw_min pw_max emin emax else s + l) - s),
            keyspace := none } := by
  generalize hW : calc_wordlen_dist wl (init_chains pw_min pw_max emin emax (db_init E)) = W
    at hw ⊢
  generalize hT : records_cnt E pw_min pw_max emin emax = T at *
  have hchains := chains_of_ok E pw_min pw_max emin emax hopt hmax
  have hwpos : ∀ L, pw_min ≤ L → L ≤ pw_max → 0 < W L := fun L h1 h2 => (hw L h1 h2).1
  have hw64 : ∀ o ∈ init_pw_orders pw_min pw_max (db_ready E pw_min pw_max emin emax),
      W o.len < 2 ^ 64 := by
    intro o ho
    have : o.len ∈ order_of E pw_min pw_max emin emax := List.mem_map.2 ⟨o, ho, rfl⟩
    obtain ⟨h1, h2⟩ := (mem_order_of E pw_min pw_max emin emax o.len).1 this
    exact (hw o.len h1 h2).2
  -- where the main loop starts
  have hstart : ∃ (n0 : Nat) (st0 : main_t),
      (if (s : Int) ≠ 0 then
          seek fuel pw_min pw_max
            (calc_keyspace pw_min pw_max (init_chains pw_min pw_max emin emax (db_init E))) W
            (db_ready E pw_min pw_max emin emax) (s : Int)
        else res.done { db_entries := db_ready E pw_min pw_max emin emax, total_ks_pos := 0,
                        out := [] }) = res.done st0
      ∧ sched_at E (chains_of E pw_min pw_max emin emax)
          (pos_at (records_of E pw_min pw_max emin emax) W
            (order_of E pw_min pw_max emin emax) n0) st0.db_entries
      ∧ st0.total_ks_pos = (((rounds_seq (records_of E pw_min pw_max emin emax) W
          (order_of E pw_min pw_max emin emax) n0 (fun _ => 0)).length : Nat) : Int)
      ∧ (rounds_seq (records_of E pw_min pw_max emin emax) W
          (order_of E pw_min pw_max emin emax) n0 (fun _ => 0)).length ≤ s
      ∧ st0.out = [] := by
    by_cases hs0 : s = 0
    · subst hs0
      refine ⟨0, ⟨db_ready E pw_min pw_max emin emax, 0, []⟩, by simp, ?_,
        by simp [rounds_seq], by simp [rounds_seq], rfl⟩
      have hp0 : pos_at (records_of E pw_min pw_max emin emax) W
          (order_of E pw_min pw_max emin emax) 0 = fun _ => 0 := by
        funext L; simp [pos_at]
      rw [hp0]
      exact sched_at_ready E pw_min pw_max emin emax hopt hmax
    · rw [if_pos (by exact_mod_cast hs0)]
      exact seek_eq E pw_min pw_max emin emax hopt hmax W hwpos s (by rw [hT]; omega) fuel
        (by rw [hT]; exact hfuel)
  obtain ⟨n0, st0, hst0, hsched, htot0, hle0, hout0⟩ := hstart
  generalize hTn : (if l = 0 then T else s + l) = Tn
  have hTnle : Tn ≤ T := by rw [← hTn]; split <;> omega
  have hsTn : s ≤ Tn := by rw [← hTn]; split <;> omega
  have hsplit := full_seq_split E pw_min pw_max emin emax W hwpos n0 fuel (by rw [hT]; omega)
  have hflen := full_seq_length E pw_min pw_max emin emax W hwpos
  rw [hT] at hflen
  generalize hA : rounds_seq (records_of E pw_min pw_max emin emax) W
    (order_of E pw_min pw_max emin emax) n0 (fun _ => 0) = A at *
  obtain ⟨st1, hmain, _, hout1⟩ := main_loop_eq E hE (chains_of E pw_min pw_max emin emax) hchains
    W Tn s (init_pw_orders pw_min pw_max (db_ready E pw_min pw_max emin emax))
    (order_of_nodup E pw_min pw_max emin emax) hw64 fuel st0 _ A.length hsched htot0
    (by omega)
    (by
      have hl := congrArg List.length hsplit
      rw [List.length_append, hflen] at hl
      have hgoal : Tn ≤ A.length + (rounds_seq (records_of E pw_min pw_max emin emax) W
          (order_of E pw_min pw_max emin emax) fuel
          (pos_at (records_of E pw_min pw_max emin emax) W
            (order_of E pw_min pw_max emin emax) n0)).length := by omega
      exact hgoal)
  have hout : st1.out = ((full_seq E pw_min pw_max emin emax W).drop s).take (Tn - s) := by
    rw [hout1, hout0, List.nil_append, hsplit]
    exact window_eq A (rounds_seq (records_of E pw_min pw_max emin emax) W
      (order_of E pw_min pw_max emin emax) fuel
      (pos_at (records_of E pw_min pw_max emin emax) W
        (order_of E pw_min pw_max emin emax) n0)) s Tn hle0
  -- the run
  obtain ⟨hdb, htotal, _⟩ := setup_eq E pw_min pw_max emin emax
  have htotal' := total_ks_cnt_eq E pw_min pw_max emin emax hopt hmax
  rw [hT] at htotal'
  have hTnInt : (if (l : Int) ≠ 0 then (s : Int) + (l : Int) else (T : Int)) = (Tn : Int) := by
    rw [← hTn]
    by_cases hl : l = 0
    · subst hl; simp
    · rw [if_pos (by exact_mod_cast hl), if_neg hl]; push_cast; rfl
  unfold pp
  simp only [Bool.false_eq_true, if_false, hdb, htotal', hW, hTnInt]
  rw [if_neg (by
      rintro ⟨h1, h2⟩
      have h1' : s ≠ 0 := by exact_mod_cast h1
      have h2' : T ≤ s := by exact_mod_cast h2
      omega),
    if_neg (by
      rintro ⟨_, h2⟩
      have h2' : T < l := by exact_mod_cast h2
      omega),
    if_neg (by
      rintro ⟨_, h2⟩
      have h2' : T < s + l := by exact_mod_cast h2
      omega)]
  simp only [hst0, hmain, hout]

/-! ## The unrestricted run -/

theorem default_weights (db : Nat → db_entry_t) (L : Nat) (h1 : 1 ≤ L) (h2 : L ≤ 16) :
    0 < calc_wordlen_dist false db L ∧ calc_wordlen_dist false db L < 2 ^ 64 := by
  interval_cases L <;>
    simp [calc_wordlen_dist, IN_LEN_MIN, IN_LEN_MAX, DEF_WORDLEN_DIST_CNT, DEF_WORDLEN_DIST]

theorem default_weights_range (db : Nat → db_entry_t) (pw_min pw_max emin emax : Nat)
    (hopt : check_options pw_min pw_max emin emax = true) :
    ∀ L, pw_min ≤ L → L ≤ pw_max →
      0 < calc_wordlen_dist false db L ∧ calc_wordlen_dist false db L < 2 ^ 64 := by
  obtain ⟨hpw1, _, hpw16, _, _, _⟩ := check_options_nat _ _ _ _ hopt
  intro L h1 h2
  exact default_weights db L (by omega) (by omega)

theorem pp_unrestricted (E : Nat → List (List Nat)) (hE : store_ok E)
    (pw_min pw_max emin emax : Nat)
    (hopt : check_options pw_min pw_max emin emax = true) (hmax : emax ≤ ELEM_CNT_MAX)
    (wl : Bool)
    (hw : ∀ L, pw_min ≤ L → L ≤ pw_max →
      0 < calc_wordlen_dist wl (init_chains pw_min pw_max emin emax (db_init E)) L
      ∧ calc_wordlen_dist wl (init_chains pw_min pw_max emin emax (db_init E)) L < 2 ^ 64)
    (fuel : Nat) (hfuel : records_cnt E pw_min pw_max emin emax < fuel) :
    pp fuel E pw_min pw_max emin emax wl false 0 0
      = res.done
          { code := 0,
            out := full_seq E pw_min pw_max emin emax
              (calc_wordlen_dist wl (init_chains pw_min pw_max emin emax (db_init E))),
            keyspace := none } := by
  have h := pp_run E hE pw_min pw_max emin emax hopt hmax wl hw 0 0 (Or.inl rfl) (by omega) fuel
    hfuel
  simp only [Nat.cast_zero, if_true, List.drop_zero, Nat.sub_zero] at h
  rw [h, List.take_of_length_le]
  rw [full_seq_length E pw_min pw_max emin emax _ (fun L h1 h2 => (hw L h1 h2).1)]

theorem round_seg_perm (S : Nat → List (List Nat)) (w : Nat → Nat) (ord : List Nat)
    (p : Nat → Nat) :
    (round_seg S w ord p ++ ord.flatMap (fun L => (S L).drop (round_adv S w ord p L))).Perm
      (ord.flatMap (fun L => (S L).drop (p L))) := by
  have hg : ord.flatMap (fun L => (S L).drop (round_adv S w ord p L))
      = ord.flatMap (fun L => (S L).drop (p L + min (w L) ((S L).length - p L))) := by
    apply List.flatMap_congr
    intro L hL
    simp [round_adv, hL]
  rw [hg]
  unfold round_seg
  refine (List.flatMap_append_perm ord _ _).trans ?_
  have he : (fun L => ((S L).drop (p L)).take (w L)
        ++ (S L).drop (p L + min (w L) ((S L).length - p L)))
      = (fun L => (S L).drop (p L)) := by
    funext L
    rw [← List.drop_drop]
    have h1 : ((S L).drop (p L)).take (w L)
        = ((S L).drop (p L)).take (min (w L) ((S L).length - p L)) := by
      rw [List.take_eq_take, List.length_drop]
      omega
    rw [h1, List.take_append_drop]
  rw [he]

theorem rounds_seq_perm (S : Nat → List (List Nat)) (w : Nat → Nat) (ord : List Nat) :
    ∀ (n : Nat) (p : Nat → Nat),
      (rounds_seq S w ord n p
        ++ ord.flatMap (fun L => (S L).drop ((round_adv S w ord)^[n] p L))).Perm
        (ord.flatMap (fun L => (S L).drop (p L))) := by
  intro n
  induction n with
  | zero => intro p; simp [rounds_seq]
  | succ n ih =>
    intro p
    simp only [rounds_seq, Function.iterate_succ, Function.comp, List.append_assoc]
    exact ((ih (round_adv S w ord p)).append_left _).trans (round_seg_perm S w ord p)

/-- The unrestricted sequence holds the records of all buckets, each once. -/
theorem full_seq_perm (E : Nat → List (List Nat)) (pw_min pw_max emin emax : Nat)
    (w : Nat → Nat) (hw : ∀ L, pw_min ≤ L → L ≤ pw_max → 0 < w L) :
    (full_seq E pw_min pw_max emin emax w).Perm
      ((pw_lens pw_min pw_max).flatMap (records_of E pw_min pw_max emin emax)) := by
  have hw' : ∀ L ∈ order_of E pw_min pw_max emin emax, 0 < w L := by
    intro L hL
    obtain ⟨h1, h2⟩ := (mem_order_of E pw_min pw_max emin emax L).1 hL
    exact hw L h1 h2
  have h := rounds_seq_perm (records_of E pw_min pw_max emin emax) w
    (order_of E pw_min pw_max emin emax) (records_cnt E pw_min pw_max emin emax) (fun _ => 0)
  have hrest : (order_of E pw_min pw_max emin emax).flatMap
      (fun L => (records_of E pw_min pw_max emin emax L).drop
        ((round_adv (records_of E pw_min pw_max emin emax) w
          (order_of E pw_min pw_max emin emax))^[records_cnt E pw_min pw_max emin emax]
            (fun _ => 0) L)) = [] := by
    apply List.length_eq_zero.1
    have h2 := h.length_eq
    have h3 := full_seq_length E pw_min pw_max emin emax w hw
    have h4 : ((order_of E pw_min pw_max emin emax).flatMap
        (fun L => records_of E pw_min pw_max emin emax L)).length
        = records_cnt E pw_min pw_max emin emax := by
      rw [List.length_flatMap]
      exact records_cnt_order E pw_min pw_max emin emax
    simp only [List.drop_zero] at h2
    rw [List.length_append, h4] at h2
    unfold full_seq at h3
    rw [h3] at h2
    omega
  rw [hrest, List.append_nil] at h
  simp only [List.drop_zero] at h
  exact h.trans ((order_of_perm E pw_min pw_max emin emax).flatMap_right _)

/-! ## What the unrestricted run holds -/

theorem mem_records_of (E : Nat → List (List Nat)) (pw_min pw_max emin emax L : Nat)
    (r : List Nat) :
    r ∈ records_of E pw_min pw_max emin emax L
      ↔ ∃ c ∈ chains_of E pw_min pw_max emin emax L, ∃ pos, pos < (radices E c.buf).prod
          ∧ r = chain_cand E c.buf pos ++ [10] := by
  unfold records_of bucket_seq chain_seq chain_seg
  simp only [List.mem_flatMap, List.mem_map, List.mem_range, Nat.zero_add]
  constructor
  · rintro ⟨c, hc, pos, hpos, rfl⟩
    exact ⟨c, hc, pos, hpos, rfl⟩
  · rintro ⟨c, hc, pos, hpos, rfl⟩
    exact ⟨c, hc, pos, hpos, rfl⟩

theorem records_of_length (E : Nat → List (List Nat)) (hE : store_ok E)
    (pw_min pw_max emin emax : Nat)
    (hopt : check_options pw_min pw_max emin emax = true) (hmax : emax ≤ ELEM_CNT_MAX)
    (L : Nat) (r : List Nat) (hr : r ∈ records_of E pw_min pw_max emin emax L) :
    r.length = L + 1 := by
  obtain ⟨c, hc, pos, _, rfl⟩ := (mem_records_of E pw_min pw_max emin emax L r).1 hr
  obtain ⟨_, _, hn, _, hsum⟩ := chains_of_ok E pw_min pw_max emin emax hopt hmax L c hc
  rw [List.length_append, chain_cand_length E hE c.buf hn pos, hsum]
  rfl

theorem countP_flatMap_single (l : List Nat) (f : Nat → List (List Nat))
    (q : List Nat → Bool) (L : Nat) (hnd : l.Nodup) (hL : L ∈ l)
    (hin : ∀ r ∈ f L, q r = true) (hout : ∀ K ∈ l, K ≠ L → ∀ r ∈ f K, q r = false) :
    (l.flatMap f).countP q = (f L).length := by
  induction l with
  | nil => simp at hL
  | cons K l ih =>
    rw [List.flatMap_cons, List.countP_append]
    obtain ⟨hK, hnd'⟩ := List.nodup_cons.1 hnd
    by_cases hKL : K = L
    · subst hKL
      have h0 : (l.flatMap f).countP q = 0 := by
        rw [List.countP_eq_zero]
        intro r hr
        obtain ⟨K', hK', hr'⟩ := List.mem_flatMap.1 hr
        have hne : K' ≠ K := fun h => hK (h ▸ hK')
        simp [hout K' (by simp [hK']) hne r hr']
      rw [h0, Nat.add_zero, List.countP_eq_length]
      exact hin
    · have h0 : (f K).countP q = 0 := by
        rw [List.countP_eq_zero]
        intro r hr
        simp [hout K (by simp) hKL r hr]
      have hL' : L ∈ l := by
        rcases List.mem_cons.1 hL with h | h
        · exact absurd h.symm hKL
        · exact h
      rw [h0, Nat.zero_add]
      exact ih hnd' hL' (fun K' hK' hne => hout K' (by simp [hK']) hne)

/-- The number of records of one length in the unrestricted sequence. -/
theorem full_seq_count (E : Nat → List (List Nat)) (hE : store_ok E)
    (pw_min pw_max emin emax : Nat)
    (hopt : check_options pw_min pw_max emin emax = true) (hmax : emax ≤ ELEM_CNT_MAX)
    (w : Nat → Nat) (hw : ∀ L, pw_min ≤ L → L ≤ pw_max → 0 < w L)
    (L : Nat) (h1 : pw_min ≤ L) (h2 : L ≤ pw_max) :
    (full_seq E pw_min pw_max emin emax w).countP (fun r => decide (r.length = L + 1))
      = (records_of E pw_min pw_max emin emax L).length := by
  rw [(full_seq_perm E pw_min pw_max emin emax w hw).countP_eq]
  apply countP_flatMap_single _ _ _ L (pw_lens_nodup _ _) ((mem_pw_lens _ _ _).2 ⟨h1, h2⟩)
  · intro r hr
    simp [records_of_length E hE pw_min pw_max emin emax hopt hmax L r hr]
  · intro K _ hne r hr
    simp [records_of_length E hE pw_min pw_max emin emax hopt hmax K r hr, hne]

theorem main_loop_stuck (total_ks_cnt skip : Int) (wordlen_dist : Nat → Nat)
    (pw_orders : List pw_order_t) (st : main_t) (hpos : st.total_ks_pos < total_ks_cnt)
    (hround : order_loop total_ks_cnt skip wordlen_dist pw_orders st = res.done st) :
    ∀ fuel, main_loop total_ks_cnt skip wordlen_dist pw_orders fuel st = res.spin st.out := by
  intro fuel
  induction fuel with
  | zero => unfold main_loop; simp [hpos]
  | succ n ih => unfold main_loop; simp only [hpos, if_true, hround]; exact ih

/-- A round that changes nothing while the keyspace is not used up: the main
loop never ends. -/
theorem pp_stuck (E : Nat → List (List Nat)) (pw_min pw_max emin emax : Nat) (wl : Bool)
    (st1 : main_t) (fuel : Nat)
    (hT : 0 < (calc_keyspace pw_min pw_max
      (init_chains pw_min pw_max emin emax (db_init E))).total_ks_cnt)
    (h1 : order_loop
        (calc_keyspace pw_min pw_max (init_chains pw_min pw_max emin emax (db_init E))).total_ks_cnt
        0 (calc_wordlen_dist wl (init_chains pw_min pw_max emin emax (db_init E)))
        (init_pw_orders pw_min pw_max (sort_chains pw_min pw_max
          (calc_keyspace pw_min pw_max
            (init_chains pw_min pw_max emin emax (db_init E))).db_entries))
        { db_entries := sort_chains pw_min pw_max
            (calc_keyspace pw_min pw_max
              (init_chains pw_min pw_max emin emax (db_init E))).db_entries,
          total_ks_pos := 0, out := [] } = res.done st1)
    (h2 : st1.total_ks_pos < (calc_keyspace pw_min pw_max
      (init_chains pw_min pw_max emin emax (db_init E))).total_ks_cnt)
    (h3 : order_loop
        (calc_keyspace pw_min pw_max (init_chains pw_min pw_max emin emax (db_init E))).total_ks_cnt
        0 (calc_wordlen_dist wl (init_chains pw_min pw_max emin emax (db_init E)))
        (init_pw_orders pw_min pw_max (sort_chains pw_min pw_max
          (calc_keyspace pw_min pw_max
            (init_chains pw_min pw_max emin emax (db_init E))).db_entries))
        st1 = res.done st1) :
    pp (fuel + 1) E pw_min pw_max emin emax wl false 0 0 = res.spin st1.out := by
  unfold pp
  simp only [Bool.false_eq_true, if_false, ne_eq, not_true_eq_false, false_and]
  unfold main_loop
  simp only [hT, if_true, h1]
  rw [main_loop_stuck _ _ _ _ st1 h2 h3 fuel]

/-! ## The skip/limit window -/

theorem store_ab_c_ok : store_ok store_ab_c := by
  intro p e he
  unfold store_ab_c at he
  split at he
  · rename_i h; subst h
    simp [bytes] at he
    rcases he with rfl | rfl <;> rfl
  · split at he
    · rename_i h; subst h
      simp [bytes] at he
      subst he
      rfl
    · simp at he

set_option maxRecDepth 100000 in
theorem overflow_unrestricted (fuel : Nat) :
    pp (fuel + 1) store_ab_c 9 9 1 9 false false 0 0 = res.fault := rfl

set_option maxRecDepth 100000 in
theorem overflow_window (fuel : Nat) :
    pp (fuel + 1) store_ab_c 9 9 1 9 false false 256 1 = res.fault := rfl

/-- The run with skip `s` and limit `l` (0: none) under the default weights:
the window of the unrestricted sequence. -/
theorem pp_window (E : Nat → List (List Nat)) (hE : store_ok E) (pw_min pw_max emin emax : Nat)
    (hopt : check_options pw_min pw_max emin emax = true) (hmax : emax ≤ ELEM_CNT_MAX)
    (wl : Bool)
    (hw : ∀ L, pw_min ≤ L → L ≤ pw_max →
      0 < calc_wordlen_dist wl (init_chains pw_min pw_max emin emax (db_init E)) L
      ∧ calc_wordlen_dist wl (init_chains pw_min pw_max emin emax (db_init E)) L < 2 ^ 64)
    (s l : Nat)
    (hs : s = 0 ∨ (s : Int)
      < (calc_keyspace pw_min pw_max (init_chains pw_min pw_max emin emax (db_init E))).total_ks_cnt)
    (hsl : (s : Int) + (l : Int)
      ≤ (calc_keyspace pw_min pw_max (init_chains pw_min pw_max emin emax (db_init E))).total_ks_cnt)
    (fuel : Nat)
    (hfuel : (calc_keyspace pw_min pw_max
      (init_chains pw_min pw_max emin emax (db_init E))).total_ks_cnt < (fuel : Int)) :
    pp fuel E pw_min pw_max emin emax wl false (s : Int) (l : Int)
      = res.done
          { code := 0,
            out := if l = 0 then
                (full_seq E pw_min pw_max emin emax
                  (calc_wordlen_dist wl (init_chains pw_min pw_max emin emax (db_init E)))).drop s
              else
                ((full_seq E pw_min pw_max emin emax
                  (calc_wordlen_dist wl (init_chains pw_min pw_max emin emax (db_init E)))).drop
                    s).take l,
            keyspace := none } := by
  rw [total_ks_cnt_eq E pw_min pw_max emin emax hopt hmax] at hs hsl hfuel
  rw [pp_run E hE pw_min pw_max emin emax hopt hmax wl hw s l (by omega) (by omega) fuel
    (by omega)]
  have hlen := full_seq_length E pw_min pw_max emin emax
    (calc_wordlen_dist wl (init_chains pw_min pw_max emin emax (db_init E)))
    (fun L h1 h2 => (hw L h1 h2).1)
  by_cases hl : l = 0
  · simp only [hl, if_true]
    rw [List.take_of_length_le]
    rw [List.length_drop, hlen]
  · simp only [hl, if_false]
    rw [Nat.add_sub_cancel_left]

/-- C1: for every accepted configuration with `elem_cnt_max ≤ 8`, under the
default weights, the run with skip `s` and limit `l` (`s < T`, `1 ≤ l`,
`s + l ≤ T`) emits the slice `[s, s + l)` of the unrestricted output, the run
with skip `s` and no limit emits the suffix from `s`, and the output of
(skip 0, limit `s`) followed by that of (skip `s`) is the unrestricted output.
With `elem_cnt_max = 9`, which the option checks accept, a chain of nine parts
indexes the 8-wide scratch array at 8: both the unrestricted run and the run
with skip 256 and limit 1 of the store `a`, `b`, `cccccccccc` at length 9
leave the array. -/
theorem skip_limit_window :
    (check_options 9 9 1 9 = true ∧ store_ok store_ab_c
      ∧ ∀ fuel : Nat,
        pp (fuel + 1) store_ab_c 9 9 1 9 false false 0 0 = res.fault
        ∧ pp (fuel + 1) store_ab_c 9 9 1 9 false false 256 1 = res.fault)
    ∧ ∀ (E : Nat → List (List Nat)) (pw_min pw_max emin emax : Nat), store_ok E →
        check_options pw_min pw_max emin emax = true → emax ≤ ELEM_CNT_MAX →
        ∀ s l : Nat,
          (s : Int) < (calc_keyspace pw_min pw_max
            (init_chains pw_min pw_max emin emax (db_init E))).total_ks_cnt →
          1 ≤ l →
          (s : Int) + (l : Int) ≤ (calc_keyspace pw_min pw_max
            (init_chains pw_min pw_max emin emax (db_init E))).total_ks_cnt →
          ∀ fuel : Nat,
            (calc_keyspace pw_min pw_max
              (init_chains pw_min pw_max emin emax (db_init E))).total_ks_cnt < (fuel : Int) →
            ∃ full : List (List Nat),
              pp fuel E pw_min pw_max emin emax false false 0 0
                = res.done { code := 0, out := full, keyspace := none }
              ∧ pp fuel E pw_min pw_max emin emax false false (s : Int) (l : Int)
                = res.done { code := 0, out := (full.drop s).take l, keyspace := none }
              ∧ pp fuel E pw_min pw_max emin emax false false (s : Int) 0
                = res.done { code := 0, out := full.drop s, keyspace := none }
              ∧ (0 < s → ∃ a b : List (List Nat),
                  pp fuel E pw_min pw_max emin emax false false 0 (s : Int)
                    = res.done { code := 0, out := a, keyspace := none }
                  ∧ pp fuel E pw_min pw_max emin emax false false (s : Int) 0
                    = res.done { code := 0, out := b, keyspace := none }
                  ∧ a ++ b = full) := by
  refine ⟨⟨by decide, store_ab_c_ok, fun fuel => ⟨overflow_unrestricted fuel, overflow_window fuel⟩⟩,
    ?_⟩
  intro E pw_min pw_max emin emax hE hopt hmax s l hs hl hsl fuel hfuel
  have hw := default_weights_range (init_chains pw_min pw_max emin emax (db_init E))
    pw_min pw_max emin emax hopt
  have hl0 : l ≠ 0 := by omega
  have h0 := pp_window E hE pw_min pw_max emin emax hopt hmax false hw 0 0 (Or.inl rfl)
    (by simp only [Nat.cast_zero]; omega) fuel hfuel
  have h1 := pp_window E hE pw_min pw_max emin emax hopt hmax false hw s l (Or.inr hs) hsl fuel
    hfuel
  have h2 := pp_window E hE pw_min pw_max emin emax hopt hmax false hw s 0 (Or.inr hs)
    (by simp only [Nat.cast_zero]; omega) fuel hfuel
  have h3 := pp_window E hE pw_min pw_max emin emax hopt hmax false hw 0 s (Or.inl rfl)
    (by simp only [Nat.cast_zero]; omega) fuel hfuel
  simp only [Nat.cast_zero, if_true, List.drop_zero] at h0 h2 h3
  simp only [hl0, if_false] at h1
  refine ⟨_, h0, h1, h2, ?_⟩
  intro hs0
  have hs1 : s ≠ 0 := by omega
  simp only [hs1, if_false] at h3
  exact ⟨_, _, h3, h2, List.take_append_drop _ _⟩

theorem skip_limit_window_witness :
    ∃ full : List (List Nat),
      pp 7 store_ab 1 2 1 2 false false 0 0
        = res.done { code := 0, out := full, keyspace := none }
      ∧ pp 7 store_ab 1 2 1 2 false false ((2 : Nat) : Int) ((2 : Nat) : Int)
        = res.done { code := 0, out := (full.drop 2).take 2, keyspace := none }
      ∧ pp 7 store_ab 1 2 1 2 false false ((2 : Nat) : Int) 0
        = res.done { code := 0, out := full.drop 2, keyspace := none }
      ∧ (0 < 2 → ∃ a b : List (List Nat),
          pp 7 store_ab 1 2 1 2 false false 0 ((2 : Nat) : Int)
            = res.done { code := 0, out := a, keyspace := none }
          ∧ pp 7 store_ab 1 2 1 2 false false ((2 : Nat) : Int) 0
            = res.done { code := 0, out := b, keyspace := none }
          ∧ a ++ b = full) :=
  skip_limit_window.2 store_ab 1 2 1 2 store_ab_ok (by decide) (by decide) 2 2 (by decide)
    (by decide) (by decide) 7 (by decide)

/-! ## The number of records of a run -/

theorem store_a_ok : store_ok store_a := by
  intro p e he
  unfold store_a at he
  split at he
  · rename_i h; subst h
    simp [bytes] at he
    subst he
    rfl
  · simp at he

set_option maxRecDepth 100000 in
theorem store_a_keyspace :
    pp 0 store_a 1 2 1 2 true true 0 0
      = res.done { code := 0, out := [], keyspace := some 2 } := rfl

set_option maxRecDepth 100000 in
theorem store_a_spin (fuel : Nat) :
    pp (fuel + 1) store_a 1 2 1 2 true false 0 0 = res.spin [bytes "a\n"] :=
  pp_stuck store_a 1 2 1 2 true _ fuel (by decide) rfl (by decide) rfl

/-- C2: for every accepted configuration with `elem_cnt_max ≤ 8` whose weights
are positive on `[pw_min, pw_max]` (the default weights are), the run without
skip and limit emits as many records as `total_ks_cnt`, the value the keyspace
request prints, and for every `L` in `[pw_min, pw_max]` as many records of `L`
bytes and the newline as `pw_ks_cnt[L]`, the sum of `ks_cnt` over the chains
of the bucket of `L`.  With the weights `|E[L]|` and the store `a` at the
lengths 1 to 2 the weight of the length 2 is 0: the keyspace is 2, and the
run emits `a` and then repeats rounds that emit nothing. -/
theorem emitted_count_is_keyspace :
    (check_options 1 2 1 2 = true ∧ store_ok store_a
      ∧ pp 0 store_a 1 2 1 2 true true 0 0
          = res.done { code := 0, out := [], keyspace := some 2 }
      ∧ ∀ fuel : Nat, pp (fuel + 1) store_a 1 2 1 2 true false 0 0 = res.spin [bytes "a\n"])
    ∧ (∀ (db : Nat → db_entry_t) (pw_min pw_max emin emax : Nat),
        check_options pw_min pw_max emin emax = true →
        ∀ L, pw_min ≤ L → L ≤ pw_max →
          0 < calc_wordlen_dist false db L ∧ calc_wordlen_dist false db L < 2 ^ 64)
    ∧ ∀ (E : Nat → List (List Nat)) (pw_min pw_max emin emax : Nat) (wl : Bool), store_ok E →
        check_options pw_min pw_max emin emax = true → emax ≤ ELEM_CNT_MAX →
        (∀ L, pw_min ≤ L → L ≤ pw_max →
          0 < calc_wordlen_dist wl (init_chains pw_min pw_max emin emax (db_init E)) L
          ∧ calc_wordlen_dist wl (init_chains pw_min pw_max emin emax (db_init E)) L < 2 ^ 64) →
        ∀ fuel : Nat,
          (calc_keyspace pw_min pw_max
            (init_chains pw_min pw_max emin emax (db_init E))).total_ks_cnt < (fuel : Int) →
          ∃ out : List (List Nat),
            pp fuel E pw_min pw_max emin emax wl false 0 0
              = res.done { code := 0, out := out, keyspace := none }
            ∧ pp fuel E pw_min pw_max emin emax wl true 0 0
              = res.done ⟨0, [], some (calc_keyspace pw_min pw_max
                  (init_chains pw_min pw_max emin emax (db_init E))).total_ks_cnt⟩
            ∧ ((out.length : Nat) : Int) = (calc_keyspace pw_min pw_max
                (init_chains pw_min pw_max emin emax (db_init E))).total_ks_cnt
            ∧ ∀ L, pw_min ≤ L → L ≤ pw_max →
                (((out.countP (fun r => decide (r.length = L + 1)) : Nat) : Int)
                  = (calc_keyspace pw_min pw_max
                      (init_chains pw_min pw_max emin emax (db_init E))).pw_ks_cnt L
                ∧ (calc_keyspace pw_min pw_max
                      (init_chains pw_min pw_max emin emax (db_init E))).pw_ks_cnt L
                  = chains_ks ((sort_chains pw_min pw_max (calc_keyspace pw_min pw_max
                      (init_chains pw_min pw_max emin emax (db_init E))).db_entries)
                        L).chains_buf) := by
  refine ⟨⟨by decide, store_a_ok, store_a_keyspace, store_a_spin⟩,
    fun db pw_min pw_max emin emax hopt => default_weights_range db pw_min pw_max emin emax hopt,
    ?_⟩
  intro E pw_min pw_max emin emax wl hE hopt hmax hw fuel hfuel
  have hT := total_ks_cnt_eq E pw_min pw_max emin emax hopt hmax
  have hw0 : ∀ L, pw_min ≤ L → L ≤ pw_max →
      0 < calc_wordlen_dist wl (init_chains pw_min pw_max emin emax (db_init E)) L :=
    fun L h1 h2 => (hw L h1 h2).1
  refine ⟨_, pp_unrestricted E hE pw_min pw_max emin emax hopt hmax wl hw fuel
    (by rw [hT] at hfuel; omega), ?_, ?_, ?_⟩
  · unfold pp
    simp
  · rw [full_seq_length E pw_min pw_max emin emax _ hw0, hT]
  · intro L h1 h2
    rw [full_seq_count E hE pw_min pw_max emin emax hopt hmax _ hw0 L h1 h2,
      pw_ks_cnt_eq E pw_min pw_max emin emax hopt hmax, (setup_eq E pw_min pw_max emin emax).1]
    refine ⟨rfl, ?_⟩
    have hL : pw_min ≤ L ∧ L ≤ pw_max := ⟨h1, h2⟩
    have hch : (db_ready E pw_min pw_max emin emax L).chains_buf
        = chains_of E pw_min pw_max emin emax L := rfl
    rw [hch]
    unfold records_of
    exact (chains_ks_eq_length E _
      (fun c hc => (chains_of_ok E pw_min pw_max emin emax hopt hmax L c hc).1)).symm

theorem emitted_count_is_keyspace_witness :
    ∃ out : List (List Nat),
      pp 7 store_ab 1 2 1 2 false false 0 0
        = res.done { code := 0, out := out, keyspace := none }
      ∧ pp 7 store_ab 1 2 1 2 false true 0 0
        = res.done ⟨0, [],
            some (calc_keyspace 1 2 (init_chains 1 2 1 2 (db_init store_ab))).total_ks_cnt⟩
      ∧ ((out.length : Nat) : Int)
        = (calc_keyspace 1 2 (init_chains 1 2 1 2 (db_init store_ab))).total_ks_cnt
      ∧ ∀ L, 1 ≤ L → L ≤ 2 →
          (((out.countP (fun r => decide (r.length = L + 1)) : Nat) : Int)
            = (calc_keyspace 1 2 (init_chains 1 2 1 2 (db_init store_ab))).pw_ks_cnt L
          ∧ (calc_keyspace 1 2 (init_chains 1 2 1 2 (db_init store_ab))).pw_ks_cnt L
            = chains_ks ((sort_chains 1 2 (calc_keyspace 1 2
                (init_chains 1 2 1 2 (db_init store_ab))).db_entries) L).chains_buf) :=
  emitted_count_is_keyspace.2.2 store_ab 1 2 1 2 false store_ab_ok (by decide) (by decide)
    (default_weights_range _ 1 2 1 2 (by decide)) 7 (by decide)

/-! ## The order of the lengths within a round -/

theorem orderedInsert_by_cnt (a : pw_order_t) :
    ∀ S : List pw_order_t,
      S.Pairwise (fun x y => y.cnt < x.cnt ∨ (x.cnt = y.cnt ∧ x.len < y.len)) →
      (∀ b ∈ S, a.len < b.len) →
      (List.orderedInsert (fun x y => sort_by_cnt x y ≤ 0) a S).Pairwise
        (fun x y => y.cnt < x.cnt ∨ (x.cnt = y.cnt ∧ x.len < y.len)) := by
  intro S
  induction S with
  | nil => intro _ _; simp
  | cons b S ih =>
    intro hS hlen
    obtain ⟨hb, hS'⟩ := List.pairwise_cons.1 hS
    have hab := hlen b (by simp)
    rw [List.orderedInsert]
    by_cases hr : sort_by_cnt a b ≤ 0
    · rw [if_pos hr]
      have hcnt : b.cnt ≤ a.cnt := by
        unfold sort_by_cnt at hr
        by_contra hlt
        have h1 : ¬ a.cnt > b.cnt := by omega
        have h2 : a.cnt < b.cnt := by omega
        simp [h1, h2] at hr
      refine List.pairwise_cons.2 ⟨?_, hS⟩
      intro x hx
      rcases List.mem_cons.1 hx with rfl | hx'
      · omega
      · have h1 := hb x hx'
        have h2 := hlen x (by simp [hx'])
        omega
    · rw [if_neg hr]
      have hcnt : a.cnt < b.cnt := by
        unfold sort_by_cnt at hr
        by_contra hge
        by_cases h1 : a.cnt > b.cnt
        · simp [h1] at hr
        · have h2 : ¬ a.cnt < b.cnt := hge
          simp [h1, h2] at hr
      refine List.pairwise_cons.2 ⟨?_, ih hS' (fun x hx => hlen x (by simp [hx]))⟩
      intro x hx
      rcases (List.mem_orderedInsert _).1 hx with rfl | hx'
      · exact Or.inl hcnt
      · exact hb x hx'

theorem qsort_by_cnt_sorted :
    ∀ l : List pw_order_t, l.Pairwise (fun x y => x.len < y.len) →
      (qsort sort_by_cnt l).Pairwise
        (fun x y => y.cnt < x.cnt ∨ (x.cnt = y.cnt ∧ x.len < y.len)) := by
  intro l
  induction l with
  | nil => intro _; simp [qsort]
  | cons a l ih =>
    intro hl
    obtain ⟨ha, hl'⟩ := List.pairwise_cons.1 hl
    unfold qsort
    rw [List.insertionSort]
    apply orderedInsert_by_cnt a _ (ih hl')
    intro b hb
    exact ha b ((List.perm_insertionSort _ l).mem_iff.1 hb)

theorem pw_lens_sorted (pw_min pw_max : Nat) :
    (pw_lens pw_min pw_max).Pairwise (fun a b => a < b) :=
  List.pairwise_lt_range' pw_min (pw_max + 1 - pw_min)

/-- The array `pw_orders` after the sort, for any table. -/
theorem init_pw_orders_sorted (db : Nat → db_entry_t) (pw_min pw_max : Nat) :
    ((init_pw_orders pw_min pw_max db).map (fun o => o.len)).Perm (pw_lens pw_min pw_max)
    ∧ (∀ o ∈ init_pw_orders pw_min pw_max db, o.cnt = (db o.len).elems_cnt)
    ∧ (init_pw_orders pw_min pw_max db).Pairwise
        (fun x y => y.cnt < x.cnt ∨ (x.cnt = y.cnt ∧ x.len < y.len)) := by
  refine ⟨?_, ?_, ?_⟩
  · unfold init_pw_orders qsort
    refine ((List.perm_insertionSort _ _).map _).trans ?_
    simp [List.map_map, Function.comp_def]
  · intro o ho
    unfold init_pw_orders qsort at ho
    rw [(List.perm_insertionSort _ _).mem_iff] at ho
    obtain ⟨L, _, rfl⟩ := List.mem_map.1 ho
    rfl
  · unfold init_pw_orders
    apply qsort_by_cnt_sorted
    rw [List.pairwise_map]
    exact pw_lens_sorted pw_min pw_max

theorem store_x_ok : store_ok store_x := by
  intro p e he
  unfold store_x at he
  split at he
  · rename_i h; subst h
    simp [bytes] at he
    subst he
    rfl
  · simp at he

set_option maxRecDepth 100000 in
theorem store_x_order :
    (init_pw_orders 1 3 (sort_chains 1 3
      (calc_keyspace 1 3 (init_chains 1 3 1 3 (db_init store_x))).db_entries)).map
        (fun o => o.len) = [1, 2, 3] := by
  decide

set_option maxRecDepth 100000 in
theorem store_x_run (fuel : Nat) (hfuel : 3 < fuel) :
    pp fuel store_x 1 3 1 3 false false 0 0
      = res.done { code := 0, out := [bytes "x\n", bytes "xx\n", bytes "xxx\n"],
                   keyspace := none } := by
  have hcnt : records_cnt store_x 1 3 1 3 = 3 := by decide
  have hfull : full_seq store_x 1 3 1 3
      (calc_wordlen_dist false (init_chains 1 3 1 3 (db_init store_x)))
      = [bytes "x\n", bytes "xx\n", bytes "xxx\n"] := by decide
  rw [pp_unrestricted store_x store_x_ok 1 3 1 3 (by decide) (by decide) false
    (default_weights_range _ 1 3 1 3 (by decide)) fuel (by omega), hfull]

/-- C3: for every store and configuration the order in which a round visits
the lengths is a permutation of `[pw_min..pw_max]` sorted descending by the
number of stored elements `|E[L]|`, whatever the weight choice, lengths with
equally many elements in ascending order; with the weights `|E[L]|` this is
the descending order of the weights.  For the single element `x` with
`pw_min = 1`, `pw_max = 3` and the default weights the order is 1, 2, 3 and
the output is `x`, `xx`, `xxx`. -/
theorem visiting_order_by_element_count :
    (∀ (E : Nat → List (List Nat)) (pw_min pw_max emin emax : Nat),
      ((init_pw_orders pw_min pw_max (sort_chains pw_min pw_max
          (calc_keyspace pw_min pw_max
            (init_chains pw_min pw_max emin emax (db_init E))).db_entries)).map
              (fun o => o.len)).Perm (List.range' pw_min (pw_max + 1 - pw_min))
      ∧ (∀ o ∈ init_pw_orders pw_min pw_max (sort_chains pw_min pw_max
          (calc_keyspace pw_min pw_max
            (init_chains pw_min pw_max emin emax (db_init E))).db_entries),
          o.cnt = (E o.len).length)
      ∧ (init_pw_orders pw_min pw_max (sort_chains pw_min pw_max
          (calc_keyspace pw_min pw_max
            (init_chains pw_min pw_max emin emax (db_init E))).db_entries)).Pairwise
              (fun x y => y.cnt < x.cnt ∨ (x.cnt = y.cnt ∧ x.len < y.len)))
    ∧ (∀ (E : Nat → List (List Nat)) (pw_min pw_max emin emax L : Nat), 1 ≤ L → L ≤ 16 →
        calc_wordlen_dist true (init_chains pw_min pw_max emin emax (db_init E)) L
          = (E L).length)
    ∧ (init_pw_orders 1 3 (sort_chains 1 3
        (calc_keyspace 1 3 (init_chains 1 3 1 3 (db_init store_x))).db_entries)).map
          (fun o => o.len) = [1, 2, 3]
    ∧ ∀ fuel : Nat, 3 < fuel →
        pp fuel store_x 1 3 1 3 false false 0 0
          = res.done { code := 0, out := [bytes "x\n", bytes "xx\n", bytes "xxx\n"],
                       keyspace := none } := by
  refine ⟨?_, ?_, store_x_order, store_x_run⟩
  · intro E pw_min pw_max emin emax
    rw [(setup_eq E pw_min pw_max emin emax).1]
    obtain ⟨h1, h2, h3⟩ := init_pw_orders_sorted (db_ready E pw_min pw_max emin emax)
      pw_min pw_max
    refine ⟨h1, ?_, h3⟩
    intro o ho
    rw [h2 o ho, db_entry_t.elems_cnt, db_ready_elems]
  · intro E pw_min pw_max emin emax L h1 h2
    rw [init_chains_eq]
    unfold calc_wordlen_dist
    have hL : IN_LEN_MIN ≤ L ∧ L ≤ IN_LEN_MAX := ⟨h1, h2⟩
    simp only [hL, and_self, if_true]
    by_cases hk : L ∈ pw_lens pw_min pw_max <;> simp [hk, db_entry_t.elems_cnt, db_init]

theorem visiting_order_by_element_count_witness :
    calc_wordlen_dist true (init_chains 1 3 1 3 (db_init store_x)) 1 = (store_x 1).length
    ∧ pp 4 store_x 1 3 1 3 false false 0 0
        = res.done { code := 0, out := [bytes "x\n", bytes "xx\n", bytes "xxx\n"],
                     keyspace := none } :=
  ⟨visiting_order_by_element_count.2.1 store_x 1 3 1 3 1 (by decide) (by decide),
    visiting_order_by_element_count.2.2.2 4 (by decide)⟩

/-- C3, as stated, fails: for the single element `x` with `pw_min = 1`,
`pw_max = 3` and the default weights, the weight of the length 3 is above
that of 2, which is above that of 1, yet the lengths are visited in the order
1, 2, 3, not in descending order of the weights, and the output is `x`, `xx`,
`xxx`, not `xxx`, `xx`, `x`. -/
theorem visiting_order_not_by_weight :
    check_options 1 3 1 3 = true
    ∧ calc_wordlen_dist false (init_chains 1 3 1 3 (db_init store_x)) 1
        < calc_wordlen_dist false (init_chains 1 3 1 3 (db_init store_x)) 2
    ∧ calc_wordlen_dist false (init_chains 1 3 1 3 (db_init store_x)) 2
        < calc_wordlen_dist false (init_chains 1 3 1 3 (db_init store_x)) 3
    ∧ (init_pw_orders 1 3 (sort_chains 1 3
        (calc_keyspace 1 3 (init_chains 1 3 1 3 (db_init store_x))).db_entries)).map
          (fun o => o.len) = [1, 2, 3]
    ∧ (init_pw_orders 1 3 (sort_chains 1 3
        (calc_keyspace 1 3 (init_chains 1 3 1 3 (db_init store_x))).db_entries)).map
          (fun o => o.len) ≠ [3, 2, 1]
    ∧ pp 4 store_x 1 3 1 3 false false 0 0
        = res.done { code := 0, out := [bytes "x\n", bytes "xx\n", bytes "xxx\n"],
                     keyspace := none }
    ∧ [bytes "x\n", bytes "xx\n", bytes "xxx\n"] ≠ [bytes "xxx\n", bytes "xx\n", bytes "x\n"] := by
  refine ⟨by decide, by decide, by decide, store_x_order, ?_, store_x_run 4 (by decide),
    by decide⟩
  rw [store_x_order]
  decide

/-! ## The run of the store `a`, `b` -/

set_option maxRecDepth 100000 in
theorem store_ab_run (fuel : Nat) (hfuel : 6 < fuel) :
    pp fuel store_ab 1 2 1 2 false false 0 0
      = res.done { code := 0,
                   out := [bytes "a\n", bytes "b\n", bytes "aa\n", bytes "ba\n", bytes "ab\n",
                     bytes "bb\n"],
                   keyspace := none } := by
  have hcnt : records_cnt store_ab 1 2 1 2 = 6 := by decide
  have hfull : full_seq store_ab 1 2 1 2
      (calc_wordlen_dist false (init_chains 1 2 1 2 (db_init store_ab)))
      = [bytes "a\n", bytes "b\n", bytes "aa\n", bytes "ba\n", bytes "ab\n", bytes "bb\n"] := by
    decide
  rw [pp_unrestricted store_ab store_ab_ok 1 2 1 2 (by decide) (by decide) false
    (default_weights_range _ 1 2 1 2 (by decide)) fuel (by omega), hfull]

/-- C4: for the store `E[1] = ["a", "b"]`, `pw_min = 1`, `pw_max = 2`,
`elem_cnt_min = 1`, `elem_cnt_max = 2`, default weights, skip 0 and no limit,
the emitted byte stream is `a`, `b`, `aa`, `ba`, `ab`, `bb`, each followed by
a newline: the two candidates of length 1 come before the four of length 2,
whose part 0 varies fastest. -/
theorem scenario_one_stream (fuel : Nat) (hfuel : 6 < fuel) :
    check_options 1 2 1 2 = true
    ∧ ∃ out : List (List Nat),
        pp fuel store_ab 1 2 1 2 false false 0 0
          = res.done { code := 0, out := out, keyspace := none }
        ∧ stream out = bytes "a\nb\naa\nba\nab\nbb\n" :=
  ⟨by decide, _, store_ab_run fuel hfuel, by decide⟩

theorem scenario_one_stream_witness :
    6 < 7 ∧ check_options 1 2 1 2 = true
    ∧ ∃ out : List (List Nat),
        pp 7 store_ab 1 2 1 2 false false 0 0
          = res.done { code := 0, out := out, keyspace := none }
        ∧ stream out = bytes "a\nb\naa\nba\nab\nbb\n" :=
  ⟨by decide, scenario_one_stream 7 (by decide)⟩

/-- C4, as stated, fails: the run of scenario 1 emits the stream
`a`, `b`, `aa`, `ba`, `ab`, `bb`, which is not `aa`, `ba`, `ab`, `bb`, `a`,
`b`. -/
theorem scenario_one_stream_differs :
    pp 7 store_ab 1 2 1 2 false false 0 0
      = res.done { code := 0,
                   out := [bytes "a\n", bytes "b\n", bytes "aa\n", bytes "ba\n", bytes "ab\n",
                     bytes "bb\n"],
                   keyspace := none }
    ∧ stream [bytes "a\n", bytes "b\n", bytes "aa\n", bytes "ba\n", bytes "ab\n", bytes "bb\n"]
        ≠ bytes "aa\nba\nab\nbb\na\nb\n" :=
  ⟨store_ab_run 7 (by decide), by decide⟩

/-! ## The candidates of a run -/

/-- The candidate of in-range indexes is a concatenation of stored elements,
one per part. -/
theorem candidate_elems (E : Nat → List (List Nat)) (hE : store_ok E) :
    ∀ (parts idxs : List Nat), List.Forall₂ (fun p i => i < (E p).length) parts idxs →
      ∃ es : List (List Nat), es.flatten = candidate E parts idxs
        ∧ es.map List.length = parts ∧ ∀ e ∈ es, e ∈ E e.length := by
  intro parts idxs h
  induction h with
  | nil => exact ⟨[], rfl, rfl, by simp⟩
  | @cons p i parts idxs hi _ ih =>
    obtain ⟨es, h1, h2, h3⟩ := ih
    obtain ⟨hget, hlen⟩ := getD_mem_length E hE p i hi
    have hmem : (E p).getD i [] ∈ E p := List.get?_mem hget
    refine ⟨(E p).getD i [] :: es, ?_, ?_, ?_⟩
    · simp [candidate, h1]
    · rw [List.map_cons, h2, hlen]
    · intro e he
      rcases List.mem_cons.1 he with rfl | he'
      · rw [hlen]; exact hmem
      · exact h3 e he'

/-- A concatenation of stored elements is the candidate of one position of
the chain of their lengths. -/
theorem elems_candidate (E : Nat → List (List Nat)) :
    ∀ es : List (List Nat), (∀ e ∈ es, e ∈ E e.length) →
      ∃ pos, pos < (radices E (es.map List.length)).prod
        ∧ chain_cand E (es.map List.length) pos = es.flatten := by
  intro es
  induction es with
  | nil => intro _; exact ⟨0, by simp [radices], rfl⟩
  | cons e es ih =>
    intro h
    obtain ⟨pos, hpos, hcand⟩ := ih (fun e' he' => h e' (by simp [he']))
    obtain ⟨i, hi, hget⟩ := List.getElem_of_mem (h e (by simp))
    have hn : 0 < (E e.length).length := by omega
    refine ⟨i + (E e.length).length * pos, ?_, ?_⟩
    · simp only [radices, List.map_cons, List.prod_cons] at hpos ⊢
      calc i + (E e.length).length * pos
          < (E e.length).length + (E e.length).length * pos := by omega
        _ = (E e.length).length * (pos + 1) := by ring
        _ ≤ (E e.length).length * (List.map (fun p => (E p).length) (List.map List.length es)).prod :=
            Nat.mul_le_mul_left _ hpos
    · unfold chain_cand at hcand ⊢
      simp only [radices, List.map_cons, mixed_radix, candidate, List.flatten_cons] at hcand ⊢
      rw [Nat.add_mul_mod_self_left, Nat.mod_eq_of_lt hi, Nat.add_mul_div_left _ _ hn,
        Nat.div_eq_of_lt hi, Nat.zero_add, hcand]
      congr 1
      rw [List.getD_eq_getElem?_getD, List.getElem?_eq_getElem hi, hget]
      rfl

theorem mem_bucket_chains_buf (E : Nat → List (List Nat)) (emin emax L : Nat)
    (hL1 : 1 ≤ L) (hL : L ≤ 16) (parts : List Nat) :
    (∃ c ∈ bucket_chains E emin emax L, c.buf = parts)
      ↔ (∀ p ∈ parts, 0 < p) ∧ parts.sum = L ∧ (∀ p ∈ parts, 0 < (E p).length)
        ∧ emin ≤ parts.length ∧ parts.length ≤ emax := by
  rw [← mem_valid_chains_bufs E emin emax L hL1 hL parts,
    ← (bucket_chains_bufs_perm E emin emax L).mem_iff, List.mem_map]

/-- The candidates of the unrestricted sequence: the concatenations of stored
elements within the bounds of the configuration. -/
theorem mem_full_seq (E : Nat → List (List Nat)) (hE : store_ok E)
    (pw_min pw_max emin emax : Nat)
    (hopt : check_options pw_min pw_max emin emax = true)
    (w : Nat → Nat) (hw : ∀ L, pw_min ≤ L → L ≤ pw_max → 0 < w L) (r : List Nat) :
    r ∈ full_seq E pw_min pw_max emin emax w
      ↔ ∃ es : List (List Nat), r = es.flatten ++ [10]
          ∧ (∀ e ∈ es, 0 < e.length ∧ e ∈ E e.length)
          ∧ emin ≤ es.length ∧ es.length ≤ emax
          ∧ pw_min ≤ es.flatten.length ∧ es.flatten.length ≤ pw_max := by
  obtain ⟨hpw1, _, hpw16, _, _, _⟩ := check_options_nat _ _ _ _ hopt
  rw [(full_seq_perm E pw_min pw_max emin emax w hw).mem_iff, List.mem_flatMap]
  constructor
  · rintro ⟨L, hL, hr⟩
    obtain ⟨h1, h2⟩ := (mem_pw_lens _ _ _).1 hL
    obtain ⟨c, hc, pos, _, rfl⟩ := (mem_records_of E pw_min pw_max emin emax L r).1 hr
    rw [chains_of, db_ready_chains E pw_min pw_max emin emax L h1 h2] at hc
    obtain ⟨hp, hsum, hn, hmin, hmax⟩ :=
      (mem_bucket_chains_buf E emin emax L (by omega) (by omega) c.buf).1 ⟨c, hc, rfl⟩
    obtain ⟨es, hes, hlen, hmem⟩ := candidate_elems E hE c.buf _
      (mixed_radix_forall₂ E c.buf pos hn)
    have hl : es.length = c.buf.length := by rw [← hlen, List.length_map]
    have hfl : es.flatten.length = L := by
      rw [hes]
      exact (candidate_length E hE _ _ (mixed_radix_forall₂ E c.buf pos hn)).trans hsum
    refine ⟨es, ?_, ?_, by omega, by omega, by omega, by omega⟩
    · rw [hes]; rfl
    · intro e he
      refine ⟨hp e.length ?_, hmem e he⟩
      rw [← hlen]
      exact List.mem_map.2 ⟨e, he, rfl⟩
  · rintro ⟨es, rfl, hes, hmin, hmax, h1, h2⟩
    have hsum : (es.map List.length).sum = es.flatten.length := by
      rw [List.length_flatten]
    refine ⟨es.flatten.length, (mem_pw_lens _ _ _).2 ⟨h1, h2⟩, ?_⟩
    obtain ⟨c, hc, hbuf⟩ := (mem_bucket_chains_buf E emin emax es.flatten.length (by omega)
      (by omega) (es.map List.length)).2
      ⟨fun p hp => by
          obtain ⟨e, he, rfl⟩ := List.mem_map.1 hp
          exact (hes e he).1,
        hsum,
        fun p hp => by
          obtain ⟨e, he, rfl⟩ := List.mem_map.1 hp
          exact List.length_pos_of_mem (hes e he).2,
        by rw [List.length_map]; exact hmin, by rw [List.length_map]; exact hmax⟩
    obtain ⟨pos, hpos, hcand⟩ := elems_candidate E es (fun e he => (hes e he).2)
    refine (mem_records_of E pw_min pw_max emin emax es.flatten.length _).2
      ⟨c, ?_, pos, ?_, ?_⟩
    · rw [chains_of, db_ready_chains E pw_min pw_max emin emax _ h1 h2]
      exact hc
    · rw [hbuf]; exact hpos
    · rw [hbuf, hcand]

theorem store_a_aa_ok : store_ok store_a_aa := by
  intro p e he
  unfold store_a_aa at he
  split at he
  · rename_i h; subst h
    simp [bytes] at he
    subst he
    rfl
  · split at he
    · rename_i h; subst h
      simp [bytes] at he
      subst he
      rfl
    · simp at he

set_option maxRecDepth 100000 in
theorem store_a_aa_run :
    pp 3 store_a_aa 2 2 1 2 false false 0 0
      = res.done { code := 0, out := [bytes "aa\n", bytes "aa\n"], keyspace := none } := rfl

/-- The records of all buckets, listed by length, stored chain and position:
one record for every index tuple of every chain. -/
theorem records_enum (E : Nat → List (List Nat)) (pw_min pw_max emin emax : Nat)
    (hopt : check_options pw_min pw_max emin emax = true) (hmax : emax ≤ ELEM_CNT_MAX) :
    (pw_lens pw_min pw_max).flatMap (records_of E pw_min pw_max emin emax)
      = (pw_lens pw_min pw_max).flatMap (fun L =>
          (sort_chains pw_min pw_max (calc_keyspace pw_min pw_max
            (init_chains pw_min pw_max emin emax (db_init E))).db_entries L).chains_buf.flatMap
            (fun c => (List.range c.ks_cnt.toNat).map
              (fun pos => candidate E c.buf (mixed_radix (radices E c.buf) pos) ++ [10]))) := by
  rw [(setup_eq E pw_min pw_max emin emax).1]
  have hchains := chains_of_ok E pw_min pw_max emin emax hopt hmax
  have hL : ∀ L, records_of E pw_min pw_max emin emax L
      = (db_ready E pw_min pw_max emin emax L).chains_buf.flatMap
          (fun c => (List.range c.ks_cnt.toNat).map
            (fun pos => candidate E c.buf (mixed_radix (radices E c.buf) pos) ++ [10])) := by
    intro L
    show bucket_seq E (chains_of E pw_min pw_max emin emax L)
      = (chains_of E pw_min pw_max emin emax L).flatMap _
    have hc := hchains L
    generalize chains_of E pw_min pw_max emin emax L = cs at hc
    induction cs with
    | nil => rfl
    | cons c cs ih =>
      rw [bucket_seq_cons, List.flatMap_cons, ih (fun d hd => hc d (List.mem_cons_of_mem _ hd))]
      congr 1
      have hks := (hc c (List.mem_cons_self _ _)).1
      rw [hks, Int.toNat_ofNat]
      unfold chain_seq chain_seg chain_cand
      apply List.map_congr_left
      intro j _
      rw [Nat.zero_add]
  rw [funext hL]

/-- C5: for every accepted configuration with `elem_cnt_max ≤ 8`, under the
default weights, the records of the unrestricted run are candidates followed
by a newline, and a byte string is among the candidates if and only if it is
a concatenation of `k` stored elements with
`elem_cnt_min ≤ k ≤ elem_cnt_max` and total length in `[pw_min, pw_max]`:
every such concatenation is emitted at least once.  The output is a
permutation of the list that holds, for every length of `[pw_min, pw_max]`,
every chain stored in its bucket and every position below the chain's
`ks_cnt`, the candidate of the index tuple of that position: a candidate is
emitted once per chain and index tuple, and the number of times a record is
emitted is the number of pairs of a stored chain and a position that produce
it. -/
theorem every_concatenation_emitted (E : Nat → List (List Nat)) (pw_min pw_max emin emax : Nat)
    (hE : store_ok E) (hopt : check_options pw_min pw_max emin emax = true)
    (hmax : emax ≤ ELEM_CNT_MAX) (fuel : Nat)
    (hfuel : (calc_keyspace pw_min pw_max
      (init_chains pw_min pw_max emin emax (db_init E))).total_ks_cnt < (fuel : Int)) :
    ∃ out : List (List Nat),
      pp fuel E pw_min pw_max emin emax false false 0 0
        = res.done { code := 0, out := out, keyspace := none }
      ∧ (∀ r ∈ out, ∃ cand : List Nat, r = cand ++ [10])
      ∧ (∀ cand : List Nat,
          cand ++ [10] ∈ out
            ↔ ∃ es : List (List Nat), cand = es.flatten
                ∧ (∀ e ∈ es, 0 < e.length ∧ e ∈ E e.length)
                ∧ emin ≤ es.length ∧ es.length ≤ emax
                ∧ pw_min ≤ cand.length ∧ cand.length ≤ pw_max)
      ∧ out.Perm ((pw_lens pw_min pw_max).flatMap (fun L =>
          (sort_chains pw_min pw_max (calc_keyspace pw_min pw_max
            (init_chains pw_min pw_max emin emax (db_init E))).db_entries L).chains_buf.flatMap
            (fun c => (List.range c.ks_cnt.toNat).map
              (fun pos => candidate E c.buf (mixed_radix (radices E c.buf) pos) ++ [10]))))
      ∧ ∀ r : List Nat,
          out.count r = ((pw_lens pw_min pw_max).map (fun L =>
            ((sort_chains pw_min pw_max (calc_keyspace pw_min pw_max
              (init_chains pw_min pw_max emin emax (db_init E))).db_entries L).chains_buf.map
              (fun c => ((List.range c.ks_cnt.toNat).filter
                (fun pos => candidate E c.buf (mixed_radix (radices E c.buf) pos) ++ [10]
                  == r)).length)).sum)).sum := by
  have hw := default_weights_range (init_chains pw_min pw_max emin emax (db_init E))
    pw_min pw_max emin emax hopt
  have hT := total_ks_cnt_eq E pw_min pw_max emin emax hopt hmax
  have hmem := mem_full_seq E hE pw_min pw_max emin emax hopt
    (calc_wordlen_dist false (init_chains pw_min pw_max emin emax (db_init E)))
    (fun L h1 h2 => (hw L h1 h2).1)
  have hperm := full_seq_perm E pw_min pw_max emin emax
    (calc_wordlen_dist false (init_chains pw_min pw_max emin emax (db_init E)))
    (fun L h1 h2 => (hw L h1 h2).1)
  rw [records_enum E pw_min pw_max emin emax hopt hmax] at hperm
  refine ⟨_, pp_unrestricted E hE pw_min pw_max emin emax hopt hmax false hw fuel
    (by rw [hT] at hfuel; omega), ?_, ?_, hperm, ?_⟩
  · intro r hr
    obtain ⟨es, rfl, _⟩ := (hmem r).1 hr
    exact ⟨_, rfl⟩
  · intro cand
    rw [hmem]
    constructor
    · rintro ⟨es, hes, h⟩
      have hc : cand = es.flatten := List.append_cancel_right hes
      subst hc
      exact ⟨es, rfl, h⟩
    · rintro ⟨es, rfl, h⟩
      exact ⟨es, rfl, h⟩
  · intro r
    have hcnt : ∀ l l' : List (List Nat), l.Perm l' → l.count r = l'.count r :=
      fun l l' h => h.countP_eq _
    rw [hcnt _ _ hperm, List.count_flatMap]
    congr 1
    apply List.map_congr_left
    intro L _
    rw [Function.comp_apply, List.count_flatMap]
    congr 1
    apply List.map_congr_left
    intro c _
    rw [Function.comp_apply, List.count_eq_countP, List.countP_map, List.countP_eq_length_filter]
    rfl

theorem every_concatenation_emitted_witness :
    ∃ out : List (List Nat),
      pp 7 store_ab 1 2 1 2 false false 0 0
        = res.done { code := 0, out := out, keyspace := none }
      ∧ (∀ r ∈ out, ∃ cand : List Nat, r = cand ++ [10])
      ∧ (∀ cand : List Nat,
          cand ++ [10] ∈ out
            ↔ ∃ es : List (List Nat), cand = es.flatten
                ∧ (∀ e ∈ es, 0 < e.length ∧ e ∈ store_ab e.length)
                ∧ 1 ≤ es.length ∧ es.length ≤ 2
                ∧ 1 ≤ cand.length ∧ cand.length ≤ 2)
      ∧ out.Perm ((pw_lens 1 2).flatMap (fun L =>
          (sort_chains 1 2 (calc_keyspace 1 2
            (init_chains 1 2 1 2 (db_init store_ab))).db_entries L).chains_buf.flatMap
            (fun c => (List.range c.ks_cnt.toNat).map
              (fun pos => candidate store_ab c.buf (mixed_radix (radices store_ab c.buf) pos)
                ++ [10]))))
      ∧ ∀ r : List Nat,
          out.count r = ((pw_lens 1 2).map (fun L =>
            ((sort_chains 1 2 (calc_keyspace 1 2
              (init_chains 1 2 1 2 (db_init store_ab))).db_entries L).chains_buf.map
              (fun c => ((List.range c.ks_cnt.toNat).filter
                (fun pos => candidate store_ab c.buf
                    (mixed_radix (radices store_ab c.buf) pos) ++ [10]
                  == r)).length)).sum)).sum :=
  every_concatenation_emitted store_ab 1 2 1 2 store_ab_ok (by decide) (by decide) 7
    (by decide)

/-- C5, as stated, fails: with `E[1] = ["a"]`, `E[2] = ["aa"]` and
`pw_min = pw_max = 2`, `elem_cnt_min = 1`, `elem_cnt_max = 2` the
unrestricted run emits the candidate `aa` twice, once for the chain `(2)` and
once for the chain `(1, 1)`. -/
theorem concatenation_emitted_twice :
    store_ok store_a_aa ∧ check_options 2 2 1 2 = true
    ∧ pp 3 store_a_aa 2 2 1 2 false false 0 0
        = res.done { code := 0, out := [bytes "aa\n", bytes "aa\n"], keyspace := none }
    ∧ List.count (bytes "aa\n") [bytes "aa\n", bytes "aa\n"] = 2 :=
  ⟨store_a_aa_ok, by decide, store_a_aa_run, by decide⟩

/-! ## The checks of the options, of the skip and of the limit -/

/-- C13: the option check accepts `(pw_min, pw_max, elem_cnt_min, elem_cnt_max)`
if and only if `1 ≤ pw_min ≤ pw_max ≤ 16` and
`1 ≤ elem_cnt_min ≤ elem_cnt_max ≤ pw_max`; every other quadruple makes `main`
return -1 with an empty sink, whatever the element store, and an accepted one
hands over to the rest of `main`. -/
theorem option_check_accepts_iff (pw_min pw_max elem_cnt_min elem_cnt_max : Int) :
    (check_options pw_min pw_max elem_cnt_min elem_cnt_max = true
      ↔ 1 ≤ pw_min ∧ pw_min ≤ pw_max ∧ pw_max ≤ 16
        ∧ 1 ≤ elem_cnt_min ∧ elem_cnt_min ≤ elem_cnt_max ∧ elem_cnt_max ≤ pw_max)
    ∧ (¬ (1 ≤ pw_min ∧ pw_min ≤ pw_max ∧ pw_max ≤ 16
          ∧ 1 ≤ elem_cnt_min ∧ elem_cnt_min ≤ elem_cnt_max ∧ elem_cnt_max ≤ pw_max) →
        ∀ (fuel : Nat) (E : Nat → List (List Nat)) (wl_dist_len keyspace : Bool)
          (skip limit : Int),
          main fuel E pw_min pw_max elem_cnt_min elem_cnt_max wl_dist_len keyspace skip limit
            = res.done { code := -1, out := [], keyspace := none })
    ∧ (1 ≤ pw_min ∧ pw_min ≤ pw_max ∧ pw_max ≤ 16
          ∧ 1 ≤ elem_cnt_min ∧ elem_cnt_min ≤ elem_cnt_max ∧ elem_cnt_max ≤ pw_max →
        ∀ (fuel : Nat) (E : Nat → List (List Nat)) (wl_dist_len keyspace : Bool)
          (skip limit : Int),
          main fuel E pw_min pw_max elem_cnt_min elem_cnt_max wl_dist_len keyspace skip limit
            = pp fuel E pw_min.toNat pw_max.toNat elem_cnt_min.toNat elem_cnt_max.toNat
                wl_dist_len keyspace skip limit) := by
  have hiff := check_options_iff pw_min pw_max elem_cnt_min elem_cnt_max
  refine ⟨hiff, ?_, ?_⟩
  · intro h fuel E wl ks skip limit
    have hf : check_options pw_min pw_max elem_cnt_min elem_cnt_max = false := by
      cases hc : check_options pw_min pw_max elem_cnt_min elem_cnt_max
      · rfl
      · exact absurd (hiff.1 hc) h
    unfold main
    rw [if_pos hf]
  · intro h fuel E wl ks skip limit
    have ht := hiff.2 h
    unfold main
    rw [if_neg (by rw [ht]; exact Bool.noConfusion)]

theorem option_check_accepts_iff_witness :
    (∀ (fuel : Nat) (E : Nat → List (List Nat)) (wl_dist_len keyspace : Bool)
        (skip limit : Int),
        main fuel E 3 2 1 2 wl_dist_len keyspace skip limit
          = res.done { code := -1, out := [], keyspace := none })
    ∧ (∀ (fuel : Nat) (E : Nat → List (List Nat)) (wl_dist_len keyspace : Bool)
        (skip limit : Int),
        main fuel E 1 2 1 2 wl_dist_len keyspace skip limit
          = pp fuel E (1 : Int).toNat (2 : Int).toNat (1 : Int).toNat (2 : Int).toNat
              wl_dist_len keyspace skip limit) :=
  ⟨(option_check_accepts_iff 3 2 1 2).2.1 (by decide),
    (option_check_accepts_iff 1 2 1 2).2.2 (by decide)⟩

/-- The exits of `pp` in emission mode: the three rejections, or the run. -/
theorem pp_reject_iff (fuel : Nat) (E : Nat → List (List Nat))
    (pw_min pw_max emin emax : Nat) (wl : Bool) (skip limit : Nat) :
    (pp fuel E pw_min pw_max emin emax wl false (skip : Int) (limit : Int)
        = res.done { code := -1, out := [], keyspace := none }
      ↔ (skip ≠ 0 ∧ (calc_keyspace pw_min pw_max
            (init_chains pw_min pw_max emin emax (db_init E))).total_ks_cnt ≤ (skip : Int))
        ∨ (limit ≠ 0 ∧ (calc_keyspace pw_min pw_max
            (init_chains pw_min pw_max emin emax (db_init E))).total_ks_cnt
              < (skip : Int) + (limit : Int)))
    ∧ ∀ e : exit_t, pp fuel E pw_min pw_max emin emax wl false (skip : Int) (limit : Int)
        = res.done e → e.code ≠ 0 → e = { code := -1, out := [], keyspace := none } := by
  generalize hT : (calc_keyspace pw_min pw_max
    (init_chains pw_min pw_max emin emax (db_init E))).total_ks_cnt = T
  have hrun : ∀ (r : res main_t) (e : exit_t),
      (match r with
        | res.fault => (res.fault : res exit_t)
        | res.spin out => res.spin out
        | res.done st1 => res.done { code := 0, out := st1.out, keyspace := none }) = res.done e →
      e.code = 0 := by
    intro r e h
    cases r with
    | fault => simp at h
    | spin out => simp at h
    | done st1 =>
      simp at h
      rw [← h]
  have hrun2 : ∀ (r0 : res main_t) (f : main_t → res main_t) (e : exit_t),
      (match r0 with
        | res.fault => (res.fault : res exit_t)
        | res.spin out => res.spin out
        | res.done st =>
          match f st with
          | res.fault => res.fault
          | res.spin out => res.spin out
          | res.done st1 => res.done { code := 0, out := st1.out, keyspace := none })
        = res.done e → e.code = 0 := by
    intro r0 f e h
    cases r0 with
    | fault => simp at h
    | spin out => simp at h
    | done st => exact hrun (f st) e h
  by_cases h1 : skip ≠ 0 ∧ T ≤ (skip : Int)
  · have hp : pp fuel E pw_min pw_max emin emax wl false (skip : Int) (limit : Int)
        = res.done { code := -1, out := [], keyspace := none } := by
      unfold pp
      simp only [Bool.false_eq_true, if_false, hT]
      rw [if_pos ⟨by exact_mod_cast h1.1, h1.2⟩]
    rw [hp]
    refine ⟨⟨fun _ => Or.inl h1, fun _ => rfl⟩, ?_⟩
    intro e he _
    simp at he
    exact he.symm
  · by_cases h2 : limit ≠ 0 ∧ T < (skip : Int) + (limit : Int)
    · have hp : pp fuel E pw_min pw_max emin emax wl false (skip : Int) (limit : Int)
          = res.done { code := -1, out := [], keyspace := none } := by
        unfold pp
        simp only [Bool.false_eq_true, if_false, hT]
        rw [if_neg (by intro h; exact h1 ⟨by exact_mod_cast h.1, h.2⟩)]
        by_cases h3 : (limit : Int) > T
        · rw [if_pos ⟨by exact_mod_cast h2.1, h3⟩]
        · rw [if_neg (by intro h; exact h3 h.2), if_pos ⟨by exact_mod_cast h2.1, h2.2⟩]
      rw [hp]
      refine ⟨⟨fun _ => Or.inr h2, fun _ => rfl⟩, ?_⟩
      intro e he _
      simp at he
      exact he.symm
    · have hcode : ∀ e : exit_t,
          pp fuel E pw_min pw_max emin emax wl false (skip : Int) (limit : Int) = res.done e →
          e.code = 0 := by
        intro e he
        unfold pp at he
        simp only [Bool.false_eq_true, if_false, hT] at he
        rw [if_neg (by intro h; exact h1 ⟨by exact_mod_cast h.1, h.2⟩),
          if_neg (by
            intro h
            apply h2
            refine ⟨by exact_mod_cast h.1, ?_⟩
            have := h.2
            omega),
          if_neg (by intro h; exact h2 ⟨by exact_mod_cast h.1, h.2⟩)] at he
        exact hrun2 _ _ e he
      refine ⟨⟨fun h => ?_, fun h => ?_⟩, fun e he hne => absurd (hcode e he) hne⟩
      · have := hcode _ h
        simp at this
      · rcases h with h | h
        · exact absurd h h1
        · exact absurd h h2

/-- C14 (as amended): in emission mode a run is rejected, with the exit code
-1 and nothing emitted, if and only if `skip ≠ 0` and `skip ≥ T`, or
`limit ≠ 0` and `skip + limit > T`, for the total keyspace `T`; any other run
that ends does so with the exit code 0.  A zero skip is never rejected as such,
also when `T = 0`. -/
theorem skip_limit_rejection (fuel : Nat) (E : Nat → List (List Nat))
    (pw_min pw_max emin emax : Nat) (wl : Bool) (skip limit : Nat) :
    (pp fuel E pw_min pw_max emin emax wl false (skip : Int) (limit : Int)
        = res.done { code := -1, out := [], keyspace := none }
      ↔ (skip ≠ 0 ∧ (calc_keyspace pw_min pw_max
            (init_chains pw_min pw_max emin emax (db_init E))).total_ks_cnt ≤ (skip : Int))
        ∨ (limit ≠ 0 ∧ (calc_keyspace pw_min pw_max
            (init_chains pw_min pw_max emin emax (db_init E))).total_ks_cnt
              < (skip : Int) + (limit : Int)))
    ∧ (∀ e : exit_t, pp fuel E pw_min pw_max emin emax wl false (skip : Int) (limit : Int)
        = res.done e → e.code ≠ 0 → e = { code := -1, out := [], keyspace := none })
    ∧ (skip = 0 → limit = 0 →
        pp fuel E pw_min pw_max emin emax wl false (skip : Int) (limit : Int)
          ≠ res.done { code := -1, out := [], keyspace := none }) := by
  obtain ⟨h1, h2⟩ := pp_reject_iff fuel E pw_min pw_max emin emax wl skip limit
  refine ⟨h1, h2, ?_⟩
  intro hs hl h
  rcases h1.1 h with h' | h'
  · exact h'.1 hs
  · exact h'.1 hl

set_option maxRecDepth 100000 in
theorem skip_limit_rejection_witness :
    pp 7 store_ab 1 2 1 2 false false ((0 : Nat) : Int) ((0 : Nat) : Int)
      ≠ res.done { code := -1, out := [], keyspace := none } :=
  (skip_limit_rejection 7 store_ab 1 2 1 2 false 0 0).2.2 rfl rfl

set_option maxRecDepth 100000 in
theorem store_none_run :
    pp 1 store_none 1 1 1 1 false false 0 0
      = res.done { code := 0, out := [], keyspace := none } := rfl

set_option maxRecDepth 100000 in
theorem store_none_keyspace :
    (calc_keyspace 1 1 (init_chains 1 1 1 1 (db_init store_none))).total_ks_cnt = 0 := by
  decide

/-- C14, as stated, fails: without any element the total keyspace of the
lengths 1 to 1 is 0, so the skip 0 is not below it, yet the run with skip 0 and
no limit is not rejected: it ends with the exit code 0. -/
theorem zero_skip_not_rejected :
    check_options 1 1 1 1 = true
    ∧ (calc_keyspace 1 1 (init_chains 1 1 1 1 (db_init store_none))).total_ks_cnt = 0
    ∧ (0 : Int) ≥ (calc_keyspace 1 1 (init_chains 1 1 1 1 (db_init store_none))).total_ks_cnt
    ∧ pp 1 store_none 1 1 1 1 false false 0 0
        = res.done { code := 0, out := [], keyspace := none } :=
  ⟨by decide, store_none_keyspace, by rw [store_none_keyspace], store_none_run⟩

/-! ## The limit -/

/-- C12 (as amended): a limit of 0 stands for no limit.  For every accepted
configuration with `elem_cnt_max ≤ 8`, under the default weights, a run with
the skip `s` (0 or below the total keyspace `T`) emits `T - s` records when
the limit is 0 and exactly `l` records when the limit is `l ≥ 1` with
`s + l ≤ T`, and exits with the code 0. -/
theorem limit_bounds_output (E : Nat → List (List Nat)) (pw_min pw_max emin emax : Nat)
    (hE : store_ok E) (hopt : check_options pw_min pw_max emin emax = true)
    (hmax : emax ≤ ELEM_CNT_MAX) (s l : Nat)
    (hs : s = 0 ∨ (s : Int)
      < (calc_keyspace pw_min pw_max (init_chains pw_min pw_max emin emax (db_init E))).total_ks_cnt)
    (hsl : (s : Int) + (l : Int)
      ≤ (calc_keyspace pw_min pw_max (init_chains pw_min pw_max emin emax (db_init E))).total_ks_cnt)
    (fuel : Nat)
    (hfuel : (calc_keyspace pw_min pw_max
      (init_chains pw_min pw_max emin emax (db_init E))).total_ks_cnt < (fuel : Int)) :
    ∃ out : List (List Nat),
      pp fuel E pw_min pw_max emin emax false false (s : Int) (l : Int)
        = res.done { code := 0, out := out, keyspace := none }
      ∧ ((out.length : Nat) : Int)
        = if l = 0 then
            (calc_keyspace pw_min pw_max
              (init_chains pw_min pw_max emin emax (db_init E))).total_ks_cnt - (s : Int)
          else (l : Int) := by
  have hw := default_weights_range (init_chains pw_min pw_max emin emax (db_init E))
    pw_min pw_max emin emax hopt
  have hT := total_ks_cnt_eq E pw_min pw_max emin emax hopt hmax
  have hlen := full_seq_length E pw_min pw_max emin emax
    (calc_wordlen_dist false (init_chains pw_min pw_max emin emax (db_init E)))
    (fun L h1 h2 => (hw L h1 h2).1)
  refine ⟨_, pp_window E hE pw_min pw_max emin emax hopt hmax false hw s l hs hsl fuel hfuel, ?_⟩
  rw [hT] at hs hsl ⊢
  by_cases hl : l = 0
  · simp only [hl, if_true, List.length_drop, hlen]
    omega
  · simp only [hl, if_false, List.length_take, List.length_drop, hlen]
    omega

theorem limit_bounds_output_witness :
    ∃ out : List (List Nat),
      pp 7 store_ab 1 2 1 2 false false ((2 : Nat) : Int) ((3 : Nat) : Int)
        = res.done { code := 0, out := out, keyspace := none }
      ∧ ((out.length : Nat) : Int)
        = if 3 = 0 then
            (calc_keyspace 1 2 (init_chains 1 2 1 2 (db_init store_ab))).total_ks_cnt
              - ((2 : Nat) : Int)
          else ((3 : Nat) : Int) :=
  limit_bounds_output store_ab 1 2 1 2 store_ab_ok (by decide) (by decide) 2 3
    (Or.inr (by decide)) (by decide) 7 (by decide)

/-- C12, as stated, fails: for the store `a`, `b`, the lengths 1 to 2 and the
limit 0 the run emits all six candidates, not none. -/
theorem limit_zero_emits_all :
    check_options 1 2 1 2 = true
    ∧ pp 7 store_ab 1 2 1 2 false false 0 0
        = res.done { code := 0,
                     out := [bytes "a\n", bytes "b\n", bytes "aa\n", bytes "ba\n",
                       bytes "ab\n", bytes "bb\n"],
                     keyspace := none }
    ∧ [bytes "a\n", bytes "b\n", bytes "aa\n", bytes "ba\n", bytes "ab\n", bytes "bb\n"].length
        = 6 :=
  ⟨by decide, store_ab_run 7 (by decide), rfl⟩

/-! ## The width of the scratch array -/

set_option maxRecDepth 100000 in
theorem nine_parts_bucket :
    (sort_chains 9 9
      (calc_keyspace 9 9 (init_chains 9 9 1 9 (db_init store_ab))).db_entries 9).chains_buf
      = [{ buf := [1, 1, 1, 1, 1, 1, 1, 1, 1], ks_cnt := 512, ks_pos := 0 }] := rfl

set_option maxRecDepth 100000 in
theorem nine_parts_poses :
    set_chain_ks_poses { buf := [1, 1, 1, 1, 1, 1, 1, 1, 1], ks_cnt := 512, ks_pos := 0 }
      (sort_chains 9 9 (calc_keyspace 9 9 (init_chains 9 9 1 9 (db_init store_ab))).db_entries)
      256 (List.replicate ELEM_CNT_MAX 0) = none := by
  decide

set_option maxRecDepth 100000 in
theorem nine_parts_run (fuel : Nat) :
    pp (fuel + 1) store_ab 9 9 1 9 false false 256 1 = res.fault := rfl

/-- C15: for every accepted configuration with `elem_cnt_max ≤ 8` every chain
of every bucket has at most 8 parts, and `set_chain_ks_poses` and
`chain_set_pwbuf_increment` stay inside the 8-wide scratch array.  The option
check does not compare `elem_cnt_max` with 8: it accepts the lengths 9 to 9
with 1 to 9 elements, the bucket of the store `a`, `b` then holds the chain of
nine parts 1, `set_chain_ks_poses` indexes the scratch array at 8 for it, and
the run with skip 256 and limit 1 leaves the array. -/
theorem scratch_index_bound :
    (check_options 9 9 1 9 = true ∧ ¬ (9 : Nat) ≤ ELEM_CNT_MAX
      ∧ (sort_chains 9 9
          (calc_keyspace 9 9 (init_chains 9 9 1 9 (db_init store_ab))).db_entries 9).chains_buf
        = [{ buf := [1, 1, 1, 1, 1, 1, 1, 1, 1], ks_cnt := 512, ks_pos := 0 }]
      ∧ ¬ chain_t.cnt { buf := [1, 1, 1, 1, 1, 1, 1, 1, 1], ks_cnt := 512, ks_pos := 0 }
          ≤ ELEM_CNT_MAX
      ∧ set_chain_ks_poses { buf := [1, 1, 1, 1, 1, 1, 1, 1, 1], ks_cnt := 512, ks_pos := 0 }
          (sort_chains 9 9
            (calc_keyspace 9 9 (init_chains 9 9 1 9 (db_init store_ab))).db_entries)
          256 (List.replicate ELEM_CNT_MAX 0) = none
      ∧ ∀ fuel : Nat, pp (fuel + 1) store_ab 9 9 1 9 false false 256 1 = res.fault)
    ∧ ∀ (E : Nat → List (List Nat)) (pw_min pw_max emin emax : Nat), store_ok E →
        check_options pw_min pw_max emin emax = true → emax ≤ ELEM_CNT_MAX →
        ∀ (L : Nat),
          ∀ c ∈ (sort_chains pw_min pw_max (calc_keyspace pw_min pw_max
              (init_chains pw_min pw_max emin emax (db_init E))).db_entries L).chains_buf,
            c.cnt ≤ ELEM_CNT_MAX
            ∧ ∀ (pos : Nat) (cur : List Nat), cur.length = ELEM_CNT_MAX →
                (∃ cur', set_chain_ks_poses c
                    (sort_chains pw_min pw_max (calc_keyspace pw_min pw_max
                      (init_chains pw_min pw_max emin emax (db_init E))).db_entries)
                    (pos : Int) cur = some cur')
                ∧ ∀ (post tail : List Nat), ∃ r,
                    chain_set_pwbuf_increment c
                      (sort_chains pw_min pw_max (calc_keyspace pw_min pw_max
                        (init_chains pw_min pw_max emin emax (db_init E))).db_entries)
                      (mixed_radix (radices E c.buf) pos ++ post)
                      (chain_cand E c.buf pos ++ tail) = some r := by
  refine ⟨⟨by decide, by decide, nine_parts_bucket, by decide, nine_parts_poses,
    nine_parts_run⟩, ?_⟩
  intro E pw_min pw_max emin emax hE hopt hmax L c hc
  rw [(setup_eq E pw_min pw_max emin emax).1] at hc ⊢
  obtain ⟨_, _, hn, hk, _⟩ := chains_of_ok E pw_min pw_max emin emax hopt hmax L c hc
  have hdb : ∀ k, (db_ready E pw_min pw_max emin emax k).elems_buf = E k :=
    fun k => db_ready_elems E pw_min pw_max emin emax k
  refine ⟨hk, fun pos cur hcur => ⟨?_, fun post tail => ?_⟩⟩
  · refine ⟨_, set_chain_ks_poses_eq c _ cur pos hk hcur ?_⟩
    intro p hp
    rw [db_entry_t.elems_cnt, hdb]
    exact hn p hp
  · exact ⟨_, chain_set_pwbuf_increment_eq _ E hdb hE c hn hk pos post tail⟩

theorem scratch_index_bound_witness :
    ∀ c ∈ (sort_chains 1 2 (calc_keyspace 1 2
        (init_chains 1 2 1 2 (db_init store_ab))).db_entries 2).chains_buf,
      c.cnt ≤ ELEM_CNT_MAX
      ∧ ∀ (pos : Nat) (cur : List Nat), cur.length = ELEM_CNT_MAX →
          (∃ cur', set_chain_ks_poses c
              (sort_chains 1 2 (calc_keyspace 1 2
                (init_chains 1 2 1 2 (db_init store_ab))).db_entries)
              (pos : Int) cur = some cur')
          ∧ ∀ (post tail : List Nat), ∃ r,
              chain_set_pwbuf_increment c
                (sort_chains 1 2 (calc_keyspace 1 2
                  (init_chains 1 2 1 2 (db_init store_ab))).db_entries)
                (mixed_radix (radices store_ab c.buf) pos ++ post)
                (chain_cand store_ab c.buf pos ++ tail) = some r :=
  scratch_index_bound.2 store_ab 1 2 1 2 store_ab_ok (by decide) (by decide) 2

/-! ## The run of the store `a`, `bb` at the length 3 -/

theorem store_a_bb_ok : store_ok store_a_bb := by
  intro p e he
  unfold store_a_bb at he
  split at he
  · rename_i h; subst h
    simp [bytes] at he
    subst he
    rfl
  · split at he
    · rename_i h; subst h
      simp [bytes] at he
      subst he
      rfl
    · simp at he

set_option maxRecDepth 100000 in
theorem store_a_bb_bucket :
    (sort_chains 3 3
      (calc_keyspace 3 3 (init_chains 3 3 1 3 (db_init store_a_bb))).db_entries 3).chains_buf
      = [{ buf := [1, 2], ks_cnt := 1, ks_pos := 0 }, { buf := [2, 1], ks_cnt := 1, ks_pos := 0 },
         { buf := [1, 1, 1], ks_cnt := 1, ks_pos := 0 }] := rfl

set_option maxRecDepth 100000 in
theorem store_a_bb_run (fuel : Nat) (hfuel : 3 < fuel) :
    pp fuel store_a_bb 3 3 1 3 false false 0 0
      = res.done { code := 0, out := [bytes "abb\n", bytes "bba\n", bytes "aaa\n"],
                   keyspace := none } := by
  have hcnt : records_cnt store_a_bb 3 3 1 3 = 3 := by decide
  have hfull : full_seq store_a_bb 3 3 1 3
      (calc_wordlen_dist false (init_chains 3 3 1 3 (db_init store_a_bb)))
      = [bytes "abb\n", bytes "bba\n", bytes "aaa\n"] := by decide
  rw [pp_unrestricted store_a_bb store_a_bb_ok 3 3 1 3 (by decide) (by decide) false
    (default_weights_range _ 3 3 1 3 (by decide)) fuel (by omega), hfull]

/-- C17 (as amended): for the store `E[1] = ["a"]`, `E[2] = ["bb"]`,
`pw_min = pw_max = 3`, `elem_cnt_min = 1`, `elem_cnt_max = 3`, default weights,
no skip and no limit, the bucket of the length 3 holds the valid chains in the
order of their bitmasks, `(1,2)`, `(2,1)`, `(1,1,1)`, each with `ks_cnt = 1`,
and the emitted stream is `abb`, `bba`, `aaa`, each followed by a newline. -/
theorem scenario_six_stream (fuel : Nat) (hfuel : 3 < fuel) :
    check_options 3 3 1 3 = true
    ∧ (sort_chains 3 3
        (calc_keyspace 3 3 (init_chains 3 3 1 3 (db_init store_a_bb))).db_entries 3).chains_buf
        = [{ buf := [1, 2], ks_cnt := 1, ks_pos := 0 }, { buf := [2, 1], ks_cnt := 1, ks_pos := 0 },
           { buf := [1, 1, 1], ks_cnt := 1, ks_pos := 0 }]
    ∧ (chain_gen_with_idx 2 0).buf = [3] ∧ (chain_gen_with_idx 2 1).buf = [1, 2]
    ∧ (chain_gen_with_idx 2 2).buf = [2, 1] ∧ (chain_gen_with_idx 2 3).buf = [1, 1, 1]
    ∧ ∃ out : List (List Nat),
        pp fuel store_a_bb 3 3 1 3 false false 0 0
          = res.done { code := 0, out := out, keyspace := none }
        ∧ stream out = bytes "abb\nbba\naaa\n" :=
  ⟨by decide, store_a_bb_bucket, by decide, by decide, by decide, by decide, _,
    store_a_bb_run fuel hfuel, by decide⟩

theorem scenario_six_stream_witness :
    3 < 4 ∧ check_options 3 3 1 3 = true
    ∧ (sort_chains 3 3
        (calc_keyspace 3 3 (init_chains 3 3 1 3 (db_init store_a_bb))).db_entries 3).chains_buf
        = [{ buf := [1, 2], ks_cnt := 1, ks_pos := 0 }, { buf := [2, 1], ks_cnt := 1, ks_pos := 0 },
           { buf := [1, 1, 1], ks_cnt := 1, ks_pos := 0 }]
    ∧ (chain_gen_with_idx 2 0).buf = [3] ∧ (chain_gen_with_idx 2 1).buf = [1, 2]
    ∧ (chain_gen_with_idx 2 2).buf = [2, 1] ∧ (chain_gen_with_idx 2 3).buf = [1, 1, 1]
    ∧ ∃ out : List (List Nat),
        pp 4 store_a_bb 3 3 1 3 false false 0 0
          = res.done { code := 0, out := out, keyspace := none }
        ∧ stream out = bytes "abb\nbba\naaa\n" :=
  ⟨by decide, scenario_six_stream 4 (by decide)⟩

/-- C17, as stated, fails: the bucket of the length 3 holds the chains in the
order `(1,2)`, `(2,1)`, `(1,1,1)`, not `(1,1,1)`, `(1,2)`, `(2,1)`, and the
run emits `abb`, `bba`, `aaa`, not `aaa`, `abb`, `bba`. -/
theorem scenario_six_stream_differs :
    (sort_chains 3 3
        (calc_keyspace 3 3 (init_chains 3 3 1 3 (db_init store_a_bb))).db_entries
          3).chains_buf.map (fun c => c.buf) = [[1, 2], [2, 1], [1, 1, 1]]
    ∧ ([[1, 2], [2, 1], [1, 1, 1]] : List (List Nat)) ≠ [[1, 1, 1], [1, 2], [2, 1]]
    ∧ pp 4 store_a_bb 3 3 1 3 false false 0 0
        = res.done { code := 0, out := [bytes "abb\n", bytes "bba\n", bytes "aaa\n"],
                     keyspace := none }
    ∧ stream [bytes "abb\n", bytes "bba\n", bytes "aaa\n"] ≠ bytes "aaa\nabb\nbba\n" :=
  ⟨by rw [store_a_bb_bucket]; rfl, by decide, store_a_bb_run 4 (by decide), by decide⟩

/-! ## The order of the chains of a bucket -/

theorem sort_by_ks_le (a b : chain_t) : sort_by_ks a b ≤ 0 ↔ a.ks_cnt ≤ b.ks_cnt := by
  unfold sort_by_ks mpz_cmp
  by_cases h1 : a.ks_cnt < b.ks_cnt
  · simp [h1]; omega
  · by_cases h2 : a.ks_cnt = b.ks_cnt
    · simp [h1, h2]
    · simp [h1, h2]; omega

theorem orderedInsert_by_ks (R : chain_t → chain_t → Prop) (a : chain_t) :
    ∀ S : List chain_t,
      S.Pairwise (fun x y => x.ks_cnt < y.ks_cnt ∨ (x.ks_cnt = y.ks_cnt ∧ R x y)) →
      (∀ b ∈ S, R a b) →
      (List.orderedInsert (fun x y => sort_by_ks x y ≤ 0) a S).Pairwise
        (fun x y => x.ks_cnt < y.ks_cnt ∨ (x.ks_cnt = y.ks_cnt ∧ R x y)) := by
  intro S
  induction S with
  | nil => intro _ _; simp
  | cons b S ih =>
    intro hS hR
    obtain ⟨hb, hS'⟩ := List.pairwise_cons.1 hS
    rw [List.orderedInsert]
    by_cases hr : sort_by_ks a b ≤ 0
    · rw [if_pos hr]
      have hle := (sort_by_ks_le a b).1 hr
      refine List.pairwise_cons.2 ⟨?_, hS⟩
      intro x hx
      have hRx := hR x hx
      rcases List.mem_cons.1 hx with rfl | hx'
      · by_cases hlt : a.ks_cnt < x.ks_cnt
        · exact Or.inl hlt
        · exact Or.inr ⟨by omega, hRx⟩
      · have hbx : b.ks_cnt ≤ x.ks_cnt := by
          rcases hb x hx' with h | h
          · omega
          · omega
        by_cases hlt : a.ks_cnt < x.ks_cnt
        · exact Or.inl hlt
        · exact Or.inr ⟨by omega, hRx⟩
    · rw [if_neg hr]
      have hgt : b.ks_cnt < a.ks_cnt := by
        have := (sort_by_ks_le a b).not.1 hr
        omega
      refine List.pairwise_cons.2 ⟨?_, ih hS' (fun x hx => hR x (by simp [hx]))⟩
      intro x hx
      rcases (List.mem_orderedInsert _).1 hx with rfl | hx'
      · exact Or.inl hgt
      · exact hb x hx'

/-- The insertion sort by `sort_by_ks` sorts by `ks_cnt` and keeps the order
of the chains with the same `ks_cnt`. -/
theorem qsort_by_ks_sorted (R : chain_t → chain_t → Prop) :
    ∀ l : List chain_t, l.Pairwise R →
      (qsort sort_by_ks l).Pairwise
        (fun x y => x.ks_cnt < y.ks_cnt ∨ (x.ks_cnt = y.ks_cnt ∧ R x y)) := by
  intro l
  induction l with
  | nil => intro _; simp [qsort]
  | cons a l ih =>
    intro hl
    obtain ⟨ha, hl'⟩ := List.pairwise_cons.1 hl
    unfold qsort
    rw [List.insertionSort]
    apply orderedInsert_by_ks R a _ (ih hl')
    intro b hb
    exact ha b ((List.perm_insertionSort _ l).mem_iff.1 hb)

/-- The valid chains stand in the order of their bitmasks. -/
theorem valid_chains_order (E : Nat → List (List Nat)) (emin emax L : Nat) :
    ((valid_chains E emin emax L).map
      (fun c => ({ c with ks_cnt := chain_ks c (db_init E) } : chain_t))).Pairwise
      (fun a b => ∃ i j, i < j ∧ j < 2 ^ (L - 1)
        ∧ (chain_gen_with_idx (L - 1) i).buf = a.buf
        ∧ (chain_gen_with_idx (L - 1) j).buf = b.buf) := by
  rw [List.pairwise_map]
  unfold valid_chains
  apply List.Pairwise.filter
  rw [List.pairwise_map]
  have hr : (List.range (2 ^ (L - 1))).Pairwise (fun i j => i < j) := List.pairwise_lt_range _
  have hr' : (List.range (2 ^ (L - 1))).Pairwise (fun i j => i < j ∧ j < 2 ^ (L - 1)) := by
    rw [List.pairwise_iff_forall_sublist] at hr ⊢
    intro i j hij
    exact ⟨hr hij, List.mem_range.1 (hij.subset (by simp))⟩
  exact hr'.imp (fun {i j} h => ⟨i, j, h.1, h.2, rfl, rfl⟩)

/-- C16: for every length `L` in `[pw_min, pw_max]` the chains generated for
`L` are the chains of the bitmasks `0, ..., 2^(L-1) - 1` that pass the three
filters, in this order, and after the set-up the chain list of the bucket is
a permutation of them with `ks_cnt` filled in, ascending by `ks_cnt`, the
chains with the same `ks_cnt` in the order of their bitmasks. -/
theorem bucket_sorted_by_ks (E : Nat → List (List Nat)) (pw_min pw_max emin emax L : Nat)
    (h1 : pw_min ≤ L) (h2 : L ≤ pw_max) :
    (init_chains pw_min pw_max emin emax (db_init E) L).chains_buf
      = ((List.range (2 ^ (L - 1))).map (chain_gen_with_idx (L - 1))).filter
          (fun c => chain_valid_with_db c (db_init E) && chain_valid_with_cnt_min c emin
            && chain_valid_with_cnt_max c emax)
    ∧ ((sort_chains pw_min pw_max (calc_keyspace pw_min pw_max
          (init_chains pw_min pw_max emin emax (db_init E))).db_entries L).chains_buf).Perm
        ((init_chains pw_min pw_max emin emax (db_init E) L).chains_buf.map
          (fun c => ({ c with ks_cnt := chain_ks c (db_init E) } : chain_t)))
    ∧ ((sort_chains pw_min pw_max (calc_keyspace pw_min pw_max
          (init_chains pw_min pw_max emin emax (db_init E))).db_entries L).chains_buf).Pairwise
        (fun a b => a.ks_cnt ≤ b.ks_cnt)
    ∧ ((sort_chains pw_min pw_max (calc_keyspace pw_min pw_max
          (init_chains pw_min pw_max emin emax (db_init E))).db_entries L).chains_buf).Pairwise
        (fun a b => a.ks_cnt = b.ks_cnt →
          ∃ i j, i < j ∧ j < 2 ^ (L - 1)
            ∧ (chain_gen_with_idx (L - 1) i).buf = a.buf
            ∧ (chain_gen_with_idx (L - 1) j).buf = b.buf) := by
  have hL : L ∈ pw_lens pw_min pw_max := (mem_pw_lens _ _ _).2 ⟨h1, h2⟩
  have hinit : (init_chains pw_min pw_max emin emax (db_init E) L).chains_buf
      = valid_chains E emin emax L := by
    rw [init_chains_eq]
    simp [hL]
  rw [(setup_eq E pw_min pw_max emin emax).1, db_ready_chains _ _ _ _ _ _ h1 h2, hinit]
  have hsorted := qsort_by_ks_sorted _ _ (valid_chains_order E emin emax L)
  refine ⟨rfl, ?_, ?_, ?_⟩
  · unfold bucket_chains qsort
    exact List.perm_insertionSort _ _
  · unfold bucket_chains
    refine hsorted.imp ?_
    intro a b h
    rcases h with h | h
    · omega
    · omega
  · unfold bucket_chains
    refine hsorted.imp ?_
    intro a b h heq
    rcases h with h | h
    · omega
    · exact h.2

theorem bucket_sorted_by_ks_witness :
    (init_chains 3 3 1 3 (db_init store_a_bb) 3).chains_buf
      = ((List.range (2 ^ (3 - 1))).map (chain_gen_with_idx (3 - 1))).filter
          (fun c => chain_valid_with_db c (db_init store_a_bb) && chain_valid_with_cnt_min c 1
            && chain_valid_with_cnt_max c 3)
    ∧ ((sort_chains 3 3 (calc_keyspace 3 3
          (init_chains 3 3 1 3 (db_init store_a_bb))).db_entries 3).chains_buf).Perm
        ((init_chains 3 3 1 3 (db_init store_a_bb) 3).chains_buf.map
          (fun c => ({ c with ks_cnt := chain_ks c (db_init store_a_bb) } : chain_t)))
    ∧ ((sort_chains 3 3 (calc_keyspace 3 3
          (init_chains 3 3 1 3 (db_init store_a_bb))).db_entries 3).chains_buf).Pairwise
        (fun a b => a.ks_cnt ≤ b.ks_cnt)
    ∧ ((sort_chains 3 3 (calc_keyspace 3 3
          (init_chains 3 3 1 3 (db_init store_a_bb))).db_entries 3).chains_buf).Pairwise
        (fun a b => a.ks_cnt = b.ks_cnt →
          ∃ i j, i < j ∧ j < 2 ^ (3 - 1)
            ∧ (chain_gen_with_idx (3 - 1) i).buf = a.buf
            ∧ (chain_gen_with_idx (3 - 1) j).buf = b.buf) :=
  bucket_sorted_by_ks store_a_bb 3 3 1 3 3 (by decide) (by decide)

/-! ## One increment of a chain -/

theorem inc_digits_drop : ∀ (ns ds : List Nat) (j : Nat),
    ds.getD j 0 + 1 < ns.getD j 0 → (inc_digits ns ds).drop (j + 1) = ds.drop (j + 1) := by
  intro ns
  induction ns with
  | nil => intro ds j h; simp at h
  | cons n ns ih =>
    intro ds j h
    cases ds with
    | nil => simp [inc_digits]
    | cons d ds =>
      simp only [inc_digits]
      by_cases hd : d + 1 < n
      · rw [if_pos hd]; rfl
      · rw [if_neg hd]
        cases j with
        | zero => simp at h; omega
        | succ j =>
          simp only [List.getD_cons_succ] at h
          simp only [List.drop_succ_cons]
          exact ih ds j h

theorem inc_digits_getD : ∀ (ns ds : List Nat) (j i : Nat), j < i →
    ds.getD j 0 + 1 < ns.getD j 0 → (inc_digits ns ds).getD i 0 = ds.getD i 0 := by
  intro ns
  induction ns with
  | nil => intro ds j i _ h; simp at h
  | cons n ns ih =>
    intro ds j i hji h
    cases ds with
    | nil => simp [inc_digits]
    | cons d ds =>
      simp only [inc_digits]
      by_cases hd : d + 1 < n
      · rw [if_pos hd]
        cases i with
        | zero => omega
        | succ i => simp
      · rw [if_neg hd]
        cases j with
        | zero => simp at h; omega
        | succ j =>
          cases i with
          | zero => omega
          | succ i =>
            simp only [List.getD_cons_succ] at h ⊢
            exact ih ds j i (by omega) h

/-- The bytes of a candidate behind its first `m` parts. -/
theorem candidate_drop (E : Nat → List (List Nat)) (hE : store_ok E) :
    ∀ (parts idxs : List Nat), List.Forall₂ (fun p i => i < (E p).length) parts idxs →
    ∀ m : Nat, (candidate E parts idxs).drop (parts.take m).sum
      = candidate E (parts.drop m) (idxs.drop m) := by
  intro parts idxs h
  induction h with
  | nil => intro m; simp [candidate]
  | @cons p i parts idxs hi _ ih =>
    intro m
    cases m with
    | zero => simp
    | succ m =>
      simp only [List.take_succ_cons, List.sum_cons, List.drop_succ_cons, candidate]
      rw [List.drop_append_eq_append_drop, (getD_mem_length E hE p i hi).2,
        List.drop_eq_nil_of_le (by rw [(getD_mem_length E hE p i hi).2]; omega),
        List.nil_append, Nat.add_sub_cancel_left]
      exact ih m

/-- C11: for a valid chain of at most 8 parts and a position `pos`,
let the scratch array hold the mixed-radix digits of `pos` and let `pw_buf` be
the candidate `chain_set_pwbuf_init` builds from them.  Then
`chain_set_pwbuf_increment` succeeds; the scratch array then holds the digits
of `pos + 1` when `pos + 1 < ks_cnt` and zeros when `pos + 1 = ks_cnt`;
`pw_buf` is the buffer `chain_set_pwbuf_init` builds from the new scratch
array; and the digits and buffer bytes of the parts behind a part that does
not wrap are unchanged. -/
theorem increment_is_successor (db : Nat → db_entry_t) (c : chain_t)
    (hE : store_ok (db_elems db)) (hn : ∀ p ∈ c.buf, 0 < (db p).elems_cnt)
    (hk : c.cnt ≤ ELEM_CNT_MAX) (hks : c.ks_cnt = chain_ks c db)
    (pos : Nat)
    (post old tail : List Nat) (hold : old.length = c.buf.sum) :
    ∃ (buf0 cur1 buf1 : List Nat),
      chain_set_pwbuf_init c db (mixed_radix (radices (db_elems db) c.buf) pos ++ post)
          (old ++ tail) = some buf0
      ∧ chain_set_pwbuf_increment c db (mixed_radix (radices (db_elems db) c.buf) pos ++ post)
          buf0 = some (cur1, buf1)
      ∧ ((pos : Int) + 1 < c.ks_cnt →
          cur1 = mixed_radix (radices (db_elems db) c.buf) (pos + 1) ++ post)
      ∧ ((pos : Int) + 1 = c.ks_cnt → cur1 = List.replicate c.cnt 0 ++ post)
      ∧ chain_set_pwbuf_init c db cur1 (old ++ tail) = some buf1
      ∧ ∀ j, j < c.cnt →
          (mixed_radix (radices (db_elems db) c.buf) pos).getD j 0 + 1
            < (radices (db_elems db) c.buf).getD j 0 →
          (∀ i, j < i → cur1.getD i 0
            = (mixed_radix (radices (db_elems db) c.buf) pos ++ post).getD i 0)
          ∧ buf1.drop (c.buf.take (j + 1)).sum = buf0.drop (c.buf.take (j + 1)).sum := by
  have hdb : ∀ k, (db k).elems_buf = db_elems db k := fun _ => rfl
  have hn' : ∀ p ∈ c.buf, 0 < (db_elems db p).length := hn
  have hRpos := radices_pos (db_elems db) c.buf hn'
  have hRlen : (radices (db_elems db) c.buf).length = c.cnt := by simp [radices, chain_t.cnt]
  have hinc := inc_digits_mixed_radix (radices (db_elems db) c.buf) pos hRpos
  have hlen0 := mixed_radix_length (radices (db_elems db) c.buf) pos
  have hlen1 := mixed_radix_length (radices (db_elems db) c.buf) (pos + 1)
  refine ⟨_, _, _, chain_set_pwbuf_init_eq db _ hdb hE c hn' hk pos post old tail hold,
    chain_set_pwbuf_increment_eq db _ hdb hE c hn' hk pos post tail, fun _ => rfl, ?_,
    chain_set_pwbuf_init_eq db _ hdb hE c hn' hk (pos + 1) post old tail hold, ?_⟩
  · intro h
    rw [hks, chain_ks_eq] at h
    have h' : pos + 1 = (radices (db_elems db) c.buf).prod := by exact_mod_cast h
    have := mixed_radix_prod_mul (radices (db_elems db) c.buf) 1 hRpos
    rw [Nat.mul_one] at this
    rw [h', this, hRlen]
  · intro j _ hj
    constructor
    · intro i hji
      by_cases hi : i < c.cnt
      · rw [List.getD_append _ _ _ _ (by omega), List.getD_append _ _ _ _ (by omega), ← hinc]
        exact inc_digits_getD _ _ j i hji hj
      · rw [List.getD_append_right _ _ _ _ (by omega), List.getD_append_right _ _ _ _ (by omega),
          hlen0, hlen1]
    · rw [List.drop_append_eq_append_drop, List.drop_append_eq_append_drop,
        chain_cand_length _ hE c.buf hn', chain_cand_length _ hE c.buf hn']
      congr 1
      unfold chain_cand
      rw [candidate_drop _ hE _ _ (mixed_radix_forall₂ _ c.buf (pos + 1) hn'),
        candidate_drop _ hE _ _ (mixed_radix_forall₂ _ c.buf pos hn'), ← hinc,
        inc_digits_drop _ _ j hj]

theorem increment_is_successor_witness :
    ∃ (buf0 cur1 buf1 : List Nat),
      chain_set_pwbuf_init { buf := [1, 1], ks_cnt := 4, ks_pos := 0 } (db_init store_ab)
          (mixed_radix (radices (db_elems (db_init store_ab)) [1, 1]) 1
            ++ [0, 0, 0, 0, 0, 0])
          ([0, 0] ++ [10]) = some buf0
      ∧ chain_set_pwbuf_increment { buf := [1, 1], ks_cnt := 4, ks_pos := 0 }
          (db_init store_ab)
          (mixed_radix (radices (db_elems (db_init store_ab)) [1, 1]) 1
            ++ [0, 0, 0, 0, 0, 0])
          buf0 = some (cur1, buf1)
      ∧ (((1 : Nat) : Int) + 1 < 4 →
          cur1 = mixed_radix (radices (db_elems (db_init store_ab)) [1, 1]) (1 + 1)
            ++ [0, 0, 0, 0, 0, 0])
      ∧ (((1 : Nat) : Int) + 1 = 4 → cur1 = List.replicate 2 0 ++ [0, 0, 0, 0, 0, 0])
      ∧ chain_set_pwbuf_init { buf := [1, 1], ks_cnt := 4, ks_pos := 0 } (db_init store_ab)
          cur1 ([0, 0] ++ [10]) = some buf1
      ∧ ∀ j, j < 2 →
          (mixed_radix (radices (db_elems (db_init store_ab)) [1, 1]) 1).getD j 0 + 1
            < (radices (db_elems (db_init store_ab)) [1, 1]).getD j 0 →
          (∀ i, j < i → cur1.getD i 0
            = (mixed_radix (radices (db_elems (db_init store_ab)) [1, 1]) 1
                ++ [0, 0, 0, 0, 0, 0]).getD i 0)
          ∧ buf1.drop (([1, 1] : List Nat).take (j + 1)).sum
            = buf0.drop (([1, 1] : List Nat).take (j + 1)).sum :=
  increment_is_successor (db_init store_ab) { buf := [1, 1], ks_cnt := 4, ks_pos := 0 }
    store_ab_ok (by decide) (by decide) (by decide) 1 [0, 0, 0, 0, 0, 0] [0, 0] [10]
    (by decide)

/-! ## Loading the elements -/

theorem takeWhile_eq_take (p : Nat → Bool) : ∀ l : List Nat,
    l.takeWhile p = l.take (l.takeWhile p).length := by
  intro l
  induction l with
  | nil => rfl
  | cons a l ih =>
    by_cases ha : p a = true
    · simp only [List.takeWhile_cons, ha, if_true, List.length_cons, List.take_succ_cons]
      rw [← ih]
    · simp [List.takeWhile_cons, ha]

theorem strlen_le (buf : List Nat) : strlen buf ≤ buf.length := by
  unfold strlen
  exact (List.takeWhile_sublist _).length_le

theorem strlen_lt (buf : List Nat) (h : 0 ∈ buf) : strlen buf < buf.length := by
  unfold strlen
  induction buf with
  | nil => simp at h
  | cons a l ih =>
    by_cases ha : a = 0
    · simp [List.takeWhile_cons, ha]
    · have hl : 0 ∈ l := by
        rcases List.mem_cons.1 h with h' | h'
        · exact absurd h'.symm ha
        · exact h'
      simp only [List.takeWhile_cons, bne_iff_ne, ne_eq, ha, not_false_eq_true, decide_True,
        if_true, List.length_cons]
      have := ih hl
      omega

theorem in_superchop_loop_spec (buf : List Nat) : ∀ n : Nat,
    in_superchop_loop buf n ≤ n
    ∧ (∀ i, in_superchop_loop buf n ≤ i → i < n → buf.getD i 0 = 10 ∨ buf.getD i 0 = 13)
    ∧ (∀ k, in_superchop_loop buf n = k + 1 → buf.getD k 0 ≠ 10 ∧ buf.getD k 0 ≠ 13) := by
  intro n
  induction n with
  | zero => simp [in_superchop_loop]
  | succ n ih =>
    obtain ⟨h1, h2, h3⟩ := ih
    unfold in_superchop_loop
    by_cases ha : buf.getD n 0 = 10
    · rw [if_pos ha]
      refine ⟨by omega, ?_, h3⟩
      intro i hi hin
      by_cases hn : i = n
      · subst hn; exact Or.inl ha
      · exact h2 i hi (by omega)
    · rw [if_neg ha]
      by_cases hb : buf.getD n 0 = 13
      · rw [if_pos hb]
        refine ⟨by omega, ?_, h3⟩
        intro i hi hin
        by_cases hn : i = n
        · subst hn; exact Or.inr hb
        · exact h2 i hi (by omega)
      · rw [if_neg hb]
        refine ⟨le_refl _, ?_, ?_⟩
        · intro i hi hin; omega
        · intro k hk
          have : k = n := by omega
          subst this
          exact ⟨ha, hb⟩

theorem in_superchop_take (buf : List Nat) :
    (in_superchop buf).1.take (in_superchop buf).2 = buf.take (in_superchop buf).2 := by
  unfold in_superchop
  simp only
  rw [List.set_take, List.set_eq_of_length_le]
  rw [List.length_take]
  exact Nat.min_le_left _ _

/-- The element `in_superchop` leaves in the buffer. -/
theorem load_elem_eq (db : Nat → db_entry_t) (buf : List Nat) :
    load_elem db buf
      = fun L =>
          if 1 ≤ L ∧ L ≤ 16 ∧ (in_superchop buf).2 = L then
            { elems_buf := (db L).elems_buf ++ [buf.take (in_superchop buf).2],
              chains_buf := (db L).chains_buf, chains_pos := (db L).chains_pos,
              cur_chain_ks_poses := (db L).cur_chain_ks_poses }
          else db L := by
  funext L
  unfold load_elem IN_LEN_MIN IN_LEN_MAX
  simp only
  by_cases h1 : (in_superchop buf).2 < 1
  · rw [if_pos h1, if_neg (by omega)]
  · rw [if_neg h1]
    by_cases h2 : (in_superchop buf).2 > 16
    · rw [if_pos h2, if_neg (by omega)]
    · rw [if_neg h2]
      unfold db_set
      by_cases hL : L = (in_superchop buf).2
      · rw [if_pos hL, if_pos ⟨by omega, by omega, hL.symm⟩, in_superchop_take, hL]
      · rw [if_neg hL, if_neg (by omega)]

theorem load_elems_eq : ∀ (bufs : List (List Nat)) (db : Nat → db_entry_t),
    load_elems bufs db
      = fun L =>
          { elems_buf := (db L).elems_buf ++
              if 1 ≤ L ∧ L ≤ 16 then
                (bufs.map (fun buf => buf.take (in_superchop buf).2)).filter
                  (fun e => decide (e.length = L))
              else [],
            chains_buf := (db L).chains_buf, chains_pos := (db L).chains_pos,
            cur_chain_ks_poses := (db L).cur_chain_ks_poses } := by
  intro bufs
  induction bufs with
  | nil =>
    intro db
    funext L
    simp [load_elems]
  | cons buf bufs ih =>
    intro db
    have hstep : load_elems (buf :: bufs) db = load_elems bufs (load_elem db buf) := rfl
    rw [hstep, ih, load_elem_eq]
    funext L
    have hle : (in_superchop buf).2 ≤ buf.length := by
      have h1 := (in_superchop_loop_spec buf (strlen buf)).1
      have h2 := strlen_le buf
      have h3 : (in_superchop buf).2 = in_superchop_loop buf (strlen buf) := rfl
      omega
    have hlen : (buf.take (in_superchop buf).2).length = (in_superchop buf).2 := by
      rw [List.length_take]
      omega
    by_cases hr : 1 ≤ L ∧ L ≤ 16
    · simp only [hr, and_self, if_true, true_and, List.map_cons, List.filter_cons, hlen]
      by_cases hL : (in_superchop buf).2 = L
      · simp [hL]
      · simp [hL]
    · have : ¬ (1 ≤ L ∧ L ≤ 16 ∧ (in_superchop buf).2 = L) := fun h => hr ⟨h.1, h.2.1⟩
      simp [hr, this]

/-- The byte at `strlen` is the NUL. -/
theorem strlen_getD (buf : List Nat) (h : 0 ∈ buf) : buf.getD (strlen buf) 1 = 0 := by
  unfold strlen
  induction buf with
  | nil => simp at h
  | cons a l ih =>
    by_cases ha : a = 0
    · simp [List.takeWhile_cons, ha]
    · have hl : 0 ∈ l := by
        rcases List.mem_cons.1 h with h' | h'
        · exact absurd h'.symm ha
        · exact h'
      simpa [List.takeWhile_cons, ha] using ih hl

/-- The length `strlen` finds for a NUL-free line followed by its NUL. -/
theorem strlen_line (line rest : List Nat) (hnul : ∀ b ∈ line, b ≠ 0) :
    strlen (line ++ 0 :: rest) = line.length := by
  unfold strlen
  induction line with
  | nil => simp [List.takeWhile_cons]
  | cons a l ih =>
    have ha : a ≠ 0 := hnul a (List.mem_cons_self _ _)
    simp only [List.cons_append, List.takeWhile_cons, bne_iff_ne, ne_eq, ha, not_false_eq_true,
      if_true, List.length_cons]
    rw [ih (fun b hb => hnul b (List.mem_cons_of_mem _ hb))]

/-- The line `in_superchop` keeps and the bytes it drops. -/
theorem in_superchop_line (line rest : List Nat) (hnul : ∀ b ∈ line, b ≠ 0) :
    (in_superchop (line ++ 0 :: rest)).2 ≤ line.length
    ∧ (in_superchop (line ++ 0 :: rest)).1.take (in_superchop (line ++ 0 :: rest)).2
        = line.take (in_superchop (line ++ 0 :: rest)).2
    ∧ (∀ b ∈ line.drop (in_superchop (line ++ 0 :: rest)).2, b = 10 ∨ b = 13)
    ∧ ∀ k, (in_superchop (line ++ 0 :: rest)).2 = k + 1 →
        line.getD k 0 ≠ 10 ∧ line.getD k 0 ≠ 13 := by
  have hs := strlen_line line rest hnul
  obtain ⟨h1, h2, h3⟩ := in_superchop_loop_spec (line ++ 0 :: rest) (strlen (line ++ 0 :: rest))
  have hr : (in_superchop (line ++ 0 :: rest)).2
      = in_superchop_loop (line ++ 0 :: rest) (strlen (line ++ 0 :: rest)) := rfl
  rw [← hr] at h1 h2 h3
  rw [hs] at h1 h2
  have hget : ∀ i, i < line.length → (line ++ 0 :: rest).getD i 0 = line.getD i 0 := by
    intro i hi
    rw [List.getD_eq_getElem?_getD, List.getD_eq_getElem?_getD, List.getElem?_append_left hi]
  refine ⟨h1, ?_, ?_, ?_⟩
  · rw [in_superchop_take, List.take_append_of_le_length h1]
  · intro b hb
    obtain ⟨i, hi, rfl⟩ := List.getElem_of_mem hb
    rw [List.length_drop] at hi
    have hlt : (in_superchop (line ++ 0 :: rest)).2 + i < line.length := by omega
    have := h2 ((in_superchop (line ++ 0 :: rest)).2 + i) (by omega) hlt
    rw [hget _ hlt, List.getD_eq_getElem?_getD, List.getElem?_eq_getElem hlt] at this
    simpa [List.getElem_drop] using this
  · intro k hk
    have := h3 k hk
    rw [hget k (by omega)] at this
    exact this

/-- C19: `strlen` finds the first NUL of the buffer: the bytes in front of it
are not NUL and the byte at it is, so for a NUL-free line followed by its NUL
it is the length of the line.  `in_superchop` returns the length of the line
without its longest trailing run of `\r` and `\n` bytes and leaves this
prefix, NUL-terminated, in the buffer: the bytes it drops are `\r` or `\n` and
the prefix does not end in one of them.  After the loading loop over the
buffers `fgets` filled, `E[L]` is, for `1 ≤ L ≤ 16`, the list of the stripped
lines of length `L` in the order of arrival, repetitions kept; a stripped line
of length 0 or above 16 changes nothing; every element filed under `L` is `L`
bytes long. -/
theorem elements_loaded_in_order (bufs : List (List Nat)) (hnul : ∀ buf ∈ bufs, 0 ∈ buf) :
    (∀ buf ∈ bufs,
        (in_superchop buf).2 ≤ strlen buf
        ∧ (in_superchop buf).1.take (in_superchop buf).2
            = (buf.take (strlen buf)).take (in_superchop buf).2
        ∧ (in_superchop buf).1.getD (in_superchop buf).2 1 = 0
        ∧ (∀ i, (in_superchop buf).2 ≤ i → i < strlen buf →
            buf.getD i 0 = 10 ∨ buf.getD i 0 = 13)
        ∧ (∀ k, (in_superchop buf).2 = k + 1 → buf.getD k 0 ≠ 10 ∧ buf.getD k 0 ≠ 13)
        ∧ (∀ b ∈ buf.take (strlen buf), b ≠ 0)
        ∧ strlen buf < buf.length
        ∧ buf.getD (strlen buf) 1 = 0)
    ∧ load_elems bufs (db_init (fun _ => []))
        = db_init (fun L =>
            if 1 ≤ L ∧ L ≤ 16 then
              (bufs.map (fun buf => (in_superchop buf).1.take (in_superchop buf).2)).filter
                (fun e => decide (e.length = L))
            else [])
    ∧ store_ok (fun L =>
        if 1 ≤ L ∧ L ≤ 16 then
          (bufs.map (fun buf => (in_superchop buf).1.take (in_superchop buf).2)).filter
            (fun e => decide (e.length = L))
        else [])
    ∧ (∀ (db : Nat → db_entry_t) (buf : List Nat),
        (in_superchop buf).2 = 0 ∨ 16 < (in_superchop buf).2 → load_elem db buf = db)
    ∧ ∀ (line rest : List Nat), (∀ b ∈ line, b ≠ 0) →
        strlen (line ++ 0 :: rest) = line.length
        ∧ (in_superchop (line ++ 0 :: rest)).2 ≤ line.length
        ∧ (in_superchop (line ++ 0 :: rest)).1.take (in_superchop (line ++ 0 :: rest)).2
            = line.take (in_superchop (line ++ 0 :: rest)).2
        ∧ (∀ b ∈ line.drop (in_superchop (line ++ 0 :: rest)).2, b = 10 ∨ b = 13)
        ∧ ∀ k, (in_superchop (line ++ 0 :: rest)).2 = k + 1 →
            line.getD k 0 ≠ 10 ∧ line.getD k 0 ≠ 13 := by
  refine ⟨?_, ?_, ?_, ?_, ?_⟩
  · intro buf hbuf
    obtain ⟨h1, h2, h3⟩ := in_superchop_loop_spec buf (strlen buf)
    have hlt := strlen_lt buf (hnul buf hbuf)
    have hr : (in_superchop buf).2 = in_superchop_loop buf (strlen buf) := rfl
    refine ⟨h1, ?_, ?_, h2, h3, ?_, hlt, strlen_getD buf (hnul buf hbuf)⟩
    · rw [in_superchop_take, List.take_take, Nat.min_eq_left (by rw [hr]; exact h1)]
    · unfold in_superchop
      simp only
      rw [List.getD_eq_getElem?_getD, List.getElem?_set_self (by omega)]
      rfl
    · intro b hb
      have hline : buf.take (strlen buf) = buf.takeWhile (fun b => b != 0) :=
        (takeWhile_eq_take _ buf).symm
      rw [hline] at hb
      have := List.mem_takeWhile_imp hb
      simpa using this
  · rw [load_elems_eq]
    funext L
    have hmap : bufs.map (fun buf => (in_superchop buf).1.take (in_superchop buf).2)
        = bufs.map (fun buf => buf.take (in_superchop buf).2) := by
      apply List.map_congr_left
      intro buf _
      exact in_superchop_take buf
    rw [hmap]
    simp [db_init]
  · intro L e he
    by_cases hr : 1 ≤ L ∧ L ≤ 16
    · simp only [hr, and_self, if_true] at he
      have := (List.mem_filter.1 he).2
      simpa using this
    · simp [hr] at he
  · intro db buf h
    rw [load_elem_eq]
    funext L
    rw [if_neg (by omega)]
  · intro line rest hline
    exact ⟨strlen_line line rest hline, in_superchop_line line rest hline⟩

theorem elements_loaded_in_order_witness :
    ((∀ buf ∈ [bytes "ab\r\n" ++ [0], bytes "\n" ++ [0], bytes "c" ++ [0, 7]],
        (in_superchop buf).2 ≤ strlen buf
        ∧ (in_superchop buf).1.take (in_superchop buf).2
            = (buf.take (strlen buf)).take (in_superchop buf).2
        ∧ (in_superchop buf).1.getD (in_superchop buf).2 1 = 0
        ∧ (∀ i, (in_superchop buf).2 ≤ i → i < strlen buf →
            buf.getD i 0 = 10 ∨ buf.getD i 0 = 13)
        ∧ (∀ k, (in_superchop buf).2 = k + 1 → buf.getD k 0 ≠ 10 ∧ buf.getD k 0 ≠ 13)
        ∧ (∀ b ∈ buf.take (strlen buf), b ≠ 0)
        ∧ strlen buf < buf.length
        ∧ buf.getD (strlen buf) 1 = 0)
    ∧ load_elems [bytes "ab\r\n" ++ [0], bytes "\n" ++ [0], bytes "c" ++ [0, 7]]
          (db_init (fun _ => []))
        = db_init (fun L =>
            if 1 ≤ L ∧ L ≤ 16 then
              ([bytes "ab\r\n" ++ [0], bytes "\n" ++ [0], bytes "c" ++ [0, 7]].map
                (fun buf => (in_superchop buf).1.take (in_superchop buf).2)).filter
                (fun e => decide (e.length = L))
            else [])
    ∧ store_ok (fun L =>
        if 1 ≤ L ∧ L ≤ 16 then
          ([bytes "ab\r\n" ++ [0], bytes "\n" ++ [0], bytes "c" ++ [0, 7]].map
            (fun buf => (in_superchop buf).1.take (in_superchop buf).2)).filter
            (fun e => decide (e.length = L))
        else [])
    ∧ (∀ (db : Nat → db_entry_t) (buf : List Nat),
        (in_superchop buf).2 = 0 ∨ 16 < (in_superchop buf).2 → load_elem db buf = db)
    ∧ ∀ (line rest : List Nat), (∀ b ∈ line, b ≠ 0) →
        strlen (line ++ 0 :: rest) = line.length
        ∧ (in_superchop (line ++ 0 :: rest)).2 ≤ line.length
        ∧ (in_superchop (line ++ 0 :: rest)).1.take (in_superchop (line ++ 0 :: rest)).2
            = line.take (in_superchop (line ++ 0 :: rest)).2
        ∧ (∀ b ∈ line.drop (in_superchop (line ++ 0 :: rest)).2, b = 10 ∨ b = 13)
        ∧ ∀ k, (in_superchop (line ++ 0 :: rest)).2 = k + 1 →
            line.getD k 0 ≠ 10 ∧ line.getD k 0 ≠ 13)
    ∧ strlen (bytes "ab\r\n" ++ [0]) = 4
    ∧ (in_superchop (bytes "ab\r\n" ++ [0])).2 = 2
    ∧ (load_elems [bytes "ab\r\n" ++ [0], bytes "\n" ++ [0], bytes "c" ++ [0, 7]]
        (db_init (fun _ => [])) 2).elems_buf = [bytes "ab"]
    ∧ (load_elems [bytes "ab\r\n" ++ [0], bytes "\n" ++ [0], bytes "c" ++ [0, 7]]
        (db_init (fun _ => [])) 1).elems_buf = [bytes "c"] :=
  ⟨elements_loaded_in_order [bytes "ab\r\n" ++ [0], bytes "\n" ++ [0], bytes "c" ++ [0, 7]]
    (by decide), by decide, by decide, by decide, by decide⟩

theorem load_elems_example :
    (load_elems [bytes "ab\r\n" ++ [0], bytes "\n" ++ [0], bytes "c" ++ [0, 7]]
        (db_init (fun _ => [])) 2).elems_buf = [bytes "ab"]
    ∧ (load_elems [bytes "ab\r\n" ++ [0], bytes "\n" ++ [0], bytes "c" ++ [0, 7]]
        (db_init (fun _ => [])) 1).elems_buf = [bytes "c"] := by
  decide

/-! ## The invariant of the scheduler -/

theorem bucket_at_cursor (E : Nat → List (List Nat)) (L : Nat) (chains : List chain_t)
    (hchains : ∀ c ∈ chains, chain_ok E L c) (p : Nat) (e : db_entry_t)
    (hat : bucket_at E chains p e) (hact : e.chains_pos < e.chains_cnt) :
    ∃ c, e.chains_buf.get? e.chains_pos = some c
      ∧ 0 ≤ c.ks_pos ∧ c.ks_pos < c.ks_cnt
      ∧ e.cur_chain_ks_poses.take c.cnt = mixed_radix (radices E c.buf) c.ks_pos.toNat := by
  rcases hat with ⟨done', done, c, todo, off, hsplit, hd, hoff, hp, hbuf, hpos, hcur⟩ |
    ⟨hp, hall, hpos, hcur⟩
  · obtain ⟨hks, _, _, _, _⟩ := hchains c (by rw [hsplit]; simp)
    refine ⟨{ c with ks_pos := (off : Int) }, ?_, ?_, ?_, ?_⟩
    · rw [hpos, hbuf, get?_append_length]
    · exact Int.natCast_nonneg _
    · show (off : Int) < c.ks_cnt
      rw [hks]
      exact_mod_cast hoff
    · show e.cur_chain_ks_poses.take c.buf.length = mixed_radix (radices E c.buf) (off : Int).toNat
      rw [hcur, Int.toNat_ofNat, List.take_left']
      rw [mixed_radix_length]
      simp [radices]
  · have hlen := hall.length_eq
    rw [db_entry_t.chains_cnt, hlen, hpos] at hact
    omega

theorem sched_at_cursor (E : Nat → List (List Nat)) (chainsOf : Nat → List chain_t)
    (hchains : ∀ L, ∀ c ∈ chainsOf L, chain_ok E L c) (p : Nat → Nat)
    (db : Nat → db_entry_t) (hat : sched_at E chainsOf p db) : cursor_ok db := by
  intro L hact
  have hE : db_elems db = E := db_elems_eq db E hat.1
  rw [hE]
  exact bucket_at_cursor E L (chainsOf L) (hchains L) (p L) (db L) (hat.2 L) hact

/-- One pass through the body of the inner loop keeps the invariant and does
not decrease `total_ks_pos`. -/
theorem sched_body_inv (E : Nat → List (List Nat)) (hE : store_ok E)
    (chainsOf : Nat → List chain_t) (hchains : ∀ L, ∀ c ∈ chainsOf L, chain_ok E L c)
    (Tn sn : Nat) (st st1 : main_t) (L outs_cnt outs_pos outs_pos1 : Nat)
    (chain_buf : chain_t) (x pw_buf1 : List Nat)
    (hinv : sched_inv E chainsOf Tn st) (hne : st.total_ks_pos ≠ (Tn : Int))
    (houts : outs_pos < outs_cnt) (hw : outs_cnt < 2 ^ 64)
    (hact : (st.db_entries L).chains_pos ≠ (st.db_entries L).chains_cnt)
    (hget : (st.db_entries L).chains_buf.get? (st.db_entries L).chains_pos = some chain_buf)
    (hx : x.length = L)
    (hbody : outs_body (Tn : Int) (sn : Int) L outs_cnt outs_pos chain_buf st (x ++ [10])
      = some (st1, outs_pos1, pw_buf1)) :
    sched_inv E chainsOf Tn st1 ∧ st.total_ks_pos ≤ st1.total_ks_pos
      ∧ ∃ x1 : List Nat, x1.length = L ∧ pw_buf1 = x1 ++ [10] := by
  obtain ⟨p, tn, ⟨hdb, hat⟩, ht, htT⟩ := hinv
  have htT' : tn < Tn := by
    have : tn ≠ Tn := fun h => hne (by rw [ht, h])
    omega
  rcases hat L with ⟨done', done, c, todo, off, hsplit, hd, hoff, hp, hbuf, hpos, hcur⟩ |
    ⟨hp, hall, hpos, hcur⟩
  · have hcok : chain_ok E L c := hchains L c (by rw [hsplit]; simp)
    have hget' : (st.db_entries L).chains_buf.get? (st.db_entries L).chains_pos
        = some { c with ks_pos := (off : Int) } := by
      rw [hpos, hbuf, get?_append_length]
    have hc : chain_buf = { c with ks_pos := (off : Int) } := by
      rw [hget] at hget'
      exact Option.some.inj hget'
    obtain ⟨x', hx', hbody'⟩ := outs_body_eq E hE L st hdb c hcok done' todo off hoff hbuf
      hpos hcur tn Tn sn ht htT' outs_cnt outs_pos houts hw x hx
    rw [hc, hbody'] at hbody
    generalize hm1 : min (min ((radices E c.buf).prod - off) (Tn - tn))
      (outs_cnt - outs_pos) = m1 at hbody
    have hat1 := bucket_at_step E L done' done c todo off m1
      (by rw [← hsplit]; exact hchains L) hd (by omega)
    rw [← hsplit] at hat1
    have hst1 := (Prod.mk.inj (Option.some.inj hbody)).1
    have hbuf1 := (Prod.mk.inj (Prod.mk.inj (Option.some.inj hbody)).2).2
    subst hst1
    refine ⟨⟨fun k => if k = L then (bucket_seq E done).length + off + m1 else p k, tn + m1,
      ⟨?_, ?_⟩, rfl, by omega⟩, ?_, x', hx', hbuf1.symm⟩
    · intro k
      by_cases hk : k = L
      · subst hk; simp only [db_set, if_true]; split <;> rfl
      · simp [db_set, hk, hdb]
    · intro k
      by_cases hk : k = L
      · subst hk
        simpa [db_set] using hat1
      · simp only [db_set, hk, if_false]
        exact hat k
    · show st.total_ks_pos ≤ ((tn + m1 : Nat) : Int)
      rw [ht]
      exact_mod_cast Nat.le_add_right tn m1
  · have hlen := hall.length_eq
    exact absurd (by rw [hpos, db_entry_t.chains_cnt, hlen]) hact

/-- Every point of the scheduler satisfies the invariant, and `total_ks_pos`
has not decreased since the start. -/
theorem sched_point_inv (E : Nat → List (List Nat)) (hE : store_ok E)
    (chainsOf : Nat → List chain_t) (hchains : ∀ L, ∀ c ∈ chainsOf L, chain_ok E L c)
    (Tn sn : Nat) (w : Nat → Nat) (pw_min pw_max : Nat)
    (hw : ∀ L, pw_min ≤ L → L ≤ pw_max → w L < 2 ^ 64) (st0 : main_t)
    (h0 : sched_inv E chainsOf Tn st0) :
    ∀ st, sched_point (Tn : Int) (sn : Int) w pw_min pw_max st0 st →
      sched_inv E chainsOf Tn st ∧ st0.total_ks_pos ≤ st.total_ks_pos := by
  intro st hst
  induction hst with
  | start => exact ⟨h0, le_refl _⟩
  | body st st1 L outs_pos outs_pos1 chain_buf x pw_buf1 _ h1 h2 hne houts hact hget hx hbody ih =>
    obtain ⟨hinv, hmono⟩ := ih
    obtain ⟨hinv1, hmono1, _⟩ := sched_body_inv E hE chainsOf hchains Tn sn st st1 L (w L)
      outs_pos outs_pos1 chain_buf x pw_buf1 hinv hne houts (hw L h1 h2) hact hget hx hbody
    exact ⟨hinv1, le_trans hmono hmono1⟩

/-- The seek loop keeps its invariant, whatever the weights. -/
theorem seek_loop_inv (cnt : Nat → Nat) (w : Nat → Nat) (lens : List Nat) (skip : Nat)
    (hnd : lens.Nodup) :
    ∀ (fuel n : Nat) (s s' : seek_t), seek_inv cnt w lens skip n s →
      seek_loop (fun L => (cnt L : Int)) w lens fuel s = res.done s' →
      ∃ n' : Nat, seek_inv cnt w lens skip n' s' := by
  intro fuel
  induction fuel with
  | zero => intro n s s' _ h; simp [seek_loop] at h
  | succ fuel ih =>
    intro n s s' hinv h
    obtain ⟨h1, h2, h3, h4⟩ := hinv
    unfold seek_loop at h
    by_cases hopml : s.outs_per_main_loop = 0
    · rw [if_pos hopml] at h
      simp at h
    · rw [if_neg hopml] at h
      obtain ⟨sl, hsl⟩ := Int.eq_ofNat_of_zero_le h3
      have hdiv : mpz_fdiv_q_ui s.skip_left s.outs_per_main_loop
          = ((sl / s.outs_per_main_loop : Nat) : Int) := by
        rw [hsl]; exact mpz_fdiv_q_ui_natCast sl _
      simp only [hdiv] at h
      by_cases hm0 : sl / s.outs_per_main_loop = 0
      · rw [if_pos (by rw [hm0]; rfl)] at h
        have hs : s = s' := by simpa using h
        subst hs
        exact ⟨n, h1, h2, h3, h4⟩
      · rw [if_neg (by intro h'; apply hm0; exact_mod_cast h')] at h
        generalize hm : sl / s.outs_per_main_loop = m at *
        obtain ⟨f1, f2, f3, f4, f5⟩ := seek_fold cnt w n m lens hnd s h1
        generalize hs1 : lens.foldl (seek_step (fun L => (cnt L : Int)) w (m : Int)) s = s1 at *
        have hmle : m * s.outs_per_main_loop ≤ sl := by
          rw [← hm]; exact Nat.div_mul_le_self sl _
        have hact_le : (m : Int) * (((lens.map (fun L => if s.pw_ks_pos L < (cnt L : Int)
            then w L else 0)).sum : Nat) : Int) ≤ (sl : Int) := by
          rw [← seek_outs_eq]
          have : m * seek_outs (fun L => (cnt L : Int)) w s.pw_ks_pos lens
              ≤ m * s.outs_per_main_loop := Nat.mul_le_mul_left m h4
          have h' : m * seek_outs (fun L => (cnt L : Int)) w s.pw_ks_pos lens ≤ sl := by omega
          exact_mod_cast h'
        have hinv1 : seek_inv cnt w lens skip (n + m)
            { s1 with outs_per_main_loop :=
                seek_outs (fun L => (cnt L : Int)) w s1.pw_ks_pos lens } := by
          refine ⟨f1, ?_, ?_, le_refl _⟩
          · show s1.skip_left + _ = _
            omega
          · show 0 ≤ s1.skip_left
            omega
        exact ih (n + m) _ s' hinv1 h

/-- The state the seek engine hands to the main loop, whatever the weights. -/
theorem seek_done_inv (E : Nat → List (List Nat)) (pw_min pw_max emin emax : Nat)
    (hopt : check_options pw_min pw_max emin emax = true) (hmax : emax ≤ ELEM_CNT_MAX)
    (w : Nat → Nat) (s fuel : Nat) (st0 : main_t)
    (h : seek fuel pw_min pw_max
      (calc_keyspace pw_min pw_max (init_chains pw_min pw_max emin emax (db_init E))) w
      (db_ready E pw_min pw_max emin emax) (s : Int) = res.done st0) :
    sched_inv E (chains_of E pw_min pw_max emin emax) s st0 := by
  have hchains := chains_of_ok E pw_min pw_max emin emax hopt hmax
  unfold seek at h
  simp only [pw_ks_cnt_eq E pw_min pw_max emin emax hopt hmax] at h
  cases hloop : seek_loop
      (fun L => ((records_of E pw_min pw_max emin emax L).length : Int)) w
      (pw_lens pw_min pw_max) fuel
      { skip_left := (s : Int), pw_ks_pos := fun _ => 0,
        outs_per_main_loop := (pw_lens pw_min pw_max).foldl
          (fun acc pw_len => acc + w pw_len) 0 } with
  | fault => rw [hloop] at h; simp at h
  | spin out => rw [hloop] at h; simp at h
  | done s' =>
    rw [hloop] at h
    simp only at h
    obtain ⟨n0, hq, hsum, hnn, _⟩ := seek_loop_inv
      (fun L => (records_of E pw_min pw_max emin emax L).length) w (pw_lens pw_min pw_max) s
      (pw_lens_nodup _ _) fuel 0 _ s' (seek_inv_init _ w (pw_lens pw_min pw_max) s) hloop
    beta_reduce at hq hsum
    have hqnat : ∀ L ∈ pw_lens pw_min pw_max,
        s'.pw_ks_pos L = (((s'.pw_ks_pos L).toNat : Nat) : Int) := by
      intro L hL
      have : 0 ≤ s'.pw_ks_pos L := by
        by_cases hact : s'.pw_ks_pos L < ((records_of E pw_min pw_max emin emax L).length : Int)
        · rw [(hq L hL).1 hact]; exact Int.natCast_nonneg _
        · omega
      omega
    obtain ⟨db', hset, helems, hat, hframe⟩ := seek_set_eq E (chains_of E pw_min pw_max emin emax)
      hchains s'.pw_ks_pos (fun L => (s'.pw_ks_pos L).toNat) (pw_lens pw_min pw_max)
      (pw_lens_nodup _ _) hqnat (db_ready E pw_min pw_max emin emax)
      (fun k => db_ready_elems E pw_min pw_max emin emax k)
      (fun L _ => ⟨rfl, (db_ready_cursor E pw_min pw_max emin emax L).1,
        (db_ready_cursor E pw_min pw_max emin emax L).2⟩)
    rw [hset] at h
    simp only at h
    have hst : st0 = { db_entries := db', total_ks_pos := (s : Int) - s'.skip_left, out := [] } := by
      simpa using h.symm
    subst hst
    refine ⟨fun L => if L ∈ pw_lens pw_min pw_max then
        min (s'.pw_ks_pos L).toNat (bucket_seq E (chains_of E pw_min pw_max emin emax L)).length
      else 0,
      ((pw_lens pw_min pw_max).map (fun L => min (n0 * w L)
        (records_of E pw_min pw_max emin emax L).length)).sum, ⟨helems, fun L => ?_⟩, ?_, ?_⟩
    · show bucket_at E _ _ (db' L)
      by_cases hL : L ∈ pw_lens pw_min pw_max
      · simp only [hL, if_true]
        exact hat L hL
      · simp only [hL, if_false]
        rw [hframe L hL]
        exact (sched_at_ready E pw_min pw_max emin emax hopt hmax).2 L
    · show (s : Int) - s'.skip_left = _
      omega
    · omega

/-- The inner loop passes through points of the scheduler only. -/
theorem outs_loop_point (E : Nat → List (List Nat)) (hE : store_ok E)
    (chainsOf : Nat → List chain_t) (hchains : ∀ L, ∀ c ∈ chainsOf L, chain_ok E L c)
    (Tn sn : Nat) (w : Nat → Nat) (pw_min pw_max : Nat)
    (hw : ∀ L, pw_min ≤ L → L ≤ pw_max → w L < 2 ^ 64) (st0 : main_t)
    (h0 : sched_inv E chainsOf Tn st0) (L : Nat) (h1 : pw_min ≤ L) (h2 : L ≤ pw_max) :
    ∀ (fuel : Nat) (st : main_t) (outs_pos : Nat) (x : List Nat) (st' : main_t),
      sched_point (Tn : Int) (sn : Int) w pw_min pw_max st0 st →
      st.total_ks_pos ≠ (Tn : Int) → x.length = L →
      outs_loop (Tn : Int) (sn : Int) L (w L) fuel st outs_pos (x ++ [10]) = res.done st' →
      sched_point (Tn : Int) (sn : Int) w pw_min pw_max st0 st' := by
  intro fuel
  induction fuel with
  | zero =>
    intro st outs_pos x st' hst hne hx h
    unfold outs_loop at h
    by_cases hoo : outs_pos < w L
    · rw [if_pos hoo] at h
      simp only at h
      by_cases hact : (st.db_entries L).chains_pos = (st.db_entries L).chains_cnt
      · rw [if_pos hact] at h
        have : st = st' := by simpa using h
        subst this; exact hst
      · rw [if_neg hact] at h
        cases hget : (st.db_entries L).chains_buf.get? (st.db_entries L).chains_pos with
        | none => rw [hget] at h; simp at h
        | some chain_buf => rw [hget] at h; simp at h
    · rw [if_neg hoo] at h
      have : st = st' := by simpa using h
      subst this; exact hst
  | succ fuel ih =>
    intro st outs_pos x st' hst hne hx h
    unfold outs_loop at h
    by_cases hoo : outs_pos < w L
    · rw [if_pos hoo] at h
      simp only at h
      by_cases hact : (st.db_entries L).chains_pos = (st.db_entries L).chains_cnt
      · rw [if_pos hact] at h
        have : st = st' := by simpa using h
        subst this; exact hst
      · rw [if_neg hact] at h
        cases hget : (st.db_entries L).chains_buf.get? (st.db_entries L).chains_pos with
        | none => rw [hget] at h; simp at h
        | some chain_buf =>
          rw [hget] at h
          simp only at h
          cases hbody : outs_body (Tn : Int) (sn : Int) L (w L) outs_pos chain_buf st (x ++ [10])
            with
          | none => rw [hbody] at h; simp at h
          | some r =>
            obtain ⟨st1, outs_pos1, pw_buf1⟩ := r
            rw [hbody] at h
            simp only at h
            have hinv := (sched_point_inv E hE chainsOf hchains Tn sn w pw_min pw_max hw st0 h0
              st hst).1
            obtain ⟨_, _, x1, hx1, hb1⟩ := sched_body_inv E hE chainsOf hchains Tn sn st st1 L
              (w L) outs_pos outs_pos1 chain_buf x pw_buf1 hinv hne hoo (hw L h1 h2) hact hget hx
              hbody
            have hst1 : sched_point (Tn : Int) (sn : Int) w pw_min pw_max st0 st1 :=
              sched_point.body st st1 L outs_pos outs_pos1 chain_buf x pw_buf1 hst h1 h2 hne hoo
                hact hget hx hbody
            by_cases hfin : st1.total_ks_pos = (Tn : Int)
            · rw [if_pos hfin] at h
              have : st1 = st' := by simpa using h
              subst this; exact hst1
            · rw [if_neg hfin, hb1] at h
              exact ih st1 outs_pos1 x1 st' hst1 hfin hx1 h
    · rw [if_neg hoo] at h
      have : st = st' := by simpa using h
      subst this; exact hst

/-- A round passes through points of the scheduler only. -/
theorem order_loop_point (E : Nat → List (List Nat)) (hE : store_ok E)
    (chainsOf : Nat → List chain_t) (hchains : ∀ L, ∀ c ∈ chainsOf L, chain_ok E L c)
    (Tn sn : Nat) (w : Nat → Nat) (pw_min pw_max : Nat)
    (hw : ∀ L, pw_min ≤ L → L ≤ pw_max → w L < 2 ^ 64) (st0 : main_t)
    (h0 : sched_inv E chainsOf Tn st0) :
    ∀ (ord : List pw_order_t), (∀ o ∈ ord, pw_min ≤ o.len ∧ o.len ≤ pw_max) →
    ∀ (st st' : main_t), sched_point (Tn : Int) (sn : Int) w pw_min pw_max st0 st →
      st.total_ks_pos ≠ (Tn : Int) →
      order_loop (Tn : Int) (sn : Int) w ord st = res.done st' →
      sched_point (Tn : Int) (sn : Int) w pw_min pw_max st0 st' := by
  intro ord
  induction ord with
  | nil =>
    intro _ st st' hst _ h
    have : st = st' := by simpa [order_loop] using h
    subst this; exact hst
  | cons o ord ih =>
    intro hord st st' hst hne h
    obtain ⟨h1, h2⟩ := hord o (by simp)
    unfold order_loop at h
    simp only at h
    cases hloop : outs_loop (Tn : Int) (sn : Int) o.len (w o.len) (w o.len) st 0
        (List.replicate o.len 0 ++ [10]) with
    | fault => rw [hloop] at h; simp at h
    | spin out => rw [hloop] at h; simp at h
    | done st1 =>
      rw [hloop] at h
      simp only at h
      have hst1 := outs_loop_point E hE chainsOf hchains Tn sn w pw_min pw_max hw st0 h0 o.len
        h1 h2 (w o.len) st 0 (List.replicate o.len 0) st1 hst hne (by simp) hloop
      by_cases hfin : st1.total_ks_pos = (Tn : Int)
      · rw [if_pos hfin] at h
        have : st1 = st' := by simpa using h
        subst this; exact hst1
      · rw [if_neg hfin] at h
        exact ih (fun o' ho' => hord o' (by simp [ho'])) st1 st' hst1 hfin h

/-- The main loop passes through points of the scheduler only. -/
theorem main_loop_point (E : Nat → List (List Nat)) (hE : store_ok E)
    (chainsOf : Nat → List chain_t) (hchains : ∀ L, ∀ c ∈ chainsOf L, chain_ok E L c)
    (Tn sn : Nat) (w : Nat → Nat) (pw_min pw_max : Nat)
    (hw : ∀ L, pw_min ≤ L → L ≤ pw_max → w L < 2 ^ 64) (st0 : main_t)
    (h0 : sched_inv E chainsOf Tn st0) (ord : List pw_order_t)
    (hord : ∀ o ∈ ord, pw_min ≤ o.len ∧ o.len ≤ pw_max) :
    ∀ (fuel : Nat) (st st' : main_t),
      sched_point (Tn : Int) (sn : Int) w pw_min pw_max st0 st →
      main_loop (Tn : Int) (sn : Int) w ord fuel st = res.done st' →
      sched_point (Tn : Int) (sn : Int) w pw_min pw_max st0 st' := by
  intro fuel
  induction fuel with
  | zero =>
    intro st st' hst h
    unfold main_loop at h
    by_cases hlt : st.total_ks_pos < (Tn : Int)
    · rw [if_pos hlt] at h; simp at h
    · rw [if_neg hlt] at h
      have : st = st' := by simpa using h
      subst this; exact hst
  | succ fuel ih =>
    intro st st' hst h
    unfold main_loop at h
    by_cases hlt : st.total_ks_pos < (Tn : Int)
    · rw [if_pos hlt] at h
      simp only at h
      cases hround : order_loop (Tn : Int) (sn : Int) w ord st with
      | fault => rw [hround] at h; simp at h
      | spin out => rw [hround] at h; simp at h
      | done st1 =>
        rw [hround] at h
        simp only at h
        exact ih st1 st' (order_loop_point E hE chainsOf hchains Tn sn w pw_min pw_max hw st0 h0
          ord hord st st1 hst (by omega) hround) h
    · rw [if_neg hlt] at h
      have : st = st' := by simpa using h
      subst this; exact hst

theorem init_pw_orders_range (db : Nat → db_entry_t) (pw_min pw_max : Nat) :
    ∀ o ∈ init_pw_orders pw_min pw_max db, pw_min ≤ o.len ∧ o.len ≤ pw_max := by
  intro o ho
  have hperm := (init_pw_orders_sorted db pw_min pw_max).1
  have hmem : o.len ∈ (init_pw_orders pw_min pw_max db).map (fun o => o.len) :=
    List.mem_map.2 ⟨o, ho, rfl⟩
  exact (mem_pw_lens _ _ _).1 (hperm.mem_iff.1 hmem)

/-- C20: for every accepted configuration with `elem_cnt_max ≤ 8`, weights
that fit a `u64`, and every accepted skip and limit, let `st0` be the state
the main loop starts in: the table of the set-up for the skip 0, the state the
seek engine returns otherwise.  At `st0` and after every pass through the body
of the inner loop, every bucket with `chains_pos < chains_cnt` has an active
chain with `0 ≤ ks_pos < ks_cnt` whose scratch indices are the mixed-radix
digits of `ks_pos`; `total_ks_pos` lies between 0 and `total_ks_cnt` and does
not decrease from one point to a later one; and the state a run of the main
loop ends in is such a point. -/
theorem scheduler_invariant (E : Nat → List (List Nat)) (pw_min pw_max emin emax : Nat)
    (wl : Bool) (skip limit fuel : Nat) (st0 : main_t) (hE : store_ok E)
    (hopt : check_options pw_min pw_max emin emax = true) (hmax : emax ≤ ELEM_CNT_MAX)
    (hw : ∀ L, pw_min ≤ L → L ≤ pw_max →
      calc_wordlen_dist wl (init_chains pw_min pw_max emin emax (db_init E)) L < 2 ^ 64)
    (hs : skip = 0 ∨ (skip : Int) < (calc_keyspace pw_min pw_max
      (init_chains pw_min pw_max emin emax (db_init E))).total_ks_cnt)
    (hsl : (skip : Int) + (limit : Int) ≤ (calc_keyspace pw_min pw_max
      (init_chains pw_min pw_max emin emax (db_init E))).total_ks_cnt)
    (hst0 : (if (skip : Int) ≠ 0 then
          seek fuel pw_min pw_max
            (calc_keyspace pw_min pw_max (init_chains pw_min pw_max emin emax (db_init E)))
            (calc_wordlen_dist wl (init_chains pw_min pw_max emin emax (db_init E)))
            (sort_chains pw_min pw_max (calc_keyspace pw_min pw_max
              (init_chains pw_min pw_max emin emax (db_init E))).db_entries) (skip : Int)
        else
          res.done { db_entries := sort_chains pw_min pw_max (calc_keyspace pw_min pw_max
                       (init_chains pw_min pw_max emin emax (db_init E))).db_entries,
                     total_ks_pos := 0, out := [] }) = res.done st0) :
    (∀ st, sched_point
        (if (limit : Int) ≠ 0 then (skip : Int) + (limit : Int)
          else (calc_keyspace pw_min pw_max
            (init_chains pw_min pw_max emin emax (db_init E))).total_ks_cnt)
        (skip : Int) (calc_wordlen_dist wl (init_chains pw_min pw_max emin emax (db_init E)))
        pw_min pw_max st0 st →
      cursor_ok st.db_entries ∧ 0 ≤ st.total_ks_pos
      ∧ st.total_ks_pos ≤ (if (limit : Int) ≠ 0 then (skip : Int) + (limit : Int)
          else (calc_keyspace pw_min pw_max
            (init_chains pw_min pw_max emin emax (db_init E))).total_ks_cnt)
      ∧ ∀ st', sched_point
          (if (limit : Int) ≠ 0 then (skip : Int) + (limit : Int)
            else (calc_keyspace pw_min pw_max
              (init_chains pw_min pw_max emin emax (db_init E))).total_ks_cnt)
          (skip : Int) (calc_wordlen_dist wl (init_chains pw_min pw_max emin emax (db_init E)))
          pw_min pw_max st st' → st.total_ks_pos ≤ st'.total_ks_pos)
    ∧ ∀ (fuel1 : Nat) (st' : main_t),
        main_loop
          (if (limit : Int) ≠ 0 then (skip : Int) + (limit : Int)
            else (calc_keyspace pw_min pw_max
              (init_chains pw_min pw_max emin emax (db_init E))).total_ks_cnt)
          (skip : Int) (calc_wordlen_dist wl (init_chains pw_min pw_max emin emax (db_init E)))
          (init_pw_orders pw_min pw_max (sort_chains pw_min pw_max (calc_keyspace pw_min pw_max
            (init_chains pw_min pw_max emin emax (db_init E))).db_entries))
          fuel1 st0 = res.done st' →
        sched_point
          (if (limit : Int) ≠ 0 then (skip : Int) + (limit : Int)
            else (calc_keyspace pw_min pw_max
              (init_chains pw_min pw_max emin emax (db_init E))).total_ks_cnt)
          (skip : Int) (calc_wordlen_dist wl (init_chains pw_min pw_max emin emax (db_init E)))
          pw_min pw_max st0 st' := by
  have hchains := chains_of_ok E pw_min pw_max emin emax hopt hmax
  have hT := total_ks_cnt_eq E pw_min pw_max emin emax hopt hmax
  rw [(setup_eq E pw_min pw_max emin emax).1] at hst0 ⊢
  generalize hW : calc_wordlen_dist wl (init_chains pw_min pw_max emin emax (db_init E)) = W
    at hw hst0 ⊢
  rw [hT] at hs hsl ⊢
  have hTn : (if (limit : Int) ≠ 0 then (skip : Int) + (limit : Int)
      else ((records_cnt E pw_min pw_max emin emax : Nat) : Int))
      = (((if limit = 0 then records_cnt E pw_min pw_max emin emax else skip + limit : Nat)
          : Nat) : Int) := by
    by_cases hl : limit = 0
    · simp [hl]
    · have : (limit : Int) ≠ 0 := by exact_mod_cast hl
      simp [hl, this]
  rw [hTn]
  generalize hTnat : (if limit = 0 then records_cnt E pw_min pw_max emin emax
    else skip + limit) = Tn
  have hsT : skip ≤ Tn := by
    rw [← hTnat]
    split <;> omega
  have h0 : sched_inv E (chains_of E pw_min pw_max emin emax) Tn st0 := by
    by_cases hsk : skip = 0
    · subst hsk
      simp only [Nat.cast_zero, ne_eq, not_true_eq_false, if_false] at hst0
      have hst : st0 = (⟨db_ready E pw_min pw_max emin emax, 0, []⟩ : main_t) := by
        simpa using hst0.symm
      subst hst
      exact ⟨fun _ => 0, 0, sched_at_ready E pw_min pw_max emin emax hopt hmax, rfl,
        Nat.zero_le _⟩
    · have hsk' : (skip : Int) ≠ 0 := by exact_mod_cast hsk
      rw [if_pos hsk'] at hst0
      obtain ⟨p, tn, hat, ht, htn⟩ := seek_done_inv E pw_min pw_max emin emax hopt hmax W skip
        fuel st0 hst0
      exact ⟨p, tn, hat, ht, le_trans htn hsT⟩
  refine ⟨?_, ?_⟩
  · intro st hst
    obtain ⟨hinv, _⟩ := sched_point_inv E hE _ hchains Tn skip W pw_min pw_max hw st0 h0 st hst
    obtain ⟨p, tn, hat, ht, htn⟩ := hinv
    refine ⟨sched_at_cursor E _ hchains p _ hat, ?_, ?_, ?_⟩
    · rw [ht]; exact Int.natCast_nonneg _
    · rw [ht]; exact_mod_cast htn
    · intro st' hst'
      exact (sched_point_inv E hE _ hchains Tn skip W pw_min pw_max hw st ⟨p, tn, hat, ht, htn⟩
        st' hst').2
  · intro fuel1 st' hrun
    exact main_loop_point E hE _ hchains Tn skip W pw_min pw_max hw st0 h0 _
      (init_pw_orders_range _ pw_min pw_max) fuel1 st0 st' sched_point.start hrun

set_option maxRecDepth 100000 in
theorem scheduler_invariant_witness :
    ∃ st0 : main_t,
      seek 7 1 2 (calc_keyspace 1 2 (init_chains 1 2 1 2 (db_init store_ab)))
          (calc_wordlen_dist false (init_chains 1 2 1 2 (db_init store_ab)))
          (sort_chains 1 2 (calc_keyspace 1 2 (init_chains 1 2 1 2 (db_init store_ab))).db_entries)
          ((2 : Nat) : Int) = res.done st0
      ∧ cursor_ok st0.db_entries :=
  ⟨_, rfl,
    ((scheduler_invariant store_ab 1 2 1 2 false 2 2 7 _ store_ab_ok (by decide) (by decide)
      (fun L h1 h2 => (default_weights_range _ 1 2 1 2 (by decide) L h1 h2).2)
      (Or.inr (by decide)) (by decide) ((if_pos (by decide)).trans rfl)).1 _
        sched_point.start).1⟩

/-! ## The progress of a round -/

theorem bucket_at_active (E : Nat → List (List Nat)) (chains : List chain_t) (p : Nat)
    (e : db_entry_t) (hat : bucket_at E chains p e) (hact : e.chains_pos < e.chains_cnt) :
    p < (bucket_seq E chains).length := by
  rcases hat with ⟨done', done, c, todo, off, hsplit, hd, hoff, hp, hbuf, hpos, hcur⟩ |
    ⟨hp, hall, hpos, hcur⟩
  · rw [hsplit, bucket_seq_split_length, hp]
    omega
  · have hlen := hall.length_eq
    rw [db_entry_t.chains_cnt, hlen, hpos] at hact
    omega

/-- A round from a state of the invariant with an active chain in some bucket
of the order, under positive weights, increases `total_ks_pos`. -/
theorem order_loop_progress (E : Nat → List (List Nat)) (hE : store_ok E)
    (chainsOf : Nat → List chain_t) (hchains : ∀ L, ∀ c ∈ chainsOf L, chain_ok E L c)
    (w : Nat → Nat) (Tn sn : Nat) (ord : List pw_order_t)
    (hnd : (ord.map (fun o => o.len)).Nodup)
    (hw : ∀ o ∈ ord, 0 < w o.len ∧ w o.len < 2 ^ 64) (st : main_t)
    (hinv : sched_inv E chainsOf Tn st) (hlt : st.total_ks_pos < (Tn : Int))
    (L : Nat) (hL : L ∈ ord.map (fun o => o.len))
    (hact : (st.db_entries L).chains_pos < (st.db_entries L).chains_cnt) :
    ∃ st', order_loop (Tn : Int) (sn : Int) w ord st = res.done st'
      ∧ st.total_ks_pos < st'.total_ks_pos := by
  obtain ⟨p, tn, hat, ht, _⟩ := hinv
  have htT : tn < Tn := by rw [ht] at hlt; exact_mod_cast hlt
  obtain ⟨st', hrun, htot, _, _⟩ := order_loop_eq E hE chainsOf hchains w Tn sn ord hnd
    (fun o ho => (hw o ho).2) st p tn hat ht htT
  refine ⟨st', hrun, ?_⟩
  have hpL := bucket_at_active E (chainsOf L) (p L) (st.db_entries L) (hat.2 L) hact
  have hrem : 0 < rounds_rem (fun L => bucket_seq E (chainsOf L)) (ord.map (fun o => o.len)) p := by
    unfold rounds_rem
    have := List.single_le_sum (l := (ord.map (fun o => o.len)).map
      (fun L => (bucket_seq E (chainsOf L)).length - p L)) (fun _ _ => Nat.zero_le _)
      ((bucket_seq E (chainsOf L)).length - p L) (List.mem_map.2 ⟨L, hL, rfl⟩)
    have hpos' : 0 < (bucket_seq E (chainsOf L)).length - p L := by omega
    exact Nat.lt_of_lt_of_le hpos' this
  have hpos := round_seg_pos (fun L => bucket_seq E (chainsOf L)) w (ord.map (fun o => o.len))
    (fun K hK => by
      obtain ⟨o, ho, rfl⟩ := List.mem_map.1 hK
      exact (hw o ho).1) p hrem
  rw [htot, ht]
  have : tn < tn + min (round_seg (fun L => bucket_seq E (chainsOf L)) w
      (ord.map (fun o => o.len)) p).length (Tn - tn) := by omega
  exact_mod_cast this

set_option maxRecDepth 100000 in
theorem store_a_round :
    ∃ st1 : main_t,
      order_loop (calc_keyspace 1 2 (init_chains 1 2 1 2 (db_init store_a))).total_ks_cnt 0
          (calc_wordlen_dist true (init_chains 1 2 1 2 (db_init store_a)))
          (init_pw_orders 1 2 (sort_chains 1 2
            (calc_keyspace 1 2 (init_chains 1 2 1 2 (db_init store_a))).db_entries))
          ⟨sort_chains 1 2 (calc_keyspace 1 2 (init_chains 1 2 1 2 (db_init store_a))).db_entries,
            0, []⟩ = res.done st1
      ∧ st1.total_ks_pos = 1
      ∧ (calc_keyspace 1 2 (init_chains 1 2 1 2 (db_init store_a))).total_ks_cnt = 2
      ∧ calc_wordlen_dist true (init_chains 1 2 1 2 (db_init store_a)) 2 = 0
      ∧ (st1.db_entries 2).chains_pos < (st1.db_entries 2).chains_cnt
      ∧ order_loop (calc_keyspace 1 2 (init_chains 1 2 1 2 (db_init store_a))).total_ks_cnt 0
          (calc_wordlen_dist true (init_chains 1 2 1 2 (db_init store_a)))
          (init_pw_orders 1 2 (sort_chains 1 2
            (calc_keyspace 1 2 (init_chains 1 2 1 2 (db_init store_a))).db_entries))
          st1 = res.done st1
      ∧ ∀ fuel : Nat,
          main_loop (calc_keyspace 1 2 (init_chains 1 2 1 2 (db_init store_a))).total_ks_cnt 0
            (calc_wordlen_dist true (init_chains 1 2 1 2 (db_init store_a)))
            (init_pw_orders 1 2 (sort_chains 1 2
              (calc_keyspace 1 2 (init_chains 1 2 1 2 (db_init store_a))).db_entries))
            fuel st1 = res.spin st1.out := by
  refine ⟨_, rfl, by decide, by decide, by decide, by decide, rfl, fun fuel => ?_⟩
  apply main_loop_stuck
  · decide
  · rfl

/-- The main loop without skip under positive weights: every round from a
point of the scheduler with an active chain increases `total_ks_pos`. -/
theorem round_progress_pos (E : Nat → List (List Nat)) (pw_min pw_max emin emax : Nat)
    (wl : Bool) (hE : store_ok E)
    (hopt : check_options pw_min pw_max emin emax = true) (hmax : emax ≤ ELEM_CNT_MAX)
    (hw : ∀ L, pw_min ≤ L → L ≤ pw_max →
      0 < calc_wordlen_dist wl (init_chains pw_min pw_max emin emax (db_init E)) L
      ∧ calc_wordlen_dist wl (init_chains pw_min pw_max emin emax (db_init E)) L < 2 ^ 64)
    (st : main_t)
    (hst : sched_point
      (calc_keyspace pw_min pw_max (init_chains pw_min pw_max emin emax (db_init E))).total_ks_cnt
      0 (calc_wordlen_dist wl (init_chains pw_min pw_max emin emax (db_init E))) pw_min pw_max
      ⟨sort_chains pw_min pw_max (calc_keyspace pw_min pw_max
        (init_chains pw_min pw_max emin emax (db_init E))).db_entries, 0, []⟩ st)
    (hlt : st.total_ks_pos < (calc_keyspace pw_min pw_max
      (init_chains pw_min pw_max emin emax (db_init E))).total_ks_cnt)
    (L : Nat) (h1 : pw_min ≤ L) (h2 : L ≤ pw_max)
    (hact : (st.db_entries L).chains_pos < (st.db_entries L).chains_cnt) :
    ∃ st', order_loop
        (calc_keyspace pw_min pw_max
          (init_chains pw_min pw_max emin emax (db_init E))).total_ks_cnt
        0 (calc_wordlen_dist wl (init_chains pw_min pw_max emin emax (db_init E)))
        (init_pw_orders pw_min pw_max (sort_chains pw_min pw_max (calc_keyspace pw_min pw_max
          (init_chains pw_min pw_max emin emax (db_init E))).db_entries)) st = res.done st'
      ∧ st.total_ks_pos < st'.total_ks_pos := by
  have hchains := chains_of_ok E pw_min pw_max emin emax hopt hmax
  have hT := total_ks_cnt_eq E pw_min pw_max emin emax hopt hmax
  rw [(setup_eq E pw_min pw_max emin emax).1] at hst ⊢
  generalize hW : calc_wordlen_dist wl (init_chains pw_min pw_max emin emax (db_init E)) = W
    at hw hst ⊢
  rw [hT] at hst hlt ⊢
  have h0 : sched_inv E (chains_of E pw_min pw_max emin emax)
      (records_cnt E pw_min pw_max emin emax)
      (⟨db_ready E pw_min pw_max emin emax, 0, []⟩ : main_t) :=
    ⟨fun _ => 0, 0, sched_at_ready E pw_min pw_max emin emax hopt hmax, rfl, Nat.zero_le _⟩
  have hinv := (sched_point_inv E hE _ hchains (records_cnt E pw_min pw_max emin emax) 0 W
    pw_min pw_max (fun K k1 k2 => (hw K k1 k2).2) _ h0 st hst).1
  have hperm := (init_pw_orders_sorted (db_ready E pw_min pw_max emin emax) pw_min pw_max).1
  exact order_loop_progress E hE _ hchains W (records_cnt E pw_min pw_max emin emax) 0
    (init_pw_orders pw_min pw_max (db_ready E pw_min pw_max emin emax))
    (hperm.nodup_iff.2 (pw_lens_nodup _ _))
    (fun o ho => by
      obtain ⟨k1, k2⟩ := init_pw_orders_range _ pw_min pw_max o ho
      exact hw o.len k1 k2)
    st hinv hlt L (hperm.mem_iff.2 ((mem_pw_lens _ _ _).2 ⟨h1, h2⟩)) hact

/-- C18: for every accepted configuration with `elem_cnt_max ≤ 8` whose
weights are positive on `[pw_min, pw_max]` (the default weights are), without
skip and limit, every round from a point of the scheduler at which some bucket
has an unfinished chain increases `total_ks_pos`, the main loop leaves a state
with `total_ks_pos = total_ks_cnt` at once, and the run ends.  With the
weights `|E[L]|`, the store `a` and the lengths 1 to 2 the weight of the
length 2 is 0: after the first round `total_ks_pos` is 1 of 2, the bucket of
the length 2 has an unfinished chain, a round changes nothing and the main
loop does not end. -/
theorem round_progress :
    (check_options 1 2 1 2 = true ∧ store_ok store_a
      ∧ (∃ st1 : main_t,
          order_loop (calc_keyspace 1 2 (init_chains 1 2 1 2 (db_init store_a))).total_ks_cnt 0
              (calc_wordlen_dist true (init_chains 1 2 1 2 (db_init store_a)))
              (init_pw_orders 1 2 (sort_chains 1 2
                (calc_keyspace 1 2 (init_chains 1 2 1 2 (db_init store_a))).db_entries))
              ⟨sort_chains 1 2
                (calc_keyspace 1 2 (init_chains 1 2 1 2 (db_init store_a))).db_entries,
                0, []⟩ = res.done st1
          ∧ st1.total_ks_pos = 1
          ∧ (calc_keyspace 1 2 (init_chains 1 2 1 2 (db_init store_a))).total_ks_cnt = 2
          ∧ calc_wordlen_dist true (init_chains 1 2 1 2 (db_init store_a)) 2 = 0
          ∧ (st1.db_entries 2).chains_pos < (st1.db_entries 2).chains_cnt
          ∧ order_loop (calc_keyspace 1 2 (init_chains 1 2 1 2 (db_init store_a))).total_ks_cnt 0
              (calc_wordlen_dist true (init_chains 1 2 1 2 (db_init store_a)))
              (init_pw_orders 1 2 (sort_chains 1 2
                (calc_keyspace 1 2 (init_chains 1 2 1 2 (db_init store_a))).db_entries))
              st1 = res.done st1
          ∧ ∀ fuel : Nat,
              main_loop (calc_keyspace 1 2 (init_chains 1 2 1 2 (db_init store_a))).total_ks_cnt 0
                (calc_wordlen_dist true (init_chains 1 2 1 2 (db_init store_a)))
                (init_pw_orders 1 2 (sort_chains 1 2
                  (calc_keyspace 1 2 (init_chains 1 2 1 2 (db_init store_a))).db_entries))
                fuel st1 = res.spin st1.out)
      ∧ ∀ fuel : Nat, pp (fuel + 1) store_a 1 2 1 2 true false 0 0 = res.spin [bytes "a\n"])
    ∧ (∀ (db : Nat → db_entry_t) (pw_min pw_max emin emax : Nat),
        check_options pw_min pw_max emin emax = true →
        ∀ L, pw_min ≤ L → L ≤ pw_max →
          0 < calc_wordlen_dist false db L ∧ calc_wordlen_dist false db L < 2 ^ 64)
    ∧ ∀ (E : Nat → List (List Nat)) (pw_min pw_max emin emax : Nat) (wl : Bool), store_ok E →
        check_options pw_min pw_max emin emax = true → emax ≤ ELEM_CNT_MAX →
        (∀ L, pw_min ≤ L → L ≤ pw_max →
          0 < calc_wordlen_dist wl (init_chains pw_min pw_max emin emax (db_init E)) L
          ∧ calc_wordlen_dist wl (init_chains pw_min pw_max emin emax (db_init E)) L < 2 ^ 64) →
        (∀ st : main_t,
          sched_point
            (calc_keyspace pw_min pw_max
              (init_chains pw_min pw_max emin emax (db_init E))).total_ks_cnt
            0 (calc_wordlen_dist wl (init_chains pw_min pw_max emin emax (db_init E)))
            pw_min pw_max
            ⟨sort_chains pw_min pw_max (calc_keyspace pw_min pw_max
              (init_chains pw_min pw_max emin emax (db_init E))).db_entries, 0, []⟩ st →
          (st.total_ks_pos < (calc_keyspace pw_min pw_max
              (init_chains pw_min pw_max emin emax (db_init E))).total_ks_cnt →
            ∀ L, pw_min ≤ L → L ≤ pw_max →
              (st.db_entries L).chains_pos < (st.db_entries L).chains_cnt →
              ∃ st', order_loop
                  (calc_keyspace pw_min pw_max
                    (init_chains pw_min pw_max emin emax (db_init E))).total_ks_cnt
                  0 (calc_wordlen_dist wl (init_chains pw_min pw_max emin emax (db_init E)))
                  (init_pw_orders pw_min pw_max (sort_chains pw_min pw_max
                    (calc_keyspace pw_min pw_max
                      (init_chains pw_min pw_max emin emax (db_init E))).db_entries))
                  st = res.done st'
                ∧ st.total_ks_pos < st'.total_ks_pos)
          ∧ (¬ st.total_ks_pos < (calc_keyspace pw_min pw_max
              (init_chains pw_min pw_max emin emax (db_init E))).total_ks_cnt →
            ∀ fuel : Nat, main_loop
                (calc_keyspace pw_min pw_max
                  (init_chains pw_min pw_max emin emax (db_init E))).total_ks_cnt
                0 (calc_wordlen_dist wl (init_chains pw_min pw_max emin emax (db_init E)))
                (init_pw_orders pw_min pw_max (sort_chains pw_min pw_max
                  (calc_keyspace pw_min pw_max
                    (init_chains pw_min pw_max emin emax (db_init E))).db_entries))
                fuel st = res.done st))
        ∧ ∀ fuel : Nat,
            (calc_keyspace pw_min pw_max
              (init_chains pw_min pw_max emin emax (db_init E))).total_ks_cnt < (fuel : Int) →
            ∃ out : List (List Nat),
              pp fuel E pw_min pw_max emin emax wl false 0 0
                = res.done { code := 0, out := out, keyspace := none } := by
  refine ⟨⟨by decide, store_a_ok, store_a_round, store_a_spin⟩,
    fun db pw_min pw_max emin emax hopt => default_weights_range db pw_min pw_max emin emax hopt,
    ?_⟩
  intro E pw_min pw_max emin emax wl hE hopt hmax hw
  refine ⟨fun st hst => ⟨fun hlt L h1 h2 hact => ?_, fun hge fuel => ?_⟩, fun fuel hfuel => ?_⟩
  · exact round_progress_pos E pw_min pw_max emin emax wl hE hopt hmax hw st hst hlt L h1 h2 hact
  · exact main_loop_done _ _ _ _ fuel st hge
  · have hT := total_ks_cnt_eq E pw_min pw_max emin emax hopt hmax
    exact ⟨_, pp_unrestricted E hE pw_min pw_max emin emax hopt hmax wl hw fuel
      (by rw [hT] at hfuel; omega)⟩

theorem round_progress_witness :
    (∀ st : main_t,
      sched_point
        (calc_keyspace 1 2 (init_chains 1 2 1 2 (db_init store_ab))).total_ks_cnt
        0 (calc_wordlen_dist false (init_chains 1 2 1 2 (db_init store_ab))) 1 2
        ⟨sort_chains 1 2 (calc_keyspace 1 2
          (init_chains 1 2 1 2 (db_init store_ab))).db_entries, 0, []⟩ st →
      (st.total_ks_pos < (calc_keyspace 1 2
          (init_chains 1 2 1 2 (db_init store_ab))).total_ks_cnt →
        ∀ L, 1 ≤ L → L ≤ 2 →
          (st.db_entries L).chains_pos < (st.db_entries L).chains_cnt →
          ∃ st', order_loop
              (calc_keyspace 1 2 (init_chains 1 2 1 2 (db_init store_ab))).total_ks_cnt
              0 (calc_wordlen_dist false (init_chains 1 2 1 2 (db_init store_ab)))
              (init_pw_orders 1 2 (sort_chains 1 2
                (calc_keyspace 1 2 (init_chains 1 2 1 2 (db_init store_ab))).db_entries))
              st = res.done st'
            ∧ st.total_ks_pos < st'.total_ks_pos)
      ∧ (¬ st.total_ks_pos < (calc_keyspace 1 2
          (init_chains 1 2 1 2 (db_init store_ab))).total_ks_cnt →
        ∀ fuel : Nat, main_loop
            (calc_keyspace 1 2 (init_chains 1 2 1 2 (db_init store_ab))).total_ks_cnt
            0 (calc_wordlen_dist false (init_chains 1 2 1 2 (db_init store_ab)))
            (init_pw_orders 1 2 (sort_chains 1 2
              (calc_keyspace 1 2 (init_chains 1 2 1 2 (db_init store_ab))).db_entries))
            fuel st = res.done st))
    ∧ ∀ fuel : Nat,
        (calc_keyspace 1 2 (init_chains 1 2 1 2 (db_init store_ab))).total_ks_cnt
          < (fuel : Int) →
        ∃ out : List (List Nat),
          pp fuel store_ab 1 2 1 2 false false 0 0
            = res.done { code := 0, out := out, keyspace := none } :=
  round_progress.2.2 store_ab 1 2 1 2 false store_ab_ok (by decide) (by decide)
    (default_weights_range _ 1 2 1 2 (by decide))

/-! ## The number of chains -/

theorem countP_range_double (P : Nat → Bool) : ∀ N : Nat,
    (List.range (2 * N)).countP P
      = (List.range N).countP (fun q => P (2 * q))
        + (List.range N).countP (fun q => P (2 * q + 1)) := by
  intro N
  induction N with
  | zero => simp
  | succ N ih =>
    have e : 2 * (N + 1) = 2 * N + 1 + 1 := by ring
    rw [e, List.range_succ, List.range_succ, List.countP_append, List.countP_append, ih,
      List.range_succ, List.countP_append, List.countP_append]
    simp only [List.countP_cons, List.countP_nil]
    omega

theorem popcount_double (q : Nat) : popcount (2 * q) = popcount q := by
  rw [popcount_step]
  simp

theorem popcount_double_succ (q : Nat) : popcount (2 * q + 1) = popcount q + 1 := by
  rw [popcount_step]
  have h1 : (2 * q + 1) % 2 = 1 := by omega
  have h2 : (2 * q + 1) / 2 = q := by omega
  rw [h1, h2]
  omega

theorem few_bits_zero (m : Nat) : few_bits 0 m = 1 := by
  unfold few_bits
  rw [show (2 : Nat) ^ 0 = 1 from rfl, show List.range 1 = [0] from rfl]
  simp [popcount]

theorem few_bits_succ_zero (n : Nat) : few_bits (n + 1) 0 = few_bits n 0 := by
  unfold few_bits
  rw [pow_succ, Nat.mul_comm, countP_range_double]
  have h2 : (List.range (2 ^ n)).countP (fun q => decide (popcount (2 * q + 1) ≤ 0)) = 0 := by
    rw [List.countP_eq_zero]
    intro q _
    rw [popcount_double_succ]
    simp
  rw [h2, Nat.add_zero]
  apply List.countP_congr
  intro q _
  rw [popcount_double]

theorem few_bits_succ_succ (n m : Nat) :
    few_bits (n + 1) (m + 1) = few_bits n (m + 1) + few_bits n m := by
  unfold few_bits
  rw [pow_succ, Nat.mul_comm, countP_range_double]
  congr 1
  · apply List.countP_congr
    intro q _
    rw [popcount_double]
  · apply List.countP_congr
    intro q _
    rw [popcount_double_succ]
    simp

/-- The bitmasks with at most `m` one bits, counted by binomial coefficients. -/
theorem few_bits_eq_choose : ∀ n m : Nat,
    few_bits n m = ∑ j in Finset.range (m + 1), n.choose j := by
  intro n
  induction n with
  | zero =>
    intro m
    rw [few_bits_zero, Finset.sum_range_succ', Nat.choose_zero_right]
    simp
  | succ n ih =>
    intro m
    cases m with
    | zero => rw [few_bits_succ_zero, ih]; simp
    | succ m =>
      have hR : ∑ j in Finset.range (m + 1 + 1), (n + 1).choose j
          = ∑ k in Finset.range (m + 1), (n.choose k + n.choose (k + 1)) + 1 := by
        rw [Finset.sum_range_succ']
        simp [Nat.choose_succ_succ]
      have hL : ∑ j in Finset.range (m + 1 + 1), n.choose j
          = ∑ k in Finset.range (m + 1), n.choose (k + 1) + 1 := by
        rw [Finset.sum_range_succ']
        simp
      rw [few_bits_succ_succ, ih, ih, hR, hL, Finset.sum_add_distrib]
      omega

theorem few_bits_example : few_bits 15 7 = 16384 := by
  rw [few_bits_eq_choose]
  decide

theorem few_bits_mono (n m m' : Nat) (h : m ≤ m') : few_bits n m ≤ few_bits n m' := by
  unfold few_bits
  apply List.countP_mono_left
  intro i _ hi
  simp only [decide_eq_true_eq] at hi ⊢
  omega

theorem valid_chains_length (E : Nat → List (List Nat)) (emin emax L : Nat) :
    (valid_chains E emin emax L).length
      = (List.range (2 ^ (L - 1))).countP
          (fun i => chain_valid_with_db (chain_gen_with_idx (L - 1) i) (db_init E)
            && chain_valid_with_cnt_min (chain_gen_with_idx (L - 1) i) emin
            && chain_valid_with_cnt_max (chain_gen_with_idx (L - 1) i) emax) := by
  unfold valid_chains
  rw [← List.countP_eq_length_filter, List.countP_map]
  rfl

/-- A bucket holds at most as many chains as there are bitmasks. -/
theorem valid_chains_length_le_pow (E : Nat → List (List Nat)) (emin emax L : Nat) :
    (valid_chains E emin emax L).length ≤ 2 ^ (L - 1) := by
  rw [valid_chains_length]
  have := List.countP_le_length
    (fun i => chain_valid_with_db (chain_gen_with_idx (L - 1) i) (db_init E)
      && chain_valid_with_cnt_min (chain_gen_with_idx (L - 1) i) emin
      && chain_valid_with_cnt_max (chain_gen_with_idx (L - 1) i) emax)
    (l := List.range (2 ^ (L - 1)))
  rw [List.length_range] at this
  exact this

/-- A bucket holds at most as many chains as there are bitmasks with fewer
than `elem_cnt_max` one bits. -/
theorem valid_chains_length_le (E : Nat → List (List Nat)) (emin emax L : Nat)
    (hL1 : 1 ≤ L) (hL : L ≤ 16) :
    (valid_chains E emin emax L).length ≤ few_bits (L - 1) (emax - 1) := by
  rw [valid_chains_length]
  unfold few_bits
  apply List.countP_mono_left
  intro i hi hv
  have hilt := List.mem_range.1 hi
  have hcnt := ((chain_gen_compositions L hL1 hL).1 i hilt).2.2
  simp only [Bool.and_eq_true, chain_valid_with_cnt_max] at hv
  have h3 := hv.2
  simp only [decide_eq_true_eq]
  by_cases hgt : (chain_gen_with_idx (L - 1) i).cnt > emax
  · simp [hgt] at h3
  · omega

theorem store_all_valid (emax L i : Nat) (hL1 : 1 ≤ L) (hL : L ≤ 16) (he : 1 ≤ emax)
    (hi : i < 2 ^ (L - 1)) :
    (chain_valid_with_db (chain_gen_with_idx (L - 1) i) (db_init store_all)
      && chain_valid_with_cnt_min (chain_gen_with_idx (L - 1) i) 1
      && chain_valid_with_cnt_max (chain_gen_with_idx (L - 1) i) emax)
      = decide (popcount i ≤ emax - 1) := by
  obtain ⟨hpos, hsum, hcnt⟩ := (chain_gen_compositions L hL1 hL).1 i hi
  have h1 : chain_valid_with_db (chain_gen_with_idx (L - 1) i) (db_init store_all) = true := by
    rw [chain_valid_with_db_iff]
    intro p hp
    have hp1 := hpos p hp
    have hp2 : p ≤ L := by
      rw [← hsum]
      exact List.single_le_sum (fun _ _ => Nat.zero_le _) p hp
    have : store_all p = [List.replicate p 97] := by
      unfold store_all
      rw [if_pos ⟨hp1, by omega⟩]
    simp [db_entry_t.elems_cnt, db_init, this]
  have h2 : chain_valid_with_cnt_min (chain_gen_with_idx (L - 1) i) 1 = true := by
    unfold chain_valid_with_cnt_min
    rw [if_neg (by omega)]
  rw [h1, h2, Bool.true_and, Bool.true_and]
  unfold chain_valid_with_cnt_max
  by_cases hgt : (chain_gen_with_idx (L - 1) i).cnt > emax
  · rw [if_pos hgt]
    symm
    rw [decide_eq_false_iff_not]
    omega
  · rw [if_neg hgt]
    symm
    rw [decide_eq_true_eq]
    omega

theorem store_all_length (emax L : Nat) (hL1 : 1 ≤ L) (hL : L ≤ 16) (he : 1 ≤ emax) :
    (valid_chains store_all 1 emax L).length = few_bits (L - 1) (emax - 1) := by
  rw [valid_chains_length]
  unfold few_bits
  apply List.countP_congr
  intro i hi
  rw [store_all_valid emax L i hL1 hL he (List.mem_range.1 hi)]

theorem bucket_chains_length (E : Nat → List (List Nat)) (emin emax L : Nat) :
    (bucket_chains E emin emax L).length = (valid_chains E emin emax L).length := by
  unfold bucket_chains qsort
  rw [List.length_insertionSort, List.length_map]

theorem setup_chains_cnt (E : Nat → List (List Nat)) (pw_min pw_max emin emax L : Nat)
    (h1 : pw_min ≤ L) (h2 : L ≤ pw_max) :
    (sort_chains pw_min pw_max (calc_keyspace pw_min pw_max
      (init_chains pw_min pw_max emin emax (db_init E))).db_entries L).chains_cnt
      = (valid_chains E emin emax L).length := by
  rw [(setup_eq E pw_min pw_max emin emax).1, db_entry_t.chains_cnt,
    db_ready_chains _ _ _ _ _ _ h1 h2, bucket_chains_length]

theorem few_bits_total :
    ((pw_lens 1 16).map (fun L => few_bits (L - 1) 7)).sum = 39202 := by
  simp only [few_bits_eq_choose]
  decide

theorem sum_pw_lens_le (g : Nat → Nat) (pw_min pw_max : Nat) (h1 : 1 ≤ pw_min)
    (h2 : pw_min ≤ pw_max) (h3 : pw_max ≤ 16) :
    ((pw_lens pw_min pw_max).map g).sum ≤ ((pw_lens 1 16).map g).sum := by
  have hsplit : pw_lens 1 16
      = List.range' 1 (pw_min - 1)
        ++ (pw_lens pw_min pw_max ++ List.range' (pw_max + 1) (16 - pw_max)) := by
    unfold pw_lens
    have e1 : List.range' (pw_max + 1) (16 - pw_max)
        = List.range' (pw_min + (pw_max + 1 - pw_min)) (16 - pw_max) := by
      congr 1; omega
    rw [e1, List.range'_append_1]
    have e2 : List.range' pw_min (16 - pw_max + (pw_max + 1 - pw_min))
        = List.range' (1 + (pw_min - 1)) (16 - pw_max + (pw_max + 1 - pw_min)) := by
      congr 1; omega
    rw [e2, List.range'_append_1]
    congr 1
    omega
  rw [hsplit, List.map_append, List.map_append, List.sum_append, List.sum_append]
  omega

theorem store_all_ok : store_ok store_all := by
  intro p e he
  unfold store_all at he
  split at he
  · simp only [List.mem_singleton] at he
    rw [he, List.length_replicate]
  · simp at he

theorem store_all_total :
    ((pw_lens 1 16).map (fun L =>
      (sort_chains 1 16 (calc_keyspace 1 16
        (init_chains 1 16 1 8 (db_init store_all))).db_entries L).chains_cnt)).sum = 39202 := by
  rw [← few_bits_total]
  congr 1
  apply List.map_congr_left
  intro L hL
  obtain ⟨h1, h2⟩ := (mem_pw_lens _ _ _).1 hL
  rw [setup_chains_cnt store_all 1 16 1 8 L h1 h2, store_all_length 8 L h1 h2 (by decide)]

theorem chains_total_le (E : Nat → List (List Nat)) (pw_min pw_max emin emax : Nat)
    (hopt : check_options pw_min pw_max emin emax = true) (hmax : emax ≤ ELEM_CNT_MAX) :
    ((pw_lens pw_min pw_max).map (fun L =>
      (sort_chains pw_min pw_max (calc_keyspace pw_min pw_max
        (init_chains pw_min pw_max emin emax (db_init E))).db_entries L).chains_cnt)).sum
      ≤ 39202 := by
  obtain ⟨hpw1, hpw, hpw16, _, _, _⟩ := check_options_nat _ _ _ _ hopt
  rw [← few_bits_total]
  refine le_trans ?_ (sum_pw_lens_le (fun L => few_bits (L - 1) 7) pw_min pw_max hpw1 hpw hpw16)
  apply List.sum_le_sum
  intro L hL
  obtain ⟨h1, h2⟩ := (mem_pw_lens _ _ _).1 hL
  rw [setup_chains_cnt E pw_min pw_max emin emax L h1 h2]
  refine le_trans (valid_chains_length_le E emin emax L (by omega) (by omega)) ?_
  apply few_bits_mono
  unfold ELEM_CNT_MAX at hmax
  omega

/-- C22 (as amended): for every accepted configuration with
`elem_cnt_max ≤ 8` every bucket `B[L]` stores at most `2^(L-1)` chains and
all buckets together store at most 39202 chains; the defaults (lengths 1 to
16, 1 to 8 elements) with an element of every length store exactly 39202. -/
theorem chains_count_bound (E : Nat → List (List Nat)) (pw_min pw_max emin emax : Nat)
    (hopt : check_options pw_min pw_max emin emax = true) (hmax : emax ≤ ELEM_CNT_MAX) :
    (∀ L, pw_min ≤ L → L ≤ pw_max →
      (sort_chains pw_min pw_max (calc_keyspace pw_min pw_max
        (init_chains pw_min pw_max emin emax (db_init E))).db_entries L).chains_cnt
        ≤ 2 ^ (L - 1))
    ∧ ((List.range' pw_min (pw_max + 1 - pw_min)).map (fun L =>
        (sort_chains pw_min pw_max (calc_keyspace pw_min pw_max
          (init_chains pw_min pw_max emin emax (db_init E))).db_entries L).chains_cnt)).sum
        ≤ 39202
    ∧ ((List.range' 1 16).map (fun L =>
        (sort_chains 1 16 (calc_keyspace 1 16
          (init_chains 1 16 1 8 (db_init store_all))).db_entries L).chains_cnt)).sum
        = 39202 := by
  refine ⟨?_, chains_total_le E pw_min pw_max emin emax hopt hmax, store_all_total⟩
  intro L h1 h2
  rw [setup_chains_cnt E pw_min pw_max emin emax L h1 h2]
  exact valid_chains_length_le_pow E emin emax L

theorem chains_count_bound_witness :
    (∀ L, 1 ≤ L → L ≤ 2 →
      (sort_chains 1 2 (calc_keyspace 1 2
        (init_chains 1 2 1 2 (db_init store_ab))).db_entries L).chains_cnt
        ≤ 2 ^ (L - 1))
    ∧ ((List.range' 1 (2 + 1 - 1)).map (fun L =>
        (sort_chains 1 2 (calc_keyspace 1 2
          (init_chains 1 2 1 2 (db_init store_ab))).db_entries L).chains_cnt)).sum
        ≤ 39202
    ∧ ((List.range' 1 16).map (fun L =>
        (sort_chains 1 16 (calc_keyspace 1 16
          (init_chains 1 16 1 8 (db_init store_all))).db_entries L).chains_cnt)).sum
        = 39202 :=
  chains_count_bound store_ab 1 2 1 2 (by decide) (by decide)

/-- C22, as stated, fails: with an element of every length from 1 to 16 the
default configuration (lengths 1 to 16, 1 to 8 elements) stores 39202 chains,
more than `2^15 = 32768`. -/
theorem chains_count_exceeds :
    store_ok store_all ∧ check_options 1 16 1 8 = true ∧ (8 : Nat) ≤ ELEM_CNT_MAX
    ∧ ((List.range' 1 (16 + 1 - 1)).map (fun L =>
        (sort_chains 1 16 (calc_keyspace 1 16
          (init_chains 1 16 1 8 (db_init store_all))).db_entries L).chains_cnt)).sum
        = 39202
    ∧ ¬ 39202 ≤ 2 ^ 15 :=
  ⟨store_all_ok, by decide, by decide, store_all_total, by decide⟩

/-! ## The reset of the scratch indices -/

/-- The scratch indices one pass through the body of the inner loop leaves
behind, from a state of the invariant: all zeros when the chain is finished. -/
theorem outs_emit_finished (E : Nat → List (List Nat)) (hE : store_ok E)
    (chainsOf : Nat → List chain_t) (hchains : ∀ L, ∀ c ∈ chainsOf L, chain_ok E L c)
    (Tn sn : Nat) (st : main_t) (L outs_cnt outs_pos : Nat) (chain_buf : chain_t)
    (x : List Nat) (hinv : sched_inv E chainsOf Tn st) (hne : st.total_ks_pos ≠ (Tn : Int))
    (houts : outs_pos < outs_cnt) (hw : outs_cnt < 2 ^ 64)
    (hact : (st.db_entries L).chains_pos ≠ (st.db_entries L).chains_cnt)
    (hget : (st.db_entries L).chains_buf.get? (st.db_entries L).chains_pos = some chain_buf)
    (hx : x.length = L) :
    ∃ (cur pw_buf1 : List Nat) (out : List (List Nat)),
      outs_emit (sn : Int) L chain_buf st
          (calc_iter_max (Tn : Int) st.total_ks_pos chain_buf outs_cnt outs_pos) (x ++ [10])
        = some (cur, pw_buf1, out)
      ∧ (chain_buf.ks_pos + calc_iter_max (Tn : Int) st.total_ks_pos chain_buf outs_cnt outs_pos
            = chain_buf.ks_cnt →
          cur = List.replicate ELEM_CNT_MAX 0) := by
  obtain ⟨p, tn, ⟨hdb, hat⟩, ht, htT⟩ := hinv
  have htT' : tn < Tn := by
    have : tn ≠ Tn := fun h => hne (by rw [ht, h])
    omega
  rcases hat L with ⟨done', done, c, todo, off, hsplit, hd, hoff, hp, hbuf, hpos, hcur⟩ |
    ⟨hp, hall, hpos, hcur⟩
  · obtain ⟨hks, _, hn, hk, hsum⟩ := hchains L c (by rw [hsplit]; simp)
    have hget' : (st.db_entries L).chains_buf.get? (st.db_entries L).chains_pos
        = some { c with ks_pos := (off : Int) } := by
      rw [hpos, hbuf, get?_append_length]
    have hc : chain_buf = { c with ks_pos := (off : Int) } := by
      rw [hget] at hget'
      exact Option.some.inj hget'
    subst hc
    generalize hm : min (min ((radices E c.buf).prod - off) (Tn - tn)) (outs_cnt - outs_pos) = m
    have hmlt : m < 2 ^ 64 := by omega
    have him : calc_iter_max (Tn : Int) st.total_ks_pos { c with ks_pos := (off : Int) }
        outs_cnt outs_pos = (m : Int) := by
      rw [ht, calc_iter_max_eq Tn tn (radices E c.buf).prod off outs_cnt outs_pos
        { c with ks_pos := (off : Int) } hks rfl (le_of_lt hoff) (le_of_lt htT'), hm]
    obtain ⟨x', _, hemit⟩ := outs_emit_eq E hE L st hdb c hn hk hsum c.ks_cnt off hcur tn sn m ht
      hmlt x hx
    rw [him]
    refine ⟨_, _, _, hemit, ?_⟩
    intro hfin
    have hfin' : off + m = (radices E c.buf).prod := by
      have h' : (off : Int) + (m : Int) = (((radices E c.buf).prod : Nat) : Int) := by
        rw [← hks]; exact hfin
      exact_mod_cast h'
    have hz := mixed_radix_prod_mul (radices E c.buf) 1 (radices_pos E c.buf hn)
    rw [Nat.mul_one] at hz
    rw [hfin', hz, ← List.replicate_add]
    congr 1
    simp only [radices, List.length_map]
    omega
  · have hlen := hall.length_eq
    exact absurd (by rw [hpos, db_entry_t.chains_cnt, hlen]) hact

theorem limit_total_cast (skip limit R : Nat) :
    (if (limit : Int) ≠ 0 then (skip : Int) + (limit : Int) else (R : Int))
      = (((if limit = 0 then R else skip + limit : Nat) : Nat) : Int) := by
  by_cases hl : limit = 0
  · simp [hl]
  · have : (limit : Int) ≠ 0 := by exact_mod_cast hl
    simp [hl, this]

/-- The state the main loop starts in satisfies the invariant. -/
theorem sched_start_inv (E : Nat → List (List Nat)) (pw_min pw_max emin emax : Nat)
    (hopt : check_options pw_min pw_max emin emax = true) (hmax : emax ≤ ELEM_CNT_MAX)
    (W : Nat → Nat) (skip limit fuel : Nat) (st0 : main_t)
    (hs : skip = 0 ∨ skip < records_cnt E pw_min pw_max emin emax)
    (hsl : skip + limit ≤ records_cnt E pw_min pw_max emin emax)
    (hst0 : (if (skip : Int) ≠ 0 then
          seek fuel pw_min pw_max
            (calc_keyspace pw_min pw_max (init_chains pw_min pw_max emin emax (db_init E))) W
            (db_ready E pw_min pw_max emin emax) (skip : Int)
        else
          res.done (⟨db_ready E pw_min pw_max emin emax, 0, []⟩ : main_t)) = res.done st0) :
    sched_inv E (chains_of E pw_min pw_max emin emax)
      (if limit = 0 then records_cnt E pw_min pw_max emin emax else skip + limit) st0 := by
  have hsT : skip ≤ (if limit = 0 then records_cnt E pw_min pw_max emin emax
      else skip + limit) := by
    split <;> omega
  by_cases hsk : skip = 0
  · subst hsk
    simp only [Nat.cast_zero, ne_eq, not_true_eq_false, if_false] at hst0
    have hst : st0 = (⟨db_ready E pw_min pw_max emin emax, 0, []⟩ : main_t) := by
      simpa using hst0.symm
    subst hst
    exact ⟨fun _ => 0, 0, sched_at_ready E pw_min pw_max emin emax hopt hmax, rfl,
      Nat.zero_le _⟩
  · have hsk' : (skip : Int) ≠ 0 := by exact_mod_cast hsk
    rw [if_pos hsk'] at hst0
    obtain ⟨p, tn, hat, ht, htn⟩ := seek_done_inv E pw_min pw_max emin emax hopt hmax W skip
      fuel st0 hst0
    exact ⟨p, tn, hat, ht, le_trans htn hsT⟩

/-- C21: for every accepted configuration with `elem_cnt_max ≤ 8`, weights
that fit a `u64` and every accepted skip and limit, at every point of the
scheduler the pass through the body of the inner loop for a bucket with an
active chain succeeds, and when it finishes the chain
(`ks_pos + iter_max = ks_cnt`) the scratch indices it leaves behind, by the
emitting or by the skipping branch, are already the 8 zeros the reset
writes. -/
theorem reset_changes_nothing (E : Nat → List (List Nat)) (pw_min pw_max emin emax : Nat)
    (wl : Bool) (skip limit fuel : Nat) (st0 : main_t) (hE : store_ok E)
    (hopt : check_options pw_min pw_max emin emax = true) (hmax : emax ≤ ELEM_CNT_MAX)
    (hw : ∀ L, pw_min ≤ L → L ≤ pw_max →
      calc_wordlen_dist wl (init_chains pw_min pw_max emin emax (db_init E)) L < 2 ^ 64)
    (hs : skip = 0 ∨ (skip : Int) < (calc_keyspace pw_min pw_max
      (init_chains pw_min pw_max emin emax (db_init E))).total_ks_cnt)
    (hsl : (skip : Int) + (limit : Int) ≤ (calc_keyspace pw_min pw_max
      (init_chains pw_min pw_max emin emax (db_init E))).total_ks_cnt)
    (hst0 : (if (skip : Int) ≠ 0 then
          seek fuel pw_min pw_max
            (calc_keyspace pw_min pw_max (init_chains pw_min pw_max emin emax (db_init E)))
            (calc_wordlen_dist wl (init_chains pw_min pw_max emin emax (db_init E)))
            (sort_chains pw_min pw_max (calc_keyspace pw_min pw_max
              (init_chains pw_min pw_max emin emax (db_init E))).db_entries) (skip : Int)
        else
          res.done ⟨sort_chains pw_min pw_max (calc_keyspace pw_min pw_max
            (init_chains pw_min pw_max emin emax (db_init E))).db_entries, 0, []⟩)
        = res.done st0)
    (st : main_t)
    (hst : sched_point
      (if (limit : Int) ≠ 0 then (skip : Int) + (limit : Int)
        else (calc_keyspace pw_min pw_max
          (init_chains pw_min pw_max emin emax (db_init E))).total_ks_cnt)
      (skip : Int) (calc_wordlen_dist wl (init_chains pw_min pw_max emin emax (db_init E)))
      pw_min pw_max st0 st)
    (L outs_pos : Nat) (chain_buf : chain_t) (x : List Nat)
    (h1 : pw_min ≤ L) (h2 : L ≤ pw_max)
    (hne : st.total_ks_pos ≠ (if (limit : Int) ≠ 0 then (skip : Int) + (limit : Int)
        else (calc_keyspace pw_min pw_max
          (init_chains pw_min pw_max emin emax (db_init E))).total_ks_cnt))
    (houts : outs_pos
      < calc_wordlen_dist wl (init_chains pw_min pw_max emin emax (db_init E)) L)
    (hact : (st.db_entries L).chains_pos ≠ (st.db_entries L).chains_cnt)
    (hget : (st.db_entries L).chains_buf.get? (st.db_entries L).chains_pos = some chain_buf)
    (hx : x.length = L) :
    ∃ (cur pw_buf1 : List Nat) (out : List (List Nat)),
      outs_emit (skip : Int) L chain_buf st
          (calc_iter_max
            (if (limit : Int) ≠ 0 then (skip : Int) + (limit : Int)
              else (calc_keyspace pw_min pw_max
                (init_chains pw_min pw_max emin emax (db_init E))).total_ks_cnt)
            st.total_ks_pos chain_buf
            (calc_wordlen_dist wl (init_chains pw_min pw_max emin emax (db_init E)) L) outs_pos)
          (x ++ [10])
        = some (cur, pw_buf1, out)
      ∧ (chain_buf.ks_pos + calc_iter_max
            (if (limit : Int) ≠ 0 then (skip : Int) + (limit : Int)
              else (calc_keyspace pw_min pw_max
                (init_chains pw_min pw_max emin emax (db_init E))).total_ks_cnt)
            st.total_ks_pos chain_buf
            (calc_wordlen_dist wl (init_chains pw_min pw_max emin emax (db_init E)) L) outs_pos
            = chain_buf.ks_cnt →
          cur = List.replicate ELEM_CNT_MAX 0) := by
  have hchains := chains_of_ok E pw_min pw_max emin emax hopt hmax
  have hT := total_ks_cnt_eq E pw_min pw_max emin emax hopt hmax
  rw [(setup_eq E pw_min pw_max emin emax).1] at hst0
  generalize hW : calc_wordlen_dist wl (init_chains pw_min pw_max emin emax (db_init E)) = W
    at hw hst0 hst houts ⊢
  rw [hT] at hs hsl hst hne ⊢
  rw [limit_total_cast] at hst hne ⊢
  have h0 := sched_start_inv E pw_min pw_max emin emax hopt hmax W skip limit fuel st0
    (by omega) (by omega) hst0
  have hinv := (sched_point_inv E hE _ hchains _ skip W pw_min pw_max hw st0 h0 st hst).1
  exact outs_emit_finished E hE _ hchains _ skip st L (W L) outs_pos chain_buf x hinv hne houts
    (hw L h1 h2) hact hget hx

set_option maxRecDepth 100000 in
theorem reset_changes_nothing_witness :
    ∃ (st0 : main_t) (chain_buf : chain_t),
      (st0.db_entries 1).chains_buf.get? (st0.db_entries 1).chains_pos = some chain_buf
      ∧ chain_buf.ks_pos + calc_iter_max
            (if ((0 : Nat) : Int) ≠ 0 then ((0 : Nat) : Int) + ((0 : Nat) : Int)
              else (calc_keyspace 1 2 (init_chains 1 2 1 2 (db_init store_ab))).total_ks_cnt)
            st0.total_ks_pos chain_buf
            (calc_wordlen_dist false (init_chains 1 2 1 2 (db_init store_ab)) 1) 0
          = chain_buf.ks_cnt
      ∧ ∃ (cur pw_buf1 : List Nat) (out : List (List Nat)),
        outs_emit ((0 : Nat) : Int) 1 chain_buf st0
            (calc_iter_max
              (if ((0 : Nat) : Int) ≠ 0 then ((0 : Nat) : Int) + ((0 : Nat) : Int)
                else (calc_keyspace 1 2 (init_chains 1 2 1 2 (db_init store_ab))).total_ks_cnt)
              st0.total_ks_pos chain_buf
              (calc_wordlen_dist false (init_chains 1 2 1 2 (db_init store_ab)) 1) 0)
            ([97] ++ [10])
          = some (cur, pw_buf1, out)
        ∧ (chain_buf.ks_pos + calc_iter_max
              (if ((0 : Nat) : Int) ≠ 0 then ((0 : Nat) : Int) + ((0 : Nat) : Int)
                else (calc_keyspace 1 2 (init_chains 1 2 1 2 (db_init store_ab))).total_ks_cnt)
              st0.total_ks_pos chain_buf
              (calc_wordlen_dist false (init_chains 1 2 1 2 (db_init store_ab)) 1) 0
              = chain_buf.ks_cnt →
            cur = List.replicate ELEM_CNT_MAX 0) := by
  refine ⟨⟨sort_chains 1 2 (calc_keyspace 1 2
      (init_chains 1 2 1 2 (db_init store_ab))).db_entries, 0, []⟩, _, rfl, ?_,
    reset_changes_nothing store_ab 1 2 1 2 false 0 0 0 _ store_ab_ok (by decide) (by decide)
      (fun L h1 h2 => (default_weights_range _ 1 2 1 2 (by decide) L h1 h2).2)
      (Or.inl rfl) ?_ ((if_neg (by decide)).trans rfl) _ sched_point.start 1 0 _ [97]
      (by decide) (by decide) ?_ ?_ ?_ rfl rfl⟩
  · rfl
  · decide
  · decide
  · decide
  · decide

/-- The counters of the keyspace are natural numbers, and the total is the sum
of the ones of the lengths, for every configuration. -/
theorem keyspace_nat (E : Nat → List (List Nat)) (pw_min pw_max emin emax : Nat) :
    ∃ cnt : Nat → Nat,
      (calc_keyspace pw_min pw_max (init_chains pw_min pw_max emin emax (db_init E))).pw_ks_cnt
        = (fun L => (cnt L : Int))
      ∧ (calc_keyspace pw_min pw_max (init_chains pw_min pw_max emin emax (db_init E))).total_ks_cnt
        = ((((pw_lens pw_min pw_max).map cnt).sum : Nat) : Int) := by
  have hb : ∀ k, chains_ks (bucket_chains E emin emax k)
      = ((((valid_chains E emin emax k).map
          (fun c => (radices (db_elems (db_init E)) c.buf).prod)).sum : Nat) : Int) := by
    intro k
    rw [chains_ks_bucket]
    generalize valid_chains E emin emax k = cs
    induction cs with
    | nil => simp
    | cons c cs ih =>
      rw [List.map_cons, List.sum_cons, List.map_cons, List.sum_cons, Nat.cast_add, ih,
        chain_ks_eq]
  refine ⟨fun k => if k ∈ pw_lens pw_min pw_max then
      ((valid_chains E emin emax k).map
        (fun c => (radices (db_elems (db_init E)) c.buf).prod)).sum else 0, ?_, ?_⟩
  · rw [(setup_eq E pw_min pw_max emin emax).2.2]
    funext k
    by_cases hk : k ∈ pw_lens pw_min pw_max
    · simp only [hk, if_true, hb]
    · simp [hk]
  · rw [(setup_eq E pw_min pw_max emin emax).2.1]
    have : ∀ lens : List Nat, (∀ k ∈ lens, k ∈ pw_lens pw_min pw_max) →
        (lens.map (fun k => chains_ks (bucket_chains E emin emax k))).sum
          = (((lens.map (fun k => if k ∈ pw_lens pw_min pw_max then
              ((valid_chains E emin emax k).map
                (fun c => (radices (db_elems (db_init E)) c.buf).prod)).sum else 0)).sum : Nat)
              : Int) := by
      intro lens
      induction lens with
      | nil => intro _; simp
      | cons k lens ih =>
        intro h
        have hk : k ∈ pw_lens pw_min pw_max := h k (List.mem_cons_self _ _)
        rw [List.map_cons, List.sum_cons, List.map_cons, List.sum_cons, Nat.cast_add,
          ih (fun j hj => h j (List.mem_cons_of_mem _ hj)), hb, if_pos hk]
    exact this _ (fun _ h => h)

/-- With weights that are positive on `[pw_min, pw_max]` the seek loop ends,
for every configuration and every skip below the keyspace. -/
theorem seek_loop_done (E : Nat → List (List Nat)) (pw_min pw_max emin emax : Nat)
    (w : Nat → Nat) (hw : ∀ L, pw_min ≤ L → L ≤ pw_max → 0 < w L) (skip fuel : Nat)
    (hs : (skip : Int) < (calc_keyspace pw_min pw_max
      (init_chains pw_min pw_max emin emax (db_init E))).total_ks_cnt)
    (hfuel : (calc_keyspace pw_min pw_max
      (init_chains pw_min pw_max emin emax (db_init E))).total_ks_cnt < (fuel : Int)) :
    ∃ s : seek_t,
      seek_loop (calc_keyspace pw_min pw_max
          (init_chains pw_min pw_max emin emax (db_init E))).pw_ks_cnt w
          (pw_lens pw_min pw_max) fuel
          { skip_left := (skip : Int), pw_ks_pos := fun _ => 0,
            outs_per_main_loop :=
              (pw_lens pw_min pw_max).foldl (fun acc pw_len => acc + w pw_len) 0 }
        = res.done s
      ∧ 0 < s.outs_per_main_loop
      ∧ mpz_fdiv_q_ui s.skip_left s.outs_per_main_loop = 0 := by
  obtain ⟨cnt, hc, hT⟩ := keyspace_nat E pw_min pw_max emin emax
  rw [hT] at hs hfuel
  rw [hc]
  have hw' : ∀ L ∈ pw_lens pw_min pw_max, 0 < w L := by
    intro L hL
    obtain ⟨h1, h2⟩ := (mem_pw_lens _ _ _).1 hL
    exact hw L h1 h2
  obtain ⟨n0, s', hloop, hinv, hpos, hlt⟩ := seek_loop_eq cnt w (pw_lens pw_min pw_max) skip
    (pw_lens_nodup _ _) hw' (by exact_mod_cast hs) fuel 0 _
    (seek_inv_init _ w (pw_lens pw_min pw_max) skip) (by omega)
  refine ⟨s', hloop, hpos, ?_⟩
  obtain ⟨_, _, h3, _⟩ := hinv
  unfold mpz_fdiv_q_ui
  exact Int.ediv_eq_zero_of_lt h3 hlt

set_option maxRecDepth 100000 in
theorem seek_ab_keyspace :
    (calc_keyspace 2 2 (init_chains 2 2 1 2 (db_init store_ab))).total_ks_cnt = 4
    ∧ calc_wordlen_dist true (init_chains 2 2 1 2 (db_init store_ab)) 2 = 0
    ∧ (pw_lens 2 2).foldl (fun acc pw_len =>
        acc + calc_wordlen_dist true (init_chains 2 2 1 2 (db_init store_ab)) pw_len) 0 = 0 := by
  decide

set_option maxRecDepth 100000 in
theorem seek_ab_fault (fuel : Nat) :
    seek (fuel + 1) 2 2 (calc_keyspace 2 2 (init_chains 2 2 1 2 (db_init store_ab)))
        (calc_wordlen_dist true (init_chains 2 2 1 2 (db_init store_ab)))
        (sort_chains 2 2 (calc_keyspace 2 2 (init_chains 2 2 1 2 (db_init store_ab))).db_entries)
        1 = res.fault
    ∧ pp (fuel + 1) store_ab 2 2 1 2 true false 1 0 = res.fault :=
  ⟨rfl, rfl⟩

set_option maxRecDepth 100000 in
theorem seek_a_keyspace :
    (calc_keyspace 1 2 (init_chains 1 2 1 2 (db_init store_a))).total_ks_cnt = 2
    ∧ calc_wordlen_dist true (init_chains 1 2 1 2 (db_init store_a)) 1 = 1
    ∧ calc_wordlen_dist true (init_chains 1 2 1 2 (db_init store_a)) 2 = 0 := by
  decide

set_option maxRecDepth 100000 in
theorem seek_a_fault (fuel : Nat) :
    seek_outs (calc_keyspace 1 2 (init_chains 1 2 1 2 (db_init store_a))).pw_ks_cnt
        (calc_wordlen_dist true (init_chains 1 2 1 2 (db_init store_a)))
        ((pw_lens 1 2).foldl
          (seek_step (calc_keyspace 1 2 (init_chains 1 2 1 2 (db_init store_a))).pw_ks_cnt
            (calc_wordlen_dist true (init_chains 1 2 1 2 (db_init store_a))) 1)
          ⟨1, fun _ => 0, 1⟩).pw_ks_pos
        (pw_lens 1 2) = 0
    ∧ seek (fuel + 2) 1 2 (calc_keyspace 1 2 (init_chains 1 2 1 2 (db_init store_a)))
        (calc_wordlen_dist true (init_chains 1 2 1 2 (db_init store_a)))
        (sort_chains 1 2 (calc_keyspace 1 2 (init_chains 1 2 1 2 (db_init store_a))).db_entries)
        1 = res.fault
    ∧ pp (fuel + 2) store_a 1 2 1 2 true false 1 0 = res.fault :=
  ⟨by decide, rfl, rfl⟩

/-- C23: the seek loop returns `res.fault` at the first iteration whose
divisor `outs_per_main_loop` is zero, so a result `res.done` says that no
iteration divided by zero and that the loop ended.  With the weights `|E[L]|`
the claim fails.  For the elements `a`, `b`, the lengths 2 to 2 and skip 1 of 4
the only weight is 0 and the first division is by zero; for the element `a`,
the lengths 1 to 2 and skip 1 of 2 the first iteration passes the bucket of
the length 1, the recomputed divisor is the weight 0 of the length 2 and the
second division is by zero.  The default weights are positive, and for every
configuration whose weights are positive on `[pw_min, pw_max]`, every skip
with `0 < skip < total_ks_cnt` and fuel above `total_ks_cnt` the seek loop
ends, with a positive divisor and the quotient 0 at its exit. -/
theorem seek_divisor_nonzero :
    (check_options 2 2 1 2 = true
      ∧ (calc_keyspace 2 2 (init_chains 2 2 1 2 (db_init store_ab))).total_ks_cnt = 4
      ∧ (pw_lens 2 2).foldl (fun acc pw_len =>
          acc + calc_wordlen_dist true (init_chains 2 2 1 2 (db_init store_ab)) pw_len) 0 = 0
      ∧ ∀ fuel : Nat,
          seek (fuel + 1) 2 2 (calc_keyspace 2 2 (init_chains 2 2 1 2 (db_init store_ab)))
              (calc_wordlen_dist true (init_chains 2 2 1 2 (db_init store_ab)))
              (sort_chains 2 2
                (calc_keyspace 2 2 (init_chains 2 2 1 2 (db_init store_ab))).db_entries)
              1 = res.fault
          ∧ pp (fuel + 1) store_ab 2 2 1 2 true false 1 0 = res.fault)
    ∧ (check_options 1 2 1 2 = true
      ∧ (calc_keyspace 1 2 (init_chains 1 2 1 2 (db_init store_a))).total_ks_cnt = 2
      ∧ calc_wordlen_dist true (init_chains 1 2 1 2 (db_init store_a)) 2 = 0
      ∧ ∀ fuel : Nat,
          seek (fuel + 2) 1 2 (calc_keyspace 1 2 (init_chains 1 2 1 2 (db_init store_a)))
              (calc_wordlen_dist true (init_chains 1 2 1 2 (db_init store_a)))
              (sort_chains 1 2
                (calc_keyspace 1 2 (init_chains 1 2 1 2 (db_init store_a))).db_entries)
              1 = res.fault
          ∧ pp (fuel + 2) store_a 1 2 1 2 true false 1 0 = res.fault)
    ∧ (∀ (db : Nat → db_entry_t) (pw_min pw_max emin emax : Nat),
        check_options pw_min pw_max emin emax = true →
        ∀ L, pw_min ≤ L → L ≤ pw_max → 0 < calc_wordlen_dist false db L)
    ∧ ∀ (E : Nat → List (List Nat)) (pw_min pw_max emin emax : Nat) (wl : Bool),
        (∀ L, pw_min ≤ L → L ≤ pw_max →
          0 < calc_wordlen_dist wl (init_chains pw_min pw_max emin emax (db_init E)) L) →
        ∀ skip fuel : Nat, 0 < skip →
          (skip : Int) < (calc_keyspace pw_min pw_max
            (init_chains pw_min pw_max emin emax (db_init E))).total_ks_cnt →
          (calc_keyspace pw_min pw_max
            (init_chains pw_min pw_max emin emax (db_init E))).total_ks_cnt < (fuel : Int) →
          ∃ s : seek_t,
            seek_loop (calc_keyspace pw_min pw_max
                (init_chains pw_min pw_max emin emax (db_init E))).pw_ks_cnt
                (calc_wordlen_dist wl (init_chains pw_min pw_max emin emax (db_init E)))
                (pw_lens pw_min pw_max) fuel
                { skip_left := (skip : Int), pw_ks_pos := fun _ => 0,
                  outs_per_main_loop :=
                    (pw_lens pw_min pw_max).foldl (fun acc pw_len => acc
                      + calc_wordlen_dist wl
                          (init_chains pw_min pw_max emin emax (db_init E)) pw_len) 0 }
              = res.done s
            ∧ 0 < s.outs_per_main_loop
            ∧ mpz_fdiv_q_ui s.skip_left s.outs_per_main_loop = 0 :=
  ⟨⟨by decide, seek_ab_keyspace.1, seek_ab_keyspace.2.2, seek_ab_fault⟩,
    ⟨by decide, seek_a_keyspace.1, seek_a_keyspace.2.2,
      fun fuel => ⟨(seek_a_fault fuel).2.1, (seek_a_fault fuel).2.2⟩⟩,
    fun db pw_min pw_max emin emax hopt L h1 h2 =>
      (default_weights_range db pw_min pw_max emin emax hopt L h1 h2).1,
    fun E pw_min pw_max emin emax wl hw skip fuel _ hs hfuel =>
      seek_loop_done E pw_min pw_max emin emax _ hw skip fuel hs hfuel⟩

set_option maxRecDepth 100000 in
theorem seek_divisor_nonzero_witness :
    ∃ s : seek_t,
      seek_loop (calc_keyspace 1 2 (init_chains 1 2 1 2 (db_init store_ab))).pw_ks_cnt
          (calc_wordlen_dist false (init_chains 1 2 1 2 (db_init store_ab)))
          (pw_lens 1 2) 7
          { skip_left := ((5 : Nat) : Int), pw_ks_pos := fun _ => 0,
            outs_per_main_loop :=
              (pw_lens 1 2).foldl (fun acc pw_len => acc
                + calc_wordlen_dist false (init_chains 1 2 1 2 (db_init store_ab)) pw_len) 0 }
        = res.done s
      ∧ 0 < s.outs_per_main_loop
      ∧ mpz_fdiv_q_ui s.skip_left s.outs_per_main_loop = 0 :=
  seek_divisor_nonzero.2.2.2 store_ab 1 2 1 2 false
    (fun L h1 h2 => (default_weights_range _ 1 2 1 2 (by decide) L h1 h2).1)
    5 7 (by decide) (by decide) (by decide)

set_option maxRecDepth 100000 in
/-- The seek of the store `0`, ..., `7` for the lengths 2 to 2, 2 to 2
elements and skip 60 of 64: one round of weight 56 is skipped, and one round
of the scheduler from the initial state reaches the same cursor. -/
theorem seek_octal_example :
    (calc_keyspace 2 2 (init_chains 2 2 2 2 (db_init store_octal))).total_ks_cnt = 64
    ∧ calc_wordlen_dist false (init_chains 2 2 2 2 (db_init store_octal)) 2 = 56
    ∧ ∃ (sk : seek_t) (st0 stn : main_t),
        seek_loop (calc_keyspace 2 2 (init_chains 2 2 2 2 (db_init store_octal))).pw_ks_cnt
            (calc_wordlen_dist false (init_chains 2 2 2 2 (db_init store_octal)))
            (pw_lens 2 2) 65
            { skip_left := 60, pw_ks_pos := fun _ => 0,
              outs_per_main_loop :=
                (pw_lens 2 2).foldl (fun acc pw_len => acc
                  + calc_wordlen_dist false
                      (init_chains 2 2 2 2 (db_init store_octal)) pw_len) 0 }
          = res.done sk
        ∧ sk.pw_ks_pos 2 = 1 * 56 ∧ sk.skip_left = 4
        ∧ seek 65 2 2 (calc_keyspace 2 2 (init_chains 2 2 2 2 (db_init store_octal)))
            (calc_wordlen_dist false (init_chains 2 2 2 2 (db_init store_octal)))
            (sort_chains 2 2
              (calc_keyspace 2 2 (init_chains 2 2 2 2 (db_init store_octal))).db_entries)
            60 = res.done st0
        ∧ st0.total_ks_pos = 56
        ∧ (st0.db_entries 2).chains_pos = 0
        ∧ (st0.db_entries 2).chains_buf.get? 0
            = some { buf := [1, 1], ks_cnt := 64, ks_pos := 56 }
        ∧ (st0.db_entries 2).cur_chain_ks_poses = [0, 7, 0, 0, 0, 0, 0, 0]
        ∧ run_rounds 64 60
            (calc_wordlen_dist false (init_chains 2 2 2 2 (db_init store_octal)))
            (init_pw_orders 2 2 (sort_chains 2 2
              (calc_keyspace 2 2 (init_chains 2 2 2 2 (db_init store_octal))).db_entries))
            1
            ⟨sort_chains 2 2
              (calc_keyspace 2 2 (init_chains 2 2 2 2 (db_init store_octal))).db_entries, 0, []⟩
          = res.done stn
        ∧ stn.total_ks_pos = 56
        ∧ (stn.db_entries 2).chains_pos = 0
        ∧ (stn.db_entries 2).chains_buf.get? 0
            = some { buf := [1, 1], ks_cnt := 64, ks_pos := 56 }
        ∧ (stn.db_entries 2).cur_chain_ks_poses = [0, 7, 0, 0, 0, 0, 0, 0] :=
  ⟨by decide, by decide, _, _, _, rfl, rfl, rfl, rfl, rfl, rfl, rfl, rfl, rfl, rfl, rfl, rfl, rfl⟩

end PP
